import Mathlib

/-!
# OpHog: the map module (`src/js/Map.js`), the inventory slots (`src/js/Slot.js`) and the audio manager (`src/js/AudioManager.js`)

A shallow embedding of the tile grid of `Map.js`, of the path computation built
on it (`getAdjacentTiles`, `isTileAnEndpoint`, `pruneDiagonalIfCardinalExist`,
`optimizePaths`, `removeDuplicatePaths`, `computePaths` and its helpers), of the
functions of `Map.js` that read the paths, the fog and the spawners
(`getPathStartingWith`, `setFog`, `attemptToCreateSpawner`), of the slots of
`Slot.js` (`canHoldItem`, `swapItems`) and of the choice of an audio format in
`AudioManager.js`, followed by theorems about them.

Conventions of the embedding.

* A JavaScript `Tile` object is split in two.  What never changes after the
  constructor ran (`tileIndex`, `x`, `y`, `isWalkable`) is the structure `Tile`.
  What `computePaths` mutates (`isLeftEndpoint`, `isRightEndpoint`, `leftList`)
  is the structure `TileState`, kept in a list parallel to `mapTiles` and
  addressed by `tileIndex`.
* Tiles of one map are compared by reference in the source (`===`, `indexOf`).
  Two tiles of one map are the same object exactly when they have the same
  `tileIndex`, so the embedding compares `Tile` values structurally.
* Coordinates and indices are `Int`: the source computes candidate indices such
  as `tileIndex - numCols - 1`, which may be negative.
* `numRows` is `mapTiles.length / numCols`.  The constructor documents that the
  length of the array is a multiple of the width; for such grids the natural
  number quotient is the JavaScript quotient.
* A JavaScript array used as a stack (`push`/`pop`) is a list whose head is the
  top of the stack.
-/

namespace OpHog

/-- The immutable part of a `game.Tile`. -/
structure Tile where
  tileIndex : Int
  x : Int
  y : Int
  isWalkable : Bool
  deriving DecidableEq, Repr

/-- The map: its width and its tiles (`numCols`, `mapTiles`). -/
structure Map where
  numCols : Nat
  mapTiles : List Tile
  deriving DecidableEq, Repr

/-- Modelled from the spec: the `game.Tile` constructor is not among the sources.
The map constructor hands it graphic 5 for an array entry equal to 0 and graphic
88 otherwise, the index `i`, `i % numCols` and `Math.floor(i / numCols)`; the
spec says a 0 marks a non-walkable cell and a 1 a walkable one. -/
def Tile.create (arrayEntry : Nat) (i : Nat) (numCols : Nat) : Tile :=
  { tileIndex := (i : Int)
    x := ((i % numCols : Nat) : Int)
    y := ((i / numCols : Nat) : Int)
    isWalkable := arrayEntry != 0 }

/-- The part of `game.Map` (the constructor) that builds the tile grid. -/
def Map.create (arrayOfOnesAndZeroes : List Nat) (width : Nat) : Map :=
  { numCols := width
    mapTiles := (List.range arrayOfOnesAndZeroes.length).map
      (fun i => Tile.create (arrayOfOnesAndZeroes.getD i 0) i width) }

/-- Number of rows: `this.numRows = mapTilesIndices.length / this.numCols`. -/
def Map.numRows (m : Map) : Nat := m.mapTiles.length / m.numCols

/-- Array access `this.mapTiles[index]`; `none` stands for `undefined`. -/
def Map.tileAt (m : Map) (index : Int) : Option Tile :=
  if 0 ≤ index then m.mapTiles.get? index.toNat else none

/-- The candidate indices collected by `getAdjacentTiles` (the array `indices`),
in the order they are pushed. -/
def adjacentIndices (m : Map) (tile : Tile) (facingRight : Bool) : List Int :=
  let c : Int := m.numCols
  (if !facingRight && decide (tile.x > 0) then
      [tile.tileIndex - c - 1, tile.tileIndex - 1, tile.tileIndex + c - 1]
    else [])
  ++ (if tile.y > 0 then [tile.tileIndex - c] else [])
  ++ (if tile.y < (m.numRows : Int) - 1 then [tile.tileIndex + c] else [])
  ++ (if facingRight && decide (tile.x < c - 1) then
      [tile.tileIndex - c + 1, tile.tileIndex + 1, tile.tileIndex + c + 1]
    else [])

/-- The final loop of `getAdjacentTiles`: keep the indices that are inside
`mapTiles` and whose tile is walkable. -/
def tilesOfIndices (m : Map) : List Int → List Tile
  | [] => []
  | index :: rest =>
    if 0 ≤ index ∧ index < (m.mapTiles.length : Int) then
      match m.tileAt index with
      | some neighbor =>
        if !neighbor.isWalkable then tilesOfIndices m rest
        else neighbor :: tilesOfIndices m rest
      | none => tilesOfIndices m rest
    else tilesOfIndices m rest

/-- `Map.prototype.getAdjacentTiles`. -/
def getAdjacentTiles (m : Map) (tile : Tile) (facingRight : Bool) : List Tile :=
  if tile.x < 0 ∨ tile.x ≥ (m.numCols : Int) ∨ tile.y < 0 ∨ tile.y ≥ (m.numRows : Int) then []
  else tilesOfIndices m (adjacentIndices m tile facingRight)

/-- `Map.prototype.areTilesDiagonal`. -/
def areTilesDiagonal (m : Map) (tile1 tile2 : Tile) : Bool :=
  let index1 := tile1.tileIndex
  let index2 := tile2.tileIndex
  let c : Int := m.numCols
  decide (index1 = index2 - c - 1) || decide (index1 = index2 - c + 1) ||
    decide (index2 = index1 - c - 1) || decide (index2 = index1 - c + 1)

/-- `Map.prototype.areTilesCardinal`. -/
def areTilesCardinal (m : Map) (tile1 tile2 : Tile) : Bool :=
  let index1 := tile1.tileIndex
  let index2 := tile2.tileIndex
  let c : Int := m.numCols
  decide (index1 = index2 - c) || decide (index1 = index2 + c) ||
    decide (index1 = index2 - 1) || decide (index1 = index2 + 1)

/-- The inner loop of `isTileAnEndpoint` for one right-neighbour: `true` when the
loop over `leftNeighbors` ends (by `break` or by exhausting the array), `false`
when it executes `return false`.  The test `if ( !found ) return false` stands
inside the loop body, after the comparison, so it runs in the first iteration
whenever the first left-neighbour is not the right-neighbour. -/
def endpointInnerLoop (rightNeighbor : Tile) : List Tile → Bool
  | [] => true
  | leftNeighbor :: _ => if rightNeighbor = leftNeighbor then true else false

/-- `Map.prototype.isTileAnEndpoint`. -/
def isTileAnEndpoint (m : Map) (tile : Tile) (testForLeftEndpoint : Bool) : Bool :=
  let leftNeighbors := getAdjacentTiles m tile false
  let rightNeighbors := getAdjacentTiles m tile true
  if !testForLeftEndpoint then rightNeighbors.length == 0
  else if leftNeighbors.length == 0 then true
  else if rightNeighbors.length == 0 then false
  else rightNeighbors.all (fun r => endpointInnerLoop r leftNeighbors)

/-- The eight local variables `up`, `upright`, ... of
`pruneDiagonalIfCardinalExist` together with `keepThese`; `none` is `null`. -/
structure Around where
  keepThese : List Tile
  up : Option Tile
  upright : Option Tile
  right : Option Tile
  rightdown : Option Tile
  down : Option Tile
  downleft : Option Tile
  left : Option Tile
  leftup : Option Tile
  deriving DecidableEq, Repr

/-- The state before the first loop of `pruneDiagonalIfCardinalExist`. -/
def Around.init : Around :=
  { keepThese := [], up := none, upright := none, right := none, rightdown := none,
    down := none, downleft := none, left := none, leftup := none }

/-- One iteration of the first loop of `pruneDiagonalIfCardinalExist`: the tile
`n` is pushed to `keepThese` when it is the centre, and is stored in each
variable whose test it passes (`if ( nx == tx ) { if ( ny == ty - 1 ) up = n; ... }`
is the test `nx == tx && ny == ty - 1`); the other variables keep their value. -/
def aroundStep (tile : Tile) (a : Around) (n : Tile) : Around :=
  let tx := tile.x
  let ty := tile.y
  let nx := n.x
  let ny := n.y
  { keepThese := if nx = tx ∧ ny = ty then a.keepThese ++ [n] else a.keepThese
    up := if nx = tx ∧ ny = ty - 1 then some n else a.up
    down := if nx = tx ∧ ny = ty + 1 then some n else a.down
    left := if ny = ty ∧ nx = tx - 1 then some n else a.left
    right := if ny = ty ∧ nx = tx + 1 then some n else a.right
    leftup := if nx = tx - 1 ∧ ny = ty - 1 then some n else a.leftup
    upright := if nx = tx + 1 ∧ ny = ty - 1 then some n else a.upright
    rightdown := if nx = tx + 1 ∧ ny = ty + 1 then some n else a.rightdown
    downleft := if nx = tx - 1 ∧ ny = ty + 1 then some n else a.downleft }

/-- The statement `if ( cond ) keepThese.push(t)` for a possibly-null `t`. -/
def pushIf (cond : Bool) (t : Option Tile) : List Tile :=
  match t with
  | some n => if cond then [n] else []
  | none => []

/-- `Map.prototype.pruneDiagonalIfCardinalExist`. -/
def pruneDiagonalIfCardinalExist (tile : Tile) (neighbors : List Tile) : List Tile :=
  let a := neighbors.foldl (aroundStep tile) Around.init
  a.keepThese
    ++ pushIf true a.up ++ pushIf true a.right ++ pushIf true a.down ++ pushIf true a.left
    ++ pushIf (a.left.isNone && a.up.isNone) a.leftup
    ++ pushIf (a.up.isNone && a.right.isNone) a.upright
    ++ pushIf (a.right.isNone && a.down.isNone) a.rightdown
    ++ pushIf (a.down.isNone && a.left.isNone) a.downleft

/-- How a run of a piece of the source ends: with a value, with a JavaScript
`TypeError` (a property read on `undefined`), or still running when the step
budget of the embedding is used up. -/
inductive Result (α : Type) where
  | ok (value : α)
  | typeError
  | outOfFuel
  deriving DecidableEq, Repr

/-- Sequencing of two runs. -/
def Result.bind {α β : Type} (r : Result α) (f : α → Result β) : Result β :=
  match r with
  | .ok a => f a
  | .typeError => .typeError
  | .outOfFuel => .outOfFuel

/-- A path: an array of tiles. -/
abbrev Path := List Tile

/-- The loop over `j` of the first rule of `optimizePaths`: is there a `j` with
`path[j+2]` among the right-neighbours of `path[j]` and cardinal to it?  (The
source also computes `tile2TouchesTile4` and `tile3IsEndPoint` in this loop and
never reads them.) -/
def hasNoopDetour (m : Map) : Path → Bool
  | tile1 :: tile2 :: tile3 :: rest =>
    (decide (tile3 ∈ getAdjacentTiles m tile1 true) && areTilesCardinal m tile1 tile3)
      || hasNoopDetour m (tile2 :: tile3 :: rest)
  | _ => false

/-- First loop of `optimizePaths`: empty paths and paths with a no-op detour are
spliced out. -/
def dropNoopDetours (m : Map) : List Path → List Path
  | [] => []
  | path :: rest =>
    if path.length = 0 then dropNoopDetours m rest
    else if path.length < 3 then path :: dropNoopDetours m rest
    else if hasNoopDetour m path then dropNoopDetours m rest
    else path :: dropNoopDetours m rest

/-- The loop over `j` of the second rule of `optimizePaths`.  The last conjunct
`potentialMiddleTile.isWalkable` is only evaluated when the four before it hold,
and throws when `this.mapTiles[tile1.tileIndex + 1]` is `undefined`. -/
def hasDiagonalDiagonal (m : Map) : Path → Result Bool
  | tile1 :: tile2 :: tile3 :: rest =>
    if tile2.x = tile1.x + 1 ∧ tile2.y ≠ tile1.y ∧ tile3.y = tile1.y ∧ tile3.x = tile1.x + 2 then
      match m.tileAt (tile1.tileIndex + 1) with
      | none => .typeError
      | some potentialMiddleTile =>
        if potentialMiddleTile.isWalkable then .ok true
        else hasDiagonalDiagonal m (tile2 :: tile3 :: rest)
    else hasDiagonalDiagonal m (tile2 :: tile3 :: rest)
  | _ => .ok false

/-- Second loop of `optimizePaths`. -/
def dropDiagonalDiagonals (m : Map) : List Path → Result (List Path)
  | [] => .ok []
  | path :: rest =>
    if path.length < 3 then (dropDiagonalDiagonals m rest).bind (fun r => .ok (path :: r))
    else (hasDiagonalDiagonal m path).bind (fun drop =>
      if drop then dropDiagonalDiagonals m rest
      else (dropDiagonalDiagonals m rest).bind (fun r => .ok (path :: r)))

/-- The loop over `j` of the third rule of `optimizePaths`: is there a step to a
tile that is not among the pruned right-neighbours of its predecessor? -/
def cutsCorner (m : Map) : Path → Bool
  | tile1 :: tile2 :: rest =>
    decide (tile2 ∉ pruneDiagonalIfCardinalExist tile1 (getAdjacentTiles m tile1 true))
      || cutsCorner m (tile2 :: rest)
  | _ => false

/-- Third loop of `optimizePaths`. -/
def dropCornerCuts (m : Map) : List Path → List Path
  | [] => []
  | path :: rest =>
    if path.length < 2 then path :: dropCornerCuts m rest
    else if cutsCorner m path then dropCornerCuts m rest
    else path :: dropCornerCuts m rest

/-- `Map.prototype.optimizePaths`; the value is the array `paths` as the call
leaves it. -/
def optimizePaths (m : Map) (paths : List Path) : Result (List Path) :=
  (dropDiagonalDiagonals m (dropNoopDetours m paths)).bind (fun r => .ok (dropCornerCuts m r))

/-- `Map.prototype.arePathsEqual`: the loop over the positions, after the
lengths were found equal. -/
def sameTileIndices : Path → Path → Bool
  | a :: p1, b :: p2 => if a.tileIndex ≠ b.tileIndex then false else sameTileIndices p1 p2
  | _, _ => true

/-- `Map.prototype.arePathsEqual`. -/
def arePathsEqual (path1 path2 : Path) : Bool :=
  if path1.length ≠ path2.length then false else sameTileIndices path1 path2

/-- The loop over `j` of `removeDuplicatePaths` for a fixed `i`.  Every iteration
either splices an element out or advances `j`, so `paths.length - j` iterations
suffice; the first argument bounds the number of iterations. -/
def removeDuplicatesInner (i : Nat) : Nat → Nat → List Path → Result (List Path)
  | 0, _, _ => .outOfFuel
  | steps + 1, j, paths =>
    if j < paths.length then
      if i = j then removeDuplicatesInner i steps (j + 1) paths
      else
        match paths.get? i, paths.get? j with
        | some pathI, some pathJ =>
          if arePathsEqual pathI pathJ then removeDuplicatesInner i steps j (paths.eraseIdx j)
          else removeDuplicatesInner i steps (j + 1) paths
        | _, _ => .typeError
    else .ok paths

/-- The loop over `i` of `removeDuplicatePaths`. -/
def removeDuplicatesOuter : Nat → Nat → List Path → Result (List Path)
  | 0, _, _ => .outOfFuel
  | steps + 1, i, paths =>
    if i < paths.length then
      (removeDuplicatesInner i (paths.length + 1) 0 paths).bind
        (fun paths => removeDuplicatesOuter steps (i + 1) paths)
    else .ok paths

/-- `Map.prototype.removeDuplicatePaths`; the value is the array `paths` as the
call leaves it. -/
def removeDuplicatePaths (paths : List Path) : Result (List Path) :=
  removeDuplicatesOuter (paths.length + 1) 0 paths

/-- `Map.prototype.removeTileFromArray`; the tile may be `undefined`, in which
case reading its `tileIndex` throws as soon as the array has an element.  The
value is the returned flag and the array as the call leaves it. -/
def removeTileFromArray (tile : Option Tile) : List Tile → Result (Bool × List Tile)
  | [] => .ok (false, [])
  | a :: rest =>
    match tile with
    | none => .typeError
    | some t =>
      if a.tileIndex = t.tileIndex then .ok (true, rest)
      else (removeTileFromArray tile rest).bind (fun r => .ok (r.1, a :: r.2))

/-- The object `leftList` of a tile: its keys (tile indices) with their arrays,
held in ascending order of the keys, which is the order in which `for ... in`
visits integer keys. -/
abbrev LeftList := List (Int × List Tile)

/-- Property read `leftList[key]`; `none` is `undefined`. -/
def LeftList.get (l : LeftList) (key : Int) : Option (List Tile) :=
  match l with
  | [] => none
  | (k, v) :: rest => if k = key then some v else LeftList.get rest key

/-- Assignment `leftList[key] = value`. -/
def LeftList.set (l : LeftList) (key : Int) (value : List Tile) : LeftList :=
  match l with
  | [] => [(key, value)]
  | (k, v) :: rest =>
    if key < k then (key, value) :: (k, v) :: rest
    else if key = k then (key, value) :: rest
    else (k, v) :: LeftList.set rest key value

/-- The statement `delete leftList[key]`. -/
def LeftList.delete (l : LeftList) (key : Int) : LeftList :=
  l.filter (fun e => decide (e.1 ≠ key))

/-- The mutable part of a `game.Tile`. -/
structure TileState where
  isLeftEndpoint : Bool
  isRightEndpoint : Bool
  leftList : LeftList
  deriving DecidableEq, Repr

/-- Modelled from the spec: the `game.Tile` constructor is not among the sources;
a fresh tile is no endpoint and has an empty `leftList`. -/
def TileState.init : TileState :=
  { isLeftEndpoint := false, isRightEndpoint := false, leftList := [] }

/-- The mutable parts of all tiles, in the order of `mapTiles`. -/
abbrev TileStates := List TileState

/-- The mutable part of a given tile. -/
def TileStates.of (s : TileStates) (tile : Tile) : TileState :=
  s.getD tile.tileIndex.toNat TileState.init

/-- Replace the `leftList` of a given tile. -/
def TileStates.setLeftList (s : TileStates) (tile : Tile) (l : LeftList) : TileStates :=
  s.set tile.tileIndex.toNat { s.of tile with leftList := l }

/-- An entry of `forkList`. -/
structure Fork where
  startTile : Tile
  seen : List Tile
  path : Path
  deriving DecidableEq, Repr

/-- The loop `for (var i = 0; i < neighbors.length; i++)` that pushes one fork per
unseen neighbour; the last fork pushed ends on top of the stack `forkList`. -/
def pushForks (seen : List Tile) (path : Path) : List Tile → List Fork → List Fork
  | [], forkList => forkList
  | n :: rest, forkList =>
    if n ∈ seen then pushForks seen path rest forkList
    else pushForks seen path rest ({ startTile := n, seen := seen ++ [n], path := path } :: forkList)

/-- The two nested `while` loops of `existsPathFromHereToAnyEndpoint`.  An empty
`stack` means that the inner loop has ended.  The first argument bounds the
number of iterations of the two loops together. -/
def existsPathLoop (m : Map) (s : TileStates) :
    Nat → List Tile → List Tile → Path → List Fork → Result Bool
  | 0, _, _, _, _ => .outOfFuel
  | fuel + 1, next :: stack, seen, path, forkList =>
    let path := path ++ [next]
    if (s.of next).isRightEndpoint then .ok true
    else
      let neighbors := getAdjacentTiles m next true
      match neighbors with
      | [n] => existsPathLoop m s fuel (n :: stack) seen path forkList
      | _ => existsPathLoop m s fuel stack seen path (pushForks seen path neighbors forkList)
  | fuel + 1, [], _, _, fork :: forkList =>
    existsPathLoop m s fuel [fork.startTile] fork.seen fork.path forkList
  | _ + 1, [], _, _, [] => .ok false

/-- `Map.prototype.existsPathFromHereToAnyEndpoint`. -/
def existsPathFromHereToAnyEndpoint (m : Map) (s : TileStates) (fuel : Nat)
    (startTile fromTile : Tile) : Result Bool :=
  existsPathLoop m s fuel [] [] []
    [{ startTile := startTile, seen := [startTile, fromTile], path := [] }]

/-- The two nested `while` loops of `newAlgoGetPathsFrom`; the value is the array
`paths`.  An empty `stack` means that the inner loop has ended (also by
`break`).  The first argument bounds the number of iterations of the two loops
together. -/
def newAlgoLoop (s : TileStates) :
    Nat → List Tile → List Tile → Path → List Fork → List Path → Result (List Path)
  | 0, _, _, _, _, _ => .outOfFuel
  | fuel + 1, next :: stack, seen, path, forkList, paths =>
    let path := path ++ [next]
    if (s.of next).isRightEndpoint then
      newAlgoLoop s fuel [] seen path forkList (paths ++ [path])
    else
      let cameFrom := if path.length > 1 then path.getD (path.length - 2) next else next
      match (s.of next).leftList.get cameFrom.tileIndex with
      | none => .typeError
      | some neighbors =>
        match neighbors with
        | [n] => newAlgoLoop s fuel (n :: stack) seen path forkList paths
        | _ => newAlgoLoop s fuel stack seen path (pushForks seen path neighbors forkList) paths
  | fuel + 1, [], _, _, fork :: forkList, paths =>
    newAlgoLoop s fuel [fork.startTile] fork.seen fork.path forkList paths
  | _ + 1, [], _, _, [], paths => .ok paths

/-- `Map.prototype.newAlgoGetPathsFrom`. -/
def newAlgoGetPathsFrom (m : Map) (s : TileStates) (fuel : Nat) (startTile : Tile) :
    Result (List Path) :=
  (newAlgoLoop s fuel [] [] [] [{ startTile := startTile, seen := [startTile], path := [] }] []).bind
    (fun paths => (optimizePaths m paths).bind (fun paths => removeDuplicatePaths paths))

/-- One iteration of the first loop of `computePaths` (endpoint classification):
the flags the tile has afterwards. -/
def classifyTile (m : Map) (tile : Tile) : TileState :=
  if !tile.isWalkable then TileState.init
  else
    { isLeftEndpoint := isTileAnEndpoint m tile true
      isRightEndpoint := isTileAnEndpoint m tile false
      leftList := [] }

/-- The first loop of `computePaths`: the flags of all tiles after it. -/
def classifyEndpoints (m : Map) : TileStates :=
  m.mapTiles.map (classifyTile m)

/-- The first loop of `computePaths`: the array `leftEndpoints` after it. -/
def leftEndpointsOf (m : Map) : List Tile :=
  m.mapTiles.filter (fun tile => tile.isWalkable && isTileAnEndpoint m tile true)

/-- The loop of `computePaths` that splices out of `rightKeys` the neighbours
from which no endpoint is reachable. -/
def filterReachable (m : Map) (s : TileStates) (fuel : Nat) (tile : Tile) :
    List Tile → Result (List Tile)
  | [] => .ok []
  | key :: rest =>
    (existsPathFromHereToAnyEndpoint m s fuel key tile).bind (fun found =>
      (filterReachable m s fuel tile rest).bind (fun r =>
        .ok (if found then key :: r else r)))

/-- One iteration of the second loop of `computePaths`, for a walkable tile: the
`leftList` the tile has afterwards. -/
def formLeftList (m : Map) (s : TileStates) (fuel : Nat) (tile : Tile) : Result LeftList :=
  let leftNeighbors := getAdjacentTiles m tile false
  let rightNeighbors := getAdjacentTiles m tile true
  let leftKeys := if (s.of tile).isLeftEndpoint then [tile] else leftNeighbors
  let rightKeys := if (s.of tile).isRightEndpoint then [tile] else rightNeighbors
  (if rightKeys.length ≥ 2 then filterReachable m s fuel tile rightKeys
    else .ok rightKeys).bind (fun rightKeys =>
      .ok (leftKeys.foldl (fun l key => LeftList.set l key.tileIndex rightKeys)
        (s.of tile).leftList))

/-- The second loop of `computePaths`: forming the `leftList` of every walkable
tile. -/
def formLeftLists (m : Map) (fuel : Nat) : List Tile → TileStates → Result TileStates
  | [], s => .ok s
  | tile :: rest, s =>
    if !tile.isWalkable then formLeftLists m fuel rest s
    else (formLeftList m s fuel tile).bind (fun l =>
      formLeftLists m fuel rest (s.setLeftList tile l))

/-- The loop of the pruning pass that looks for `rnToCheck` in `pruned`. -/
def tileIndexFound (rnToCheck : Tile) (pruned : List Tile) : Bool :=
  pruned.any (fun p => decide (p.tileIndex = rnToCheck.tileIndex))

/-- The block `if ( removedleftNeighbor ) { ... }` of the pruning pass: the array
`rightNeighbors` after it.  The test `leftNeighbor.x < this.numCols` is followed
by the read of `this.mapTiles[leftNeighbor.tileIndex + 1].isWalkable`, which
throws when there is no such tile. -/
def removeRightOfLeftNeighbor (m : Map) (leftNeighbor : Option Tile) (removedleftNeighbor : Bool)
    (rightNeighbors : List Tile) : Result (List Tile) :=
  if removedleftNeighbor then
    match leftNeighbor with
    | none => .typeError
    | some ln =>
      if ln.x < (m.numCols : Int) then
        match m.tileAt (ln.tileIndex + 1) with
        | none => .typeError
        | some rightOfLeft =>
          if rightOfLeft.isWalkable then
            (removeTileFromArray (some rightOfLeft) rightNeighbors).bind (fun r => .ok r.2)
          else .ok rightNeighbors
      else .ok rightNeighbors
  else .ok rightNeighbors

/-- The loop of the pruning pass over `theseWereRemoved`: the statement
`delete theseWereRemoved[j].leftList[tile.tileIndex]` for each of them. -/
def deleteFromRemoved (tile : Tile) : List Tile → TileStates → TileStates
  | [], s => s
  | removed :: rest, s =>
    deleteFromRemoved tile rest
      (s.setLeftList removed ((s.of removed).leftList.delete tile.tileIndex))

/-- The body of the inner loop of the pruning pass of `computePaths`, for the tile
`tile` and the key `tileIndex` of its `leftList`.  A key that was deleted before
the loop reaches it is not visited. -/
def pruneEntry (m : Map) (s : TileStates) (tile : Tile) (tileIndex : Int) : Result TileStates :=
  match (s.of tile).leftList.get tileIndex with
  | none => .ok s
  | some rightNeighbors =>
    let leftNeighbor := m.tileAt tileIndex
    (removeTileFromArray leftNeighbor rightNeighbors).bind (fun removedleftNeighbor =>
      (removeRightOfLeftNeighbor m leftNeighbor removedleftNeighbor.1 removedleftNeighbor.2).bind
        (fun rightNeighbors =>
          let pruned := pruneDiagonalIfCardinalExist tile rightNeighbors
          let s : TileStates :=
            if pruned.length ≠ rightNeighbors.length then
              deleteFromRemoved tile
                (rightNeighbors.filter (fun rn => !tileIndexFound rn pruned)) s
            else s
          if pruned.length = 0 then
            .ok (s.setLeftList tile ((s.of tile).leftList.delete tileIndex))
          else
            .ok (s.setLeftList tile ((s.of tile).leftList.set tileIndex pruned))))

/-- The inner loop `for ( var tileIndex in tile.leftList )` of the pruning pass,
over the keys the object had when the loop started. -/
def pruneTile (m : Map) (tile : Tile) : List Int → TileStates → Result TileStates
  | [], s => .ok s
  | tileIndex :: rest, s => (pruneEntry m s tile tileIndex).bind (fun s => pruneTile m tile rest s)

/-- The pruning pass of `computePaths` (its third loop over the tiles). -/
def pruneLeftLists (m : Map) : List Tile → TileStates → Result TileStates
  | [], s => .ok s
  | tile :: rest, s =>
    (pruneTile m tile ((s.of tile).leftList.map Prod.fst) s).bind
      (fun s => pruneLeftLists m rest s)

/-- The loop of `computePaths` over `leftEndpoints` that collects the paths of
each start tile in `this.paths`. -/
def collectPaths (m : Map) (s : TileStates) (fuel : Nat) : List Tile → List Path → Result (List Path)
  | [], paths => .ok paths
  | tile :: rest, paths =>
    (newAlgoGetPathsFrom m s fuel tile).bind (fun found =>
      collectPaths m s fuel rest (paths ++ found))

/-- What `computePaths` leaves behind: `this.paths` and the mutable parts of the
tiles. -/
structure Computed where
  paths : List Path
  tiles : TileStates
  deriving DecidableEq, Repr

/-- `Map.prototype.computePaths`.  `fuel` bounds the iterations of every single
run of `existsPathFromHereToAnyEndpoint` and of the loops of
`newAlgoGetPathsFrom`.  The final call of `ensureAllWalkableTilesAreInAPath`
only writes diagnostics. -/
def computePaths (m : Map) (fuel : Nat) : Result Computed :=
  (formLeftLists m fuel m.mapTiles (classifyEndpoints m)).bind (fun s =>
    (pruneLeftLists m m.mapTiles s).bind (fun s =>
      (collectPaths m s fuel (leftEndpointsOf m) []).bind (fun paths =>
        .ok { paths := paths ++ paths.map List.reverse, tiles := s })))

/-- `Map.prototype.tileInAnyPath`: some path of `this.paths` holds a tile whose
`tileIndex` is that of `tile`. -/
def tileInAnyPath (paths : List Path) (tile : Tile) : Bool :=
  paths.any (fun path => path.any (fun t => t.tileIndex == tile.tileIndex))

/-- `Map.prototype.ensureAllWalkableTilesAreInAPath`.  The function returns
nothing and writes one warning for each walkable tile that is in no path; the
model returns the tiles for which the warning is written, in the order of the
loop over `this.mapTiles`. -/
def ensureAllWalkableTilesAreInAPath (m : Map) (paths : List Path) : List Tile :=
  m.mapTiles.filter (fun tile => tile.isWalkable && !tileInAnyPath paths tile)

/-! ### Path lookup, fog and spawners (`Map.js`) -/

/-- An element of the array `possiblePaths` of `getPathStartingWith`: the object
`{path:path, indexInPath:j}`. -/
structure PathChoice where
  path : Path
  indexInPath : Nat
  deriving DecidableEq, Repr

/-- The inner loop of `getPathStartingWith` over the tiles of `path`, from
position `j` on: the objects it pushes. -/
def matchesInPath (path : Path) (tileX tileY : Int) : Nat → List Tile → List PathChoice
  | _, [] => []
  | j, t :: rest =>
    if t.x = tileX ∧ t.y = tileY then
      { path := path, indexInPath := j } :: matchesInPath path tileX tileY (j + 1) rest
    else matchesInPath path tileX tileY (j + 1) rest

/-- The array `possiblePaths` of `getPathStartingWith` when its loops have ended.
`halfNumPaths` is `this.paths.length / 2`; `computePaths` leaves an array of even
length, for which the natural number quotient is the JavaScript quotient.  The
outer loop visits `this.paths[i]` for `firstPathIndex ≤ i < lastPathIndex`. -/
def possiblePaths (paths : List Path) (tileX tileY : Int) (facingRight : Bool) :
    List PathChoice :=
  let halfNumPaths := paths.length / 2
  let firstPathIndex := if !facingRight then 0 + halfNumPaths else 0
  (((paths.drop firstPathIndex).take halfNumPaths).map
    (fun path => matchesInPath path tileX tileY 0 path)).flatten

/-- `Map.prototype.getPathStartingWith`.  `game.util.randomArrayElement` is not
among the sources and is a parameter; `none` is what it gives for an array from
which nothing can be taken. -/
def getPathStartingWith (randomArrayElement : List PathChoice → Option PathChoice)
    (paths : List Path) (tileX tileY : Int) (facingRight : Bool) : Option PathChoice :=
  randomArrayElement (possiblePaths paths tileX tileY facingRight)

/-- The values the counter of a loop `for (var i = lo; i < hi; i++)` takes. -/
def loopValues (lo hi : Int) : List Int :=
  (List.range (hi - lo).toNat).map (fun (k : Nat) => lo + (k : Int))

/-- The body of the inner loop of `setFog` for the cell `(i, j)`; `radius` is the
capped radius. -/
def setFogCell (m : Map) (x y radius : Int) (foggy drawCircular : Bool) (fog : List Bool)
    (i j : Int) : List Bool :=
  if i < 0 ∨ j < 0 ∨ i ≥ (m.numCols : Int) ∨ j ≥ (m.numRows : Int) then fog
  else if drawCircular = true ∧ |x - i| + |y - j| > radius then fog
  else fog.set (Int.tmod i m.numCols + j * m.numCols).toNat foggy

/-- `Map.prototype.setFog`, for integer arguments.  The array `this.fog` has one
entry for each tile, as the constructor makes it, so that the assignment
`this.fog[index] = foggy` overwrites an entry. -/
def setFog (m : Map) (fog : List Bool) (x y radius : Int) (foggy drawCircular : Bool) :
    List Bool :=
  let radius := min radius (((max m.numCols m.numRows : Nat) : Int) * 2)
  (loopValues (x - radius) (x + radius + 1)).foldl
    (fun fog i =>
      (loopValues (y - radius) (y + radius + 1)).foldl
        (fun fog j => setFogCell m x y radius foggy drawCircular fog i j) fog)
    fog

/-- What the map holds besides the grid: the mutable parts of the tiles, the
flag `isSpawnerPoint` of each tile (in the order of `mapTiles`, addressed by
`tileIndex`), the array `fog` and the array `paths`. -/
structure MapState where
  tiles : TileStates
  isSpawnerPoint : List Bool
  fog : List Bool
  paths : List Path
  deriving DecidableEq, Repr

/-- The field `isSpawnerPoint` of a given tile.  Modelled from the spec: the
`game.Tile` constructor is not among the sources; a tile is no spawner until
`convertToSpawner` is called on it. -/
def MapState.isSpawner (st : MapState) (tile : Tile) : Bool :=
  st.isSpawnerPoint.getD tile.tileIndex.toNat false

/-- Modelled from the spec: `Tile.prototype.convertToSpawner` is not among the
sources; the spec says that it sets the spawner flag of the tile. -/
def MapState.convertToSpawner (st : MapState) (tile : Tile) : MapState :=
  { st with isSpawnerPoint := st.isSpawnerPoint.set tile.tileIndex.toNat true }

/-- `Map.prototype.getAllSpawnerTiles`. -/
def getAllSpawnerTiles (m : Map) (st : MapState) : List Tile :=
  m.mapTiles.filter (fun tile => st.isSpawner tile)

/-- The index `(tileX % this.numCols) + tileY * this.numCols`; `%` is the
JavaScript remainder, which takes the sign of `tileX`. -/
def spawnerTileIndex (m : Map) (tileX tileY : Int) : Int :=
  Int.tmod tileX m.numCols + tileY * m.numCols

/-- `Map.prototype.isValidTileToCreateSpawner`.  `game.util.distance` is not among
the sources and is a parameter, with values in any type that has a decidable
order.  With `numCols` zero the index is `NaN`, and where `this.mapTiles` has no
entry at the index the read of `tile.isSpawnerPoint` throws a `TypeError`. -/
def isValidTileToCreateSpawner {D : Type} [LE D] [DecidableRel (fun a b : D => a ≤ b)]
    (distance : Int → Int → Int → Int → D) (m : Map) (st : MapState)
    (tileX tileY : Int) (maxDistanceToAnotherSpawner : D) : Result Bool :=
  if m.numCols = 0 then .typeError
  else
    let tileIndex := spawnerTileIndex m tileX tileY
    match m.tileAt tileIndex with
    | none => .typeError
    | some tile =>
      if st.isSpawner tile then .ok false
      else if !tile.isWalkable then .ok false
      else if st.fog.getD tileIndex.toNat false then .ok false
      else
        .ok ((getAllSpawnerTiles m st).any (fun spawner =>
          decide (distance spawner.x spawner.y tileX tileY ≤ maxDistanceToAnotherSpawner)))

/-- `Map.prototype.attemptToCreateSpawner`: the value returned and the state
afterwards. -/
def attemptToCreateSpawner {D : Type} [LE D] [DecidableRel (fun a b : D => a ≤ b)]
    (distance : Int → Int → Int → Int → D) (m : Map) (st : MapState)
    (tileX tileY : Int) (maxDistanceToAnotherSpawner : D) : Result (Bool × MapState) :=
  (isValidTileToCreateSpawner distance m st tileX tileY maxDistanceToAnotherSpawner).bind
    (fun valid =>
      if valid then
        match m.tileAt (spawnerTileIndex m tileX tileY) with
        | none => .typeError
        | some tile => .ok (valid, st.convertToSpawner tile)
      else .ok (valid, st))

/-! ### Inventory slots (`Slot.js`) -/

/-- The constants of `game.EquippableBy` that `canHoldItem` names. -/
inductive EquippableBy where
  | WAR
  | WIZ
  | ARCH
  deriving DecidableEq, Repr

/-- What `Slot.js` reads and writes of an item.  `Item.js` is not among the
sources: the method `isEquippableBy` is a field.  The field `quantity` is a
JavaScript number; the model holds the whole numbers among its values, a
quantity being a count of items. -/
structure Item where
  itemID : Nat
  usable : Bool
  stackable : Bool
  quantity : Int
  isEquippableBy : EquippableBy → Bool

/-- The constant `game.SlotTypes.EQUIP`. -/
def SlotTypes.EQUIP : String := "equip"

/-- The constant `game.SlotTypes.USABLE`. -/
def SlotTypes.USABLE : String := "usable"

/-- The constant `game.SlotTypes.WAR`. -/
def SlotTypes.WAR : String := "war"

/-- The constant `game.SlotTypes.WIZ`. -/
def SlotTypes.WIZ : String := "wiz"

/-- The constant `game.SlotTypes.ARCH`. -/
def SlotTypes.ARCH : String := "arch"

/-- A `game.Slot`; `none` is the item `null`. -/
structure Slot where
  slotType : String
  slotIndex : Nat
  item : Option Item

/-- `Slot.prototype.canHoldItem`. -/
def Slot.canHoldItem (slot : Slot) (item : Option Item) : Bool :=
  match item with
  | none => true
  | some item =>
    if item.usable then slot.slotType == SlotTypes.USABLE
    else if slot.slotType == SlotTypes.EQUIP then true
    else if slot.slotType == SlotTypes.WAR && item.isEquippableBy EquippableBy.WAR then true
    else if slot.slotType == SlotTypes.WIZ && item.isEquippableBy EquippableBy.WIZ then true
    else if slot.slotType == SlotTypes.ARCH && item.isEquippableBy EquippableBy.ARCH then true
    else false

/-- `Slot.prototype.setItem`: the slot afterwards.  The method `isDepleted` of
`Item.js` is a parameter. -/
def Slot.setItem (isDepleted : Item → Bool) (slot : Slot) (item : Option Item) : Slot :=
  let item :=
    match item with
    | some i => if isDepleted i then none else some i
    | none => none
  { slot with item := item }

/-- What a call of `swapItems` leaves: the value returned, the two slots, and the
slot indices handed to `game.InventoryUI.updatedSlot`, in the order of the
calls. -/
structure Swapped where
  result : Bool
  target : Slot
  source : Slot
  updatedSlots : List Nat

/-- `Slot.prototype.swapItems` read on the values of the two slots: the call on
`target` with `sourceSlot` another slot object holding another item object, for
quantities on which the arithmetic of JavaScript numbers is exact.
`Inventory.swapItems` below is the method on objects with identity.  The
constant `game.maxSlotQuantity` and the method `isDepleted` of `Item.js` are
parameters. -/
def Slot.swapItems (maxSlotQuantity : Int) (isDepleted : Item → Bool)
    (target sourceSlot : Slot) (simulateOnly : Bool) : Swapped :=
  let sourceItem := sourceSlot.item
  let targetItem := target.item
  if !target.canHoldItem sourceItem || !sourceSlot.canHoldItem targetItem then
    { result := false, target := target, source := sourceSlot, updatedSlots := [] }
  else if simulateOnly then
    { result := true, target := target, source := sourceSlot, updatedSlots := [] }
  else
    match targetItem, sourceItem with
    | some t, some s =>
      if t.stackable && t.itemID == s.itemID && t.quantity != maxSlotQuantity then
        let amountToMove := min s.quantity (maxSlotQuantity - t.quantity)
        let s := { s with quantity := s.quantity - amountToMove }
        let t := { t with quantity := t.quantity + amountToMove }
        { result := true
          target := Slot.setItem isDepleted target (some t)
          source := Slot.setItem isDepleted sourceSlot (some s)
          updatedSlots := [sourceSlot.slotIndex, target.slotIndex] }
      else
        { result := true
          target := Slot.setItem isDepleted target sourceItem
          source := Slot.setItem isDepleted sourceSlot targetItem
          updatedSlots := [target.slotIndex, sourceSlot.slotIndex] }
    | _, _ =>
      { result := true
        target := Slot.setItem isDepleted target sourceItem
        source := Slot.setItem isDepleted sourceSlot targetItem
        updatedSlots := [target.slotIndex, sourceSlot.slotIndex] }

/-! ### Inventory slots with object identity (`Slot.js`) -/

/-- Search for the spacing of the doubles around a natural number `a` of at least
2^53: the least `e`, counted up from the third argument, with `a < 2^(53+e)`.
The first argument bounds the search; the exponents of finite doubles end at
971. -/
def ulpExponent : Nat → Nat → Nat → Nat
  | 0, _, e => e
  | fuel + 1, a, e => if a < 2 ^ (53 + e) then e else ulpExponent fuel a (e + 1)

/-- The arithmetic of JavaScript numbers on integer values: an operation whose
exact result is the integer `n` yields the IEEE 754 double nearest to `n`, a tie
going to the even significand.  Integers up to 2^53 in size are doubles; beyond,
the doubles are 2^e apart, where 2^(52+e) ≤ |n| < 2^(53+e).  Results of size
2^1024 and more (`Infinity`) and values that are not integers are outside the
model. -/
def nearestDouble (n : Int) : Int :=
  if n.natAbs ≤ 2 ^ 53 then n
  else
    let e := ulpExponent 971 n.natAbs 1
    let q := n.natAbs / 2 ^ e
    let r := n.natAbs % 2 ^ e
    let q := if 2 ^ e < 2 * r ∨ (2 * r = 2 ^ e ∧ q % 2 = 1) then q + 1 else q
    n.sign * ((q * 2 ^ e : Nat) : Int)

/-- A `game.Slot` object.  Its field `item` holds a reference to an item object;
`none` is `null`. -/
structure SlotObject where
  slotType : String
  slotIndex : Nat
  item : Option Nat

/-- The objects a call of `swapItems` reads and writes: the item objects and the
slot objects, each found by its reference, and the slot indices handed to
`game.InventoryUI.updatedSlot` so far, in the order of the calls.  Two slots that
hold the same reference hold the same item object. -/
structure Inventory where
  items : Nat → Item
  slots : Nat → SlotObject
  updatedSlots : List Nat

/-- The slot object `slot` with the item object it holds read out. -/
def Inventory.slotOf (inv : Inventory) (slot : Nat) : Slot :=
  { slotType := (inv.slots slot).slotType
    slotIndex := (inv.slots slot).slotIndex
    item := (inv.slots slot).item.map inv.items }

/-- An assignment to the field `quantity` of the item object `item`. -/
def Inventory.setQuantity (inv : Inventory) (item : Nat) (quantity : Int) : Inventory :=
  { inv with
    items := fun r => if r = item then { inv.items item with quantity := quantity } else inv.items r }

/-- `Slot.prototype.setItem`, called on the slot object `slot` with a reference
to an item object (or `null`).  The method `isDepleted` of `Item.js` is a
parameter. -/
def Inventory.setItem (isDepleted : Item → Bool) (inv : Inventory) (slot : Nat)
    (item : Option Nat) : Inventory :=
  let item :=
    match item with
    | some r => if isDepleted (inv.items r) then none else some r
    | none => none
  { inv with
    slots := fun k => if k = slot then { inv.slots slot with item := item } else inv.slots k
    updatedSlots := inv.updatedSlots ++ [(inv.slots slot).slotIndex] }

/-- What a call of `swapItems` leaves: the value returned and the objects. -/
structure SwappedInventory where
  result : Bool
  inventory : Inventory

/-- `Slot.prototype.swapItems`, called on the slot object `target` with the slot
object `sourceSlot`; the two may be the same object, and they may hold the same
item object.  The two assignments to `quantity` go to the item objects, the
second reading what the first wrote when both slots hold one object.  The
constant `game.maxSlotQuantity` and the method `isDepleted` of `Item.js` are
parameters. -/
def Inventory.swapItems (maxSlotQuantity : Int) (isDepleted : Item → Bool) (inv : Inventory)
    (target sourceSlot : Nat) (simulateOnly : Bool) : SwappedInventory :=
  let sourceItem := (inv.slots sourceSlot).item
  let targetItem := (inv.slots target).item
  if !(inv.slotOf target).canHoldItem (sourceItem.map inv.items) ||
      !(inv.slotOf sourceSlot).canHoldItem (targetItem.map inv.items) then
    { result := false, inventory := inv }
  else if simulateOnly then
    { result := true, inventory := inv }
  else
    match targetItem, sourceItem with
    | some t, some s =>
      if (inv.items t).stackable && (inv.items t).itemID == (inv.items s).itemID &&
          (inv.items t).quantity != maxSlotQuantity then
        let amountToMove :=
          min (inv.items s).quantity (nearestDouble (maxSlotQuantity - (inv.items t).quantity))
        let inv := inv.setQuantity s (nearestDouble ((inv.items s).quantity - amountToMove))
        let inv := inv.setQuantity t (nearestDouble ((inv.items t).quantity + amountToMove))
        let inv := Inventory.setItem isDepleted inv sourceSlot (some s)
        let inv := Inventory.setItem isDepleted inv target (some t)
        { result := true, inventory := inv }
      else
        let inv := Inventory.setItem isDepleted inv target sourceItem
        let inv := Inventory.setItem isDepleted inv sourceSlot targetItem
        { result := true, inventory := inv }
    | _, _ =>
      let inv := Inventory.setItem isDepleted inv target sourceItem
      let inv := Inventory.setItem isDepleted inv sourceSlot targetItem
      { result := true, inventory := inv }

/-- The first three loops of `computePaths`: the mutable parts of the tiles when
the endpoints are classified and the left-lists are formed and pruned, before
any path is enumerated. -/
def leftListsAfterPruning (m : Map) (fuel : Nat) : Result TileStates :=
  (formLeftLists m fuel m.mapTiles (classifyEndpoints m)).bind (fun s =>
    pruneLeftLists m m.mapTiles s)

/-! ### Audio (`AudioManager.js`) -/

/-- The constants `game.PROBABLY`, `game.MAYBE`, `game.OGG_EXT`, `game.AAC_EXT` and
`game.MP3_EXT` that `AudioManager.js` reads; they are not among the sources. -/
structure AudioConstants where
  PROBABLY : String
  MAYBE : String
  OGG_EXT : String
  AAC_EXT : String
  MP3_EXT : String
  deriving DecidableEq, Repr

/-- The fields of `game.AudioManager`; `none` is `null`. -/
structure AudioManager where
  canPlayOgg : Option String
  canPlayMp3 : Option String
  canPlayAac : Option String
  preferredExtension : Option String
  deriving DecidableEq, Repr

/-- The object `game.AudioManager` as the object literal makes it. -/
def AudioManager.fresh : AudioManager :=
  { canPlayOgg := none, canPlayMp3 := none, canPlayAac := none, preferredExtension := none }

/-- `AudioManager.initialize`.  The answer of the browser,
`(new Audio()).canPlayType(type)`, is the parameter `canPlayType`. -/
def AudioManager.initialize (k : AudioConstants) (canPlayType : String → String)
    (am : AudioManager) : AudioManager :=
  let canPlayOgg := canPlayType "audio/ogg"
  let canPlayMp3 := canPlayType "audio/mp3"
  let canPlayAac := canPlayType "audio/mpeg"
  { am with
    canPlayOgg := some canPlayOgg
    canPlayMp3 := some canPlayMp3
    canPlayAac := some canPlayAac
    preferredExtension :=
      if canPlayOgg = k.PROBABLY then some k.OGG_EXT
      else if canPlayAac = k.PROBABLY then some k.AAC_EXT
      else if canPlayMp3 = k.PROBABLY then some k.MP3_EXT
      else if canPlayOgg = k.MAYBE then some k.OGG_EXT
      else if canPlayAac = k.MAYBE then some k.AAC_EXT
      else if canPlayMp3 = k.MAYBE then some k.MP3_EXT
      else none }

/-- `AudioManager.canPlayAudio`. -/
def AudioManager.canPlayAudio (am : AudioManager) : Bool :=
  am.preferredExtension != none

/-! ## Vocabulary of the statements -/

/-- The grid invariant the constructor establishes for an array whose length is a
multiple of the width: the `i`-th tile has index `i` and sits in column
`i % numCols` of row `i / numCols`, and the rows are complete. -/
structure Map.IsGrid (m : Map) : Prop where
  rows_complete : m.numCols ∣ m.mapTiles.length
  tile_eq : ∀ (i : Nat) (t : Tile), m.mapTiles.get? i = some t →
    t.tileIndex = (i : Int) ∧ t.x = ((i % m.numCols : Nat) : Int) ∧ t.y = ((i / m.numCols : Nat) : Int)

/-- The tile `n` lies in column `tile.x + dx` of row `tile.y + dy`. -/
def atOffset (tile n : Tile) (dx dy : Int) : Prop :=
  n.x = tile.x + dx ∧ n.y = tile.y + dy

instance (tile n : Tile) (dx dy : Int) : Decidable (atOffset tile n dx dy) := by
  unfold atOffset; infer_instance

/-- The positions `getAdjacentTiles` is documented to look at: above and below
the tile, and the three cells of the column to its right (`facingRight`) or to
its left. -/
def adjacentPosition (tile n : Tile) (facingRight : Bool) : Prop :=
  atOffset tile n 0 (-1) ∨ atOffset tile n 0 1 ∨
    (facingRight = true ∧
      (atOffset tile n 1 (-1) ∨ atOffset tile n 1 0 ∨ atOffset tile n 1 1)) ∨
    (facingRight = false ∧
      (atOffset tile n (-1) (-1) ∨ atOffset tile n (-1) 0 ∨ atOffset tile n (-1) 1))

/-- Two tiles share an edge: same column and neighbouring rows, or same row and
neighbouring columns. -/
def sharesEdge (a b : Tile) : Prop :=
  (a.x = b.x ∧ (a.y = b.y + 1 ∨ b.y = a.y + 1)) ∨ (a.y = b.y ∧ (a.x = b.x + 1 ∨ b.x = a.x + 1))

instance (a b : Tile) : Decidable (sharesEdge a b) := by
  unfold sharesEdge; infer_instance

/-- Two tiles share a corner only: neighbouring columns and neighbouring rows. -/
def sharesCornerOnly (a b : Tile) : Prop :=
  (a.x = b.x + 1 ∨ b.x = a.x + 1) ∧ (a.y = b.y + 1 ∨ b.y = a.y + 1)

instance (a b : Tile) : Decidable (sharesCornerOnly a b) := by
  unfold sharesCornerOnly; infer_instance

/-- The last tile of `ns` that sits at the given offset from `tile`, or `init`
when there is none. -/
def lastAt (tile : Tile) (dx dy : Int) (init : Option Tile) (ns : List Tile) : Option Tile :=
  ns.foldl (fun acc n => if atOffset tile n dx dy then some n else acc) init

/-- Two tiles are grid-adjacent: their columns differ by at most one, their rows
differ by at most one, and they are not on the same cell. -/
def gridAdjacent (a b : Tile) : Prop :=
  (a.x - b.x ≤ 1 ∧ b.x - a.x ≤ 1) ∧ (a.y - b.y ≤ 1 ∧ b.y - a.y ≤ 1) ∧ ¬ (a.x = b.x ∧ a.y = b.y)

instance (a b : Tile) : Decidable (gridAdjacent a b) := by
  unfold gridAdjacent; infer_instance

/-! ## Example grids -/

/-- A 3x3 grid, all walkable but the lower-left cell:
```
1 1 1
1 1 1
0 1 1
``` -/
def gridNine : Map := Map.create [1, 1, 1, 1, 1, 1, 0, 1, 1] 3

/-- A 3x3 grid with a corridor that enters on the top left, runs down the middle
column and leaves on the bottom right:
```
1 1 0
0 1 0
0 1 1
``` -/
def gridBend : Map := Map.create [1, 1, 0, 0, 1, 0, 0, 1, 1] 3

/-- A 3x3 grid whose only walkable tile is the centre. -/
def gridIsland : Map := Map.create [0, 0, 0, 0, 1, 0, 0, 0, 0] 3

/-- The tile of index `i` in a grid of the given width. -/
def tileOf (walkable : Bool) (i width : Nat) : Tile :=
  { tileIndex := (i : Int), x := ((i % width : Nat) : Int), y := ((i / width : Nat) : Int),
    isWalkable := walkable }

/-- All four cells walkable, two columns:
```
1 1
1 1
``` -/
def gridSquare : Map := Map.create [1, 1, 1, 1] 2

/-- Three columns, the top row walkable and the middle cell below it:
```
1 1 1
0 1 0
``` -/
def gridTee : Map := Map.create [1, 1, 1, 0, 1, 0] 3

/-- Two rows of three, a corridor that steps down in the middle:
```
1 1 0
0 1 1
``` -/
def gridStep : Map := Map.create [1, 1, 0, 0, 1, 1] 3

/-- What `computePaths` leaves behind on `gridStep`: the path 0,1,4,5, its
reversal, and the flags and left-lists of the six tiles. -/
def gridStepComputed : Computed :=
  { paths := [[tileOf true 0 3, tileOf true 1 3, tileOf true 4 3, tileOf true 5 3],
      [tileOf true 5 3, tileOf true 4 3, tileOf true 1 3, tileOf true 0 3]]
    tiles := [
      { isLeftEndpoint := true, isRightEndpoint := false, leftList := [(0, [tileOf true 1 3])] },
      { isLeftEndpoint := false, isRightEndpoint := false, leftList := [(0, [tileOf true 4 3])] },
      TileState.init,
      TileState.init,
      { isLeftEndpoint := false, isRightEndpoint := false, leftList := [(1, [tileOf true 5 3])] },
      { isLeftEndpoint := false, isRightEndpoint := true, leftList := [(4, [tileOf true 5 3])] }] }

/-- The run `r` ran out of fuel or ended as `r'` did: what more fuel can change. -/
def Result.FuelLe {α : Type} (r r' : Result α) : Prop := r = .outOfFuel ∨ r = r'

/-- The grid of the 1x5 corridor. -/
def gridCorridor : Map := Map.create [1, 1, 1, 1, 1] 5

/-- What `computePaths` leaves behind on the 1x5 corridor. -/
def gridCorridorComputed : Computed :=
  { paths := [[tileOf true 0 5, tileOf true 1 5, tileOf true 2 5, tileOf true 3 5, tileOf true 4 5],
      [tileOf true 4 5, tileOf true 3 5, tileOf true 2 5, tileOf true 1 5, tileOf true 0 5]]
    tiles := [
      { isLeftEndpoint := true, isRightEndpoint := false, leftList := [(0, [tileOf true 1 5])] },
      { isLeftEndpoint := false, isRightEndpoint := false, leftList := [(0, [tileOf true 2 5])] },
      { isLeftEndpoint := false, isRightEndpoint := false, leftList := [(1, [tileOf true 3 5])] },
      { isLeftEndpoint := false, isRightEndpoint := false, leftList := [(2, [tileOf true 4 5])] },
      { isLeftEndpoint := false, isRightEndpoint := true, leftList := [(3, [tileOf true 4 5])] }] }

/-- The two states give every tile the same endpoint flags. -/
def SameFlags (s s' : TileStates) : Prop :=
  ∀ u : Tile, (s'.of u).isLeftEndpoint = (s.of u).isLeftEndpoint ∧
    (s'.of u).isRightEndpoint = (s.of u).isRightEndpoint

/-- Following the words of the spec for the deduplicator: of the paths of the
list, in their original order, keep each path whose sequence of tile indices
differs from that of every earlier path of the input (`earlier` holds the paths
that came before). -/
def keepFirstOccurrences (earlier : List Path) : List Path → List Path
  | [] => []
  | p :: rest =>
    if p.map Tile.tileIndex ∈ earlier.map (List.map Tile.tileIndex) then
      keepFirstOccurrences (earlier ++ [p]) rest
    else p :: keepFirstOccurrences (earlier ++ [p]) rest

/-- Two separate corridors, one above the other:
```
1 1 1
0 0 0
1 1 1
``` -/
def gridTwoRows : Map := Map.create [1, 1, 1, 0, 0, 0, 1, 1, 1] 3

/-- What `computePaths` leaves behind on `gridTwoRows`. -/
def gridTwoRowsComputed : Computed :=
  { paths := [[tileOf true 0 3, tileOf true 1 3, tileOf true 2 3],
      [tileOf true 6 3, tileOf true 7 3, tileOf true 8 3],
      [tileOf true 2 3, tileOf true 1 3, tileOf true 0 3],
      [tileOf true 8 3, tileOf true 7 3, tileOf true 6 3]]
    tiles := [
      { isLeftEndpoint := true, isRightEndpoint := false, leftList := [(0, [tileOf true 1 3])] },
      { isLeftEndpoint := false, isRightEndpoint := false, leftList := [(0, [tileOf true 2 3])] },
      { isLeftEndpoint := false, isRightEndpoint := true, leftList := [(1, [tileOf true 2 3])] },
      TileState.init,
      TileState.init,
      TileState.init,
      { isLeftEndpoint := true, isRightEndpoint := false, leftList := [(6, [tileOf true 7 3])] },
      { isLeftEndpoint := false, isRightEndpoint := false, leftList := [(6, [tileOf true 8 3])] },
      { isLeftEndpoint := false, isRightEndpoint := true, leftList := [(7, [tileOf true 8 3])] }] }

/-- The array `paths` of `newAlgoGetPathsFrom` when its two loops have ended: the
raw paths, before `optimizePaths` and `removeDuplicatePaths` are applied to
them. -/
def rawPathsFrom (s : TileStates) (fuel : Nat) (startTile : Tile) : Result (List Path) :=
  newAlgoLoop s fuel [] [] [] [{ startTile := startTile, seen := [startTile], path := [] }] []

/-- The tile `next` is a member of the left-list entry of `cur` keyed by the tile
`cameFrom`. -/
def legalStep (s : TileStates) (cameFrom cur next : Tile) : Prop :=
  match (s.of cur).leftList.get cameFrom.tileIndex with
  | some neighbors => next ∈ neighbors
  | none => False

instance (s : TileStates) (cameFrom cur next : Tile) : Decidable (legalStep s cameFrom cur next) := by
  unfold legalStep
  split <;> infer_instance

/-- Starting on `cur`, entered from `cameFrom`, every step of the sequence goes to
a member of the left-list entry of the current tile keyed by the preceding
tile. -/
def legalFrom (s : TileStates) (cameFrom cur : Tile) : List Tile → Prop
  | [] => True
  | next :: rest => legalStep s cameFrom cur next ∧ legalFrom s cur next rest

/-- Decision procedure for `legalFrom`. -/
def legalFrom.decide (s : TileStates) :
    (cameFrom cur : Tile) → (rest : List Tile) → Decidable (legalFrom s cameFrom cur rest)
  | _, _, [] => isTrue trivial
  | cameFrom, cur, next :: rest =>
    match (inferInstance : Decidable (legalStep s cameFrom cur next)),
      legalFrom.decide s cur next rest with
    | isTrue h1, isTrue h2 => isTrue ⟨h1, h2⟩
    | isFalse h1, _ => isFalse (fun h => h1 h.1)
    | _, isFalse h2 => isFalse (fun h => h2 h.2)

instance (s : TileStates) (cameFrom cur : Tile) (rest : List Tile) :
    Decidable (legalFrom s cameFrom cur rest) := legalFrom.decide s cameFrom cur rest

/-- The sequence ends on a right-endpoint and has no right-endpoint before its
last tile. -/
def stopsAtFirstRightEndpoint (s : TileStates) (w : Path) : Prop :=
  (∀ t ∈ w.dropLast, (s.of t).isRightEndpoint = false) ∧
    match w.getLast? with
    | some last => (s.of last).isRightEndpoint = true
    | none => False

instance (s : TileStates) (w : Path) : Decidable (stopsAtFirstRightEndpoint s w) := by
  unfold stopsAtFirstRightEndpoint
  cases w.getLast? <;> infer_instance

/-- A tile sequence that starts at the start tile, takes each step to a member of
the current tile's left-list entry keyed by the preceding tile (keyed by the
start tile itself for the first step), repeats no tile, and stops at the first
right-endpoint it reaches. -/
def LegalWalk (s : TileStates) (start : Tile) : Path → Prop
  | [] => False
  | first :: rest =>
    first = start ∧ legalFrom s start start rest ∧ (first :: rest).Nodup ∧
      stopsAtFirstRightEndpoint s (first :: rest)

instance (s : TileStates) (start : Tile) (w : Path) : Decidable (LegalWalk s start w) := by
  cases w with
  | nil => exact isFalse (fun h => h)
  | cons first rest => unfold LegalWalk; infer_instance

/-- The walk `w` is still to be completed from the tile `next` that is about to be
pushed on `path`: `w` begins with `path`, then `next`, its remaining steps are
legal, and every tile marked as seen is one of its tiles so far. -/
def Pending (s : TileStates) (w : Path) (path : Path) (next : Tile) (seen : List Tile) : Prop :=
  ∃ r, w = path ++ next :: r ∧
    legalFrom s
      (if (path ++ [next]).length > 1 then (path ++ [next]).getD ((path ++ [next]).length - 2) next
        else next) next r ∧
    ∀ t ∈ seen, t ∈ path ++ [next]

/-- The left-list entry with key `key` of the tile whose index is `i`. -/
def entryAt (s : TileStates) (i : Nat) (key : Int) : Option (List Tile) :=
  (s.getD i TileState.init).leftList.get key

/-- No tile of the entry has the key of the entry as its index. -/
def EntryAvoidsKey (key : Int) (v : List Tile) : Prop := ∀ t ∈ v, t.tileIndex ≠ key

/-- Read from its last tile backwards, the sequence never steps to the tile it
was on two steps earlier: `n.tileIndex` differs from `prev.tileIndex` in every
window `prev, cur, n`. -/
def noReturn : List Tile → Prop
  | n :: cur :: prev :: rest => n.tileIndex ≠ prev.tileIndex ∧ noReturn (cur :: prev :: rest)
  | _ => True

/-- A step of a path to the right, in coordinates: both tiles are tiles of the
grid, the column stays or grows by one, the row moves by at most one, and the
two cells differ. -/
def rightStep (m : Map) (a b : Tile) : Prop :=
  a ∈ m.mapTiles ∧ b ∈ m.mapTiles ∧ (b.x = a.x ∨ b.x = a.x + 1) ∧
    (b.y = a.y - 1 ∨ b.y = a.y ∨ b.y = a.y + 1) ∧ ¬ (b.x = a.x ∧ b.y = a.y)

/-- Two rows of five; the tiles 3, 4 and 8 hang together but none of them is a
left-endpoint:
```
1 1 0 1 1
0 0 0 1 0
``` -/
def gridGap : Map := Map.create [1, 1, 0, 1, 1, 0, 0, 0, 1, 0] 5

/-- What `computePaths` leaves behind on `gridGap`: the path 0,1 and its
reversal. -/
def gridGapComputed : Computed :=
  { paths := [[tileOf true 0 5, tileOf true 1 5],
      [tileOf true 1 5, tileOf true 0 5]]
    tiles := [
      { isLeftEndpoint := true, isRightEndpoint := false, leftList := [(0, [tileOf true 1 5])] },
      { isLeftEndpoint := false, isRightEndpoint := true, leftList := [(0, [tileOf true 1 5])] },
      TileState.init,
      { isLeftEndpoint := false, isRightEndpoint := false, leftList := [(8, [tileOf true 4 5])] },
      { isLeftEndpoint := false, isRightEndpoint := true, leftList := [(3, [tileOf true 4 5]), (8, [tileOf true 4 5])] },
      TileState.init,
      TileState.init,
      TileState.init,
      TileState.init,
      TileState.init] }

/-- Three rows of two: tile 0 above tile 2, the right-endpoint 5 below and right
of tile 2:
```
1 0
1 0
0 1
``` -/
def gridHook : Map := Map.create [1, 0, 1, 0, 0, 1] 2

/-- Two rows of two, the lower left cell not walkable: the tiles 1 and 3 of the
right column are each other's only right-neighbour:
```
1 1
0 1
``` -/
def gridPair : Map := Map.create [1, 1, 0, 1] 2

/-- A sequence of right-adjacency steps from `start` to a right-endpoint that
visits no tile twice and never passes through `avoid`. -/
def RightWalk (m : Map) (s : TileStates) (start avoid : Tile) (w : Path) : Prop :=
  w.head? = some start ∧ List.Chain' (fun a b => b ∈ getAdjacentTiles m a true) w ∧ w.Nodup ∧
    avoid ∉ w ∧ ∃ last, w.getLast? = some last ∧ (s.of last).isRightEndpoint = true

/-- The index `i` lies in the half of a path array of length `n` that
`getPathStartingWith` searches: the first half when `facingRight` is true, the
second half otherwise. -/
def InHalf (n : Nat) (facingRight : Bool) (i : Nat) : Prop :=
  if facingRight then i < n / 2 else n / 2 ≤ i ∧ i < n

instance (n : Nat) (facingRight : Bool) (i : Nat) : Decidable (InHalf n facingRight i) := by
  unfold InHalf
  infer_instance

/-- The state of `gridStep` in which tile 0 is the only spawner and no tile is
fogged; the tiles and the paths are those `computePaths` leaves. -/
def gridStepState : MapState :=
  { tiles := gridStepComputed.tiles
    isSpawnerPoint := [true, false, false, false, false, false]
    fog := [false, false, false, false, false, false]
    paths := gridStepComputed.paths }

/-- The number of steps between two cells when only horizontal and vertical
steps are taken; an example of a distance. -/
def stepDistance (x1 y1 x2 y2 : Int) : Int := |x1 - x2| + |y1 - y2|

/-- The array `new` is the array `old` with the value `v` written to the entries
whose index satisfies `Q`, and to no other. -/
def Painted (old new : List Bool) (v : Bool) (Q : Nat → Prop) : Prop :=
  new.length = old.length ∧
    ∀ k, (Q k → k < old.length → new.get? k = some v) ∧ (¬ Q k → new.get? k = old.get? k)

/-- The inner loop of `setFog` reaches the assignment for the cell `(i, j)`, with
`radius` the capped radius. -/
def fogCellHit (m : Map) (x y radius : Int) (drawCircular : Bool) (i j : Int) : Prop :=
  ¬ (i < 0 ∨ j < 0 ∨ i ≥ (m.numCols : Int) ∨ j ≥ (m.numRows : Int)) ∧
    ¬ (drawCircular = true ∧ |x - i| + |y - j| > radius)

/-- The 2x3 grid `gridStep` with fog on every tile. -/
def fogSix : List Bool := [true, true, true, true, true, true]

/-- A sword: not usable, equippable by the warrior class only. -/
def itemSword : Item :=
  { itemID := 1, usable := false, stackable := false, quantity := 1,
    isEquippableBy := fun c => decide (c = EquippableBy.WAR) }

/-- A stack of three potions: usable and stackable. -/
def itemPotion : Item :=
  { itemID := 2, usable := true, stackable := true, quantity := 3,
    isEquippableBy := fun _ => false }

/-- An empty slot of the given type. -/
def emptySlot (slotType : String) (slotIndex : Nat) : Slot :=
  { slotType := slotType, slotIndex := slotIndex, item := none }

/-- `Map.prototype.optimizePaths` with its second loop (the rule on two diagonal
steps in a row) deleted: the first loop followed by the third. -/
def optimizePathsTwoRules (m : Map) (paths : List Path) : List Path :=
  dropCornerCuts m (dropNoopDetours m paths)

/-- The extension of the first format of the list whose answer is `answer`; each
format is given as its answer and its extension. -/
def firstAnswering (answer : String) : List (String × String) → Option String
  | [] => none
  | (a, ext) :: rest => if a = answer then some ext else firstAnswering answer rest

/-- The preferred extension as the claim words it: the first format in the order
OGG, AAC, MP3 that answered `PROBABLY`, otherwise the first in that order that
answered `MAYBE`, otherwise nothing. -/
def preferredInOrder (k : AudioConstants) (ogg aac mp3 : String) : Option String :=
  match firstAnswering k.PROBABLY [(ogg, k.OGG_EXT), (aac, k.AAC_EXT), (mp3, k.MP3_EXT)] with
  | some ext => some ext
  | none => firstAnswering k.MAYBE [(ogg, k.OGG_EXT), (aac, k.AAC_EXT), (mp3, k.MP3_EXT)]

/-! ### More example grids and items -/

/-- Three rows of two, a corridor that comes up the left column and turns right
at the top:
```
1 1
1 0
1 0
``` -/
def gridEll : Map := Map.create [1, 1, 1, 0, 1, 0] 2

/-- What `computePaths` leaves behind on `gridEll`: no path at all. -/
def gridEllComputed : Computed :=
  { paths := []
    tiles := [
      { isLeftEndpoint := false, isRightEndpoint := false, leftList := [(2, [tileOf true 1 2])] },
      { isLeftEndpoint := false, isRightEndpoint := true, leftList := [(0, [tileOf true 1 2])] },
      { isLeftEndpoint := false, isRightEndpoint := false,
        leftList := [(0, [tileOf true 4 2]), (4, [tileOf true 0 2])] },
      TileState.init,
      { isLeftEndpoint := true, isRightEndpoint := false, leftList := [(4, [tileOf true 2 2])] },
      TileState.init] }

/-- One row of four with a gap; the last tile has no neighbour:
```
1 1 0 1
``` -/
def gridRowGap : Map := Map.create [1, 1, 0, 1] 4

/-- Whether an item is used up: stackable with quantity 0, as the comment in
`setItem` describes `isDepleted`. -/
def stackIsEmpty (item : Item) : Bool := item.stackable && decide (item.quantity = 0)

/-- Two USABLE slots: slot 0 holds the item object 0, a stack of `a` potions, and
every other slot holds the item object 1, a stack of `b` potions. -/
def twoStacks (a b : Int) : Inventory :=
  { items := fun r => if r = 0 then { itemPotion with quantity := a }
      else { itemPotion with quantity := b }
    slots := fun k => if k = 0 then { slotType := SlotTypes.USABLE, slotIndex := 0, item := some 0 }
      else { slotType := SlotTypes.USABLE, slotIndex := 1, item := some 1 }
    updatedSlots := [] }

/-- A sequence of right-adjacency steps that visits no tile twice, steps on no
tile of `seen` after its first tile, and ends on a right-endpoint. -/
def OpenWalk (m : Map) (s : TileStates) (seen : List Tile) (w : Path) : Prop :=
  List.Chain' (fun a b => b ∈ getAdjacentTiles m a true) w ∧ w.Nodup ∧
    (∀ t ∈ w.tail, t ∉ seen) ∧ ∃ last, w.getLast? = some last ∧ (s.of last).isRightEndpoint = true

/-- The array `rightKeys` the second loop of `computePaths` stores in the
left-list of `tile`: the tile itself for a right-endpoint, its right-neighbours
otherwise, and of two or more of them those from which the reachability test
finds an endpoint.  The loop runs in some state `sf` whose endpoint flags are
those of the classification. -/
def Formed (m : Map) (fuel : Nat) (tile : Tile) (v0 : List Tile) : Prop :=
  ∃ sf : TileStates, SameFlags (classifyEndpoints m) sf ∧
    (if (if (sf.of tile).isRightEndpoint then [tile]
        else getAdjacentTiles m tile true).length ≥ 2 then
      filterReachable m sf fuel tile
        (if (sf.of tile).isRightEndpoint then [tile] else getAdjacentTiles m tile true)
    else .ok (if (sf.of tile).isRightEndpoint then [tile]
      else getAdjacentTiles m tile true)) = .ok v0

/-- The array `v` holds only tiles that a visit of the pruning pass to the entry
`key` of `tile` keeps of the array `v0`: the visit takes the tile with index
`key` out of `v0`, then the tile to its right, and prunes the diagonals. -/
def PrunedWithin (m : Map) (tile : Tile) (key : Int) (v0 v : List Tile) : Prop :=
  ∃ (b : Bool) (l1 l2 : List Tile),
    removeTileFromArray (m.tileAt key) v0 = .ok (b, l1) ∧
    removeRightOfLeftNeighbor m (m.tileAt key) b l1 = .ok l2 ∧
    ∀ x ∈ v, x ∈ pruneDiagonalIfCardinalExist tile l2

/-! ## The grid -/

theorem Map.create_length (cells : List Nat) (w : Nat) :
    (Map.create cells w).mapTiles.length = cells.length := by
  simp [Map.create]

theorem Map.create_numCols (cells : List Nat) (w : Nat) : (Map.create cells w).numCols = w := rfl

theorem Map.create_get? (cells : List Nat) (w i : Nat) (t : Tile)
    (h : (Map.create cells w).mapTiles.get? i = some t) :
    i < cells.length ∧ t = Tile.create (cells.getD i 0) i w := by
  simp only [Map.create, List.get?_eq_getElem?, List.getElem?_map] at h
  rcases hi : (List.range cells.length)[i]? with _ | j
  · simp [hi] at h
  · rw [hi] at h
    have hj := List.getElem?_eq_some_iff.1 hi
    obtain ⟨hlt, hj⟩ := hj
    simp only [List.getElem_range] at hj
    simp only [List.length_range] at hlt
    subst hj
    simp only [Option.map_some', Option.some.injEq] at h
    exact ⟨hlt, h.symm⟩

theorem Map.create_isGrid (cells : List Nat) (w : Nat) (hw : w ∣ cells.length) :
    (Map.create cells w).IsGrid := by
  refine ⟨?_, ?_⟩
  · rw [Map.create_length]; exact hw
  · intro i t h
    obtain ⟨_, rfl⟩ := Map.create_get? cells w i t h
    exact ⟨rfl, rfl, rfl⟩

theorem int_divmod_unique (c a b a' b' : Int) (h : a * c + b = a' * c + b')
    (hb : 0 ≤ b) (hbc : b < c) (hb' : 0 ≤ b') (hbc' : b' < c) : a = a' ∧ b = b' := by
  have hc : c ≠ 0 := by omega
  have e1 : (a * c + b) % c = b := by
    rw [add_comm, Int.add_mul_emod_self]; exact Int.emod_eq_of_lt hb hbc
  have e2 : (a' * c + b') % c = b' := by
    rw [add_comm, Int.add_mul_emod_self]; exact Int.emod_eq_of_lt hb' hbc'
  have hbb : b = b' := by rw [← e1, ← e2, h]
  subst hbb
  have : a * c = a' * c := by omega
  exact ⟨mul_right_cancel₀ hc this, rfl⟩

namespace Map.IsGrid

variable {m : Map}

theorem length_eq (g : m.IsGrid) : m.mapTiles.length = m.numRows * m.numCols := by
  unfold Map.numRows
  exact (Nat.div_mul_cancel g.rows_complete).symm

theorem tileAt_some (g : m.IsGrid) {index : Int} {t : Tile} (h : m.tileAt index = some t) :
    t ∈ m.mapTiles ∧ t.tileIndex = index ∧ 0 ≤ index ∧ index < (m.mapTiles.length : Int) := by
  unfold Map.tileAt at h
  split at h
  · rename_i h0
    have hmem : t ∈ m.mapTiles := List.mem_iff_get?.2 ⟨_, h⟩
    have hidx := (g.tile_eq _ _ h).1
    have hlt : index.toNat < m.mapTiles.length := by
      rw [List.get?_eq_getElem?] at h
      exact (List.getElem?_eq_some_iff.1 h).1
    refine ⟨hmem, ?_, h0, ?_⟩ <;> omega
  · simp at h

theorem coords (g : m.IsGrid) {t : Tile} (ht : t ∈ m.mapTiles) :
    0 < m.numCols ∧ 0 ≤ t.x ∧ t.x < (m.numCols : Int) ∧ 0 ≤ t.y ∧ t.y < (m.numRows : Int) ∧
      t.tileIndex = t.y * (m.numCols : Int) + t.x ∧ 0 ≤ t.tileIndex ∧
      t.tileIndex < (m.mapTiles.length : Int) ∧ m.tileAt t.tileIndex = some t := by
  obtain ⟨i, hi⟩ := List.mem_iff_get?.1 ht
  obtain ⟨h1, h2, h3⟩ := g.tile_eq i t hi
  have hlt : i < m.mapTiles.length := by
    rw [List.get?_eq_getElem?] at hi
    exact (List.getElem?_eq_some_iff.1 hi).1
  have hc : 0 < m.numCols := by
    rcases Nat.eq_zero_or_pos m.numCols with h0 | h0
    · have := g.rows_complete
      rw [h0, Nat.zero_dvd] at this
      omega
    · exact h0
  have hx : i % m.numCols < m.numCols := Nat.mod_lt _ hc
  have hy : i / m.numCols < m.numRows := by
    rw [Nat.div_lt_iff_lt_mul hc, ← g.length_eq]; exact hlt
  have hdm : m.numCols * (i / m.numCols) + i % m.numCols = i := Nat.div_add_mod i m.numCols
  generalize i / m.numCols = q at h3 hy hdm
  generalize i % m.numCols = r at h2 hx hdm
  have hdm' : (m.numCols : Int) * (q : Int) + (r : Int) = (i : Int) := by exact_mod_cast hdm
  refine ⟨hc, ?_, ?_, ?_, ?_, ?_, ?_, ?_, ?_⟩
  · omega
  · omega
  · omega
  · omega
  · rw [h1, h2, h3, ← hdm']; ring
  · omega
  · omega
  · unfold Map.tileAt
    rw [if_pos (by omega), h1]
    simpa using hi

theorem eq_of_tileIndex (g : m.IsGrid) {a b : Tile} (ha : a ∈ m.mapTiles) (hb : b ∈ m.mapTiles)
    (h : a.tileIndex = b.tileIndex) : a = b := by
  have h1 := (g.coords ha).2.2.2.2.2.2.2.2
  have h2 := (g.coords hb).2.2.2.2.2.2.2.2
  rw [h] at h1
  rw [h1] at h2
  exact Option.some.inj h2

theorem eq_of_coords (g : m.IsGrid) {a b : Tile} (ha : a ∈ m.mapTiles) (hb : b ∈ m.mapTiles)
    (hx : a.x = b.x) (hy : a.y = b.y) : a = b := by
  apply g.eq_of_tileIndex ha hb
  have h1 := (g.coords ha).2.2.2.2.2.1
  have h2 := (g.coords hb).2.2.2.2.2.1
  rw [h1, h2, hx, hy]

/-- A tile whose index is `dy` rows and `dx` columns away from that of `t`, the
column staying inside the grid, sits at that offset. -/
theorem atOffset_of_index (g : m.IsGrid) {t n : Tile} (ht : t ∈ m.mapTiles) (hn : n ∈ m.mapTiles)
    (dx dy : Int) (h : n.tileIndex = t.tileIndex + dy * (m.numCols : Int) + dx)
    (h0 : 0 ≤ t.x + dx) (h1 : t.x + dx < (m.numCols : Int)) : atOffset t n dx dy := by
  obtain ⟨_, hx0, hx1, _, _, hidx, _⟩ := g.coords ht
  obtain ⟨_, nx0, nx1, _, _, nidx, _⟩ := g.coords hn
  have key : n.y * (m.numCols : Int) + n.x = (t.y + dy) * (m.numCols : Int) + (t.x + dx) := by
    rw [← nidx, h, hidx]; ring
  obtain ⟨e1, e2⟩ := int_divmod_unique _ _ _ _ _ key nx0 nx1 h0 h1
  exact ⟨e2, e1⟩

theorem index_of_atOffset (g : m.IsGrid) {t n : Tile} (ht : t ∈ m.mapTiles) (hn : n ∈ m.mapTiles)
    (dx dy : Int) (h : atOffset t n dx dy) :
    n.tileIndex = t.tileIndex + dy * (m.numCols : Int) + dx := by
  obtain ⟨_, _, _, _, _, hidx, _⟩ := g.coords ht
  obtain ⟨_, _, _, _, _, nidx, _⟩ := g.coords hn
  rw [nidx, hidx, h.1, h.2]; ring

end Map.IsGrid

/-! ## `getAdjacentTiles` -/

theorem mem_tilesOfIndices (m : Map) (indices : List Int) (n : Tile) :
    n ∈ tilesOfIndices m indices ↔
      ∃ index ∈ indices, 0 ≤ index ∧ index < (m.mapTiles.length : Int) ∧
        m.tileAt index = some n ∧ n.isWalkable = true := by
  induction indices with
  | nil => simp [tilesOfIndices]
  | cons index rest ih =>
    unfold tilesOfIndices
    by_cases hb : 0 ≤ index ∧ index < (m.mapTiles.length : Int)
    · rw [if_pos hb]
      rcases ht : m.tileAt index with _ | t
      · simp only [ih, List.mem_cons, exists_eq_or_imp, ht]
        simp
      · by_cases hw : t.isWalkable = true
        · simp only [hw, Bool.not_true, Bool.false_eq_true, if_false, List.mem_cons, ih,
            exists_eq_or_imp, ht, Option.some.injEq]
          constructor
          · rintro (rfl | h)
            · exact Or.inl ⟨hb.1, hb.2, rfl, hw⟩
            · exact Or.inr h
          · rintro (⟨_, _, rfl, _⟩ | h)
            · exact Or.inl rfl
            · exact Or.inr h
        · have hw' : t.isWalkable = false := by simpa using hw
          simp only [hw', Bool.not_false, if_true, ih, List.mem_cons, exists_eq_or_imp, ht,
            Option.some.injEq]
          constructor
          · intro h; exact Or.inr h
          · rintro (⟨_, _, rfl, h⟩ | h)
            · rw [hw'] at h; cases h
            · exact h
    · rw [if_neg hb]
      simp only [ih, List.mem_cons, exists_eq_or_imp]
      constructor
      · intro h; exact Or.inr h
      · rintro (⟨h0, h1, _⟩ | h)
        · exact absurd ⟨h0, h1⟩ hb
        · exact h

theorem tilesOfIndices_sublist {m : Map} (g : m.IsGrid) (indices : List Int) :
    ((tilesOfIndices m indices).map Tile.tileIndex).Sublist indices := by
  induction indices with
  | nil => simp [tilesOfIndices]
  | cons index rest ih =>
    unfold tilesOfIndices
    split
    · split
      · rename_i neighbor hn
        split
        · exact ih.cons _
        · rw [List.map_cons, (g.tileAt_some hn).2.1]
          exact ih.cons₂ _
      · exact ih.cons _
    · exact ih.cons _

theorem adjacentIndices_nodup (m : Map) (t : Tile) (facingRight : Bool)
    (hx0 : 0 ≤ t.x) (hx1 : t.x < (m.numCols : Int)) :
    (adjacentIndices m t facingRight).Nodup := by
  unfold adjacentIndices
  cases facingRight <;> simp only [Bool.not_false, Bool.not_true, Bool.true_and, Bool.false_and,
    Bool.false_eq_true, if_false, decide_eq_true_eq, List.nil_append, List.append_nil]
  all_goals split_ifs
  all_goals simp only [List.nodup_cons, List.nodup_nil, List.mem_cons, List.mem_append,
    List.not_mem_nil, List.cons_append, List.nil_append, List.append_nil, List.mem_singleton,
    or_false, and_true, not_or, not_false_eq_true, true_and]
  all_goals omega

theorem mem_getAdjacentTiles_mapTiles {m : Map} (g : m.IsGrid) {t n : Tile} {facingRight : Bool}
    (h : n ∈ getAdjacentTiles m t facingRight) : n ∈ m.mapTiles ∧ n.isWalkable = true := by
  unfold getAdjacentTiles at h
  split at h
  · simp at h
  · obtain ⟨index, _, _, _, ht, hw⟩ := (mem_tilesOfIndices m _ n).1 h
    exact ⟨(g.tileAt_some ht).1, hw⟩

/-- The tiles `getAdjacentTiles` returns for a tile of the grid. -/
theorem mem_getAdjacentTiles_iff {m : Map} (g : m.IsGrid) {t : Tile} (ht : t ∈ m.mapTiles)
    (facingRight : Bool) (n : Tile) :
    n ∈ getAdjacentTiles m t facingRight ↔
      n ∈ m.mapTiles ∧ n.isWalkable = true ∧ adjacentPosition t n facingRight := by
  obtain ⟨hc, hx0, hx1, hy0, hy1, hidx, _⟩ := g.coords ht
  unfold getAdjacentTiles
  rw [if_neg (by omega)]
  rw [mem_tilesOfIndices]
  constructor
  · rintro ⟨index, hmem, h0, h1, hat, hw⟩
    obtain ⟨hn, hni, _⟩ := g.tileAt_some hat
    refine ⟨hn, hw, ?_⟩
    unfold adjacentIndices at hmem
    simp only [List.mem_append] at hmem
    rcases hmem with ((hl | hu) | hd) | hr
    · split at hl
      · rename_i hcond
        simp only [Bool.and_eq_true, Bool.not_eq_true', decide_eq_true_eq] at hcond
        obtain ⟨hfr, hxpos⟩ := hcond
        simp only [List.mem_cons, List.mem_singleton, List.not_mem_nil, or_false] at hl
        refine Or.inr (Or.inr (Or.inr ⟨hfr, ?_⟩))
        rcases hl with e | e | e
        · exact Or.inl (g.atOffset_of_index ht hn (-1) (-1) (by rw [hni, e]; ring) (by omega) (by omega))
        · exact Or.inr (Or.inl (g.atOffset_of_index ht hn (-1) 0 (by rw [hni, e]; ring) (by omega) (by omega)))
        · exact Or.inr (Or.inr (g.atOffset_of_index ht hn (-1) 1 (by rw [hni, e]; ring) (by omega) (by omega)))
      · simp at hl
    · split at hu
      · simp only [List.mem_singleton] at hu
        exact Or.inl (g.atOffset_of_index ht hn 0 (-1) (by rw [hni, hu]; ring) (by omega) (by omega))
      · simp at hu
    · split at hd
      · simp only [List.mem_singleton] at hd
        exact Or.inr (Or.inl (g.atOffset_of_index ht hn 0 1 (by rw [hni, hd]; ring) (by omega) (by omega)))
      · simp at hd
    · split at hr
      · rename_i hcond
        simp only [Bool.and_eq_true, decide_eq_true_eq] at hcond
        obtain ⟨hfr, hxlt⟩ := hcond
        simp only [List.mem_cons, List.mem_singleton, List.not_mem_nil, or_false] at hr
        refine Or.inr (Or.inr (Or.inl ⟨hfr, ?_⟩))
        rcases hr with e | e | e
        · exact Or.inl (g.atOffset_of_index ht hn 1 (-1) (by rw [hni, e]; ring) (by omega) (by omega))
        · exact Or.inr (Or.inl (g.atOffset_of_index ht hn 1 0 (by rw [hni, e]; ring) (by omega) (by omega)))
        · exact Or.inr (Or.inr (g.atOffset_of_index ht hn 1 1 (by rw [hni, e]; ring) (by omega) (by omega)))
      · simp at hr
  · rintro ⟨hn, hw, hpos⟩
    obtain ⟨_, nx0, nx1, ny0, ny1, nidx, ni0, ni1, nat⟩ := g.coords hn
    refine ⟨n.tileIndex, ?_, ni0, ni1, nat, hw⟩
    unfold adjacentIndices
    simp only [List.mem_append]
    rcases hpos with h | h | ⟨hfr, h⟩ | ⟨hfr, h⟩
    · have e := g.index_of_atOffset ht hn _ _ h
      obtain ⟨ex, ey⟩ := h
      refine Or.inl (Or.inl (Or.inr ?_))
      rw [if_pos (by omega)]
      simp only [List.mem_singleton]; rw [e]; ring
    · have e := g.index_of_atOffset ht hn _ _ h
      obtain ⟨ex, ey⟩ := h
      refine Or.inl (Or.inr ?_)
      rw [if_pos (by omega)]
      simp only [List.mem_singleton]; rw [e]; ring
    · refine Or.inr ?_
      have hx : t.x < (m.numCols : Int) - 1 := by
        rcases h with h | h | h <;> · obtain ⟨ex, ey⟩ := h; omega
      rw [if_pos (by simp [hfr, hx])]
      simp only [List.mem_cons, List.mem_singleton, List.not_mem_nil, or_false]
      rcases h with h | h | h
      · left; rw [g.index_of_atOffset ht hn _ _ h]; ring
      · right; left; rw [g.index_of_atOffset ht hn _ _ h]; ring
      · right; right; rw [g.index_of_atOffset ht hn _ _ h]; ring
    · refine Or.inl (Or.inl (Or.inl ?_))
      have hx : t.x > 0 := by
        rcases h with h | h | h <;> · obtain ⟨ex, ey⟩ := h; omega
      rw [if_pos (by simp [hfr, hx])]
      simp only [List.mem_cons, List.mem_singleton, List.not_mem_nil, or_false]
      rcases h with h | h | h
      · left; rw [g.index_of_atOffset ht hn _ _ h]; ring
      · right; left; rw [g.index_of_atOffset ht hn _ _ h]; ring
      · right; right; rw [g.index_of_atOffset ht hn _ _ h]; ring

theorem getAdjacentTiles_nodup {m : Map} (g : m.IsGrid) (t : Tile) (facingRight : Bool) :
    (getAdjacentTiles m t facingRight).Nodup := by
  unfold getAdjacentTiles
  split
  · exact List.nodup_nil
  · rename_i hb
    exact List.Nodup.of_map _
      ((tilesOfIndices_sublist g _).nodup
        (adjacentIndices_nodup m t facingRight (by omega) (by omega)))


theorem rightEndpoint_iff_no_right_neighbour (m : Map) (t : Tile) :
    isTileAnEndpoint m t false = true ↔ getAdjacentTiles m t true = [] := by
  unfold isTileAnEndpoint
  simp [List.length_eq_zero]

/-! ## Claims about `getAdjacentTiles` and `isTileAnEndpoint` -/

/-- C1: for a grid whose length is a multiple of its width and a tile `t` of the
grid, `getAdjacentTiles(t, facingRight)` returns exactly the walkable tiles of
the grid that sit above or below `t` or in the three cells of the column to its
right (to its left when `facingRight` is false); no tile is returned twice, and
nothing from another position (such as a wrapped-around row) is returned. -/
theorem getAdjacentTiles_exact (cells : List Nat) (width : Nat) (hw : width ∣ cells.length)
    (t : Tile) (ht : t ∈ (Map.create cells width).mapTiles) (facingRight : Bool) :
    (getAdjacentTiles (Map.create cells width) t facingRight).Nodup ∧
      ∀ n : Tile, n ∈ getAdjacentTiles (Map.create cells width) t facingRight ↔
        n ∈ (Map.create cells width).mapTiles ∧ n.isWalkable = true ∧
          adjacentPosition t n facingRight :=
  ⟨getAdjacentTiles_nodup (Map.create_isGrid cells width hw) t facingRight,
    mem_getAdjacentTiles_iff (Map.create_isGrid cells width hw) ht facingRight⟩

/-- C1 at the centre of `gridNine`, facing right and facing left. -/
theorem getAdjacentTiles_exact_witness :
    3 ∣ [1, 1, 1, 1, 1, 1, 0, 1, 1].length ∧
      tileOf true 4 3 ∈ (Map.create [1, 1, 1, 1, 1, 1, 0, 1, 1] 3).mapTiles ∧
      (getAdjacentTiles (Map.create [1, 1, 1, 1, 1, 1, 0, 1, 1] 3) (tileOf true 4 3) true).Nodup ∧
      (tileOf false 6 3 ∈ getAdjacentTiles (Map.create [1, 1, 1, 1, 1, 1, 0, 1, 1] 3)
          (tileOf true 4 3) false ↔
        tileOf false 6 3 ∈ (Map.create [1, 1, 1, 1, 1, 1, 0, 1, 1] 3).mapTiles ∧
          (tileOf false 6 3).isWalkable = true ∧
          adjacentPosition (tileOf true 4 3) (tileOf false 6 3) false) ∧
      getAdjacentTiles gridNine (tileOf true 4 3) true =
        [tileOf true 1 3, tileOf true 7 3, tileOf true 2 3, tileOf true 5 3, tileOf true 8 3] ∧
      getAdjacentTiles gridNine (tileOf true 4 3) false =
        [tileOf true 0 3, tileOf true 3 3, tileOf true 1 3, tileOf true 7 3] :=
  ⟨by decide, by decide,
    (getAdjacentTiles_exact [1, 1, 1, 1, 1, 1, 0, 1, 1] 3 (by decide) (tileOf true 4 3)
      (by decide) true).1,
    (getAdjacentTiles_exact [1, 1, 1, 1, 1, 1, 0, 1, 1] 3 (by decide) (tileOf true 4 3)
      (by decide) false).2 (tileOf false 6 3),
    by decide, by decide⟩

/-- C2: for a tile whose `x` or `y` lies outside the grid (`x < 0`,
`x >= numCols`, `y < 0` or `y >= numRows`), `getAdjacentTiles` returns the empty
array, whatever the direction flag. -/
theorem getAdjacentTiles_outOfBounds (m : Map) (t : Tile) (facingRight : Bool)
    (h : t.x < 0 ∨ t.x ≥ (m.numCols : Int) ∨ t.y < 0 ∨ t.y ≥ (m.numRows : Int)) :
    getAdjacentTiles m t facingRight = [] := by
  unfold getAdjacentTiles
  rw [if_pos h]

/-- C2 for a tile one column to the right of `gridNine`. -/
theorem getAdjacentTiles_outOfBounds_witness :
    ((3 : Int) < 0 ∨ (3 : Int) ≥ (gridNine.numCols : Int) ∨ (1 : Int) < 0 ∨
        (1 : Int) ≥ (gridNine.numRows : Int)) ∧
      getAdjacentTiles gridNine { tileIndex := 6, x := 3, y := 1, isWalkable := true } true = [] :=
  ⟨by decide,
    getAdjacentTiles_outOfBounds gridNine { tileIndex := 6, x := 3, y := 1, isWalkable := true }
      true (by decide)⟩

/-- C3 (the code departs from the claim): in `gridBend` the tile 1 at (1,0) has
the left-neighbours 0 and 4 and the single right-neighbour 4 (the tile below it),
so it has a right-neighbour and each of its right-neighbours is one of its
left-neighbours, which makes it a left-endpoint by the claim;
`isTileAnEndpoint(tile, true)` returns `false`, because the inner loop returns as
soon as the first left-neighbour (tile 0) is not the right-neighbour at hand. -/
theorem isTileAnEndpoint_left_gives_up :
    tileOf true 1 3 ∈ gridBend.mapTiles ∧
      getAdjacentTiles gridBend (tileOf true 1 3) false = [tileOf true 0 3, tileOf true 4 3] ∧
      getAdjacentTiles gridBend (tileOf true 1 3) true = [tileOf true 4 3] ∧
      isTileAnEndpoint gridBend (tileOf true 1 3) true = false := by
  decide

/-- C4: `isTileAnEndpoint(t, false)` is true exactly when `getAdjacentTiles(t, true)`
is empty; the left-neighbours of `t` play no part. -/
theorem isTileAnEndpoint_right_iff (m : Map) (t : Tile) :
    isTileAnEndpoint m t false = true ↔ getAdjacentTiles m t true = [] := by
  unfold isTileAnEndpoint
  simp [List.length_eq_zero]

/-! ## Endpoint classification -/

theorem classifyEndpoints_of {m : Map} (g : m.IsGrid) {t : Tile} (ht : t ∈ m.mapTiles) :
    (classifyEndpoints m).of t = classifyTile m t := by
  obtain ⟨i, hi⟩ := List.mem_iff_get?.1 ht
  have h1 := (g.tile_eq i t hi).1
  unfold TileStates.of classifyEndpoints
  rw [h1, Int.toNat_ofNat, List.getD_eq_getElem?_getD, List.getElem?_map]
  rw [List.get?_eq_getElem?] at hi
  rw [hi]
  rfl

/-- C5 fails as stated: in `gridIsland` the centre tile, which has no neighbour at
all, leaves the classification phase with both flags set. -/
theorem classifyEndpoints_both_flags :
    classifyEndpoints gridIsland =
      [TileState.init, TileState.init, TileState.init, TileState.init,
        { isLeftEndpoint := true, isRightEndpoint := true, leftList := [] },
        TileState.init, TileState.init, TileState.init, TileState.init] := by
  decide

/-- C5 as amended: after the endpoint-classification phase a tile of the grid has
both `isLeftEndpoint` and `isRightEndpoint` set only when it is a walkable tile
without any left-neighbour and without any right-neighbour; a tile with a
neighbour on either side carries at most one of the two flags. -/
theorem classifyEndpoints_both_only_isolated (cells : List Nat) (width : Nat)
    (hw : width ∣ cells.length) (t : Tile) (ht : t ∈ (Map.create cells width).mapTiles)
    (hl : ((classifyEndpoints (Map.create cells width)).of t).isLeftEndpoint = true)
    (hr : ((classifyEndpoints (Map.create cells width)).of t).isRightEndpoint = true) :
    t.isWalkable = true ∧ getAdjacentTiles (Map.create cells width) t false = [] ∧
      getAdjacentTiles (Map.create cells width) t true = [] := by
  rw [classifyEndpoints_of (Map.create_isGrid cells width hw) ht] at hl hr
  unfold classifyTile at hl hr
  by_cases hwalk : t.isWalkable = true
  · simp only [hwalk, Bool.not_true, Bool.false_eq_true, if_false] at hl hr
    have hright : getAdjacentTiles (Map.create cells width) t true = [] :=
      (rightEndpoint_iff_no_right_neighbour _ _).1 hr
    refine ⟨hwalk, ?_, hright⟩
    unfold isTileAnEndpoint at hl
    simp only [Bool.not_true, Bool.false_eq_true, if_false, hright, List.length_nil,
      beq_self_eq_true, if_true] at hl
    by_contra hne
    have : ((getAdjacentTiles (Map.create cells width) t false).length == 0) = false := by
      simpa [List.length_eq_zero] using hne
    rw [this] at hl
    simp at hl
  · have hwalk' : t.isWalkable = false := by simpa using hwalk
    simp [hwalk', TileState.init] at hl

/-- C5 as amended, at the centre of `gridIsland`. -/
theorem classifyEndpoints_both_only_isolated_witness :
    3 ∣ [0, 0, 0, 0, 1, 0, 0, 0, 0].length ∧
      tileOf true 4 3 ∈ (Map.create [0, 0, 0, 0, 1, 0, 0, 0, 0] 3).mapTiles ∧
      ((classifyEndpoints (Map.create [0, 0, 0, 0, 1, 0, 0, 0, 0] 3)).of
        (tileOf true 4 3)).isLeftEndpoint = true ∧
      ((classifyEndpoints (Map.create [0, 0, 0, 0, 1, 0, 0, 0, 0] 3)).of
        (tileOf true 4 3)).isRightEndpoint = true ∧
      ((tileOf true 4 3).isWalkable = true ∧
        getAdjacentTiles (Map.create [0, 0, 0, 0, 1, 0, 0, 0, 0] 3) (tileOf true 4 3) false = [] ∧
        getAdjacentTiles (Map.create [0, 0, 0, 0, 1, 0, 0, 0, 0] 3) (tileOf true 4 3) true = []) :=
  ⟨by decide, by decide, by decide, by decide,
    classifyEndpoints_both_only_isolated [0, 0, 0, 0, 1, 0, 0, 0, 0] 3 (by decide)
      (tileOf true 4 3) (by decide) (by decide) (by decide)⟩

/-! ## `pruneDiagonalIfCardinalExist` -/

theorem lastAt_cons (t : Tile) (dx dy : Int) (init : Option Tile) (n : Tile) (ns : List Tile) :
    lastAt t dx dy init (n :: ns) =
      lastAt t dx dy (if atOffset t n dx dy then some n else init) ns := rfl

theorem lastAt_eq_some (t : Tile) (dx dy : Int) (ns : List Tile) (init : Option Tile) (n : Tile)
    (h : lastAt t dx dy init ns = some n) : init = some n ∨ (n ∈ ns ∧ atOffset t n dx dy) := by
  induction ns generalizing init with
  | nil => exact Or.inl h
  | cons a rest ih =>
    rw [lastAt_cons] at h
    rcases ih _ h with h1 | ⟨h1, h2⟩
    · split at h1
      · rename_i ha
        cases h1
        exact Or.inr ⟨List.mem_cons_self _ _, ha⟩
      · exact Or.inl h1
    · exact Or.inr ⟨List.mem_cons_of_mem _ h1, h2⟩

theorem lastAt_eq_none (t : Tile) (dx dy : Int) (ns : List Tile) (init : Option Tile) :
    lastAt t dx dy init ns = none ↔ init = none ∧ ∀ n ∈ ns, ¬ atOffset t n dx dy := by
  induction ns generalizing init with
  | nil => simp [lastAt]
  | cons a rest ih =>
    rw [lastAt_cons, ih]
    by_cases ha : atOffset t a dx dy
    · simp [ha]
    · simp [ha]

/-- When no two tiles of `ns` sit on the same cell, a tile of `ns` at the offset is
the one `lastAt` finds. -/
theorem lastAt_of_mem (t : Tile) (dx dy : Int) (ns : List Tile)
    (hd : (ns.map (fun n => (n.x, n.y))).Nodup) (init : Option Tile) (n : Tile)
    (hn : n ∈ ns) (hat : atOffset t n dx dy) : lastAt t dx dy init ns = some n := by
  induction ns generalizing init with
  | nil => cases hn
  | cons a rest ih =>
    rw [lastAt_cons]
    rw [List.map_cons, List.nodup_cons] at hd
    rcases List.mem_cons.1 hn with rfl | hmem
    · rw [if_pos hat]
      rcases h : lastAt t dx dy (some n) rest with _ | b
      · rw [lastAt_eq_none] at h
        cases h.1
      · rcases lastAt_eq_some _ _ _ _ _ _ h with hb | ⟨hb1, hb2⟩
        · exact hb.symm
        · exfalso
          apply hd.1
          rw [List.mem_map]
          refine ⟨b, hb1, ?_⟩
          unfold atOffset at hat hb2
          rw [hat.1, hat.2, hb2.1, hb2.2]
    · exact ih hd.2 _ hmem

theorem fold_aroundStep_field (t : Tile) (proj : Around → Option Tile) (dx dy : Int)
    (h : ∀ a n, proj (aroundStep t a n) = if atOffset t n dx dy then some n else proj a)
    (ns : List Tile) (a : Around) :
    proj (ns.foldl (aroundStep t) a) = lastAt t dx dy (proj a) ns := by
  induction ns generalizing a with
  | nil => rfl
  | cons n rest ih => rw [List.foldl_cons, ih, h, lastAt_cons]

theorem aroundStep_up (t : Tile) (a : Around) (n : Tile) :
    (aroundStep t a n).up = if atOffset t n 0 (-1) then some n else a.up := by
  unfold aroundStep atOffset
  simp only []
  split_ifs <;> first | rfl | omega

theorem aroundStep_down (t : Tile) (a : Around) (n : Tile) :
    (aroundStep t a n).down = if atOffset t n 0 1 then some n else a.down := by
  unfold aroundStep atOffset
  simp only []
  split_ifs <;> first | rfl | omega

theorem aroundStep_left (t : Tile) (a : Around) (n : Tile) :
    (aroundStep t a n).left = if atOffset t n (-1) 0 then some n else a.left := by
  unfold aroundStep atOffset
  simp only []
  split_ifs <;> first | rfl | omega

theorem aroundStep_right (t : Tile) (a : Around) (n : Tile) :
    (aroundStep t a n).right = if atOffset t n 1 0 then some n else a.right := by
  unfold aroundStep atOffset
  simp only []
  split_ifs <;> first | rfl | omega

theorem aroundStep_leftup (t : Tile) (a : Around) (n : Tile) :
    (aroundStep t a n).leftup = if atOffset t n (-1) (-1) then some n else a.leftup := by
  unfold aroundStep atOffset
  rfl

theorem aroundStep_upright (t : Tile) (a : Around) (n : Tile) :
    (aroundStep t a n).upright = if atOffset t n 1 (-1) then some n else a.upright := by
  unfold aroundStep atOffset
  rfl

theorem aroundStep_rightdown (t : Tile) (a : Around) (n : Tile) :
    (aroundStep t a n).rightdown = if atOffset t n 1 1 then some n else a.rightdown := by
  unfold aroundStep atOffset
  rfl

theorem aroundStep_downleft (t : Tile) (a : Around) (n : Tile) :
    (aroundStep t a n).downleft = if atOffset t n (-1) 1 then some n else a.downleft := by
  unfold aroundStep atOffset
  rfl

theorem fold_aroundStep_keepThese (t : Tile) (ns : List Tile) (a : Around)
    (h : ∀ n ∈ ns, ¬ (n.x = t.x ∧ n.y = t.y)) :
    (ns.foldl (aroundStep t) a).keepThese = a.keepThese := by
  induction ns generalizing a with
  | nil => rfl
  | cons n rest ih =>
    rw [List.foldl_cons, ih _ (fun k hk => h k (List.mem_cons_of_mem _ hk))]
    unfold aroundStep
    simp only []
    rw [if_neg (h n (List.mem_cons_self _ _))]

theorem mem_pushIf (cond : Bool) (o : Option Tile) (n : Tile) :
    n ∈ pushIf cond o ↔ o = some n ∧ cond = true := by
  unfold pushIf
  cases o with
  | none => simp
  | some k =>
    cases cond <;> simp [eq_comm]

/-- Membership in the result of `pruneDiagonalIfCardinalExist`, in terms of the
tiles found at the eight offsets. -/
theorem mem_prune_iff_lastAt (t : Tile) (ns : List Tile) (n : Tile) :
    n ∈ pruneDiagonalIfCardinalExist t ns ↔
      n ∈ (ns.foldl (aroundStep t) Around.init).keepThese ∨
      lastAt t 0 (-1) none ns = some n ∨ lastAt t 1 0 none ns = some n ∨
      lastAt t 0 1 none ns = some n ∨ lastAt t (-1) 0 none ns = some n ∨
      (lastAt t (-1) (-1) none ns = some n ∧ lastAt t (-1) 0 none ns = none ∧
        lastAt t 0 (-1) none ns = none) ∨
      (lastAt t 1 (-1) none ns = some n ∧ lastAt t 0 (-1) none ns = none ∧
        lastAt t 1 0 none ns = none) ∨
      (lastAt t 1 1 none ns = some n ∧ lastAt t 1 0 none ns = none ∧
        lastAt t 0 1 none ns = none) ∨
      (lastAt t (-1) 1 none ns = some n ∧ lastAt t 0 1 none ns = none ∧
        lastAt t (-1) 0 none ns = none) := by
  unfold pruneDiagonalIfCardinalExist
  simp only [List.mem_append, mem_pushIf, Bool.and_eq_true, Option.isNone_iff_eq_none, and_true,
    or_assoc]
  rw [fold_aroundStep_field t Around.up 0 (-1) (aroundStep_up t),
    fold_aroundStep_field t Around.right 1 0 (aroundStep_right t),
    fold_aroundStep_field t Around.down 0 1 (aroundStep_down t),
    fold_aroundStep_field t Around.left (-1) 0 (aroundStep_left t),
    fold_aroundStep_field t Around.leftup (-1) (-1) (aroundStep_leftup t),
    fold_aroundStep_field t Around.upright 1 (-1) (aroundStep_upright t),
    fold_aroundStep_field t Around.rightdown 1 1 (aroundStep_rightdown t),
    fold_aroundStep_field t Around.downleft (-1) 1 (aroundStep_downleft t)]
  rfl

theorem mem_of_mem_prune (t : Tile) (ns : List Tile) (n : Tile)
    (h : n ∈ pruneDiagonalIfCardinalExist t ns) : n ∈ ns := by
  have hk : ∀ (l : List Tile) (a : Around), (∀ k ∈ a.keepThese, k ∈ ns) → (∀ k ∈ l, k ∈ ns) →
      ∀ k ∈ (l.foldl (aroundStep t) a).keepThese, k ∈ ns := by
    intro l
    induction l with
    | nil => intro a ha _ k hk; exact ha k hk
    | cons b rest ih =>
      intro a ha hl k hk
      rw [List.foldl_cons] at hk
      refine ih _ ?_ (fun k hk => hl k (List.mem_cons_of_mem _ hk)) k hk
      intro k hk
      unfold aroundStep at hk
      simp only [] at hk
      split at hk
      · rcases List.mem_append.1 hk with h1 | h1
        · exact ha k h1
        · rw [List.mem_singleton] at h1
          rw [h1]; exact hl b (List.mem_cons_self _ _)
      · exact ha k hk
  have hsome : ∀ dx dy, lastAt t dx dy none ns = some n → n ∈ ns := by
    intro dx dy h
    rcases lastAt_eq_some _ _ _ _ _ _ h with h | h
    · cases h
    · exact h.1
  rw [mem_prune_iff_lastAt] at h
  rcases h with h | h | h | h | h | h | h | h | h
  · exact hk ns Around.init (by simp [Around.init]) (fun k hk => hk) n h
  · exact hsome _ _ h
  · exact hsome _ _ h
  · exact hsome _ _ h
  · exact hsome _ _ h
  · exact hsome _ _ h.1
  · exact hsome _ _ h.1
  · exact hsome _ _ h.1
  · exact hsome _ _ h.1

theorem lastAt_some_iff (t : Tile) (dx dy : Int) (ns : List Tile)
    (hd : (ns.map (fun n => (n.x, n.y))).Nodup) (n : Tile) :
    lastAt t dx dy none ns = some n ↔ n ∈ ns ∧ atOffset t n dx dy := by
  constructor
  · intro h
    rcases lastAt_eq_some _ _ _ _ _ _ h with h | h
    · cases h
    · exact h
  · rintro ⟨h1, h2⟩
    exact lastAt_of_mem t dx dy ns hd none n h1 h2

theorem lastAt_none_iff (t : Tile) (dx dy : Int) (ns : List Tile) :
    lastAt t dx dy none ns = none ↔ ∀ n ∈ ns, ¬ atOffset t n dx dy := by
  rw [lastAt_eq_none]; simp

/-- What `pruneDiagonalIfCardinalExist` keeps of a list of tiles around `t`. -/
theorem mem_prune_iff (t : Tile) (ns : List Tile)
    (haround : ∀ n ∈ ns, sharesEdge t n ∨ sharesCornerOnly t n)
    (hdistinct : (ns.map (fun n => (n.x, n.y))).Nodup) (n : Tile) :
    n ∈ pruneDiagonalIfCardinalExist t ns ↔
      n ∈ ns ∧ (sharesEdge t n ∨
        (sharesCornerOnly t n ∧ ¬ ∃ c ∈ ns, sharesEdge t c ∧ sharesEdge c n)) := by
  have hcentre : ∀ k ∈ ns, ¬ (k.x = t.x ∧ k.y = t.y) := by
    intro k hk hc
    have := haround k hk
    unfold sharesEdge sharesCornerOnly at this
    omega
  rw [mem_prune_iff_lastAt, fold_aroundStep_keepThese t ns _ hcentre]
  simp only [lastAt_some_iff t _ _ ns hdistinct, lastAt_none_iff, Around.init,
    List.not_mem_nil, false_or]
  constructor
  · rintro (⟨h1, h2⟩ | ⟨h1, h2⟩ | ⟨h1, h2⟩ | ⟨h1, h2⟩ | ⟨⟨h1, h2⟩, h3, h4⟩ | ⟨⟨h1, h2⟩, h3, h4⟩ |
      ⟨⟨h1, h2⟩, h3, h4⟩ | ⟨⟨h1, h2⟩, h3, h4⟩)
    · refine ⟨h1, Or.inl ?_⟩
      unfold atOffset at h2; unfold sharesEdge; omega
    · refine ⟨h1, Or.inl ?_⟩
      unfold atOffset at h2; unfold sharesEdge; omega
    · refine ⟨h1, Or.inl ?_⟩
      unfold atOffset at h2; unfold sharesEdge; omega
    · refine ⟨h1, Or.inl ?_⟩
      unfold atOffset at h2; unfold sharesEdge; omega
    all_goals
      refine ⟨h1, Or.inr ⟨?_, ?_⟩⟩
      · unfold atOffset at h2; unfold sharesCornerOnly; omega
      · rintro ⟨c, hc, hc1, hc2⟩
        have h3' := h3 c hc
        have h4' := h4 c hc
        unfold atOffset at h2 h3' h4'
        unfold sharesEdge at hc1 hc2
        omega
  · rintro ⟨hn, hcase⟩
    rcases hcase with he | ⟨hcorner, hnone⟩
    · unfold sharesEdge at he
      unfold atOffset
      have e0 : ∀ z : Int, z + 0 = z := fun z => by omega
      rcases he with ⟨ex, ey | ey⟩ | ⟨ey, ex | ex⟩
      · exact Or.inl ⟨hn, by omega, by omega⟩
      · exact Or.inr (Or.inr (Or.inl ⟨hn, by omega, by omega⟩))
      · exact Or.inr (Or.inr (Or.inr (Or.inl ⟨hn, by omega, by omega⟩)))
      · exact Or.inr (Or.inl ⟨hn, by omega, by omega⟩)
    · have hno : ∀ c ∈ ns, ¬ (sharesEdge t c ∧ sharesEdge c n) := by
        intro c hc h
        exact hnone ⟨c, hc, h⟩
      unfold sharesCornerOnly at hcorner
      rcases hcorner with ⟨ex | ex, ey | ey⟩
      · refine Or.inr (Or.inr (Or.inr (Or.inr (Or.inl ⟨⟨hn, ?_⟩, ?_, ?_⟩))))
        · unfold atOffset; omega
        all_goals
          intro c hc hat
          apply hno c hc
          unfold atOffset at hat
          unfold sharesEdge
          omega
      · refine Or.inr (Or.inr (Or.inr (Or.inr (Or.inr (Or.inr (Or.inr ⟨⟨hn, ?_⟩, ?_, ?_⟩))))))
        · unfold atOffset; omega
        all_goals
          intro c hc hat
          apply hno c hc
          unfold atOffset at hat
          unfold sharesEdge
          omega
      · refine Or.inr (Or.inr (Or.inr (Or.inr (Or.inr (Or.inl ⟨⟨hn, ?_⟩, ?_, ?_⟩)))))
        · unfold atOffset; omega
        all_goals
          intro c hc hat
          apply hno c hc
          unfold atOffset at hat
          unfold sharesEdge
          omega
      · refine Or.inr (Or.inr (Or.inr (Or.inr (Or.inr (Or.inr (Or.inl ⟨⟨hn, ?_⟩, ?_, ?_⟩))))))
        · unfold atOffset; omega
        all_goals
          intro c hc hat
          apply hno c hc
          unfold atOffset at hat
          unfold sharesEdge
          omega

/-- C6: for a tile `t` and a list `ns` of tiles taken from the eight cells around
`t`, no two of them from the same cell, `pruneDiagonalIfCardinalExist(t, ns)`
contains exactly the tiles of `ns` that share an edge with `t` (up, right, down,
left) and the tiles of `ns` that share only a corner with `t` and for which no
tile of `ns` shares an edge with both `t` and them. -/
theorem pruneDiagonalIfCardinalExist_exact (t : Tile) (ns : List Tile)
    (haround : ∀ n ∈ ns, sharesEdge t n ∨ sharesCornerOnly t n)
    (hdistinct : (ns.map (fun n => (n.x, n.y))).Nodup) (n : Tile) :
    n ∈ pruneDiagonalIfCardinalExist t ns ↔
      n ∈ ns ∧ (sharesEdge t n ∨
        (sharesCornerOnly t n ∧ ¬ ∃ c ∈ ns, sharesEdge t c ∧ sharesEdge c n)) :=
  mem_prune_iff t ns haround hdistinct n

/-- C6 on the example of the source's doc comment: around tile 4 of a 3x3 block,
from the neighbours 0, 1, 3, 6 and 8 the tiles 1, 3 and 8 are kept. -/
theorem pruneDiagonalIfCardinalExist_exact_witness :
    (∀ n ∈ [tileOf true 0 3, tileOf true 1 3, tileOf true 3 3, tileOf true 6 3, tileOf true 8 3],
        sharesEdge (tileOf true 4 3) n ∨ sharesCornerOnly (tileOf true 4 3) n) ∧
      ([tileOf true 0 3, tileOf true 1 3, tileOf true 3 3, tileOf true 6 3, tileOf true 8 3].map
        (fun n => (n.x, n.y))).Nodup ∧
      (tileOf true 8 3 ∈ pruneDiagonalIfCardinalExist (tileOf true 4 3)
          [tileOf true 0 3, tileOf true 1 3, tileOf true 3 3, tileOf true 6 3, tileOf true 8 3] ↔
        tileOf true 8 3 ∈
            [tileOf true 0 3, tileOf true 1 3, tileOf true 3 3, tileOf true 6 3, tileOf true 8 3] ∧
          (sharesEdge (tileOf true 4 3) (tileOf true 8 3) ∨
            (sharesCornerOnly (tileOf true 4 3) (tileOf true 8 3) ∧
              ¬ ∃ c ∈ [tileOf true 0 3, tileOf true 1 3, tileOf true 3 3, tileOf true 6 3,
                  tileOf true 8 3],
                sharesEdge (tileOf true 4 3) c ∧ sharesEdge c (tileOf true 8 3)))) ∧
      pruneDiagonalIfCardinalExist (tileOf true 4 3)
          [tileOf true 0 3, tileOf true 1 3, tileOf true 3 3, tileOf true 6 3, tileOf true 8 3] =
        [tileOf true 1 3, tileOf true 3 3, tileOf true 8 3] :=
  ⟨by decide, by decide,
    pruneDiagonalIfCardinalExist_exact (tileOf true 4 3)
      [tileOf true 0 3, tileOf true 1 3, tileOf true 3 3, tileOf true 6 3, tileOf true 8 3]
      (by decide) (by decide) (tileOf true 8 3),
    by decide⟩

/-! ## `optimizePaths` -/

theorem Result.bind_eq_ok {α β : Type} (r : Result α) (f : α → Result β) (b : β) :
    r.bind f = .ok b ↔ ∃ a, r = .ok a ∧ f a = .ok b := by
  cases r <;> simp [Result.bind]

theorem hasNoopDetour_short (m : Map) (p : Path) (h : p.length < 3) : hasNoopDetour m p = false := by
  match p with
  | [] => rfl
  | [_] => rfl
  | [_, _] => rfl
  | _ :: _ :: _ :: _ => exact absurd h (by simp)

theorem cutsCorner_short (m : Map) (p : Path) (h : p.length < 2) : cutsCorner m p = false := by
  match p with
  | [] => rfl
  | [_] => rfl
  | _ :: _ :: _ => exact absurd h (by simp)

theorem dropNoopDetours_eq_filter (m : Map) (ps : List Path) :
    dropNoopDetours m ps = ps.filter (fun p => decide (p ≠ []) && !hasNoopDetour m p) := by
  induction ps with
  | nil => rfl
  | cons p rest ih =>
    unfold dropNoopDetours
    rw [ih, List.filter_cons]
    by_cases h0 : p.length = 0
    · have : p = [] := List.length_eq_zero.1 h0
      simp [this]
    · have hne : p ≠ [] := fun h => h0 (by rw [h]; rfl)
      rw [if_neg h0]
      by_cases h3 : p.length < 3
      · rw [if_pos h3]
        simp [hne, hasNoopDetour_short m p h3]
      · rw [if_neg h3]
        cases hd : hasNoopDetour m p <;> simp [hne]

theorem dropCornerCuts_eq_filter (m : Map) (ps : List Path) :
    dropCornerCuts m ps = ps.filter (fun p => !cutsCorner m p) := by
  induction ps with
  | nil => rfl
  | cons p rest ih =>
    unfold dropCornerCuts
    rw [ih, List.filter_cons]
    by_cases h2 : p.length < 2
    · rw [if_pos h2]
      simp [cutsCorner_short m p h2]
    · rw [if_neg h2]
      cases hd : cutsCorner m p <;> simp

theorem dropDiagonalDiagonals_sublist (m : Map) (ps r : List Path)
    (h : dropDiagonalDiagonals m ps = .ok r) : r.Sublist ps := by
  induction ps generalizing r with
  | nil =>
    unfold dropDiagonalDiagonals at h
    cases h
    exact List.Sublist.refl _
  | cons p rest ih =>
    unfold dropDiagonalDiagonals at h
    split at h
    · rw [Result.bind_eq_ok] at h
      obtain ⟨r', h1, h2⟩ := h
      cases h2
      exact (ih r' h1).cons₂ _
    · rw [Result.bind_eq_ok] at h
      obtain ⟨drop, _, h2⟩ := h
      split at h2
      · exact (ih r h2).cons _
      · rw [Result.bind_eq_ok] at h2
        obtain ⟨r', h1, h3⟩ := h2
        cases h3
        exact (ih r' h1).cons₂ _

theorem dropDiagonalDiagonals_total (m : Map) (ps : List Path)
    (h : ∀ p ∈ ps, ∃ b, hasDiagonalDiagonal m p = .ok b) :
    ∃ r, dropDiagonalDiagonals m ps = .ok r := by
  induction ps with
  | nil => exact ⟨[], rfl⟩
  | cons p rest ih =>
    obtain ⟨r, hr⟩ := ih (fun q hq => h q (List.mem_cons_of_mem _ hq))
    obtain ⟨b, hb⟩ := h p (List.mem_cons_self _ _)
    unfold dropDiagonalDiagonals
    split
    · exact ⟨p :: r, by rw [hr]; rfl⟩
    · rw [hb]
      cases b
      · exact ⟨p :: r, by simp [Result.bind, hr]⟩
      · exact ⟨r, by simp [Result.bind, hr]⟩

theorem Map.tileAt_of_lt (m : Map) (index : Int) (h0 : 0 ≤ index)
    (h1 : index < (m.mapTiles.length : Int)) : ∃ t, m.tileAt index = some t := by
  unfold Map.tileAt
  rw [if_pos h0]
  have : index.toNat < m.mapTiles.length := by omega
  exact ⟨m.mapTiles[index.toNat], by rw [List.get?_eq_getElem?, List.getElem?_eq_getElem this]⟩

/-- On paths made of tiles of the grid the second rule never reads a tile that
does not exist. -/
theorem hasDiagonalDiagonal_total {m : Map} (g : m.IsGrid) (p : Path)
    (hp : ∀ t ∈ p, t ∈ m.mapTiles) : ∃ b, hasDiagonalDiagonal m p = .ok b := by
  induction p with
  | nil => exact ⟨false, rfl⟩
  | cons t1 rest ih =>
    have ih' := ih (fun t ht => hp t (List.mem_cons_of_mem _ ht))
    match rest, ih', hp with
    | [], _, _ => exact ⟨false, rfl⟩
    | [_], _, _ => exact ⟨false, rfl⟩
    | t2 :: t3 :: rest', ih', hp =>
      unfold hasDiagonalDiagonal
      split
      · rename_i hcond
        have h1 := g.coords (hp t1 (List.mem_cons_self _ _))
        have h3 := g.coords (hp t3 (by simp))
        obtain ⟨_, _, _, _, _, e1, i10, _, _⟩ := h1
        obtain ⟨_, _, _, _, _, e3, _, i31, _⟩ := h3
        have hidx : t3.tileIndex = t1.tileIndex + 2 := by
          rw [e1, e3, hcond.2.2.1, hcond.2.2.2]; ring
        obtain ⟨mid, hmid⟩ := m.tileAt_of_lt (t1.tileIndex + 1) (by omega) (by omega)
        rw [hmid]
        simp only []
        split
        · exact ⟨true, rfl⟩
        · exact ih'
      · exact ih'

theorem optimizePaths_total {m : Map} (g : m.IsGrid) (paths : List Path)
    (hp : ∀ p ∈ paths, ∀ t ∈ p, t ∈ m.mapTiles) : ∃ out, optimizePaths m paths = .ok out := by
  unfold optimizePaths
  obtain ⟨r, hr⟩ := dropDiagonalDiagonals_total m (dropNoopDetours m paths) (by
    intro p hpm
    rw [dropNoopDetours_eq_filter] at hpm
    exact hasDiagonalDiagonal_total g p (hp p (List.mem_filter.1 hpm).1))
  exact ⟨dropCornerCuts m r, by rw [hr]; rfl⟩

/-- What every path left by `optimizePaths` satisfies. -/
theorem optimizePaths_ok (m : Map) (paths out : List Path) (h : optimizePaths m paths = .ok out) :
    out.Sublist paths ∧
      ∀ p ∈ out, p ≠ [] ∧ hasNoopDetour m p = false ∧ cutsCorner m p = false := by
  unfold optimizePaths at h
  rw [Result.bind_eq_ok] at h
  obtain ⟨r, hr, hout⟩ := h
  cases hout
  have hs := dropDiagonalDiagonals_sublist m _ r hr
  rw [dropNoopDetours_eq_filter] at hs
  rw [dropCornerCuts_eq_filter]
  refine ⟨((List.filter_sublist _).trans hs).trans (List.filter_sublist _), ?_⟩
  intro p hpm
  obtain ⟨hpr, hcc⟩ := List.mem_filter.1 hpm
  have := List.mem_filter.1 (hs.subset hpr)
  obtain ⟨_, hcond⟩ := this
  simp only [Bool.and_eq_true, decide_eq_true_eq, Bool.not_eq_true'] at hcond
  refine ⟨hcond.1, hcond.2, ?_⟩
  simpa using hcc

theorem cutsCorner_false_get (m : Map) (p : Path) (h : cutsCorner m p = false) (j : Nat)
    (a b : Tile) (ha : p.get? j = some a) (hb : p.get? (j + 1) = some b) :
    b ∈ pruneDiagonalIfCardinalExist a (getAdjacentTiles m a true) := by
  induction p generalizing j with
  | nil => simp at ha
  | cons x rest ih =>
    match rest, ih, h, hb with
    | [], _, _, hb => simp at hb
    | y :: rest', ih, h, hb =>
      unfold cutsCorner at h
      rw [Bool.or_eq_false_iff] at h
      cases j with
      | zero =>
        simp only [List.get?_cons_zero, Option.some.injEq] at ha
        simp only [zero_add, List.get?_cons_succ, List.get?_cons_zero, Option.some.injEq] at hb
        subst ha hb
        simpa using h.1
      | succ j =>
        rw [List.get?_cons_succ] at ha hb
        exact ih h.2 j ha hb

theorem hasNoopDetour_false_get (m : Map) (p : Path) (h : hasNoopDetour m p = false) (j : Nat)
    (a c : Tile) (ha : p.get? j = some a) (hc : p.get? (j + 2) = some c) :
    ¬ (c ∈ getAdjacentTiles m a true ∧ areTilesCardinal m a c = true) := by
  induction p generalizing j with
  | nil => simp at ha
  | cons x rest ih =>
    match rest, ih, h, hc with
    | [], _, _, hc => simp at hc
    | [_], _, _, hc => simp at hc
    | y :: z :: rest', ih, h, hc =>
      unfold hasNoopDetour at h
      rw [Bool.or_eq_false_iff] at h
      cases j with
      | zero =>
        simp only [List.get?_cons_zero, Option.some.injEq] at ha
        simp only [zero_add, List.get?_cons_succ, List.get?_cons_zero, Option.some.injEq] at hc
        subst ha hc
        have := h.1
        simpa using this
      | succ j =>
        rw [List.get?_cons_succ] at ha hc
        exact ih h.2 j ha hc

/-! ## Geometry of the steps `optimizePaths` accepts -/

theorem adjacentPosition_arith {t n : Tile} {facingRight : Bool}
    (h : adjacentPosition t n facingRight) :
    (n.x = t.x ∧ (n.y = t.y - 1 ∨ n.y = t.y + 1)) ∨
      ((n.x = t.x + 1 ∨ n.x = t.x - 1) ∧ (n.y = t.y - 1 ∨ n.y = t.y ∨ n.y = t.y + 1)) := by
  unfold adjacentPosition atOffset at h
  rcases h with h | h | ⟨_, h | h | h⟩ | ⟨_, h | h | h⟩ <;> omega

theorem adjacentPosition_right_arith {t n : Tile} (h : adjacentPosition t n true) :
    (n.x = t.x ∧ (n.y = t.y - 1 ∨ n.y = t.y + 1)) ∨
      (n.x = t.x + 1 ∧ (n.y = t.y - 1 ∨ n.y = t.y ∨ n.y = t.y + 1)) := by
  unfold adjacentPosition atOffset at h
  rcases h with h | h | ⟨_, h | h | h⟩ | ⟨hf, _⟩
  · omega
  · omega
  · omega
  · omega
  · omega
  · cases hf

theorem adjacentPosition_right_of_arith {t n : Tile}
    (h : (n.x = t.x ∧ (n.y = t.y - 1 ∨ n.y = t.y + 1)) ∨
      (n.x = t.x + 1 ∧ (n.y = t.y - 1 ∨ n.y = t.y ∨ n.y = t.y + 1))) :
    adjacentPosition t n true := by
  unfold adjacentPosition atOffset
  rcases h with ⟨hx, hy | hy⟩ | ⟨hx, hy | hy | hy⟩
  · exact Or.inl ⟨by omega, by omega⟩
  · exact Or.inr (Or.inl ⟨by omega, by omega⟩)
  · exact Or.inr (Or.inr (Or.inl ⟨rfl, Or.inl ⟨by omega, by omega⟩⟩))
  · exact Or.inr (Or.inr (Or.inl ⟨rfl, Or.inr (Or.inl ⟨by omega, by omega⟩)⟩))
  · exact Or.inr (Or.inr (Or.inl ⟨rfl, Or.inr (Or.inr ⟨by omega, by omega⟩)⟩))

theorem adjacent_around {m : Map} (g : m.IsGrid) {a n : Tile} (ha : a ∈ m.mapTiles)
    {facingRight : Bool} (h : n ∈ getAdjacentTiles m a facingRight) :
    sharesEdge a n ∨ sharesCornerOnly a n := by
  obtain ⟨_, _, hpos⟩ := (mem_getAdjacentTiles_iff g ha facingRight n).1 h
  have := adjacentPosition_arith hpos
  unfold sharesEdge sharesCornerOnly
  omega

theorem adjacent_positions_nodup {m : Map} (g : m.IsGrid) (a : Tile) (facingRight : Bool) :
    ((getAdjacentTiles m a facingRight).map (fun n => (n.x, n.y))).Nodup := by
  apply List.Nodup.map_on _ (getAdjacentTiles_nodup g a facingRight)
  intro x hx y hy hxy
  simp only [Prod.mk.injEq] at hxy
  exact g.eq_of_coords (mem_getAdjacentTiles_mapTiles g hx).1 (mem_getAdjacentTiles_mapTiles g hy).1
    hxy.1 hxy.2

/-- A step to the right: the column stays or grows by one, the row moves by at
most one, and the tile reached is another walkable tile of the grid. -/
theorem right_step {m : Map} (g : m.IsGrid) {a b : Tile} (ha : a ∈ m.mapTiles)
    (h : b ∈ getAdjacentTiles m a true) :
    b ∈ m.mapTiles ∧ b.isWalkable = true ∧ (b.x = a.x ∨ b.x = a.x + 1) ∧
      (b.y = a.y - 1 ∨ b.y = a.y ∨ b.y = a.y + 1) ∧ ¬ (b.x = a.x ∧ b.y = a.y) := by
  obtain ⟨hb, hw, hpos⟩ := (mem_getAdjacentTiles_iff g ha true b).1 h
  refine ⟨hb, hw, ?_⟩
  have := adjacentPosition_right_arith hpos
  omega

/-- No corner-cutting: a diagonal step kept by the pruning has no walkable tile on
either of the two cells that share an edge with both ends of the step. -/
theorem pruned_step_no_corner {m : Map} (g : m.IsGrid) {a b : Tile} (ha : a ∈ m.mapTiles)
    (h : b ∈ pruneDiagonalIfCardinalExist a (getAdjacentTiles m a true))
    (hcorner : sharesCornerOnly a b) :
    ¬ ∃ c ∈ m.mapTiles, c.isWalkable = true ∧ sharesEdge a c ∧ sharesEdge c b := by
  rw [mem_prune_iff a _ (fun n hn => adjacent_around g ha hn)
    (adjacent_positions_nodup g a true)] at h
  obtain ⟨hb, hcase⟩ := h
  obtain ⟨_, _, hbx, _, _⟩ := right_step g ha hb
  rintro ⟨c, hc, hcw, hac, hcb⟩
  rcases hcase with he | ⟨_, hnone⟩
  · unfold sharesEdge at he
    unfold sharesCornerOnly at hcorner
    omega
  · apply hnone
    refine ⟨c, ?_, hac, hcb⟩
    rw [mem_getAdjacentTiles_iff g ha true c]
    refine ⟨hc, hcw, ?_⟩
    apply adjacentPosition_right_of_arith
    unfold sharesEdge at hac hcb
    unfold sharesCornerOnly at hcorner
    omega

/-- Two steps to the right that end on a cell sharing an edge with the start:
the first rule of `optimizePaths` detects them. -/
theorem two_steps_edge {m : Map} (g : m.IsGrid) {a b c : Tile} (ha : a ∈ m.mapTiles)
    (hab : b ∈ getAdjacentTiles m a true) (hbc : c ∈ getAdjacentTiles m b true)
    (hedge : sharesEdge a c) :
    c ∈ getAdjacentTiles m a true ∧ areTilesCardinal m a c = true := by
  obtain ⟨hb, _, hbx, _, _⟩ := right_step g ha hab
  obtain ⟨hc, hcw, hcx, _, _⟩ := right_step g hb hbc
  have hpos : atOffset a c 0 (-1) ∨ atOffset a c 0 1 ∨ atOffset a c 1 0 := by
    unfold sharesEdge at hedge
    unfold atOffset
    omega
  constructor
  · rw [mem_getAdjacentTiles_iff g ha true c]
    refine ⟨hc, hcw, ?_⟩
    unfold adjacentPosition
    rcases hpos with h | h | h
    · exact Or.inl h
    · exact Or.inr (Or.inl h)
    · exact Or.inr (Or.inr (Or.inl ⟨rfl, Or.inr (Or.inl h)⟩))
  · unfold areTilesCardinal
    simp only [Bool.or_eq_true, decide_eq_true_eq]
    rcases hpos with h | h | h
    · have := g.index_of_atOffset ha hc _ _ h
      omega
    · have := g.index_of_atOffset ha hc _ _ h
      omega
    · have := g.index_of_atOffset ha hc _ _ h
      omega

theorem mem_of_get? {α : Type} {l : List α} {j : Nat} {a : α} (h : l.get? j = some a) : a ∈ l :=
  List.mem_iff_get?.2 ⟨j, h⟩

/-! ## Claims about `optimizePaths` -/

/-- C7: for a grid whose length is a multiple of its width and paths made of its
tiles, `optimizePaths` returns, and in every path it leaves each tile is followed
by one of the right-neighbours of that tile that survive
`pruneDiagonalIfCardinalExist`; in particular no step goes to a tile sharing only
a corner when a walkable tile shares an edge with both ends of the step. -/
theorem optimizePaths_steps_are_pruned_neighbours (cells : List Nat) (width : Nat)
    (hw : width ∣ cells.length) (paths : List Path)
    (hp : ∀ p ∈ paths, ∀ t ∈ p, t ∈ (Map.create cells width).mapTiles) :
    ∃ out, optimizePaths (Map.create cells width) paths = .ok out ∧
      ∀ p ∈ out, ∀ (j : Nat) (a b : Tile), p.get? j = some a → p.get? (j + 1) = some b →
        b ∈ pruneDiagonalIfCardinalExist a (getAdjacentTiles (Map.create cells width) a true) ∧
          (sharesCornerOnly a b →
            ¬ ∃ c ∈ (Map.create cells width).mapTiles,
              c.isWalkable = true ∧ sharesEdge a c ∧ sharesEdge c b) := by
  have g := Map.create_isGrid cells width hw
  obtain ⟨out, hout⟩ := optimizePaths_total g paths hp
  refine ⟨out, hout, ?_⟩
  obtain ⟨hsub, hall⟩ := optimizePaths_ok _ paths out hout
  intro p hpo j a b hja hjb
  have hstep := cutsCorner_false_get _ p (hall p hpo).2.2 j a b hja hjb
  have ha : a ∈ (Map.create cells width).mapTiles := hp p (hsub.subset hpo) a (mem_of_get? hja)
  exact ⟨hstep, fun hcorner => pruned_step_no_corner g ha hstep hcorner⟩

/-- C7 on `gridSquare`: of the paths 0,3 and 0,1,3 the diagonal one is dropped. -/
theorem optimizePaths_steps_are_pruned_neighbours_witness :
    2 ∣ [1, 1, 1, 1].length ∧
      (∀ p ∈ [[tileOf true 0 2, tileOf true 3 2], [tileOf true 0 2, tileOf true 1 2, tileOf true 3 2]],
        ∀ t ∈ p, t ∈ (Map.create [1, 1, 1, 1] 2).mapTiles) ∧
      (∃ out, optimizePaths (Map.create [1, 1, 1, 1] 2)
          [[tileOf true 0 2, tileOf true 3 2], [tileOf true 0 2, tileOf true 1 2, tileOf true 3 2]]
            = .ok out ∧
        ∀ p ∈ out, ∀ (j : Nat) (a b : Tile), p.get? j = some a → p.get? (j + 1) = some b →
          b ∈ pruneDiagonalIfCardinalExist a
              (getAdjacentTiles (Map.create [1, 1, 1, 1] 2) a true) ∧
            (sharesCornerOnly a b →
              ¬ ∃ c ∈ (Map.create [1, 1, 1, 1] 2).mapTiles,
                c.isWalkable = true ∧ sharesEdge a c ∧ sharesEdge c b)) ∧
      optimizePaths gridSquare
          [[tileOf true 0 2, tileOf true 3 2], [tileOf true 0 2, tileOf true 1 2, tileOf true 3 2]]
        = .ok [[tileOf true 0 2, tileOf true 1 2, tileOf true 3 2]] :=
  ⟨by decide, by decide,
    optimizePaths_steps_are_pruned_neighbours [1, 1, 1, 1] 2 (by decide)
      [[tileOf true 0 2, tileOf true 3 2], [tileOf true 0 2, tileOf true 1 2, tileOf true 3 2]]
      (by decide),
    by decide⟩

/-- C8: for a grid whose length is a multiple of its width and paths made of its
tiles, `optimizePaths` returns, and no path it leaves has a position `j` whose
tile shares an edge with the tile at position `j + 2`. -/
theorem optimizePaths_no_noop_detour (cells : List Nat) (width : Nat)
    (hw : width ∣ cells.length) (paths : List Path)
    (hp : ∀ p ∈ paths, ∀ t ∈ p, t ∈ (Map.create cells width).mapTiles) :
    ∃ out, optimizePaths (Map.create cells width) paths = .ok out ∧
      ∀ p ∈ out, ∀ (j : Nat) (a c : Tile), p.get? j = some a → p.get? (j + 2) = some c →
        ¬ sharesEdge a c := by
  have g := Map.create_isGrid cells width hw
  obtain ⟨out, hout⟩ := optimizePaths_total g paths hp
  refine ⟨out, hout, ?_⟩
  obtain ⟨hsub, hall⟩ := optimizePaths_ok _ paths out hout
  intro p hpo j a c hja hjc hedge
  obtain ⟨_, hnoop, hcut⟩ := hall p hpo
  have hlen : j + 2 < p.length := by
    rw [List.get?_eq_getElem?] at hjc
    exact (List.getElem?_eq_some_iff.1 hjc).1
  obtain ⟨b, hjb⟩ : ∃ b, p.get? (j + 1) = some b :=
    ⟨p[j + 1], by rw [List.get?_eq_getElem?, List.getElem?_eq_getElem (by omega)]⟩
  have ha : a ∈ (Map.create cells width).mapTiles := hp p (hsub.subset hpo) a (mem_of_get? hja)
  have hab := mem_of_mem_prune _ _ _ (cutsCorner_false_get _ p hcut j a b hja hjb)
  have hbc := mem_of_mem_prune _ _ _ (cutsCorner_false_get _ p hcut (j + 1) b c hjb hjc)
  exact hasNoopDetour_false_get _ p hnoop j a c hja hjc (two_steps_edge g ha hab hbc hedge)

/-- C8 on `gridTee`: the path 0,4,1,2 (down-right, up, right) is dropped, the
path 0,1,2 stays. -/
theorem optimizePaths_no_noop_detour_witness :
    3 ∣ [1, 1, 1, 0, 1, 0].length ∧
      (∀ p ∈ [[tileOf true 0 3, tileOf true 4 3, tileOf true 1 3, tileOf true 2 3],
          [tileOf true 0 3, tileOf true 1 3, tileOf true 2 3]],
        ∀ t ∈ p, t ∈ (Map.create [1, 1, 1, 0, 1, 0] 3).mapTiles) ∧
      (∃ out, optimizePaths (Map.create [1, 1, 1, 0, 1, 0] 3)
          [[tileOf true 0 3, tileOf true 4 3, tileOf true 1 3, tileOf true 2 3],
            [tileOf true 0 3, tileOf true 1 3, tileOf true 2 3]] = .ok out ∧
        ∀ p ∈ out, ∀ (j : Nat) (a c : Tile), p.get? j = some a → p.get? (j + 2) = some c →
          ¬ sharesEdge a c) ∧
      optimizePaths gridTee
          [[tileOf true 0 3, tileOf true 4 3, tileOf true 1 3, tileOf true 2 3],
            [tileOf true 0 3, tileOf true 1 3, tileOf true 2 3]]
        = .ok [[tileOf true 0 3, tileOf true 1 3, tileOf true 2 3]] :=
  ⟨by decide, by decide,
    optimizePaths_no_noop_detour [1, 1, 1, 0, 1, 0] 3 (by decide)
      [[tileOf true 0 3, tileOf true 4 3, tileOf true 1 3, tileOf true 2 3],
        [tileOf true 0 3, tileOf true 1 3, tileOf true 2 3]]
      (by decide),
    by decide⟩

/-- C9: for a grid whose length is a multiple of its width and paths made of its
tiles, `optimizePaths` returns, and the list it leaves is a subsequence of the
input list: the surviving paths are input paths, unchanged and in their original
order. -/
theorem optimizePaths_sublist (cells : List Nat) (width : Nat)
    (hw : width ∣ cells.length) (paths : List Path)
    (hp : ∀ p ∈ paths, ∀ t ∈ p, t ∈ (Map.create cells width).mapTiles) :
    ∃ out, optimizePaths (Map.create cells width) paths = .ok out ∧ out.Sublist paths := by
  obtain ⟨out, hout⟩ := optimizePaths_total (Map.create_isGrid cells width hw) paths hp
  exact ⟨out, hout, (optimizePaths_ok _ paths out hout).1⟩

/-- C9 on `gridTee`. -/
theorem optimizePaths_sublist_witness :
    3 ∣ [1, 1, 1, 0, 1, 0].length ∧
      (∀ p ∈ [[tileOf true 0 3, tileOf true 1 3, tileOf true 2 3],
          [tileOf true 0 3, tileOf true 4 3, tileOf true 1 3, tileOf true 2 3],
          [tileOf true 4 3, tileOf true 1 3]],
        ∀ t ∈ p, t ∈ (Map.create [1, 1, 1, 0, 1, 0] 3).mapTiles) ∧
      (∃ out, optimizePaths (Map.create [1, 1, 1, 0, 1, 0] 3)
          [[tileOf true 0 3, tileOf true 1 3, tileOf true 2 3],
            [tileOf true 0 3, tileOf true 4 3, tileOf true 1 3, tileOf true 2 3],
            [tileOf true 4 3, tileOf true 1 3]] = .ok out ∧
        out.Sublist
          [[tileOf true 0 3, tileOf true 1 3, tileOf true 2 3],
            [tileOf true 0 3, tileOf true 4 3, tileOf true 1 3, tileOf true 2 3],
            [tileOf true 4 3, tileOf true 1 3]]) ∧
      optimizePaths gridTee
          [[tileOf true 0 3, tileOf true 1 3, tileOf true 2 3],
            [tileOf true 0 3, tileOf true 4 3, tileOf true 1 3, tileOf true 2 3],
            [tileOf true 4 3, tileOf true 1 3]]
        = .ok [[tileOf true 0 3, tileOf true 1 3, tileOf true 2 3],
            [tileOf true 4 3, tileOf true 1 3]] :=
  ⟨by decide, by decide,
    optimizePaths_sublist [1, 1, 1, 0, 1, 0] 3 (by decide)
      [[tileOf true 0 3, tileOf true 1 3, tileOf true 2 3],
        [tileOf true 0 3, tileOf true 4 3, tileOf true 1 3, tileOf true 2 3],
        [tileOf true 4 3, tileOf true 1 3]]
      (by decide),
    by decide⟩

/-! ## `removeDuplicatePaths` only removes -/

theorem removeDuplicatesInner_subset (i : Nat) (steps j : Nat) (paths out : List Path)
    (h : removeDuplicatesInner i steps j paths = .ok out) : ∀ p ∈ out, p ∈ paths := by
  induction steps generalizing j paths with
  | zero => simp [removeDuplicatesInner] at h
  | succ steps ih =>
    unfold removeDuplicatesInner at h
    split at h
    · split at h
      · exact ih _ _ h
      · split at h
        · split at h
          · intro p hp
            exact (List.eraseIdx_sublist _ _).subset (ih _ _ h p hp)
          · exact ih _ _ h
        · cases h
    · cases h
      exact fun p hp => hp

theorem removeDuplicatesOuter_subset (steps i : Nat) (paths out : List Path)
    (h : removeDuplicatesOuter steps i paths = .ok out) : ∀ p ∈ out, p ∈ paths := by
  induction steps generalizing i paths with
  | zero => simp [removeDuplicatesOuter] at h
  | succ steps ih =>
    unfold removeDuplicatesOuter at h
    split at h
    · rw [Result.bind_eq_ok] at h
      obtain ⟨mid, h1, h2⟩ := h
      intro p hp
      exact removeDuplicatesInner_subset _ _ _ _ _ h1 p (ih _ _ h2 p hp)
    · cases h
      exact fun p hp => hp

theorem removeDuplicatePaths_subset (paths out : List Path)
    (h : removeDuplicatePaths paths = .ok out) : ∀ p ∈ out, p ∈ paths :=
  removeDuplicatesOuter_subset _ _ _ _ h

/-- The step bounds built into `removeDuplicatePaths` are never exhausted. -/
theorem removeDuplicatesInner_ne_outOfFuel (i : Nat) (steps j : Nat) (paths : List Path)
    (h : paths.length - j < steps) : removeDuplicatesInner i steps j paths ≠ .outOfFuel := by
  induction steps generalizing j paths with
  | zero => omega
  | succ steps ih =>
    unfold removeDuplicatesInner
    split
    · split
      · exact ih _ _ (by omega)
      · split
        · split
          · exact ih _ _ (by rw [List.length_eraseIdx]; split <;> omega)
          · exact ih _ _ (by omega)
        · simp
    · simp

theorem removeDuplicatesInner_length (i : Nat) (steps j : Nat) (paths out : List Path)
    (h : removeDuplicatesInner i steps j paths = .ok out) : out.length ≤ paths.length := by
  induction steps generalizing j paths with
  | zero => simp [removeDuplicatesInner] at h
  | succ steps ih =>
    unfold removeDuplicatesInner at h
    split at h
    · split at h
      · exact ih _ _ h
      · split at h
        · split at h
          · exact (ih _ _ h).trans (List.eraseIdx_sublist _ _).length_le
          · exact ih _ _ h
        · cases h
    · cases h
      exact Nat.le_refl _

theorem removeDuplicatesOuter_ne_outOfFuel (steps i : Nat) (paths : List Path)
    (h : paths.length - i < steps) : removeDuplicatesOuter steps i paths ≠ .outOfFuel := by
  induction steps generalizing i paths with
  | zero => omega
  | succ steps ih =>
    unfold removeDuplicatesOuter
    split
    · rcases hin : removeDuplicatesInner i (paths.length + 1) 0 paths with mid | _ | _
      · have hlen := removeDuplicatesInner_length _ _ _ _ _ hin
        exact ih _ _ (by omega)
      · simp [Result.bind]
      · exact absurd hin (removeDuplicatesInner_ne_outOfFuel _ _ _ _ (by omega))
    · simp

theorem removeDuplicatePaths_ne_outOfFuel (paths : List Path) :
    removeDuplicatePaths paths ≠ .outOfFuel :=
  removeDuplicatesOuter_ne_outOfFuel _ _ _ (by omega)

/-! ## The enumerator starts every path at its start tile -/

theorem head?_append_of_ne_nil {α : Type} (l r : List α) (h : l ≠ []) :
    (l ++ r).head? = l.head? := by
  cases l with
  | nil => exact absurd rfl h
  | cons a l => rfl

theorem mem_pushForks (seen : List Tile) (path : Path) (ns : List Tile) (forkList : List Fork)
    (f : Fork) (h : f ∈ pushForks seen path ns forkList) : f ∈ forkList ∨ f.path = path := by
  induction ns generalizing forkList with
  | nil => exact Or.inl h
  | cons n rest ih =>
    unfold pushForks at h
    split at h
    · exact ih _ h
    · rcases ih _ h with h1 | h1
      · rcases List.mem_cons.1 h1 with h2 | h2
        · right; rw [h2]
        · exact Or.inl h2
      · exact Or.inr h1

/-- Every path collected by the loops of `newAlgoGetPathsFrom` begins with a tile
satisfying `S`, provided the pending state does. -/
theorem newAlgoLoop_heads (S : Tile → Prop) (s : TileStates) (fuel : Nat) (stack seen : List Tile)
    (path : Path) (forkList : List Fork) (paths out : List Path)
    (h : newAlgoLoop s fuel stack seen path forkList paths = .ok out)
    (hpaths : ∀ p ∈ paths, ∀ t, p.head? = some t → S t)
    (hcur : ∀ t, (path ++ stack).head? = some t → S t)
    (hforks : ∀ f ∈ forkList, ∀ t, (f.path ++ [f.startTile]).head? = some t → S t) :
    ∀ p ∈ out, ∀ t, p.head? = some t → S t := by
  induction fuel generalizing stack seen path forkList paths with
  | zero => simp [newAlgoLoop] at h
  | succ fuel ih =>
    match stack, forkList, h, hcur, hforks with
    | next :: stack, forkList, h, hcur, hforks =>
      unfold newAlgoLoop at h
      simp only [] at h
      have hne : path ++ [next] ≠ [] := by simp
      have hpath : ∀ t, (path ++ [next]).head? = some t → S t := by
        intro t ht
        apply hcur t
        rw [← ht]
        cases path <;> rfl
      have hpath' : ∀ r t, ((path ++ [next]) ++ r).head? = some t → S t := by
        intro r t ht
        rw [head?_append_of_ne_nil _ _ hne] at ht
        exact hpath t ht
      split at h
      · refine ih _ _ _ _ _ h ?_ ?_ hforks
        · intro p hp
          rcases List.mem_append.1 hp with h1 | h1
          · exact hpaths p h1
          · rw [List.mem_singleton] at h1
            rw [h1]; exact hpath
        · exact hpath' []
      · split at h
        · cases h
        · split at h
          · exact ih _ _ _ _ _ h hpaths (hpath' _) hforks
          · refine ih _ _ _ _ _ h hpaths (hpath' _) ?_
            intro f hf
            rcases mem_pushForks _ _ _ _ _ hf with h1 | h1
            · exact hforks f h1
            · rw [h1]; exact hpath' _
    | [], fork :: forkList, h, hcur, hforks =>
      unfold newAlgoLoop at h
      exact ih _ _ _ _ _ h hpaths (hforks fork (List.mem_cons_self _ _))
        (fun f hf => hforks f (List.mem_cons_of_mem _ hf))
    | [], [], h, hcur, hforks =>
      unfold newAlgoLoop at h
      cases h
      exact hpaths

/-- What every path returned by `newAlgoGetPathsFrom` satisfies. -/
theorem newAlgoGetPathsFrom_ok (m : Map) (s : TileStates) (fuel : Nat) (startTile : Tile)
    (out : List Path) (h : newAlgoGetPathsFrom m s fuel startTile = .ok out) :
    ∀ p ∈ out, p.head? = some startTile ∧ hasNoopDetour m p = false ∧ cutsCorner m p = false := by
  unfold newAlgoGetPathsFrom at h
  rw [Result.bind_eq_ok] at h
  obtain ⟨raw, hraw, h⟩ := h
  rw [Result.bind_eq_ok] at h
  obtain ⟨opt, hopt, hdup⟩ := h
  have hheads := newAlgoLoop_heads (fun t => t = startTile) s fuel [] [] [] _ [] raw hraw
    (by simp) (by simp) (by
      intro f hf t ht
      rw [List.mem_singleton] at hf
      rw [hf] at ht
      simpa using ht.symm)
  obtain ⟨hsub, hall⟩ := optimizePaths_ok m raw opt hopt
  intro p hp
  have hpo := removeDuplicatePaths_subset opt out hdup p hp
  obtain ⟨hne, h1, h2⟩ := hall p hpo
  refine ⟨?_, h1, h2⟩
  cases p with
  | nil => exact absurd rfl hne
  | cons a rest =>
    have := hheads _ (hsub.subset hpo) a rfl
    rw [this]; rfl

theorem collectPaths_ok (m : Map) (s : TileStates) (fuel : Nat) (starts : List Tile)
    (paths out : List Path) (h : collectPaths m s fuel starts paths = .ok out) :
    ∀ p ∈ out, p ∈ paths ∨
      ∃ startTile ∈ starts, p.head? = some startTile ∧ hasNoopDetour m p = false ∧
        cutsCorner m p = false := by
  induction starts generalizing paths with
  | nil =>
    unfold collectPaths at h
    cases h
    exact fun p hp => Or.inl hp
  | cons tile rest ih =>
    unfold collectPaths at h
    rw [Result.bind_eq_ok] at h
    obtain ⟨found, hfound, h⟩ := h
    intro p hp
    rcases ih _ h p hp with h1 | ⟨st, hst, h1⟩
    · rcases List.mem_append.1 h1 with h2 | h2
      · exact Or.inl h2
      · exact Or.inr ⟨tile, List.mem_cons_self _ _, newAlgoGetPathsFrom_ok m s fuel tile found hfound p h2⟩
    · exact Or.inr ⟨st, List.mem_cons_of_mem _ hst, h1⟩

/-- The shape of the result of `computePaths`: the left-to-right paths followed by
their reversals, every left-to-right path starting at a left-endpoint and
passing the first and the third rule of `optimizePaths`. -/
theorem computePaths_ok (m : Map) (fuel : Nat) (c : Computed) (h : computePaths m fuel = .ok c) :
    ∃ ltr : List Path, c.paths = ltr ++ ltr.map List.reverse ∧
      ∀ p ∈ ltr, ∃ startTile ∈ leftEndpointsOf m, p.head? = some startTile ∧
        hasNoopDetour m p = false ∧ cutsCorner m p = false := by
  unfold computePaths at h
  rw [Result.bind_eq_ok] at h
  obtain ⟨s1, _, h⟩ := h
  rw [Result.bind_eq_ok] at h
  obtain ⟨s2, _, h⟩ := h
  rw [Result.bind_eq_ok] at h
  obtain ⟨ltr, hltr, h⟩ := h
  cases h
  refine ⟨ltr, rfl, ?_⟩
  intro p hp
  rcases collectPaths_ok m s2 fuel _ [] ltr hltr p hp with h1 | h1
  · cases h1
  · exact h1

/-! ## Consecutive tiles of the computed paths -/

theorem tiles_of_right_steps {m : Map} (g : m.IsGrid) (p : Path)
    (hhead : ∀ t, p.head? = some t → t ∈ m.mapTiles) (hcut : cutsCorner m p = false) :
    ∀ t ∈ p, t ∈ m.mapTiles := by
  induction p with
  | nil => intro t ht; cases ht
  | cons a rest ih =>
    have ha : a ∈ m.mapTiles := hhead a rfl
    match rest, ih, hcut with
    | [], _, _ =>
      intro t ht
      rw [List.mem_singleton] at ht
      rw [ht]; exact ha
    | b :: rest', ih, hcut =>
      unfold cutsCorner at hcut
      rw [Bool.or_eq_false_iff] at hcut
      have hb : b ∈ pruneDiagonalIfCardinalExist a (getAdjacentTiles m a true) := by
        simpa using hcut.1
      have hb' := (right_step g ha (mem_of_mem_prune _ _ _ hb)).1
      intro t ht
      rcases List.mem_cons.1 ht with h1 | h1
      · rw [h1]; exact ha
      · exact ih (fun t ht => by cases ht; exact hb') hcut.2 t h1

theorem gridAdjacent_symm {a b : Tile} (h : gridAdjacent a b) : gridAdjacent b a := by
  unfold gridAdjacent at *
  omega

theorem right_steps_adjacent {m : Map} (g : m.IsGrid) (p : Path)
    (hhead : ∀ t, p.head? = some t → t ∈ m.mapTiles) (hcut : cutsCorner m p = false)
    (j : Nat) (a b : Tile) (ha : p.get? j = some a) (hb : p.get? (j + 1) = some b) :
    gridAdjacent a b := by
  have hmem := tiles_of_right_steps g p hhead hcut a (mem_of_get? ha)
  have hstep := mem_of_mem_prune _ _ _ (cutsCorner_false_get m p hcut j a b ha hb)
  obtain ⟨_, _, hx, hy, hne⟩ := right_step g hmem hstep
  unfold gridAdjacent
  omega

theorem reverse_consecutive {α : Type} (p : List α) (j : Nat) (a b : α)
    (ha : p.reverse.get? j = some a) (hb : p.reverse.get? (j + 1) = some b) :
    ∃ i, p.get? i = some b ∧ p.get? (i + 1) = some a := by
  rw [List.get?_eq_getElem?] at ha hb
  have hlt : j + 1 < p.length := by
    have := (List.getElem?_eq_some_iff.1 hb).1
    simpa using this
  rw [List.getElem?_reverse (by omega)] at ha hb
  refine ⟨p.length - 1 - (j + 1), ?_, ?_⟩
  · rw [List.get?_eq_getElem?]; exact hb
  · rw [List.get?_eq_getElem?]
    have : p.length - 1 - (j + 1) + 1 = p.length - 1 - j := by omega
    rw [this]; exact ha

theorem leftEndpointsOf_subset (m : Map) (t : Tile) (h : t ∈ leftEndpointsOf m) :
    t ∈ m.mapTiles :=
  (List.mem_filter.1 h).1

/-- C10: for a grid whose length is a multiple of its width on which
`computePaths` completes, in every path of `this.paths` (left-to-right and
right-to-left alike) each tile and the tile after it are grid-adjacent: their
columns differ by at most one, their rows differ by at most one, and they are
not the same cell. -/
theorem computePaths_steps_gridAdjacent (cells : List Nat) (width : Nat)
    (hw : width ∣ cells.length) (fuel : Nat) (c : Computed)
    (h : computePaths (Map.create cells width) fuel = .ok c) :
    ∀ p ∈ c.paths, ∀ (j : Nat) (a b : Tile), p.get? j = some a → p.get? (j + 1) = some b →
      gridAdjacent a b := by
  have g := Map.create_isGrid cells width hw
  obtain ⟨ltr, hpaths, hltr⟩ := computePaths_ok _ fuel c h
  have key : ∀ p ∈ ltr, ∀ (j : Nat) (a b : Tile), p.get? j = some a → p.get? (j + 1) = some b →
      gridAdjacent a b := by
    intro p hp j a b ha hb
    obtain ⟨st, hst, hhead, _, hcut⟩ := hltr p hp
    refine right_steps_adjacent g p ?_ hcut j a b ha hb
    intro t ht
    rw [hhead] at ht
    cases ht
    exact leftEndpointsOf_subset _ _ hst
  intro p hp j a b ha hb
  rw [hpaths] at hp
  rcases List.mem_append.1 hp with h1 | h1
  · exact key p h1 j a b ha hb
  · obtain ⟨q, hq, rfl⟩ := List.mem_map.1 h1
    obtain ⟨i, hi1, hi2⟩ := reverse_consecutive q j a b ha hb
    exact gridAdjacent_symm (key q hq i b a hi1 hi2)

set_option maxRecDepth 100000 in
/-- C10 on `gridStep`: `computePaths` completes with the path 0,1,4,5 and its
reversal, and the step from tile 1 down to tile 4 is grid-adjacent. -/
theorem computePaths_steps_gridAdjacent_witness :
    3 ∣ [1, 1, 0, 0, 1, 1].length ∧
      computePaths (Map.create [1, 1, 0, 0, 1, 1] 3) 20 = .ok gridStepComputed ∧
      gridAdjacent (tileOf true 1 3) (tileOf true 4 3) :=
  ⟨by decide, by decide,
    computePaths_steps_gridAdjacent [1, 1, 0, 0, 1, 1] 3 (by decide) 20 gridStepComputed
      (by decide)
      [tileOf true 0 3, tileOf true 1 3, tileOf true 4 3, tileOf true 5 3] (by decide)
      1 (tileOf true 1 3) (tileOf true 4 3) (by decide) (by decide)⟩


/-! ## `arePathsEqual` -/

theorem sameTileIndices_iff (p q : Path) (h : p.length = q.length) :
    sameTileIndices p q = true ↔ p.map Tile.tileIndex = q.map Tile.tileIndex := by
  induction p generalizing q with
  | nil =>
    cases q with
    | nil => simp [sameTileIndices]
    | cons b q => simp at h
  | cons a p ih =>
    cases q with
    | nil => simp at h
    | cons b q =>
      have hlen : p.length = q.length := by simpa using h
      unfold sameTileIndices
      by_cases hab : a.tileIndex = b.tileIndex
      · simp [hab, ih q hlen]
      · simp [hab]

/-- `arePathsEqual` compares the sequences of tile indices. -/
theorem arePathsEqual_map_eq (p q : Path) :
    arePathsEqual p q = true ↔ p.map Tile.tileIndex = q.map Tile.tileIndex := by
  unfold arePathsEqual
  by_cases h : p.length = q.length
  · simp only [h, ne_eq, not_true_eq_false, if_false]
    exact sameTileIndices_iff p q h
  · simp only [ne_eq, h, not_false_eq_true, if_true]
    constructor
    · intro hf; cases hf
    · intro hm
      exfalso
      apply h
      have := congrArg List.length hm
      simpa using this

theorem map_eq_map_iff_get? {α β : Type} (f : α → β) (p q : List α) :
    p.map f = q.map f ↔
      p.length = q.length ∧
        ∀ (i : Nat) (a b : α), p.get? i = some a → q.get? i = some b → f a = f b := by
  induction p generalizing q with
  | nil =>
    cases q with
    | nil => simp
    | cons b q => simp
  | cons a p ih =>
    cases q with
    | nil => simp
    | cons b q =>
      simp only [List.map_cons, List.cons.injEq, ih q, List.length_cons, add_left_inj]
      constructor
      · rintro ⟨hab, hlen, hall⟩
        refine ⟨hlen, ?_⟩
        intro i x y hx hy
        cases i with
        | zero =>
          simp only [List.get?_cons_zero, Option.some.injEq] at hx hy
          subst hx hy
          exact hab
        | succ i =>
          rw [List.get?_cons_succ] at hx hy
          exact hall i x y hx hy
      · rintro ⟨hlen, hall⟩
        refine ⟨hall 0 a b rfl rfl, hlen, ?_⟩
        intro i x y hx hy
        exact hall (i + 1) x y (by rw [List.get?_cons_succ]; exact hx)
          (by rw [List.get?_cons_succ]; exact hy)

/-- C16: `arePathsEqual(p, q)` returns true if and only if the two paths have the
same length and at every position the two tiles have the same `tileIndex`. -/
theorem arePathsEqual_iff (p q : Path) :
    arePathsEqual p q = true ↔
      p.length = q.length ∧
        ∀ (i : Nat) (a b : Tile), p.get? i = some a → q.get? i = some b →
          a.tileIndex = b.tileIndex := by
  rw [arePathsEqual_map_eq]
  exact map_eq_map_iff_get? Tile.tileIndex p q

/-! ## More fuel never changes a finished run -/

theorem Result.FuelLe.refl {α : Type} (r : Result α) : Result.FuelLe r r := Or.inr rfl

theorem Result.FuelLe.eq_of_ne {α : Type} {r r' : Result α} (h : Result.FuelLe r r')
    (hne : r ≠ .outOfFuel) : r' = r := by
  rcases h with h | h
  · exact absurd h hne
  · exact h.symm

theorem Result.FuelLe.bind {α β : Type} {x x' : Result α} {f f' : α → Result β}
    (hx : Result.FuelLe x x') (hf : ∀ a, Result.FuelLe (f a) (f' a)) :
    Result.FuelLe (x.bind f) (x'.bind f') := by
  rcases hx with hx | hx
  · left; rw [hx]; rfl
  · subst hx
    cases x with
    | ok a => exact hf a
    | typeError => right; rfl
    | outOfFuel => left; rfl

theorem existsPathLoop_mono (m : Map) (s : TileStates) (fuel : Nat) (stack seen : List Tile)
    (path : Path) (forkList : List Fork) :
    Result.FuelLe (existsPathLoop m s fuel stack seen path forkList)
      (existsPathLoop m s (fuel + 1) stack seen path forkList) := by
  induction fuel generalizing stack seen path forkList with
  | zero => left; cases stack <;> rfl
  | succ fuel ih =>
    match stack, forkList with
    | next :: stack, forkList =>
      rw [existsPathLoop, existsPathLoop]
      simp only []
      split
      · exact Result.FuelLe.refl _
      · split
        · exact ih _ _ _ _
        · exact ih _ _ _ _
    | [], fork :: forkList =>
      rw [existsPathLoop, existsPathLoop]
      exact ih _ _ _ _
    | [], [] =>
      rw [existsPathLoop, existsPathLoop]
      exact Result.FuelLe.refl _

theorem Result.FuelLe.trans {α : Type} {a b c : Result α} (h1 : Result.FuelLe a b)
    (h2 : Result.FuelLe b c) : Result.FuelLe a c := by
  rcases h1 with h1 | h1
  · exact Or.inl h1
  · rw [h1]; exact h2

theorem newAlgoLoop_mono (s : TileStates) (fuel : Nat) (stack seen : List Tile)
    (path : Path) (forkList : List Fork) (paths : List Path) :
    Result.FuelLe (newAlgoLoop s fuel stack seen path forkList paths)
      (newAlgoLoop s (fuel + 1) stack seen path forkList paths) := by
  induction fuel generalizing stack seen path forkList paths with
  | zero => left; cases stack <;> rfl
  | succ fuel ih =>
    match stack, forkList with
    | next :: stack, forkList =>
      rw [newAlgoLoop, newAlgoLoop]
      simp only []
      split
      · exact ih _ _ _ _ _
      · split
        · exact Result.FuelLe.refl _
        · split
          · exact ih _ _ _ _ _
          · exact ih _ _ _ _ _
    | [], fork :: forkList =>
      rw [newAlgoLoop, newAlgoLoop]
      exact ih _ _ _ _ _
    | [], [] =>
      rw [newAlgoLoop, newAlgoLoop]
      exact Result.FuelLe.refl _

theorem filterReachable_mono (m : Map) (s : TileStates) (fuel : Nat) (tile : Tile)
    (keys : List Tile) :
    Result.FuelLe (filterReachable m s fuel tile keys) (filterReachable m s (fuel + 1) tile keys) := by
  induction keys with
  | nil => exact Result.FuelLe.refl _
  | cons key rest ih =>
    unfold filterReachable
    refine Result.FuelLe.bind (existsPathLoop_mono m s fuel _ _ _ _) ?_
    intro found
    exact Result.FuelLe.bind ih (fun r => Result.FuelLe.refl _)

theorem formLeftList_mono (m : Map) (s : TileStates) (fuel : Nat) (tile : Tile) :
    Result.FuelLe (formLeftList m s fuel tile) (formLeftList m s (fuel + 1) tile) := by
  unfold formLeftList
  simp only []
  refine Result.FuelLe.bind ?_ (fun r => Result.FuelLe.refl _)
  generalize (if (s.of tile).isRightEndpoint = true then [tile]
    else getAdjacentTiles m tile true) = rightKeys
  by_cases h : rightKeys.length ≥ 2
  · rw [if_pos h, if_pos h]
    exact filterReachable_mono m s fuel tile _
  · rw [if_neg h, if_neg h]
    exact Result.FuelLe.refl _

theorem formLeftLists_mono (m : Map) (fuel : Nat) (tiles : List Tile) (s : TileStates) :
    Result.FuelLe (formLeftLists m fuel tiles s) (formLeftLists m (fuel + 1) tiles s) := by
  induction tiles generalizing s with
  | nil => exact Result.FuelLe.refl _
  | cons tile rest ih =>
    unfold formLeftLists
    split
    · exact ih s
    · exact Result.FuelLe.bind (formLeftList_mono m s fuel tile) (fun l => ih _)

theorem newAlgoGetPathsFrom_mono (m : Map) (s : TileStates) (fuel : Nat) (startTile : Tile) :
    Result.FuelLe (newAlgoGetPathsFrom m s fuel startTile)
      (newAlgoGetPathsFrom m s (fuel + 1) startTile) := by
  unfold newAlgoGetPathsFrom
  exact Result.FuelLe.bind (newAlgoLoop_mono s fuel _ _ _ _ _) (fun r => Result.FuelLe.refl _)

theorem collectPaths_mono (m : Map) (s : TileStates) (fuel : Nat) (starts : List Tile)
    (paths : List Path) :
    Result.FuelLe (collectPaths m s fuel starts paths) (collectPaths m s (fuel + 1) starts paths) := by
  induction starts generalizing paths with
  | nil => exact Result.FuelLe.refl _
  | cons tile rest ih =>
    unfold collectPaths
    exact Result.FuelLe.bind (newAlgoGetPathsFrom_mono m s fuel tile) (fun found => ih _)

theorem computePaths_mono_succ (m : Map) (fuel : Nat) :
    Result.FuelLe (computePaths m fuel) (computePaths m (fuel + 1)) := by
  unfold computePaths
  refine Result.FuelLe.bind (formLeftLists_mono m fuel _ _) (fun s => ?_)
  refine Result.FuelLe.bind (Result.FuelLe.refl _) (fun s => ?_)
  exact Result.FuelLe.bind (collectPaths_mono m s fuel _ _) (fun paths => Result.FuelLe.refl _)

/-- A run of `computePaths` that ended (with a value or with a `TypeError`) ends
the same way with any larger fuel. -/
theorem computePaths_mono (m : Map) (fuel fuel' : Nat) (h : fuel ≤ fuel') :
    Result.FuelLe (computePaths m fuel) (computePaths m fuel') := by
  obtain ⟨k, rfl⟩ := Nat.exists_eq_add_of_le h
  induction k with
  | zero => exact Result.FuelLe.refl _
  | succ k ih =>
    exact (ih (Nat.le_add_right _ _)).trans (computePaths_mono_succ m (fuel + k))

theorem computePaths_of_le (m : Map) (fuel fuel' : Nat) (h : fuel ≤ fuel') (r : Result Computed)
    (hr : computePaths m fuel = r) (hne : r ≠ .outOfFuel) : computePaths m fuel' = r := by
  have := (computePaths_mono m fuel fuel' h).eq_of_ne (by rw [hr]; exact hne)
  rw [this, hr]

/-! ## The two halves of `this.paths` -/

/-- The paths `computePaths` leaves are the left-to-right paths followed by their
reversals. -/
theorem computePaths_halves (m : Map) (fuel : Nat) (c : Computed)
    (h : computePaths m fuel = .ok c) :
    ∃ ltr : List Path, c.paths = ltr ++ ltr.map List.reverse ∧ c.paths.length / 2 = ltr.length := by
  obtain ⟨ltr, h1, _⟩ := computePaths_ok m fuel c h
  refine ⟨ltr, h1, ?_⟩
  rw [h1, List.length_append, List.length_map]
  omega

theorem get?_append_map_reverse {α : Type} (ltr : List (List α)) (i : Nat) (p : List α)
    (hi : i < ltr.length) (hp : (ltr ++ ltr.map List.reverse).get? i = some p) :
    ltr.get? i = some p ∧ (ltr ++ ltr.map List.reverse).get? (i + ltr.length) = some p.reverse := by
  rw [List.get?_eq_getElem?] at hp
  rw [List.getElem?_append_left hi] at hp
  refine ⟨by rw [List.get?_eq_getElem?]; exact hp, ?_⟩
  rw [List.get?_eq_getElem?, List.getElem?_append_right (by omega)]
  rw [List.getElem?_map]
  have : i + ltr.length - ltr.length = i := by omega
  rw [this, hp]
  rfl

/-- C13: when `computePaths` completes, `this.paths` has even length `2n` and for
every `i < n` the path at index `i + n` is the reversed tile sequence of the path
at index `i`. -/
theorem computePaths_second_half_reversed (m : Map) (fuel : Nat) (c : Computed)
    (h : computePaths m fuel = .ok c) :
    c.paths.length % 2 = 0 ∧
      ∀ (i : Nat) (p : Path), i < c.paths.length / 2 → c.paths.get? i = some p →
        c.paths.get? (i + c.paths.length / 2) = some p.reverse := by
  obtain ⟨ltr, h1, h2⟩ := computePaths_halves m fuel c h
  constructor
  · rw [h1, List.length_append, List.length_map]
    omega
  · intro i p hi hp
    rw [h2] at hi ⊢
    rw [h1] at hp ⊢
    exact (get?_append_map_reverse ltr i p hi hp).2


/-- C13 on `gridStep`. -/
theorem computePaths_second_half_reversed_witness :
    computePaths gridStep 20 = .ok gridStepComputed ∧
      gridStepComputed.paths.length % 2 = 0 ∧
      gridStepComputed.paths.get? (0 + gridStepComputed.paths.length / 2) =
        some [tileOf true 0 3, tileOf true 1 3, tileOf true 4 3, tileOf true 5 3].reverse :=
  ⟨by decide,
    (computePaths_second_half_reversed gridStep 20 gridStepComputed (by decide)).1,
    (computePaths_second_half_reversed gridStep 20 gridStepComputed (by decide)).2 0
      [tileOf true 0 3, tileOf true 1 3, tileOf true 4 3, tileOf true 5 3] (by decide) (by decide)⟩

/-! ## The corridor -/


/-- C18: on the grid `[1,1,1,1,1]` of width 5 `computePaths` completes (seven
iterations of each loop suffice) and leaves exactly two paths: the tiles
0,1,2,3,4 at index 0 and the tiles 4,3,2,1,0 at index 1. -/
theorem computePaths_corridor (fuel : Nat) (h : 7 ≤ fuel) :
    ∃ c, computePaths (Map.create [1, 1, 1, 1, 1] 5) fuel = .ok c ∧
      c.paths =
        [[tileOf true 0 5, tileOf true 1 5, tileOf true 2 5, tileOf true 3 5, tileOf true 4 5],
          [tileOf true 4 5, tileOf true 3 5, tileOf true 2 5, tileOf true 1 5, tileOf true 0 5]] := by
  have h7 : computePaths (Map.create [1, 1, 1, 1, 1] 5) 7 = .ok gridCorridorComputed := by decide
  exact ⟨gridCorridorComputed,
    computePaths_of_le _ 7 fuel h _ h7 (by simp), rfl⟩

/-- C18 with fuel 7 and with fuel 100. -/
theorem computePaths_corridor_witness :
    7 ≤ 100 ∧
      ∃ c, computePaths (Map.create [1, 1, 1, 1, 1] 5) 100 = .ok c ∧
        c.paths =
          [[tileOf true 0 5, tileOf true 1 5, tileOf true 2 5, tileOf true 3 5, tileOf true 4 5],
            [tileOf true 4 5, tileOf true 3 5, tileOf true 2 5, tileOf true 1 5, tileOf true 0 5]] :=
  ⟨by decide, computePaths_corridor 100 (by decide)⟩

/-! ## Forming and pruning the left-lists leaves the endpoint flags alone -/

theorem SameFlags.same (s : TileStates) : SameFlags s s := fun _ => ⟨rfl, rfl⟩

theorem SameFlags.andThen {a b c : TileStates} (h1 : SameFlags a b) (h2 : SameFlags b c) :
    SameFlags a c := fun u => ⟨(h2 u).1.trans (h1 u).1, (h2 u).2.trans (h1 u).2⟩

theorem TileStates.of_setLeftList (s : TileStates) (t u : Tile) (l : LeftList) :
    (s.setLeftList t l).of u =
      if t.tileIndex.toNat = u.tileIndex.toNat ∧ t.tileIndex.toNat < s.length then
        { s.of t with leftList := l }
      else s.of u := by
  unfold TileStates.setLeftList TileStates.of
  rw [List.getD_eq_getElem?_getD, List.getElem?_set]
  by_cases h : t.tileIndex.toNat = u.tileIndex.toNat
  · rw [if_pos h]
    by_cases hlt : t.tileIndex.toNat < s.length
    · rw [if_pos hlt, if_pos ⟨h, hlt⟩]
      rfl
    · rw [if_neg hlt, if_neg (fun hc => hlt hc.2)]
      rw [List.getD_eq_getElem?_getD, ← h, List.getElem?_eq_none (by omega)]
  · rw [if_neg h, if_neg (fun hc => h hc.1)]
    rw [List.getD_eq_getElem?_getD]

theorem sameFlags_setLeftList (s : TileStates) (t : Tile) (l : LeftList) :
    SameFlags s (s.setLeftList t l) := by
  intro u
  rw [TileStates.of_setLeftList]
  split
  · rename_i h
    have : s.of t = s.of u := by
      unfold TileStates.of
      rw [h.1]
    rw [← this]
    exact ⟨rfl, rfl⟩
  · exact ⟨rfl, rfl⟩

theorem sameFlags_deleteFromRemoved (tile : Tile) (removed : List Tile) (s : TileStates) :
    SameFlags s (deleteFromRemoved tile removed s) := by
  induction removed generalizing s with
  | nil => exact SameFlags.same s
  | cons r rest ih =>
    unfold deleteFromRemoved
    exact (sameFlags_setLeftList s r _).andThen (ih _)

theorem sameFlags_pruneEntry (m : Map) (s s' : TileStates) (tile : Tile) (tileIndex : Int)
    (h : pruneEntry m s tile tileIndex = .ok s') : SameFlags s s' := by
  unfold pruneEntry at h
  split at h
  · cases h; exact SameFlags.same _
  · simp only [] at h
    rw [Result.bind_eq_ok] at h
    obtain ⟨r1, _, h⟩ := h
    rw [Result.bind_eq_ok] at h
    obtain ⟨rn, _, h⟩ := h
    have hmid : SameFlags s (if (pruneDiagonalIfCardinalExist tile rn).length ≠ rn.length then
        deleteFromRemoved tile
          (rn.filter (fun x => !tileIndexFound x (pruneDiagonalIfCardinalExist tile rn))) s
        else s) := by
      split
      · exact sameFlags_deleteFromRemoved _ _ _
      · exact SameFlags.same s
    split at h
    · cases h
      exact hmid.andThen (sameFlags_setLeftList _ _ _)
    · cases h
      exact hmid.andThen (sameFlags_setLeftList _ _ _)

theorem sameFlags_pruneTile (m : Map) (tile : Tile) (keys : List Int) (s s' : TileStates)
    (h : pruneTile m tile keys s = .ok s') : SameFlags s s' := by
  induction keys generalizing s with
  | nil =>
    unfold pruneTile at h
    cases h; exact SameFlags.same _
  | cons k rest ih =>
    unfold pruneTile at h
    rw [Result.bind_eq_ok] at h
    obtain ⟨s1, h1, h2⟩ := h
    exact (sameFlags_pruneEntry m s s1 tile k h1).andThen (ih s1 h2)

theorem sameFlags_pruneLeftLists (m : Map) (tiles : List Tile) (s s' : TileStates)
    (h : pruneLeftLists m tiles s = .ok s') : SameFlags s s' := by
  induction tiles generalizing s with
  | nil =>
    unfold pruneLeftLists at h
    cases h; exact SameFlags.same _
  | cons t rest ih =>
    unfold pruneLeftLists at h
    rw [Result.bind_eq_ok] at h
    obtain ⟨s1, h1, h2⟩ := h
    exact (sameFlags_pruneTile m t _ s s1 h1).andThen (ih s1 h2)

theorem sameFlags_formLeftLists (m : Map) (fuel : Nat) (tiles : List Tile) (s s' : TileStates)
    (h : formLeftLists m fuel tiles s = .ok s') : SameFlags s s' := by
  induction tiles generalizing s with
  | nil =>
    unfold formLeftLists at h
    cases h; exact SameFlags.same _
  | cons t rest ih =>
    unfold formLeftLists at h
    split at h
    · exact ih s h
    · rw [Result.bind_eq_ok] at h
      obtain ⟨l, _, h2⟩ := h
      exact (sameFlags_setLeftList s t l).andThen (ih _ h2)

/-- Every path collected by the loops of `newAlgoGetPathsFrom` ends on a tile whose
`isRightEndpoint` is set. -/
theorem newAlgoLoop_lasts (s : TileStates) (fuel : Nat) (stack seen : List Tile)
    (path : Path) (forkList : List Fork) (paths out : List Path)
    (h : newAlgoLoop s fuel stack seen path forkList paths = .ok out)
    (hpaths : ∀ p ∈ paths, ∃ t, p.getLast? = some t ∧ (s.of t).isRightEndpoint = true) :
    ∀ p ∈ out, ∃ t, p.getLast? = some t ∧ (s.of t).isRightEndpoint = true := by
  induction fuel generalizing stack seen path forkList paths with
  | zero => simp [newAlgoLoop] at h
  | succ fuel ih =>
    match stack, forkList, h with
    | next :: stack, forkList, h =>
      unfold newAlgoLoop at h
      simp only [] at h
      split at h
      · rename_i hre
        refine ih _ _ _ _ _ h ?_
        intro p hp
        rcases List.mem_append.1 hp with h1 | h1
        · exact hpaths p h1
        · rw [List.mem_singleton] at h1
          exact ⟨next, by rw [h1]; simp, hre⟩
      · split at h
        · cases h
        · split at h
          · exact ih _ _ _ _ _ h hpaths
          · exact ih _ _ _ _ _ h hpaths
    | [], fork :: forkList, h =>
      unfold newAlgoLoop at h
      exact ih _ _ _ _ _ h hpaths
    | [], [], h =>
      unfold newAlgoLoop at h
      cases h
      exact hpaths

/-! ## The phases of `computePaths` -/

theorem newAlgoGetPathsFrom_phases (m : Map) (s : TileStates) (fuel : Nat) (startTile : Tile)
    (found : List Path) (h : newAlgoGetPathsFrom m s fuel startTile = .ok found) :
    ∃ raw opt, newAlgoLoop s fuel [] [] []
        [{ startTile := startTile, seen := [startTile], path := [] }] [] = .ok raw ∧
      optimizePaths m raw = .ok opt ∧ removeDuplicatePaths opt = .ok found := by
  unfold newAlgoGetPathsFrom at h
  rw [Result.bind_eq_ok] at h
  obtain ⟨raw, hraw, h⟩ := h
  rw [Result.bind_eq_ok] at h
  obtain ⟨opt, hopt, hdup⟩ := h
  exact ⟨raw, opt, hraw, hopt, hdup⟩

/-- The paths collected over the start tiles are the paths found from each start
tile, one batch after the other. -/
theorem collectPaths_batches (m : Map) (s : TileStates) (fuel : Nat) (starts : List Tile)
    (paths out : List Path) (h : collectPaths m s fuel starts paths = .ok out) :
    ∃ batches : List (List Path),
      List.Forall₂ (fun start found => newAlgoGetPathsFrom m s fuel start = .ok found)
        starts batches ∧ out = paths ++ batches.flatten := by
  induction starts generalizing paths with
  | nil =>
    unfold collectPaths at h
    cases h
    exact ⟨[], List.Forall₂.nil, by simp⟩
  | cons tile rest ih =>
    unfold collectPaths at h
    rw [Result.bind_eq_ok] at h
    obtain ⟨found, hfound, h⟩ := h
    obtain ⟨batches, hb, hout⟩ := ih _ h
    exact ⟨found :: batches, List.Forall₂.cons hfound hb, by rw [hout]; simp⟩

theorem computePaths_phases (m : Map) (fuel : Nat) (c : Computed)
    (h : computePaths m fuel = .ok c) :
    ∃ (s1 : TileStates) (batches : List (List Path)),
      formLeftLists m fuel m.mapTiles (classifyEndpoints m) = .ok s1 ∧
      pruneLeftLists m m.mapTiles s1 = .ok c.tiles ∧
      List.Forall₂ (fun start found => newAlgoGetPathsFrom m c.tiles fuel start = .ok found)
        (leftEndpointsOf m) batches ∧
      c.paths = batches.flatten ++ batches.flatten.map List.reverse := by
  unfold computePaths at h
  rw [Result.bind_eq_ok] at h
  obtain ⟨s1, hs1, h⟩ := h
  rw [Result.bind_eq_ok] at h
  obtain ⟨s2, hs2, h⟩ := h
  rw [Result.bind_eq_ok] at h
  obtain ⟨ltr, hltr, h⟩ := h
  cases h
  obtain ⟨batches, hb, hout⟩ := collectPaths_batches m s2 fuel _ [] ltr hltr
  refine ⟨s1, batches, hs1, hs2, hb, ?_⟩
  simp only [List.nil_append] at hout
  rw [hout]

theorem forall₂_mem_right {α β : Type} {R : α → β → Prop} {l : List α} {r : List β}
    (h : List.Forall₂ R l r) (b : β) (hb : b ∈ r) : ∃ a ∈ l, R a b := by
  induction h with
  | nil => cases hb
  | cons hab _ ih =>
    rcases List.mem_cons.1 hb with h1 | h1
    · subst h1
      exact ⟨_, List.mem_cons_self _ _, hab⟩
    · obtain ⟨a, ha, hr⟩ := ih h1
      exact ⟨a, List.mem_cons_of_mem _ ha, hr⟩

/-- A path of the first half of `this.paths` is one of the left-to-right paths. -/
theorem first_half_mem {α : Type} (ltr : List (List α)) (i : Nat) (p : List α)
    (hi : i < (ltr ++ ltr.map List.reverse).length / 2)
    (hp : (ltr ++ ltr.map List.reverse).get? i = some p) : p ∈ ltr := by
  have hlen : (ltr ++ ltr.map List.reverse).length / 2 = ltr.length := by
    rw [List.length_append, List.length_map]; omega
  rw [hlen] at hi
  rw [List.get?_eq_getElem?, List.getElem?_append_left hi] at hp
  exact List.mem_iff_getElem?.2 ⟨i, hp⟩

theorem leftEndpointsOf_flag {m : Map} (g : m.IsGrid) {t : Tile} (h : t ∈ leftEndpointsOf m) :
    ((classifyEndpoints m).of t).isLeftEndpoint = true := by
  obtain ⟨hmem, hcond⟩ := List.mem_filter.1 h
  rw [Bool.and_eq_true] at hcond
  rw [classifyEndpoints_of g hmem]
  unfold classifyTile
  simp [hcond.1, hcond.2]

/-- C12: for a grid whose length is a multiple of its width on which
`computePaths` completes, every path of the first (left-to-right) half of
`this.paths` is non-empty, begins with a tile whose `isLeftEndpoint` is set and
ends with a tile whose `isRightEndpoint` is set. -/
theorem computePaths_first_half_ends (cells : List Nat) (width : Nat)
    (hw : width ∣ cells.length) (fuel : Nat) (c : Computed)
    (h : computePaths (Map.create cells width) fuel = .ok c) :
    ∀ (i : Nat) (p : Path), i < c.paths.length / 2 → c.paths.get? i = some p →
      p ≠ [] ∧ ∃ first last, p.head? = some first ∧ p.getLast? = some last ∧
        (c.tiles.of first).isLeftEndpoint = true ∧ (c.tiles.of last).isRightEndpoint = true := by
  have g := Map.create_isGrid cells width hw
  obtain ⟨s1, batches, hs1, hs2, hb, hpaths⟩ := computePaths_phases _ fuel c h
  intro i p hi hp
  rw [hpaths] at hi hp
  have hmem := first_half_mem _ i p hi hp
  obtain ⟨found, hfound, hpf⟩ := List.mem_flatten.1 hmem
  obtain ⟨start, hstart, hrun⟩ := forall₂_mem_right hb found hfound
  obtain ⟨hhead, _, _⟩ := newAlgoGetPathsFrom_ok _ _ fuel start found hrun p hpf
  obtain ⟨raw, opt, hraw, hopt, hdup⟩ := newAlgoGetPathsFrom_phases _ _ fuel start found hrun
  have hpo := removeDuplicatePaths_subset opt found hdup p hpf
  obtain ⟨hsub, hall⟩ := optimizePaths_ok _ raw opt hopt
  obtain ⟨last, hlast, hre⟩ :=
    newAlgoLoop_lasts c.tiles fuel [] [] [] _ [] raw hraw (by simp) p (hsub.subset hpo)
  refine ⟨(hall p hpo).1, start, last, hhead, hlast, ?_, hre⟩
  have hflags := (sameFlags_formLeftLists _ fuel _ _ s1 hs1).andThen
    (sameFlags_pruneLeftLists _ _ s1 c.tiles hs2)
  rw [(hflags start).1]
  exact leftEndpointsOf_flag g hstart

/-- C12 on `gridStep`: the path 0,1,4,5 begins on the left-endpoint 0 and ends on
the right-endpoint 5. -/
theorem computePaths_first_half_ends_witness :
    3 ∣ [1, 1, 0, 0, 1, 1].length ∧
      computePaths (Map.create [1, 1, 0, 0, 1, 1] 3) 20 = .ok gridStepComputed ∧
      0 < gridStepComputed.paths.length / 2 ∧
      gridStepComputed.paths.get? 0 =
        some [tileOf true 0 3, tileOf true 1 3, tileOf true 4 3, tileOf true 5 3] ∧
      ([tileOf true 0 3, tileOf true 1 3, tileOf true 4 3, tileOf true 5 3] ≠ [] ∧
        ∃ first last,
          [tileOf true 0 3, tileOf true 1 3, tileOf true 4 3, tileOf true 5 3].head? = some first ∧
          [tileOf true 0 3, tileOf true 1 3, tileOf true 4 3, tileOf true 5 3].getLast? = some last ∧
          (gridStepComputed.tiles.of first).isLeftEndpoint = true ∧
          (gridStepComputed.tiles.of last).isRightEndpoint = true) :=
  ⟨by decide, by decide, by decide, by decide,
    computePaths_first_half_ends [1, 1, 0, 0, 1, 1] 3 (by decide) 20 gridStepComputed (by decide)
      0 [tileOf true 0 3, tileOf true 1 3, tileOf true 4 3, tileOf true 5 3] (by decide)
      (by decide)⟩

/-! ## `removeDuplicatePaths` keeps the first occurrences -/

theorem arePathsEqual_eq_false_iff (p q : Path) :
    arePathsEqual p q = false ↔ p.map Tile.tileIndex ≠ q.map Tile.tileIndex := by
  rw [ne_eq, ← arePathsEqual_map_eq]
  cases arePathsEqual p q <;> simp

theorem get?_append_cons_self {α : Type} (pre : List α) (x : α) (post : List α) :
    (pre ++ x :: post).get? pre.length = some x := by
  rw [List.get?_eq_getElem?, List.getElem?_append_right (Nat.le_refl _)]
  simp

theorem get?_append_of_lt {α : Type} (pre post : List α) (j : Nat) (h : j < pre.length) :
    ∃ q ∈ pre, (pre ++ post).get? j = some q := by
  refine ⟨pre[j], List.getElem_mem _, ?_⟩
  rw [List.get?_eq_getElem?, List.getElem?_append_left h, List.getElem?_eq_getElem h]

/-- The loop over `j` while `j <= i`: nothing before position `i` equals the path
at `i`, so nothing is spliced. -/
theorem removeDuplicatesInner_before (pre : List Path) (x : Path) (post : List Path)
    (hpre : ∀ q ∈ pre, x.map Tile.tileIndex ≠ q.map Tile.tileIndex) (steps d j : Nat)
    (hj : j + d = pre.length) :
    removeDuplicatesInner pre.length (steps + d + 1) j (pre ++ x :: post) =
      removeDuplicatesInner pre.length steps (pre.length + 1) (pre ++ x :: post) := by
  induction d generalizing j with
  | zero =>
    have hji : j = pre.length := by omega
    subst hji
    rw [Nat.add_zero]
    rw [removeDuplicatesInner]
    rw [if_pos (by simp), if_pos rfl]
  | succ d ih =>
    have hlt : j < pre.length := by omega
    have : steps + (d + 1) + 1 = (steps + d + 1) + 1 := by omega
    rw [this, removeDuplicatesInner]
    rw [if_pos (by simp; omega), if_neg (by omega)]
    obtain ⟨q, hq, hget⟩ := get?_append_of_lt pre (x :: post) j hlt
    rw [get?_append_cons_self, hget]
    simp only []
    rw [(arePathsEqual_eq_false_iff x q).2 (hpre q hq)]
    simp only [Bool.false_eq_true, if_false]
    exact ih (j + 1) (by omega)

/-- The loop over `j` once `j > i`: every later path equal to the path at `i` is
spliced out. -/
theorem removeDuplicatesInner_after (pre : List Path) (x : Path) (todo done : List Path)
    (steps : Nat) (hsteps : todo.length < steps) :
    removeDuplicatesInner pre.length steps (pre.length + 1 + done.length)
        (pre ++ x :: (done ++ todo)) =
      .ok (pre ++ x :: (done ++ todo.filter (fun q => !arePathsEqual x q))) := by
  induction todo generalizing done steps with
  | nil =>
    cases steps with
    | zero => omega
    | succ steps =>
      rw [removeDuplicatesInner, if_neg (by simp; omega)]
      simp
  | cons y todo ih =>
    cases steps with
    | zero => omega
    | succ steps =>
      have hlen : todo.length < steps := by simpa using hsteps
      rw [removeDuplicatesInner]
      rw [if_pos (by simp; omega), if_neg (by omega)]
      rw [get?_append_cons_self]
      have hgetj : (pre ++ x :: (done ++ y :: todo)).get? (pre.length + 1 + done.length) = some y := by
        have : pre ++ x :: (done ++ y :: todo) = (pre ++ x :: done) ++ y :: todo := by simp
        rw [this]
        have hl : (pre ++ x :: done).length = pre.length + 1 + done.length := by simp; omega
        rw [← hl]
        exact get?_append_cons_self _ _ _
      rw [hgetj]
      simp only []
      by_cases he : arePathsEqual x y = true
      · rw [if_pos he]
        have herase : (pre ++ x :: (done ++ y :: todo)).eraseIdx (pre.length + 1 + done.length) =
            pre ++ x :: (done ++ todo) := by
          have : pre ++ x :: (done ++ y :: todo) = (pre ++ x :: done) ++ y :: todo := by simp
          rw [this]
          have hl : (pre ++ x :: done).length = pre.length + 1 + done.length := by simp; omega
          rw [← hl, List.eraseIdx_append_of_length_le (Nat.le_refl _)]
          simp
        rw [herase, ih done steps hlen]
        simp [he]
      · rw [if_neg he]
        have hshape : pre ++ x :: (done ++ y :: todo) = pre ++ x :: ((done ++ [y]) ++ todo) := by simp
        have hidx : pre.length + 1 + done.length + 1 = pre.length + 1 + (done ++ [y]).length := by
          simp; omega
        rw [hshape, hidx, ih (done ++ [y]) steps hlen]
        have he' : arePathsEqual x y = false := by simpa using he
        simp [he']

/-- One full run of the loop over `j`: with nothing equal before position `i`, the
later paths equal to the path at `i` are removed and nothing else changes. -/
theorem removeDuplicatesInner_spec (pre : List Path) (x : Path) (post : List Path)
    (hpre : ∀ q ∈ pre, x.map Tile.tileIndex ≠ q.map Tile.tileIndex) :
    removeDuplicatesInner pre.length ((pre ++ x :: post).length + 1) 0 (pre ++ x :: post) =
      .ok (pre ++ x :: post.filter (fun q => !arePathsEqual x q)) := by
  have hsteps : (pre ++ x :: post).length + 1 = (post.length + 1) + pre.length + 1 := by
    simp; omega
  rw [hsteps, removeDuplicatesInner_before pre x post hpre (post.length + 1) pre.length 0 (by omega)]
  have := removeDuplicatesInner_after pre x post [] (post.length + 1) (by omega)
  simpa using this

theorem keepFirstOccurrences_congr (e1 e2 : List Path) (l : List Path)
    (h : ∀ z, z ∈ e1.map (List.map Tile.tileIndex) ↔ z ∈ e2.map (List.map Tile.tileIndex)) :
    keepFirstOccurrences e1 l = keepFirstOccurrences e2 l := by
  induction l generalizing e1 e2 with
  | nil => rfl
  | cons p rest ih =>
    unfold keepFirstOccurrences
    have hnext : ∀ z, z ∈ (e1 ++ [p]).map (List.map Tile.tileIndex) ↔
        z ∈ (e2 ++ [p]).map (List.map Tile.tileIndex) := by
      intro z
      simp only [List.map_append, List.mem_append, h z]
    rw [ih _ _ hnext]
    by_cases hp : p.map Tile.tileIndex ∈ e1.map (List.map Tile.tileIndex)
    · rw [if_pos hp, if_pos ((h _).1 hp)]
    · rw [if_neg hp, if_neg (fun hc => hp ((h _).2 hc))]

/-- Removing beforehand the paths equal to an earlier path changes nothing. -/
theorem keepFirstOccurrences_filter (x : Path) (l : List Path) (e : List Path)
    (hx : x.map Tile.tileIndex ∈ e.map (List.map Tile.tileIndex)) :
    keepFirstOccurrences e (l.filter (fun q => !arePathsEqual x q)) = keepFirstOccurrences e l := by
  induction l generalizing e with
  | nil => rfl
  | cons q rest ih =>
    rw [List.filter_cons]
    by_cases he : arePathsEqual x q = true
    · have hk : x.map Tile.tileIndex = q.map Tile.tileIndex := (arePathsEqual_map_eq x q).1 he
      simp only [he, Bool.not_true, Bool.false_eq_true, if_false]
      rw [ih e hx]
      conv_rhs => unfold keepFirstOccurrences
      rw [if_pos (by rw [← hk]; exact hx)]
      apply keepFirstOccurrences_congr
      intro z
      simp only [List.map_append, List.mem_append, List.map_cons, List.map_nil,
        List.mem_singleton]
      constructor
      · intro hz; exact Or.inl hz
      · rintro (hz | hz)
        · exact hz
        · rw [hz, ← hk]; exact hx
    · have he' : arePathsEqual x q = false := by simpa using he
      simp only [he', Bool.not_false, if_true]
      have hx' : x.map Tile.tileIndex ∈ (e ++ [q]).map (List.map Tile.tileIndex) := by
        simp only [List.map_append, List.mem_append]
        exact Or.inl hx
      unfold keepFirstOccurrences
      rw [ih _ hx']

/-- The loop over `i`, started at position `kept.length` with nothing in `rest`
equal to a path of `kept`. -/
theorem removeDuplicatesOuter_spec (steps : Nat) (kept rest : List Path)
    (hsteps : rest.length < steps)
    (hkept : ∀ k ∈ kept, ∀ r ∈ rest, r.map Tile.tileIndex ≠ k.map Tile.tileIndex) :
    removeDuplicatesOuter steps kept.length (kept ++ rest) =
      .ok (kept ++ keepFirstOccurrences kept rest) := by
  induction steps generalizing kept rest with
  | zero => omega
  | succ steps ih =>
    cases rest with
    | nil =>
      rw [removeDuplicatesOuter, if_neg (by simp)]
      simp [keepFirstOccurrences]
    | cons x rest =>
      rw [removeDuplicatesOuter, if_pos (by simp)]
      rw [removeDuplicatesInner_spec kept x rest
        (fun q hq => hkept q hq x (List.mem_cons_self _ _))]
      simp only [Result.bind]
      have hshape : kept ++ x :: rest.filter (fun q => !arePathsEqual x q) =
          (kept ++ [x]) ++ rest.filter (fun q => !arePathsEqual x q) := by simp
      have hidx : kept.length + 1 = (kept ++ [x]).length := by simp
      rw [hshape, hidx, ih (kept ++ [x]) _ ?_ ?_]
      · have hxe : x.map Tile.tileIndex ∈ (kept ++ [x]).map (List.map Tile.tileIndex) := by
          simp
        rw [keepFirstOccurrences_filter x rest _ hxe]
        conv_rhs => unfold keepFirstOccurrences
        rw [if_neg ?_]
        · simp
        · intro hc
          obtain ⟨k, hk, hkx⟩ := List.mem_map.1 hc
          exact hkept k hk x (List.mem_cons_self _ _) hkx.symm
      · have := List.length_filter_le (fun q => !arePathsEqual x q) rest
        simp only [List.length_cons] at hsteps
        omega
      · intro k hk r hr
        obtain ⟨hr1, hr2⟩ := List.mem_filter.1 hr
        rcases List.mem_append.1 hk with h1 | h1
        · exact hkept k h1 r (List.mem_cons_of_mem _ hr1)
        · rw [List.mem_singleton] at h1
          subst h1
          have : arePathsEqual k r = false := by simpa using hr2
          exact fun hc => (arePathsEqual_eq_false_iff k r).1 this hc.symm

/-- What `removeDuplicatePaths` leaves. -/
theorem removeDuplicatePaths_eq (paths : List Path) :
    removeDuplicatePaths paths = .ok (keepFirstOccurrences [] paths) := by
  have := removeDuplicatesOuter_spec (paths.length + 1) [] paths (by omega) (by simp)
  simpa [removeDuplicatePaths] using this

/-- C15: `removeDuplicatePaths` returns, and leaves exactly the list obtained by
keeping, in the original order, each path that is not equal as a sequence of
tile indices to an earlier path of the input. -/
theorem removeDuplicatePaths_keeps_first_occurrences (paths : List Path) :
    removeDuplicatePaths paths = .ok (keepFirstOccurrences [] paths) :=
  removeDuplicatePaths_eq paths

/-! ## No two equal paths in one half of `this.paths` -/

theorem keepFirstOccurrences_nodup (e l : List Path) :
    ((keepFirstOccurrences e l).map (List.map Tile.tileIndex)).Nodup ∧
      ∀ p ∈ keepFirstOccurrences e l,
        p.map Tile.tileIndex ∉ e.map (List.map Tile.tileIndex) := by
  induction l generalizing e with
  | nil => exact ⟨List.nodup_nil, fun p hp => by cases hp⟩
  | cons x rest ih =>
    obtain ⟨ih1, ih2⟩ := ih (e ++ [x])
    have hsub : ∀ p ∈ keepFirstOccurrences (e ++ [x]) rest,
        p.map Tile.tileIndex ∉ e.map (List.map Tile.tileIndex) ∧
          p.map Tile.tileIndex ≠ x.map Tile.tileIndex := by
      intro p hp
      have := ih2 p hp
      simp only [List.map_append, List.mem_append, List.map_cons, List.map_nil,
        List.mem_singleton, not_or] at this
      exact this
    unfold keepFirstOccurrences
    split
    · exact ⟨ih1, fun p hp => (hsub p hp).1⟩
    · rename_i hx
      constructor
      · rw [List.map_cons, List.nodup_cons]
        refine ⟨?_, ih1⟩
        intro hc
        obtain ⟨p, hp, hpx⟩ := List.mem_map.1 hc
        exact (hsub p hp).2 hpx
      · intro p hp
        rcases List.mem_cons.1 hp with h1 | h1
        · rw [h1]; exact hx
        · exact (hsub p h1).1

theorem Map.IsGrid.mapTiles_pairwise {m : Map} (g : m.IsGrid) :
    m.mapTiles.Pairwise (fun a b => a.tileIndex ≠ b.tileIndex) := by
  have hnd : (m.mapTiles.map Tile.tileIndex).Nodup := by
    rw [List.nodup_iff_getElem?_ne_getElem?]
    intro i j hij hj
    rw [List.length_map] at hj
    rw [List.getElem?_map, List.getElem?_map, List.getElem?_eq_getElem (by omega),
      List.getElem?_eq_getElem hj]
    simp only [Option.map_some', ne_eq, Option.some.injEq]
    have hi' := (g.tile_eq i _ (by rw [List.get?_eq_getElem?, List.getElem?_eq_getElem (by omega)])).1
    have hj' := (g.tile_eq j _ (by rw [List.get?_eq_getElem?, List.getElem?_eq_getElem hj])).1
    rw [hi', hj']
    omega
  exact (List.pairwise_map.1 hnd)

/-- Batches of paths found from pairwise different start tiles, each batch without
two equal paths and each path beginning with the start tile of its batch: no two
equal paths overall. -/
theorem batches_nodup (R : Tile → List Path → Prop) (starts : List Tile)
    (batches : List (List Path)) (h : List.Forall₂ R starts batches)
    (hstarts : starts.Pairwise (fun a b => a.tileIndex ≠ b.tileIndex))
    (hR : ∀ start found, R start found →
      (found.map (List.map Tile.tileIndex)).Nodup ∧ ∀ p ∈ found, p.head? = some start) :
    (batches.flatten.map (List.map Tile.tileIndex)).Nodup ∧
      ∀ p ∈ batches.flatten, ∃ start ∈ starts, p.head? = some start := by
  induction h with
  | nil => exact ⟨List.nodup_nil, fun p hp => by cases hp⟩
  | @cons start found starts batches hsf _ ih =>
    rw [List.pairwise_cons] at hstarts
    obtain ⟨ih1, ih2⟩ := ih hstarts.2
    obtain ⟨hnd, hhead⟩ := hR start found hsf
    constructor
    · rw [List.flatten_cons, List.map_append, List.nodup_append]
      refine ⟨hnd, ih1, ?_⟩
      intro z hz1 hz2
      obtain ⟨p, hp, rfl⟩ := List.mem_map.1 hz1
      obtain ⟨q, hq, hqp⟩ := List.mem_map.1 hz2
      obtain ⟨st, hst, hqh⟩ := ih2 q hq
      have hph := hhead p hp
      have hne := hstarts.1 st hst
      cases p with
      | nil => cases hph
      | cons a p =>
        cases q with
        | nil => cases hqh
        | cons b q =>
          simp only [List.head?_cons, Option.some.injEq] at hph hqh
          simp only [List.map_cons, List.cons.injEq] at hqp
          apply hne
          rw [← hph, ← hqh]
          exact hqp.1.symm
    · intro p hp
      rw [List.flatten_cons] at hp
      rcases List.mem_append.1 hp with h1 | h1
      · exact ⟨start, List.mem_cons_self _ _, hhead p h1⟩
      · obtain ⟨st, hst, hh⟩ := ih2 p h1
        exact ⟨st, List.mem_cons_of_mem _ hst, hh⟩

theorem nodup_map_get?_ne {α β : Type} (f : α → β) (l : List α) (h : (l.map f).Nodup)
    (i j : Nat) (hij : i ≠ j) (p q : α) (hp : l.get? i = some p) (hq : l.get? j = some q) :
    f p ≠ f q := by
  have key : ∀ i j : Nat, i < j → ∀ p q, l.get? i = some p → l.get? j = some q → f p ≠ f q := by
    intro i j hlt p q hp hq
    have hj : j < l.length := by
      rw [List.get?_eq_getElem?] at hq
      exact (List.getElem?_eq_some_iff.1 hq).1
    have := (List.nodup_iff_getElem?_ne_getElem?.1 h) i j hlt (by rw [List.length_map]; exact hj)
    rw [List.getElem?_map, List.getElem?_map] at this
    rw [List.get?_eq_getElem?] at hp hq
    rw [hp, hq] at this
    simpa using this
  rcases Nat.lt_or_gt_of_ne hij with hlt | hgt
  · exact key i j hlt p q hp hq
  · exact fun hc => key j i hgt q p hq hp hc.symm

/-- The sequences of tile indices of the left-to-right paths are pairwise
different. -/
theorem computePaths_ltr_nodup {m : Map} (g : m.IsGrid) (fuel : Nat) (c : Computed)
    (h : computePaths m fuel = .ok c) :
    ∃ ltr : List Path, c.paths = ltr ++ ltr.map List.reverse ∧
      (ltr.map (List.map Tile.tileIndex)).Nodup := by
  obtain ⟨s1, batches, _, _, hb, hpaths⟩ := computePaths_phases m fuel c h
  refine ⟨batches.flatten, hpaths, ?_⟩
  refine (batches_nodup _ _ _ hb ?_ ?_).1
  · exact g.mapTiles_pairwise.sublist (List.filter_sublist _)
  · intro start found hrun
    obtain ⟨raw, opt, _, _, hdup⟩ := newAlgoGetPathsFrom_phases m c.tiles fuel start found hrun
    rw [removeDuplicatePaths_eq] at hdup
    cases hdup
    exact ⟨(keepFirstOccurrences_nodup [] opt).1,
      fun p hp => (newAlgoGetPathsFrom_ok m c.tiles fuel start _ hrun p hp).1⟩

/-- C14: for a grid whose length is a multiple of its width on which
`computePaths` completes, two paths at different indices of the same half of
`this.paths` differ as sequences of tile indices, whether or not they were
enumerated from the same left-endpoint. -/
theorem computePaths_no_duplicate_paths (cells : List Nat) (width : Nat)
    (hw : width ∣ cells.length) (fuel : Nat) (c : Computed)
    (h : computePaths (Map.create cells width) fuel = .ok c) :
    ∀ (i j : Nat) (p q : Path), i ≠ j →
      (i < c.paths.length / 2 ↔ j < c.paths.length / 2) →
      c.paths.get? i = some p → c.paths.get? j = some q →
      p.map Tile.tileIndex ≠ q.map Tile.tileIndex := by
  have g := Map.create_isGrid cells width hw
  obtain ⟨ltr, hpaths, hnd⟩ := computePaths_ltr_nodup g fuel c h
  have hlen : c.paths.length / 2 = ltr.length := by
    rw [hpaths, List.length_append, List.length_map]; omega
  have hnd2 : ((ltr.map List.reverse).map (List.map Tile.tileIndex)).Nodup := by
    have : (ltr.map List.reverse).map (List.map Tile.tileIndex) =
        (ltr.map (List.map Tile.tileIndex)).map List.reverse := by
      simp [List.map_map, Function.comp_def, List.map_reverse]
    rw [this]
    exact hnd.map List.reverse_injective
  intro i j p q hij hhalf hp hq
  rw [hlen] at hhalf
  rw [hpaths, List.get?_eq_getElem?] at hp hq
  by_cases hi : i < ltr.length
  · have hj := hhalf.1 hi
    rw [List.getElem?_append_left hi] at hp
    rw [List.getElem?_append_left hj] at hq
    exact nodup_map_get?_ne _ ltr hnd i j hij p q (by rw [List.get?_eq_getElem?]; exact hp)
      (by rw [List.get?_eq_getElem?]; exact hq)
  · have hj : ¬ j < ltr.length := fun hc => hi (hhalf.2 hc)
    rw [List.getElem?_append_right (by omega)] at hp
    rw [List.getElem?_append_right (by omega)] at hq
    exact nodup_map_get?_ne _ (ltr.map List.reverse) hnd2 (i - ltr.length) (j - ltr.length)
      (by omega) p q (by rw [List.get?_eq_getElem?]; exact hp)
      (by rw [List.get?_eq_getElem?]; exact hq)

/-- C14 on `gridTwoRows`: the two left-to-right paths 0,1,2 and 6,7,8, found from
different left-endpoints, differ. -/
theorem computePaths_no_duplicate_paths_witness :
    3 ∣ [1, 1, 1, 0, 0, 0, 1, 1, 1].length ∧
      computePaths (Map.create [1, 1, 1, 0, 0, 0, 1, 1, 1] 3) 10 = .ok gridTwoRowsComputed ∧
      (0 : Nat) ≠ 1 ∧
      (0 < gridTwoRowsComputed.paths.length / 2 ↔ 1 < gridTwoRowsComputed.paths.length / 2) ∧
      gridTwoRowsComputed.paths.get? 0 = some [tileOf true 0 3, tileOf true 1 3, tileOf true 2 3] ∧
      gridTwoRowsComputed.paths.get? 1 = some [tileOf true 6 3, tileOf true 7 3, tileOf true 8 3] ∧
      [tileOf true 0 3, tileOf true 1 3, tileOf true 2 3].map Tile.tileIndex ≠
        [tileOf true 6 3, tileOf true 7 3, tileOf true 8 3].map Tile.tileIndex :=
  ⟨by decide, by decide, by decide, by decide, by decide, by decide,
    computePaths_no_duplicate_paths [1, 1, 1, 0, 0, 0, 1, 1, 1] 3 (by decide) 10
      gridTwoRowsComputed (by decide) 0 1 _ _ (by decide) (by decide) (by decide) (by decide)⟩

/-! ## The enumerator misses no legal walk -/

/-- The tile the enumerator takes as `cameFrom` after it pushed `next` on `path`. -/
theorem cameFrom_first (next : Tile) :
    (if ([] ++ [next] : Path).length > 1 then ([] ++ [next] : Path).getD (([] ++ [next] : Path).length - 2) next
      else next) = next := by
  simp

theorem cameFrom_later (path : Path) (prev next : Tile) :
    (if ((path ++ [prev]) ++ [next]).length > 1 then
        ((path ++ [prev]) ++ [next]).getD (((path ++ [prev]) ++ [next]).length - 2) next
      else next) = prev := by
  rw [if_pos (by simp)]
  have : ((path ++ [prev]) ++ [next]).length - 2 = path.length := by simp
  rw [this, List.getD_eq_getElem?_getD, List.append_assoc, List.getElem?_append_right (Nat.le_refl _)]
  simp

theorem mem_pushForks_old (seen : List Tile) (path : Path) (ns : List Tile)
    (forkList : List Fork) (f : Fork) (h : f ∈ forkList) : f ∈ pushForks seen path ns forkList := by
  induction ns generalizing forkList with
  | nil => exact h
  | cons n rest ih =>
    unfold pushForks
    split
    · exact ih _ h
    · exact ih _ (List.mem_cons_of_mem _ h)

theorem mem_pushForks_new (seen : List Tile) (path : Path) (ns : List Tile)
    (forkList : List Fork) (n : Tile) (hn : n ∈ ns) (hseen : n ∉ seen) :
    ({ startTile := n, seen := seen ++ [n], path := path } : Fork) ∈
      pushForks seen path ns forkList := by
  induction ns generalizing forkList with
  | nil => cases hn
  | cons a rest ih =>
    unfold pushForks
    rcases List.mem_cons.1 hn with h1 | h1
    · subst h1
      rw [if_neg hseen]
      exact mem_pushForks_old _ _ _ _ _ (List.mem_cons_self _ _)
    · split
      · exact ih _ h1
      · exact ih _ h1

theorem mem_dropLast_of_append_cons {α : Type} (q : List α) (n : α) (r : List α) (t : α)
    (h : t ∈ q) : t ∈ (q ++ n :: r).dropLast := by
  rw [List.dropLast_append_cons]
  exact List.mem_append_left _ h

/-- A walk that is in `paths`, pending at the top of `stack` or pending at an entry
of `forkList` is among the paths the loops return. -/
theorem newAlgoLoop_covers (s : TileStates) (w : Path) (hnd : w.Nodup)
    (hstop : stopsAtFirstRightEndpoint s w) (fuel : Nat) (stack seen : List Tile)
    (path : Path) (forkList : List Fork) (paths out : List Path)
    (h : newAlgoLoop s fuel stack seen path forkList paths = .ok out)
    (hcov : w ∈ paths ∨ (∃ next rest, stack = next :: rest ∧ Pending s w path next seen) ∨
      ∃ f ∈ forkList, Pending s w f.path f.startTile f.seen) :
    w ∈ out := by
  induction fuel generalizing stack seen path forkList paths with
  | zero => simp [newAlgoLoop] at h
  | succ fuel ih =>
    match stack, forkList, h, hcov with
    | next :: stack, forkList, h, hcov =>
      unfold newAlgoLoop at h
      simp only [] at h
      split at h
      · -- `next` is a right-endpoint: the path is recorded
        rename_i hre
        refine ih _ _ _ _ _ h ?_
        rcases hcov with h1 | ⟨n', st', heq, r, hw, _, _⟩ | h3
        · exact Or.inl (List.mem_append_left _ h1)
        · cases heq
          left
          cases r with
          | nil =>
            rw [hw]
            exact List.mem_append_right _ (by simp)
          | cons n r =>
            exfalso
            have hmem : next ∈ w.dropLast := by
              rw [hw]
              have : path ++ next :: n :: r = (path ++ [next]) ++ n :: r := by simp
              rw [this]
              exact mem_dropLast_of_append_cons _ _ _ _ (by simp)
            have := hstop.1 next hmem
            rw [hre] at this
            cases this
        · exact Or.inr (Or.inr h3)
      · rename_i hre
        have hre' : (s.of next).isRightEndpoint = false := by simpa using hre
        split at h
        · -- no left-list entry: the run throws, unless no walk is pending here
          cases h
        · rename_i neighbors hget
          -- what a walk pending at `next` tells about `neighbors`
          have hpend : ∀ n' st', next :: stack = n' :: st' → Pending s w path n' seen →
              ∃ n r, w = (path ++ [next]) ++ n :: r ∧ n ∈ neighbors ∧ n ∉ seen ∧
                Pending s w (path ++ [next]) n seen ∧
                Pending s w (path ++ [next]) n (seen ++ [n]) := by
            intro n' st' heq hp
            cases heq
            obtain ⟨r, hw, hlegal, hseen⟩ := hp
            cases r with
            | nil =>
              exfalso
              have hl : w.getLast? = some next := by rw [hw]; simp
              have := hstop.2
              rw [hl] at this
              simp only [] at this
              rw [hre'] at this
              cases this
            | cons n r =>
              obtain ⟨hstep, hrest⟩ := hlegal
              unfold legalStep at hstep
              rw [hget] at hstep
              simp only [] at hstep
              have hw' : w = (path ++ [next]) ++ n :: r := by rw [hw]; simp
              have hnq : n ∉ path ++ [next] := by
                intro hc
                rw [hw'] at hnd
                exact (List.nodup_append.1 hnd).2.2 hc (List.mem_cons_self _ _)
              have hns : n ∉ seen := fun hc => hnq (hseen n hc)
              have hcf := cameFrom_later path next n
              refine ⟨n, r, hw', hstep, hns, ⟨r, hw', ?_, ?_⟩, ⟨r, hw', ?_, ?_⟩⟩
              · rw [hcf]; exact hrest
              · intro t ht
                exact List.mem_append_left _ (hseen t ht)
              · rw [hcf]; exact hrest
              · intro t ht
                rcases List.mem_append.1 ht with h1 | h1
                · exact List.mem_append_left _ (hseen t h1)
                · exact List.mem_append_right _ h1
          split at h
          · -- a single neighbour: it is pushed on the stack
            rename_i n0
            refine ih _ _ _ _ _ h ?_
            rcases hcov with h1 | ⟨n', st', heq, hp⟩ | h3
            · exact Or.inl h1
            · obtain ⟨n, r, _, hn, _, hp1, _⟩ := hpend n' st' heq hp
              rw [List.mem_singleton] at hn
              subst hn
              exact Or.inr (Or.inl ⟨n, _, rfl, hp1⟩)
            · exact Or.inr (Or.inr h3)
          · -- a fork: one entry of `forkList` per unseen neighbour
            refine ih _ _ _ _ _ h ?_
            rcases hcov with h1 | ⟨n', st', heq, hp⟩ | ⟨f, hf, hfp⟩
            · exact Or.inl h1
            · obtain ⟨n, r, _, hn, hns, _, hp2⟩ := hpend n' st' heq hp
              exact Or.inr (Or.inr ⟨_, mem_pushForks_new seen _ neighbors forkList n hn hns, hp2⟩)
            · exact Or.inr (Or.inr ⟨f, mem_pushForks_old _ _ _ _ _ hf, hfp⟩)
    | [], fork :: forkList, h, hcov =>
      unfold newAlgoLoop at h
      refine ih _ _ _ _ _ h ?_
      rcases hcov with h1 | ⟨n', st', heq, _⟩ | ⟨f, hf, hfp⟩
      · exact Or.inl h1
      · cases heq
      · rcases List.mem_cons.1 hf with h2 | h2
        · subst h2
          exact Or.inr (Or.inl ⟨_, _, rfl, hfp⟩)
        · exact Or.inr (Or.inr ⟨f, h2, hfp⟩)
    | [], [], h, hcov =>
      unfold newAlgoLoop at h
      cases h
      rcases hcov with h1 | ⟨n', st', heq, _⟩ | ⟨f, hf, _⟩
      · exact h1
      · cases heq
      · cases hf

/-- C20: whenever the loops of `newAlgoGetPathsFrom` complete, the raw path list
they build (before `optimizePaths` is applied) contains every tile sequence that
starts at the start tile, takes each step to a member of the current tile's
left-list entry keyed by the preceding tile (keyed by the start tile itself for
the first step), repeats no tile, and stops at the first right-endpoint it
reaches. -/
theorem rawPathsFrom_complete (s : TileStates) (fuel : Nat) (startTile : Tile)
    (raw : List Path) (h : rawPathsFrom s fuel startTile = .ok raw)
    (w : Path) (hw : LegalWalk s startTile w) : w ∈ raw := by
  cases w with
  | nil => exact absurd hw (fun h => h)
  | cons first rest =>
    obtain ⟨hfirst, hlegal, hnd, hstop⟩ := hw
    subst hfirst
    refine newAlgoLoop_covers s _ hnd hstop fuel [] [] [] _ [] raw h ?_
    refine Or.inr (Or.inr ⟨_, List.mem_singleton.2 rfl, rest, rfl, ?_, ?_⟩)
    · simpa using hlegal
    · intro t ht
      simpa using ht

/-- C20 on `gridStep`, with the left-lists `computePaths` leaves: the walk 0,1,4,5
is legal and is among the raw paths enumerated from tile 0. -/
theorem rawPathsFrom_complete_witness :
    rawPathsFrom gridStepComputed.tiles 10 (tileOf true 0 3) =
        .ok [[tileOf true 0 3, tileOf true 1 3, tileOf true 4 3, tileOf true 5 3]] ∧
      LegalWalk gridStepComputed.tiles (tileOf true 0 3)
        [tileOf true 0 3, tileOf true 1 3, tileOf true 4 3, tileOf true 5 3] ∧
      [tileOf true 0 3, tileOf true 1 3, tileOf true 4 3, tileOf true 5 3] ∈
        [[tileOf true 0 3, tileOf true 1 3, tileOf true 4 3, tileOf true 5 3]] :=
  ⟨by decide, by decide,
    rawPathsFrom_complete gridStepComputed.tiles 10 (tileOf true 0 3) _ (by decide) _
      (by decide)⟩

/-! ## Reading left-lists after writing them -/

theorem LeftList.get_set (l : LeftList) (key : Int) (value : List Tile) (k : Int) :
    (LeftList.set l key value).get k = if k = key then some value else l.get k := by
  induction l with
  | nil =>
    unfold LeftList.set
    by_cases h : k = key
    · simp [LeftList.get, h]
    · have : ¬ key = k := fun hc => h hc.symm
      simp [LeftList.get, h, this]
  | cons e rest ih =>
    obtain ⟨k0, v0⟩ := e
    unfold LeftList.set
    by_cases h1 : key < k0
    · rw [if_pos h1]
      by_cases h : k = key
      · simp [LeftList.get, h]
      · have : ¬ key = k := fun hc => h hc.symm
        rw [if_neg h]
        conv_lhs => unfold LeftList.get
        rw [if_neg this]
    · rw [if_neg h1]
      by_cases h2 : key = k0
      · rw [if_pos h2]
        by_cases h : k = key
        · simp [LeftList.get, h]
        · have hne : ¬ key = k := fun hc => h hc.symm
          rw [if_neg h]
          conv_lhs => unfold LeftList.get
          rw [if_neg hne]
          conv_rhs => unfold LeftList.get
          rw [if_neg (by rw [← h2]; exact hne)]
      · rw [if_neg h2]
        conv_lhs => unfold LeftList.get
        by_cases h3 : k0 = k
        · rw [if_pos h3]
          have : ¬ k = key := by omega
          rw [if_neg this]
          conv_rhs => unfold LeftList.get
          rw [if_pos h3]
        · rw [if_neg h3, ih]
          conv_rhs => unfold LeftList.get
          rw [if_neg h3]

theorem LeftList.get_delete (l : LeftList) (key k : Int) :
    (LeftList.delete l key).get k = if k = key then none else l.get k := by
  induction l with
  | nil => simp [LeftList.delete, LeftList.get]
  | cons e rest ih =>
    obtain ⟨k0, v0⟩ := e
    unfold LeftList.delete at ih ⊢
    rw [List.filter_cons]
    by_cases h0 : k0 = key
    · simp only [h0, ne_eq, not_true_eq_false, decide_False, Bool.false_eq_true, if_false]
      rw [ih]
      by_cases h : k = key
      · simp [h]
      · rw [if_neg h, if_neg h]
        conv_rhs => unfold LeftList.get
        rw [if_neg (fun hc => h hc.symm)]
    · simp only [ne_eq, h0, not_false_eq_true, decide_True, if_true]
      conv_lhs => unfold LeftList.get
      by_cases h3 : k0 = k
      · rw [if_pos h3]
        have : ¬ k = key := by omega
        rw [if_neg this]
        conv_rhs => unfold LeftList.get
        rw [if_pos h3]
      · rw [if_neg h3, ih]
        by_cases h : k = key
        · rw [if_pos h, if_pos h]
        · rw [if_neg h, if_neg h]
          conv_rhs => unfold LeftList.get
          rw [if_neg h3]

theorem LeftList.get_some_key (l : LeftList) (k : Int) (v : List Tile) (h : l.get k = some v) :
    k ∈ l.map Prod.fst := by
  induction l with
  | nil => simp [LeftList.get] at h
  | cons e rest ih =>
    obtain ⟨k0, v0⟩ := e
    unfold LeftList.get at h
    by_cases h0 : k0 = k
    · simp [h0]
    · rw [if_neg h0] at h
      exact List.mem_cons_of_mem _ (ih h)

theorem entryAt_of (s : TileStates) (u : Tile) (k : Int) :
    (s.of u).leftList.get k = entryAt s u.tileIndex.toNat k := rfl

theorem entryAt_setLeftList (s : TileStates) (t : Tile) (l : LeftList) (i : Nat) (k : Int) :
    entryAt (s.setLeftList t l) i k =
      if t.tileIndex.toNat = i ∧ i < s.length then l.get k else entryAt s i k := by
  unfold entryAt TileStates.setLeftList
  rw [List.getD_eq_getElem?_getD, List.getElem?_set]
  by_cases h : t.tileIndex.toNat = i
  · subst h
    by_cases hlt : t.tileIndex.toNat < s.length
    · simp [hlt]
    · simp [hlt, List.getElem?_eq_none (Nat.le_of_not_lt hlt)]
  · simp [h]

theorem entryAt_some_lt (s : TileStates) (i : Nat) (k : Int) (v : List Tile)
    (h : entryAt s i k = some v) : i < s.length := by
  by_contra hlt
  unfold entryAt at h
  rw [List.getD_eq_getElem?_getD, List.getElem?_eq_none (by omega)] at h
  simp [TileState.init, LeftList.get] at h

/-! ## The left-lists formed by the second loop hold no tile twice -/

theorem getAdjacentTiles_nodup_index {m : Map} (g : m.IsGrid) (t : Tile) (facingRight : Bool) :
    ((getAdjacentTiles m t facingRight).map Tile.tileIndex).Nodup := by
  unfold getAdjacentTiles
  split
  · exact List.nodup_nil
  · exact (tilesOfIndices_sublist g _).nodup
      (adjacentIndices_nodup m t facingRight (by omega) (by omega))

theorem filterReachable_sublist (m : Map) (s : TileStates) (fuel : Nat) (tile : Tile)
    (keys r : List Tile) (h : filterReachable m s fuel tile keys = .ok r) : r.Sublist keys := by
  induction keys generalizing r with
  | nil =>
    unfold filterReachable at h
    cases h
    exact List.Sublist.refl _
  | cons key rest ih =>
    unfold filterReachable at h
    rw [Result.bind_eq_ok] at h
    obtain ⟨found, _, h⟩ := h
    rw [Result.bind_eq_ok] at h
    obtain ⟨r', hr', h⟩ := h
    cases h
    split
    · exact (ih r' hr').cons₂ _
    · exact (ih r' hr').cons _

theorem get_foldl_set (keys : List Tile) (value : List Tile) (l0 : LeftList) (k : Int)
    (v : List Tile)
    (h : (keys.foldl (fun l key => LeftList.set l key.tileIndex value) l0).get k = some v) :
    v = value ∨ l0.get k = some v := by
  induction keys generalizing l0 with
  | nil => exact Or.inr h
  | cons key rest ih =>
    rw [List.foldl_cons] at h
    rcases ih _ h with h1 | h1
    · exact Or.inl h1
    · rw [LeftList.get_set] at h1
      split at h1
      · left
        exact (Option.some.inj h1).symm
      · exact Or.inr h1

theorem formLeftList_entries {m : Map} (g : m.IsGrid) (s : TileStates) (fuel : Nat) (tile : Tile)
    (l : LeftList) (h : formLeftList m s fuel tile = .ok l) (k : Int) (v : List Tile)
    (hv : l.get k = some v) :
    (v.map Tile.tileIndex).Nodup ∨ (s.of tile).leftList.get k = some v := by
  unfold formLeftList at h
  simp only [] at h
  rw [Result.bind_eq_ok] at h
  obtain ⟨rightKeys, hright, h⟩ := h
  cases h
  have hkeys : ((if (s.of tile).isRightEndpoint = true then [tile]
      else getAdjacentTiles m tile true).map Tile.tileIndex).Nodup := by
    split
    · simp
    · exact getAdjacentTiles_nodup_index g tile true
  have hnd : (rightKeys.map Tile.tileIndex).Nodup := by
    generalize (if (s.of tile).isRightEndpoint = true then [tile]
      else getAdjacentTiles m tile true) = keys0 at hright hkeys
    by_cases h2 : keys0.length ≥ 2
    · rw [if_pos h2] at hright
      exact ((filterReachable_sublist m s fuel tile _ _ hright).map _).nodup hkeys
    · rw [if_neg h2] at hright
      cases hright
      exact hkeys
  rcases get_foldl_set _ _ _ _ _ hv with h1 | h1
  · left; rw [h1]; exact hnd
  · exact Or.inr h1

theorem formLeftLists_entries {m : Map} (g : m.IsGrid) (fuel : Nat) (tiles : List Tile)
    (s s' : TileStates) (h : formLeftLists m fuel tiles s = .ok s')
    (hs : ∀ i k v, entryAt s i k = some v → (v.map Tile.tileIndex).Nodup) :
    ∀ i k v, entryAt s' i k = some v → (v.map Tile.tileIndex).Nodup := by
  induction tiles generalizing s with
  | nil =>
    unfold formLeftLists at h
    cases h
    exact hs
  | cons tile rest ih =>
    unfold formLeftLists at h
    split at h
    · exact ih s h hs
    · rw [Result.bind_eq_ok] at h
      obtain ⟨l, hl, h⟩ := h
      refine ih _ h ?_
      intro i k v hv
      rw [entryAt_setLeftList] at hv
      split at hv
      · rcases formLeftList_entries g s fuel tile l hl k v hv with h1 | h1
        · exact h1
        · exact hs _ k v (by rw [← entryAt_of]; exact h1)
      · exact hs i k v hv

theorem entryAt_classifyEndpoints (m : Map) (i : Nat) (k : Int) :
    entryAt (classifyEndpoints m) i k = none := by
  unfold entryAt classifyEndpoints
  rw [List.getD_eq_getElem?_getD, List.getElem?_map]
  cases m.mapTiles[i]? with
  | none => simp [TileState.init, LeftList.get]
  | some t =>
    simp only [Option.map_some', Option.getD_some]
    unfold classifyTile
    split <;> simp [TileState.init, LeftList.get]

/-! ## What the pruning pass does to one entry -/

theorem removeTileFromArray_sublist (tile : Option Tile) (arr : List Tile) (b : Bool)
    (r : List Tile) (h : removeTileFromArray tile arr = .ok (b, r)) : r.Sublist arr := by
  induction arr generalizing b r with
  | nil =>
    unfold removeTileFromArray at h
    cases h
    exact List.Sublist.refl _
  | cons a rest ih =>
    unfold removeTileFromArray at h
    split at h
    · cases h
    · split at h
      · cases h
        exact List.sublist_cons_self _ _
      · rw [Result.bind_eq_ok] at h
        obtain ⟨⟨b', r'⟩, hr', h⟩ := h
        cases h
        exact (ih b' r' hr').cons₂ _

/-- After the removal of the tile with index `key` from an array that holds no tile
index twice, no tile of the array has index `key`. -/
theorem removeTileFromArray_avoids (ln : Tile) (arr : List Tile) (b : Bool) (r : List Tile)
    (h : removeTileFromArray (some ln) arr = .ok (b, r))
    (hnd : (arr.map Tile.tileIndex).Nodup) : EntryAvoidsKey ln.tileIndex r := by
  induction arr generalizing b r with
  | nil =>
    unfold removeTileFromArray at h
    cases h
    intro t ht
    cases ht
  | cons a rest ih =>
    rw [List.map_cons, List.nodup_cons] at hnd
    unfold removeTileFromArray at h
    simp only [] at h
    split at h
    · rename_i heq
      cases h
      intro t ht hc
      apply hnd.1
      rw [heq, ← hc]
      exact List.mem_map_of_mem _ ht
    · rename_i hne
      rw [Result.bind_eq_ok] at h
      obtain ⟨⟨b', r'⟩, hr', h⟩ := h
      cases h
      intro t ht
      rcases List.mem_cons.1 ht with h1 | h1
      · rw [h1]; exact hne
      · exact ih b' r' hr' hnd.2 t h1

theorem removeTileFromArray_none (arr : List Tile) (b : Bool) (r : List Tile)
    (h : removeTileFromArray none arr = .ok (b, r)) : r = [] := by
  cases arr with
  | nil =>
    unfold removeTileFromArray at h
    cases h
    rfl
  | cons a rest =>
    unfold removeTileFromArray at h
    cases h

theorem removeRightOfLeftNeighbor_sublist (m : Map) (leftNeighbor : Option Tile) (b : Bool)
    (arr r : List Tile) (h : removeRightOfLeftNeighbor m leftNeighbor b arr = .ok r) :
    r.Sublist arr := by
  unfold removeRightOfLeftNeighbor at h
  split at h
  · split at h
    · cases h
    · split at h
      · split at h
        · cases h
        · split at h
          · rw [Result.bind_eq_ok] at h
            obtain ⟨⟨b', r'⟩, hr', h⟩ := h
            cases h
            exact removeTileFromArray_sublist _ _ _ _ hr'
          · cases h
            exact List.Sublist.refl _
      · cases h
        exact List.Sublist.refl _
  · cases h
    exact List.Sublist.refl _

theorem EntryAvoidsKey.of_subset {key : Int} {v r : List Tile} (h : EntryAvoidsKey key v)
    (hsub : ∀ t ∈ r, t ∈ v) : EntryAvoidsKey key r := fun t ht => h t (hsub t ht)

theorem length_setLeftList (s : TileStates) (t : Tile) (l : LeftList) :
    (s.setLeftList t l).length = s.length := by
  unfold TileStates.setLeftList
  exact List.length_set _ _ _

theorem deleteFromRemoved_entry (tile : Tile) (removed : List Tile) (s : TileStates)
    (i : Nat) (k : Int) (v : List Tile)
    (h : entryAt (deleteFromRemoved tile removed s) i k = some v) : entryAt s i k = some v := by
  induction removed generalizing s with
  | nil => exact h
  | cons r rest ih =>
    unfold deleteFromRemoved at h
    have := ih _ h
    rw [entryAt_setLeftList] at this
    split at this
    · rename_i hc
      rw [LeftList.get_delete] at this
      split at this
      · cases this
      · rw [entryAt_of, hc.1] at this
        exact this
    · exact this

/-- One visit of the pruning pass: the visited entry ends without the tile its key
names (or is deleted), and every other entry that exists afterwards existed
before with the same array. -/
theorem pruneEntry_entries {m : Map} (g : m.IsGrid) (s s' : TileStates) (tile : Tile) (key : Int)
    (h : pruneEntry m s tile key = .ok s')
    (hv : ∀ v0, entryAt s tile.tileIndex.toNat key = some v0 →
      EntryAvoidsKey key v0 ∨ (v0.map Tile.tileIndex).Nodup)
    (i : Nat) (k : Int) (v : List Tile) (hentry : entryAt s' i k = some v) :
    ((i = tile.tileIndex.toNat ∧ k = key) ∧ EntryAvoidsKey key v ∧
        ∃ v0, entryAt s tile.tileIndex.toNat key = some v0) ∨
      (¬ (i = tile.tileIndex.toNat ∧ k = key) ∧ entryAt s i k = some v) := by
  unfold pruneEntry at h
  split at h
  · rename_i hnone
    cases h
    right
    refine ⟨?_, hentry⟩
    rintro ⟨rfl, rfl⟩
    rw [entryAt_of] at hnone
    rw [hnone] at hentry
    cases hentry
  · rename_i v0 hsome
    simp only [] at h
    rw [Result.bind_eq_ok] at h
    obtain ⟨⟨b, rn1⟩, hr1, h⟩ := h
    rw [Result.bind_eq_ok] at h
    obtain ⟨rn, hrn, h⟩ := h
    simp only [] at hrn h
    -- the array after the removals avoids the key
    have h1 : EntryAvoidsKey key rn1 := by
      rcases hat : m.tileAt key with _ | ln
      · rw [hat] at hr1
        rw [removeTileFromArray_none _ _ _ hr1]
        intro t ht; cases ht
      · rw [hat] at hr1
        have hidx := (g.tileAt_some hat).2.1
        rcases hv v0 (by rw [← entryAt_of]; exact hsome) with hg | hnd
        · exact hg.of_subset (removeTileFromArray_sublist _ _ _ _ hr1).subset
        · have := removeTileFromArray_avoids ln v0 b rn1 hr1 hnd
          rw [hidx] at this
          exact this
    have h2 : EntryAvoidsKey key rn :=
      h1.of_subset (removeRightOfLeftNeighbor_sublist _ _ _ _ _ hrn).subset
    have h3 : EntryAvoidsKey key (pruneDiagonalIfCardinalExist tile rn) :=
      h2.of_subset (fun t ht => mem_of_mem_prune _ _ _ ht)
    -- the state after the deletions in the removed tiles
    generalize hmid : (if (pruneDiagonalIfCardinalExist tile rn).length ≠ rn.length then
        deleteFromRemoved tile
          (rn.filter (fun x => !tileIndexFound x (pruneDiagonalIfCardinalExist tile rn))) s
        else s) = smid at h
    have hmid' : ∀ i k v, entryAt smid i k = some v → entryAt s i k = some v := by
      intro i k v hv'
      rw [← hmid] at hv'
      split at hv'
      · exact deleteFromRemoved_entry _ _ _ _ _ _ hv'
      · exact hv'
    split at h
    · cases h
      rw [entryAt_setLeftList, LeftList.get_delete] at hentry
      split at hentry
      · rename_i hc
        split at hentry
        · cases hentry
        · rename_i hk
          right
          refine ⟨fun hcc => hk hcc.2, hmid' _ _ _ ?_⟩
          rw [entryAt_of, hc.1] at hentry
          exact hentry
      · rename_i hc
        right
        refine ⟨?_, hmid' _ _ _ hentry⟩
        rintro ⟨rfl, rfl⟩
        exact hc ⟨rfl, entryAt_some_lt _ _ _ _ hentry⟩
    · cases h
      rw [entryAt_setLeftList, LeftList.get_set] at hentry
      split at hentry
      · rename_i hc
        split at hentry
        · rename_i hk
          left
          cases hentry
          exact ⟨⟨hc.1.symm, hk⟩, h3, v0, by rw [← entryAt_of]; exact hsome⟩
        · rename_i hk
          right
          refine ⟨fun hcc => hk hcc.2, hmid' _ _ _ ?_⟩
          rw [entryAt_of, hc.1] at hentry
          exact hentry
      · rename_i hc
        right
        refine ⟨?_, hmid' _ _ _ hentry⟩
        rintro ⟨rfl, rfl⟩
        exact hc ⟨rfl, entryAt_some_lt _ _ _ _ hentry⟩

theorem pruneTile_entries {m : Map} (g : m.IsGrid) (tile : Tile) (keys : List Int)
    (s s' : TileStates) (h : pruneTile m tile keys s = .ok s') (Done : Nat → Int → Prop)
    (hinv : ∀ i k v, entryAt s i k = some v →
      EntryAvoidsKey k v ∨ (¬ Done i k ∧ (v.map Tile.tileIndex).Nodup)) :
    (∀ i k v, entryAt s' i k = some v →
      EntryAvoidsKey k v ∨
        (¬ (Done i k ∨ (i = tile.tileIndex.toNat ∧ k ∈ keys)) ∧ (v.map Tile.tileIndex).Nodup)) ∧
      ∀ i k v, entryAt s' i k = some v → ∃ v', entryAt s i k = some v' := by
  induction keys generalizing s Done with
  | nil =>
    unfold pruneTile at h
    cases h
    constructor
    · intro i k v hv
      rcases hinv i k v hv with h1 | ⟨h1, h2⟩
      · exact Or.inl h1
      · exact Or.inr ⟨by simpa using h1, h2⟩
    · exact fun i k v hv => ⟨v, hv⟩
  | cons key rest ih =>
    unfold pruneTile at h
    rw [Result.bind_eq_ok] at h
    obtain ⟨s1, h1, h2⟩ := h
    have hstep := pruneEntry_entries g s s1 tile key h1 (by
      intro v0 hv0
      rcases hinv _ _ _ hv0 with hg | ⟨_, hn⟩
      · exact Or.inl hg
      · exact Or.inr hn)
    have hinv1 : ∀ i k v, entryAt s1 i k = some v →
        EntryAvoidsKey k v ∨
          (¬ (Done i k ∨ (i = tile.tileIndex.toNat ∧ k = key)) ∧ (v.map Tile.tileIndex).Nodup) := by
      intro i k v hv
      rcases hstep i k v hv with ⟨⟨_, hk⟩, hg, _⟩ | ⟨hne, hold⟩
      · left; rw [hk]; exact hg
      · rcases hinv i k v hold with hg | ⟨hd, hn⟩
        · exact Or.inl hg
        · exact Or.inr ⟨fun hc => hc.elim hd hne, hn⟩
    obtain ⟨ih1, ih2⟩ := ih s1 h2 _ hinv1
    constructor
    · intro i k v hv
      rcases ih1 i k v hv with hg | ⟨hd, hn⟩
      · exact Or.inl hg
      · right
        refine ⟨?_, hn⟩
        rintro (hc | ⟨hi, hk⟩)
        · exact hd (Or.inl (Or.inl hc))
        · rcases List.mem_cons.1 hk with hk1 | hk1
          · exact hd (Or.inl (Or.inr ⟨hi, hk1⟩))
          · exact hd (Or.inr ⟨hi, hk1⟩)
    · intro i k v hv
      obtain ⟨v1, hv1⟩ := ih2 i k v hv
      rcases hstep i k v1 hv1 with ⟨⟨hi, hk⟩, _, v0, hv0⟩ | ⟨_, hold⟩
      · exact ⟨v0, by rw [hi, hk]; exact hv0⟩
      · exact ⟨v1, hold⟩

theorem pruneLeftLists_entries {m : Map} (g : m.IsGrid) (tiles : List Tile)
    (s s' : TileStates) (h : pruneLeftLists m tiles s = .ok s') (Done : Nat → Int → Prop)
    (hinv : ∀ i k v, entryAt s i k = some v →
      EntryAvoidsKey k v ∨ (¬ Done i k ∧ (v.map Tile.tileIndex).Nodup)) :
    (∀ i k v, entryAt s' i k = some v →
      EntryAvoidsKey k v ∨ (∀ t ∈ tiles, t.tileIndex.toNat ≠ i)) ∧
      ∀ i k v, entryAt s' i k = some v → ∃ v', entryAt s i k = some v' := by
  induction tiles generalizing s Done with
  | nil =>
    unfold pruneLeftLists at h
    cases h
    exact ⟨fun i k v _ => Or.inr (fun t ht => by cases ht), fun i k v hv => ⟨v, hv⟩⟩
  | cons tile rest ih =>
    unfold pruneLeftLists at h
    rw [Result.bind_eq_ok] at h
    obtain ⟨s1, h1, h2⟩ := h
    obtain ⟨hs1, hkeys1⟩ := pruneTile_entries g tile _ s s1 h1 Done hinv
    obtain ⟨ih1, ih2⟩ := ih s1 h2 _ hs1
    have hshrink : ∀ i k v, entryAt s' i k = some v → ∃ v', entryAt s i k = some v' := by
      intro i k v hv
      obtain ⟨v1, hv1⟩ := ih2 i k v hv
      exact hkeys1 i k v1 hv1
    refine ⟨?_, hshrink⟩
    intro i k v hv
    rcases ih1 i k v hv with hg | hrest
    · exact Or.inl hg
    · by_cases hi : tile.tileIndex.toNat = i
      · -- the entry existed when `tile` was visited, so it was visited
        left
        obtain ⟨v1, hv1⟩ := ih2 i k v hv
        obtain ⟨v0, hv0⟩ := hkeys1 i k v1 hv1
        have hkey : k ∈ ((s.of tile).leftList.map Prod.fst) := by
          apply LeftList.get_some_key _ k v0
          rw [entryAt_of, hi]
          exact hv0
        -- entries of visited keys avoid their key from then on
        have key_done : ∀ (ts : List Tile) (sa sb : TileStates),
            pruneLeftLists m ts sa = .ok sb →
            (∀ i k v, entryAt sa i k = some v →
              EntryAvoidsKey k v ∨
                (¬ (Done i k ∨ (i = tile.tileIndex.toNat ∧
                  k ∈ ((s.of tile).leftList.map Prod.fst))) ∧ (v.map Tile.tileIndex).Nodup)) →
            ∀ v, entryAt sb i k = some v → EntryAvoidsKey k v := by
          intro ts
          induction ts with
          | nil =>
            intro sa sb hab hsa v hv
            unfold pruneLeftLists at hab
            cases hab
            rcases hsa i k v hv with hg | ⟨hd, _⟩
            · exact hg
            · exact absurd (Or.inr ⟨hi.symm, hkey⟩) hd
          | cons t ts iht =>
            intro sa sb hab hsa v hv
            unfold pruneLeftLists at hab
            rw [Result.bind_eq_ok] at hab
            obtain ⟨sm, hm1, hm2⟩ := hab
            obtain ⟨hsm, _⟩ := pruneTile_entries g t _ sa sm hm1 _ hsa
            refine iht sm sb hm2 ?_ v hv
            intro i' k' v' hv'
            rcases hsm i' k' v' hv' with hg | ⟨hd, hn⟩
            · exact Or.inl hg
            · exact Or.inr ⟨fun hc => hd (Or.inl hc), hn⟩
        exact key_done rest s1 s' h2 hs1 v hv
      · right
        intro t ht
        rcases List.mem_cons.1 ht with h3 | h3
        · rw [h3]; exact hi
        · exact hrest t h3

theorem length_formLeftLists (m : Map) (fuel : Nat) (tiles : List Tile) (s s' : TileStates)
    (h : formLeftLists m fuel tiles s = .ok s') : s'.length = s.length := by
  induction tiles generalizing s with
  | nil =>
    unfold formLeftLists at h
    cases h
    rfl
  | cons tile rest ih =>
    unfold formLeftLists at h
    split at h
    · exact ih s h
    · rw [Result.bind_eq_ok] at h
      obtain ⟨l, _, h⟩ := h
      rw [ih _ h, length_setLeftList]

/-- After the pruning pass no left-list entry holds the tile its key names. -/
theorem computePaths_entries_avoid_key {m : Map} (g : m.IsGrid) (fuel : Nat) (c : Computed)
    (h : computePaths m fuel = .ok c) (u : Tile) (k : Int) (v : List Tile)
    (hv : (c.tiles.of u).leftList.get k = some v) : EntryAvoidsKey k v := by
  obtain ⟨s1, batches, hs1, hs2, _, _⟩ := computePaths_phases m fuel c h
  have hform := formLeftLists_entries g fuel _ _ s1 hs1 (by
    intro i k v hv
    rw [entryAt_classifyEndpoints] at hv
    cases hv)
  obtain ⟨hp1, hp2⟩ := pruneLeftLists_entries g m.mapTiles s1 c.tiles hs2 (fun _ _ => False) (by
    intro i k v hv
    exact Or.inr ⟨fun hc => hc, hform i k v hv⟩)
  rw [entryAt_of] at hv
  rcases hp1 _ k v hv with hg | hall
  · exact hg
  · exfalso
    obtain ⟨v1, hv1⟩ := hp2 _ k v hv
    have hlt := entryAt_some_lt _ _ _ _ hv1
    rw [length_formLeftLists m fuel _ _ s1 hs1] at hlt
    have hlen : (classifyEndpoints m).length = m.mapTiles.length := by
      unfold classifyEndpoints
      exact List.length_map _ _
    rw [hlen] at hlt
    have hget : m.mapTiles.get? u.tileIndex.toNat = some (m.mapTiles[u.tileIndex.toNat]) := by
      rw [List.get?_eq_getElem?, List.getElem?_eq_getElem hlt]
    have hidx := (g.tile_eq _ _ hget).1
    apply hall _ (List.getElem_mem hlt)
    rw [hidx]
    exact Int.toNat_ofNat _

/-! ## The enumerator never steps straight back -/

theorem noReturn_tail {n : Tile} {l : List Tile} (h : noReturn (n :: l)) : noReturn l := by
  match l, h with
  | [], _ => trivial
  | [_], _ => trivial
  | _ :: _ :: _, h => exact h.2

theorem mem_pushForks_start (seen : List Tile) (path : Path) (ns : List Tile)
    (forkList : List Fork) (f : Fork) (h : f ∈ pushForks seen path ns forkList) :
    f ∈ forkList ∨ (f.path = path ∧ f.startTile ∈ ns) := by
  induction ns generalizing forkList with
  | nil => exact Or.inl h
  | cons n rest ih =>
    unfold pushForks at h
    split at h
    · rcases ih _ h with h1 | h1
      · exact Or.inl h1
      · exact Or.inr ⟨h1.1, List.mem_cons_of_mem _ h1.2⟩
    · rcases ih _ h with h1 | h1
      · rcases List.mem_cons.1 h1 with h2 | h2
        · right
          rw [h2]
          exact ⟨rfl, List.mem_cons_self _ _⟩
        · exact Or.inl h2
      · exact Or.inr ⟨h1.1, List.mem_cons_of_mem _ h1.2⟩

/-- Every path collected by the loops of `newAlgoGetPathsFrom` is free of
immediate returns, when no left-list entry holds the tile its key names. -/
theorem newAlgoLoop_noReturn (s : TileStates)
    (hs : ∀ (u : Tile) (k : Int) (v : List Tile),
      (s.of u).leftList.get k = some v → EntryAvoidsKey k v)
    (fuel : Nat) (stack seen : List Tile) (path : Path) (forkList : List Fork)
    (paths out : List Path)
    (h : newAlgoLoop s fuel stack seen path forkList paths = .ok out)
    (hpaths : ∀ p ∈ paths, noReturn p.reverse)
    (hstack : stack.length ≤ 1 ∧ ∀ t ∈ stack, noReturn (t :: path.reverse))
    (hforks : ∀ f ∈ forkList, noReturn (f.startTile :: f.path.reverse)) :
    ∀ p ∈ out, noReturn p.reverse := by
  induction fuel generalizing stack seen path forkList paths with
  | zero => simp [newAlgoLoop] at h
  | succ fuel ih =>
    match stack, forkList, h, hstack, hforks with
    | next :: stack, forkList, h, hstack, hforks =>
      have hst : stack = [] := by
        have := hstack.1
        simp only [List.length_cons] at this
        exact List.length_eq_zero.1 (by omega)
      subst hst
      have hcur : noReturn (next :: path.reverse) := hstack.2 next (List.mem_cons_self _ _)
      have hrev : (path ++ [next]).reverse = next :: path.reverse := by simp
      unfold newAlgoLoop at h
      simp only [] at h
      split at h
      · refine ih _ _ _ _ _ h ?_ ⟨by simp, fun t ht => by cases ht⟩ hforks
        intro p hp
        rcases List.mem_append.1 hp with h1 | h1
        · exact hpaths p h1
        · rw [List.mem_singleton] at h1
          rw [h1, hrev]; exact hcur
      · split at h
        · cases h
        · rename_i neighbors hget
          -- a neighbour taken from the entry extends the sequence without a return
          have hext : ∀ n ∈ neighbors, noReturn (n :: (path ++ [next]).reverse) := by
            intro n hn
            rw [hrev]
            have havoid := hs next _ neighbors hget n hn
            match hp : path.reverse, hcur with
            | [], _ => trivial
            | prev :: before, hcur' =>
              have hpath : path = before.reverse ++ [prev] := by
                have := congrArg List.reverse hp
                simpa using this
              rw [hpath, cameFrom_later] at havoid
              exact ⟨havoid, by rw [← hp]; exact hcur⟩
          split at h
          · rename_i n0
            refine ih _ _ _ _ _ h hpaths ⟨by simp, ?_⟩ hforks
            intro t ht
            rw [List.mem_singleton] at ht
            rw [ht]
            exact hext n0 (List.mem_singleton.2 rfl)
          · refine ih _ _ _ _ _ h hpaths ⟨by simp, fun t ht => by cases ht⟩ ?_
            intro f hf
            rcases mem_pushForks_start _ _ _ _ _ hf with h1 | h1
            · exact hforks f h1
            · rw [h1.1]
              exact hext _ h1.2
    | [], fork :: forkList, h, hstack, hforks =>
      unfold newAlgoLoop at h
      refine ih _ _ _ _ _ h hpaths ⟨by simp, ?_⟩ (fun f hf => hforks f (List.mem_cons_of_mem _ hf))
      intro t ht
      rw [List.mem_singleton] at ht
      rw [ht]
      exact hforks fork (List.mem_cons_self _ _)
    | [], [], h, hstack, hforks =>
      unfold newAlgoLoop at h
      cases h
      exact hpaths

/-! ## Paths that only step right and never straight back visit no tile twice -/

theorem chain_rightStep {m : Map} (g : m.IsGrid) (p : Path)
    (hhead : ∀ t, p.head? = some t → t ∈ m.mapTiles) (hcut : cutsCorner m p = false) :
    List.Chain' (rightStep m) p := by
  induction p with
  | nil => exact List.chain'_nil
  | cons a rest ih =>
    have ha : a ∈ m.mapTiles := hhead a rfl
    match rest, ih, hcut with
    | [], _, _ => exact List.chain'_singleton a
    | b :: rest', ih, hcut =>
      unfold cutsCorner at hcut
      rw [Bool.or_eq_false_iff] at hcut
      have hb : b ∈ pruneDiagonalIfCardinalExist a (getAdjacentTiles m a true) := by
        simpa using hcut.1
      have hb' := right_step g ha (mem_of_mem_prune _ _ _ hb)
      rw [List.chain'_cons]
      exact ⟨⟨ha, hb'.1, hb'.2.2⟩, ih (fun t ht => by cases ht; exact hb'.1) hcut.2⟩

/-- Read backwards from its last tile `a`, a path of right steps without
immediate returns lies strictly behind `a`: every earlier tile is in a column
further left, or in the column of `a` on the side from which `a` was reached. -/
theorem back_steps_behind {m : Map} (g : m.IsGrid) (a b : Tile) (rest : List Tile)
    (hch : List.Chain' (fun x y => rightStep m y x) (a :: b :: rest))
    (hnr : noReturn (a :: b :: rest)) :
    ∀ t ∈ b :: rest, t ∈ m.mapTiles ∧ (t.x < a.x ∨ (t.x = a.x ∧ b.x = a.x ∧
      ((b.y = a.y + 1 ∧ a.y < t.y) ∨ (b.y = a.y - 1 ∧ t.y < a.y)))) := by
  induction rest generalizing a b with
  | nil =>
    intro t ht
    rw [List.mem_singleton] at ht
    subst ht
    rw [List.chain'_cons] at hch
    obtain ⟨hb, _, hx, hy, hne⟩ := hch.1
    exact ⟨hb, by omega⟩
  | cons c rest ih =>
    rw [List.chain'_cons] at hch
    obtain ⟨⟨hb, ha, hx, hy, hne⟩, hch2⟩ := hch
    obtain ⟨hac, hnr2⟩ := hnr
    have hc : c ∈ m.mapTiles := by
      rw [List.chain'_cons] at hch2
      exact hch2.1.1
    have hcoord : ¬ (a.x = c.x ∧ a.y = c.y) := by
      intro hcc
      exact hac (congrArg Tile.tileIndex (g.eq_of_coords ha hc hcc.1 hcc.2))
    intro t ht
    rcases List.mem_cons.1 ht with h1 | h1
    · subst h1
      exact ⟨hb, by omega⟩
    · obtain ⟨htm, hpos⟩ := ih b c hch2 hnr2 t h1
      refine ⟨htm, ?_⟩
      omega

theorem nodup_of_back_steps {m : Map} (g : m.IsGrid) (l : List Tile)
    (hch : List.Chain' (fun x y => rightStep m y x) l) (hnr : noReturn l) :
    (l.map Tile.tileIndex).Nodup := by
  induction l with
  | nil => exact List.nodup_nil
  | cons a rest ih =>
    rw [List.map_cons, List.nodup_cons]
    refine ⟨?_, ih hch.tail (noReturn_tail hnr)⟩
    intro hmem
    obtain ⟨t, ht, hidx⟩ := List.mem_map.1 hmem
    match rest, hch, hnr, ht with
    | b :: rest, hch, hnr, ht =>
      obtain ⟨htm, hpos⟩ := back_steps_behind g a b rest hch hnr t ht
      have ha : a ∈ m.mapTiles := by
        rw [List.chain'_cons] at hch
        exact hch.1.2.1
      have := g.eq_of_tileIndex htm ha hidx
      subst this
      omega

/-- No left-to-right path found by `computePaths` holds a tile index twice. -/
theorem computePaths_ltr_no_repeat {m : Map} (g : m.IsGrid) (fuel : Nat) (c : Computed)
    (h : computePaths m fuel = .ok c) :
    ∃ ltr : List Path, c.paths = ltr ++ ltr.map List.reverse ∧
      ∀ p ∈ ltr, (p.map Tile.tileIndex).Nodup := by
  obtain ⟨s1, batches, _, _, hb, hpaths⟩ := computePaths_phases m fuel c h
  refine ⟨batches.flatten, hpaths, ?_⟩
  intro p hp
  obtain ⟨found, hfound, hpf⟩ := List.mem_flatten.1 hp
  obtain ⟨start, hstart, hrun⟩ := forall₂_mem_right hb found hfound
  obtain ⟨raw, opt, hraw, hopt, hdup⟩ := newAlgoGetPathsFrom_phases m c.tiles fuel start found hrun
  have hpo : p ∈ opt := removeDuplicatePaths_subset opt found hdup p hpf
  obtain ⟨hsub, hprops⟩ := optimizePaths_ok m raw opt hopt
  have hpr : p ∈ raw := hsub.subset hpo
  have hnr : noReturn p.reverse :=
    newAlgoLoop_noReturn c.tiles (computePaths_entries_avoid_key g fuel c h) fuel [] [] []
      _ [] raw hraw (fun p hp => by cases hp) ⟨by simp, fun t ht => by cases ht⟩
      (by
        intro f hf
        rw [List.mem_singleton] at hf
        rw [hf]
        trivial) p hpr
  have hhead := (newAlgoGetPathsFrom_ok m c.tiles fuel start found hrun p hpf).1
  have hch := chain_rightStep g p (by
    intro t ht
    rw [hhead] at ht
    cases ht
    exact leftEndpointsOf_subset _ _ hstart) (hprops p hpo).2.2
  have hrev : List.Chain' (fun x y => rightStep m y x) p.reverse := by
    rw [List.chain'_reverse]
    exact hch
  have := nodup_of_back_steps g p.reverse hrev hnr
  rw [List.map_reverse, List.nodup_reverse] at this
  exact this

/-- C11: for a grid whose length is a multiple of its width on which
`computePaths` completes, no path of `this.paths` (left-to-right or
right-to-left) holds the same `tileIndex` at two different positions. -/
theorem computePaths_no_repeated_tile (cells : List Nat) (width : Nat)
    (hw : width ∣ cells.length) (fuel : Nat) (c : Computed)
    (h : computePaths (Map.create cells width) fuel = .ok c) :
    ∀ p ∈ c.paths, ∀ (i j : Nat) (a b : Tile), i ≠ j →
      p.get? i = some a → p.get? j = some b → a.tileIndex ≠ b.tileIndex := by
  have g := Map.create_isGrid cells width hw
  obtain ⟨ltr, hpaths, hltr⟩ := computePaths_ltr_no_repeat g fuel c h
  intro p hp i j a b hij ha hb
  rw [hpaths] at hp
  rcases List.mem_append.1 hp with h1 | h1
  · exact nodup_map_get?_ne _ p (hltr p h1) i j hij a b ha hb
  · obtain ⟨q, hq, rfl⟩ := List.mem_map.1 h1
    have hnd : (q.reverse.map Tile.tileIndex).Nodup := by
      rw [List.map_reverse, List.nodup_reverse]
      exact hltr q hq
    exact nodup_map_get?_ne _ q.reverse hnd i j hij a b ha hb

set_option maxRecDepth 100000 in
/-- C11 on `gridStep`: in the right-to-left path 5,4,1,0 the tiles at positions 0
and 2 have different indices. -/
theorem computePaths_no_repeated_tile_witness :
    3 ∣ [1, 1, 0, 0, 1, 1].length ∧
      computePaths (Map.create [1, 1, 0, 0, 1, 1] 3) 20 = .ok gridStepComputed ∧
      (tileOf true 5 3).tileIndex ≠ (tileOf true 1 3).tileIndex :=
  ⟨by decide, by decide,
    computePaths_no_repeated_tile [1, 1, 0, 0, 1, 1] 3 (by decide) 20 gridStepComputed
      (by decide)
      [tileOf true 5 3, tileOf true 4 3, tileOf true 1 3, tileOf true 0 3] (by decide)
      0 2 (tileOf true 5 3) (tileOf true 1 3) (by decide) (by decide) (by decide)⟩

/-! ## Grids on which `computePaths` throws -/

set_option maxRecDepth 100000 in
/-- C17 fails on `gridTee` and on the row 1,1,0,1: whatever the fuel,
`computePaths` does not complete.  On `gridTee` five iterations are enough for
the enumerator to reach tile 4 coming from tile 1 and to read the entry
`leftList[1]` of tile 4, which the pruning pass has deleted; on the row 1,1,0,1
the pruning pass reads `isWalkable` of `mapTiles[4]`, behind the last tile. -/
theorem computePaths_throws (fuel : Nat) :
    computePaths gridTee fuel = (if fuel < 5 then .outOfFuel else .typeError) ∧
      computePaths (Map.create [1, 1, 0, 1] 4) fuel = .typeError := by
  constructor
  · by_cases h : fuel < 5
    · rw [if_pos h]
      match fuel, h with
      | 0, _ => decide
      | 1, _ => decide
      | 2, _ => decide
      | 3, _ => decide
      | 4, _ => decide
    · rw [if_neg h]
      exact computePaths_of_le gridTee 5 fuel (by omega) .typeError (by decide) (by decide)
  · exact computePaths_of_le _ 0 fuel (Nat.zero_le _) .typeError (by decide) (by decide)

/-! ## Walkable tiles outside every path -/

set_option maxRecDepth 100000 in
/-- On `gridGap` `computePaths` completes with two paths, and the walkable tile 3
is in neither of them. -/
theorem computePaths_leaves_walkable_tile_out :
    computePaths gridGap 10 = .ok gridGapComputed ∧ gridGapComputed.paths.length = 2 ∧
      tileOf true 3 5 ∈ gridGap.mapTiles ∧ (tileOf true 3 5).isWalkable = true ∧
      tileInAnyPath gridGapComputed.paths (tileOf true 3 5) = false ∧
      ensureAllWalkableTilesAreInAPath gridGap gridGapComputed.paths =
        [tileOf true 3 5, tileOf true 4 5, tileOf true 8 5] :=
  ⟨by decide, by decide, by decide, by decide, by decide, by decide⟩

/-! ## The reachability test of the left-list builder -/

theorem existsPathFromHereToAnyEndpoint_of_le (m : Map) (s : TileStates) (fuel fuel' : Nat)
    (h : fuel ≤ fuel') (startTile fromTile : Tile) (r : Result Bool)
    (hr : existsPathFromHereToAnyEndpoint m s fuel startTile fromTile = r)
    (hne : r ≠ .outOfFuel) : existsPathFromHereToAnyEndpoint m s fuel' startTile fromTile = r := by
  obtain ⟨k, rfl⟩ := Nat.exists_eq_add_of_le h
  induction k with
  | zero => exact hr
  | succ k ih =>
    have hstep := existsPathLoop_mono m s (fuel + k) [] [] []
      [{ startTile := startTile, seen := [startTile, fromTile], path := [] }]
    have hk := ih (Nat.le_add_right _ _)
    unfold existsPathFromHereToAnyEndpoint at hk ⊢
    rw [← Nat.add_assoc, hstep.eq_of_ne (by rw [hk]; exact hne), hk]

set_option maxRecDepth 100000 in
/-- C21 fails on `gridHook`: tile 0 is a right-neighbour of tile 2 and its only
right-neighbour is tile 2 again, so every sequence of right-adjacency steps that
leaves tile 0 passes through tile 2; yet `existsPathFromHereToAnyEndpoint(0, 2)`
returns true (it runs out of fuel below five iterations and returns true from
five on), having walked 0, 2, 5. -/
theorem existsPathFromHereToAnyEndpoint_through_fromTile (fuel : Nat) :
    tileOf true 0 2 ∈ getAdjacentTiles gridHook (tileOf true 2 2) true ∧
      existsPathFromHereToAnyEndpoint gridHook (classifyEndpoints gridHook) fuel
          (tileOf true 0 2) (tileOf true 2 2) =
        (if fuel < 5 then .outOfFuel else .ok true) ∧
      ¬ ∃ w, RightWalk gridHook (classifyEndpoints gridHook) (tileOf true 0 2)
        (tileOf true 2 2) w := by
  refine ⟨by decide, ?_, ?_⟩
  · by_cases h : fuel < 5
    · rw [if_pos h]
      match fuel, h with
      | 0, _ => decide
      | 1, _ => decide
      | 2, _ => decide
      | 3, _ => decide
      | 4, _ => decide
    · rw [if_neg h]
      exact existsPathFromHereToAnyEndpoint_of_le gridHook _ 5 fuel (by omega) _ _ _
        (by decide) (by decide)
  · rintro ⟨w, hhead, hchain, _, havoid, last, hlast, hre⟩
    match w, hhead, hchain, havoid, hlast with
    | [a], hhead, _, _, hlast =>
      cases hhead
      cases hlast
      revert hre
      decide
    | a :: b :: rest, hhead, hchain, havoid, _ =>
      cases hhead
      rw [List.chain'_cons] at hchain
      have hb : b ∈ [tileOf true 2 2] := by
        have : getAdjacentTiles gridHook (tileOf true 0 2) true = [tileOf true 2 2] := by decide
        rw [← this]
        exact hchain.1
      rw [List.mem_singleton] at hb
      apply havoid
      rw [hb]
      simp

/-! ## A reachability test that never ends -/

theorem existsPathLoop_gridPair (fuel : Nat) (seen : List Tile) (path : Path)
    (forkList : List Fork) :
    existsPathLoop gridPair (classifyEndpoints gridPair) fuel [tileOf true 1 2] seen path
        forkList = .outOfFuel ∧
      existsPathLoop gridPair (classifyEndpoints gridPair) fuel [tileOf true 3 2] seen path
        forkList = .outOfFuel := by
  induction fuel generalizing seen path with
  | zero => exact ⟨rfl, rfl⟩
  | succ fuel ih =>
    have h1 : ((classifyEndpoints gridPair).of (tileOf true 1 2)).isRightEndpoint = false := by
      decide
    have h3 : ((classifyEndpoints gridPair).of (tileOf true 3 2)).isRightEndpoint = false := by
      decide
    have n1 : getAdjacentTiles gridPair (tileOf true 1 2) true = [tileOf true 3 2] := by decide
    have n3 : getAdjacentTiles gridPair (tileOf true 3 2) true = [tileOf true 1 2] := by decide
    constructor
    · unfold existsPathLoop
      simp only [h1, n1]
      exact (ih seen (path ++ [tileOf true 1 2])).2
    · unfold existsPathLoop
      simp only [h3, n3]
      exact (ih seen (path ++ [tileOf true 3 2])).1

theorem existsPath_gridPair (fuel : Nat) :
    existsPathFromHereToAnyEndpoint gridPair (classifyEndpoints gridPair) fuel
      (tileOf true 1 2) (tileOf true 0 2) = .outOfFuel := by
  unfold existsPathFromHereToAnyEndpoint
  cases fuel with
  | zero => rfl
  | succ fuel =>
    unfold existsPathLoop
    exact (existsPathLoop_gridPair fuel _ _ _).1

/-- C22 fails on `gridPair`: tile 0 has the two right-neighbours 1 and 3, so the
left-list loop calls `existsPathFromHereToAnyEndpoint(1, 0)`, whose inner loop
steps from tile 1 to tile 3 and back without end; with whatever bound on the
number of iterations neither this call nor `computePaths` returns. -/
theorem computePaths_never_returns (fuel : Nat) :
    getAdjacentTiles gridPair (tileOf true 0 2) true = [tileOf true 1 2, tileOf true 3 2] ∧
      existsPathFromHereToAnyEndpoint gridPair (classifyEndpoints gridPair) fuel
        (tileOf true 1 2) (tileOf true 0 2) = .outOfFuel ∧
      computePaths gridPair fuel = .outOfFuel := by
  refine ⟨by decide, existsPath_gridPair fuel, ?_⟩
  have hform : formLeftList gridPair (classifyEndpoints gridPair) fuel (tileOf true 0 2) =
      .outOfFuel := by
    unfold formLeftList
    have hr : ((classifyEndpoints gridPair).of (tileOf true 0 2)).isRightEndpoint = false := by
      decide
    have hn : getAdjacentTiles gridPair (tileOf true 0 2) true =
        [tileOf true 1 2, tileOf true 3 2] := by decide
    simp only [hr, hn]
    rw [if_neg (by decide : ¬ (false = true)), if_pos (by decide)]
    unfold filterReachable
    rw [existsPath_gridPair]
    rfl
  have hlists : formLeftLists gridPair fuel gridPair.mapTiles (classifyEndpoints gridPair) =
      .outOfFuel := by
    have hm : gridPair.mapTiles = tileOf true 0 2 :: [tileOf true 1 2, tileOf false 2 2,
        tileOf true 3 2] := by decide
    rw [hm]
    unfold formLeftLists
    rw [hform]
    rfl
  unfold computePaths
  rw [hlists]
  rfl

/-! ## Touching tiles by index arithmetic -/

/-- C26 fails on the 3x3 grid `gridNine`: tile 2 at (2,0) ends the first row and
tile 3 at (0,1) begins the second; their indices differ by one, so
`areTilesCardinal` returns true, while the tiles lie two columns and one row
apart and do not touch. -/
theorem areTilesCardinal_across_rows :
    tileOf true 2 3 ∈ gridNine.mapTiles ∧ tileOf true 3 3 ∈ gridNine.mapTiles ∧
      areTilesCardinal gridNine (tileOf true 2 3) (tileOf true 3 3) = true ∧
      |(tileOf true 2 3).x - (tileOf true 3 3).x| = 2 ∧
      |(tileOf true 2 3).y - (tileOf true 3 3).y| = 1 := by
  decide

/-- C27 fails on the 3x3 grid `gridNine`: the tiles 0 at (0,0) and 2 at (2,0) lie
in one row, two columns apart; `index1 == index2 - c + 1` holds for them, so
`areTilesDiagonal` returns true. -/
theorem areTilesDiagonal_across_rows :
    tileOf true 0 3 ∈ gridNine.mapTiles ∧ tileOf true 2 3 ∈ gridNine.mapTiles ∧
      areTilesDiagonal gridNine (tileOf true 0 3) (tileOf true 2 3) = true ∧
      |(tileOf true 0 3).x - (tileOf true 2 3).x| = 2 ∧
      |(tileOf true 0 3).y - (tileOf true 2 3).y| = 0 := by
  decide

/-! ## Looking up a path through a tile -/

theorem mem_matchesInPath (path : Path) (tileX tileY : Int) (j : Nat) (l : List Tile)
    (c : PathChoice) :
    c ∈ matchesInPath path tileX tileY j l ↔
      c.path = path ∧ ∃ k t, l.get? k = some t ∧ c.indexInPath = j + k ∧
        t.x = tileX ∧ t.y = tileY := by
  induction l generalizing j with
  | nil => simp [matchesInPath]
  | cons a rest ih =>
    unfold matchesInPath
    have hrest : (c.path = path ∧ ∃ k t, (a :: rest).get? k = some t ∧ c.indexInPath = j + k ∧
        t.x = tileX ∧ t.y = tileY) ↔
        (c.path = path ∧ c.indexInPath = j ∧ a.x = tileX ∧ a.y = tileY) ∨
        (c.path = path ∧ ∃ k t, rest.get? k = some t ∧ c.indexInPath = j + 1 + k ∧
          t.x = tileX ∧ t.y = tileY) := by
      constructor
      · rintro ⟨hp, k, t, hk, hidx, hx, hy⟩
        cases k with
        | zero =>
          left
          simp only [List.get?_cons_zero, Option.some.injEq] at hk
          subst hk
          exact ⟨hp, by simpa using hidx, hx, hy⟩
        | succ k =>
          right
          exact ⟨hp, k, t, by simpa using hk, by omega, hx, hy⟩
      · rintro (⟨hp, hidx, hx, hy⟩ | ⟨hp, k, t, hk, hidx, hx, hy⟩)
        · exact ⟨hp, 0, a, rfl, by omega, hx, hy⟩
        · exact ⟨hp, k + 1, t, by simpa using hk, by omega, hx, hy⟩
    rw [hrest]
    split
    · rename_i hxy
      rw [List.mem_cons, ih]
      constructor
      · rintro (h | h)
        · left
          subst h
          exact ⟨rfl, rfl, hxy.1, hxy.2⟩
        · exact Or.inr h
      · rintro (⟨hp, hidx, _, _⟩ | h)
        · left
          cases c
          simp only at hp hidx
          rw [hp, hidx]
        · exact Or.inr h
    · rename_i hxy
      rw [ih]
      constructor
      · exact Or.inr
      · rintro (⟨_, _, hx, hy⟩ | h)
        · exact absurd ⟨hx, hy⟩ hxy
        · exact h

theorem mem_take_drop {α : Type} (l : List α) (first n : Nat) (a : α) :
    a ∈ (l.drop first).take n ↔ ∃ i, first ≤ i ∧ i < first + n ∧ l.get? i = some a := by
  rw [List.mem_iff_getElem?]
  constructor
  · rintro ⟨k, hk⟩
    rw [List.getElem?_take] at hk
    split at hk
    · rw [List.getElem?_drop] at hk
      exact ⟨first + k, by omega, by omega, by rw [List.get?_eq_getElem?]; exact hk⟩
    · cases hk
  · rintro ⟨i, h1, h2, hi⟩
    refine ⟨i - first, ?_⟩
    rw [List.getElem?_take, if_pos (by omega), List.getElem?_drop]
    rw [List.get?_eq_getElem?] at hi
    rw [← hi]
    congr 1
    omega

/-- The candidates of `getPathStartingWith` are the pairs of a path of the
searched half and a position of that path at which the tile lies at the given
coordinates. -/
theorem mem_possiblePaths (paths : List Path) (heven : paths.length % 2 = 0)
    (tileX tileY : Int) (facingRight : Bool) (c : PathChoice) :
    c ∈ possiblePaths paths tileX tileY facingRight ↔
      ∃ i t, InHalf paths.length facingRight i ∧ paths.get? i = some c.path ∧
        c.path.get? c.indexInPath = some t ∧ t.x = tileX ∧ t.y = tileY := by
  unfold possiblePaths
  simp only [List.mem_flatten, List.mem_map]
  constructor
  · rintro ⟨l, ⟨p, hp, rfl⟩, hc⟩
    rw [mem_matchesInPath] at hc
    obtain ⟨hcp, k, t, hk, hidx, hx, hy⟩ := hc
    rw [mem_take_drop] at hp
    obtain ⟨i, h1, h2, hi⟩ := hp
    refine ⟨i, t, ?_, by rw [hcp]; exact hi, ?_, hx, hy⟩
    · unfold InHalf
      cases facingRight with
      | true => simpa using h2
      | false =>
        simp only [Bool.not_false, if_true, Nat.zero_add] at h1 h2
        simp only [Bool.false_eq_true, if_false]
        omega
    · rw [hcp, hidx, Nat.zero_add]
      exact hk
  · rintro ⟨i, t, hhalf, hi, ht, hx, hy⟩
    refine ⟨_, ⟨c.path, ?_, rfl⟩, ?_⟩
    · rw [mem_take_drop]
      refine ⟨i, ?_, ?_, hi⟩
      · unfold InHalf at hhalf
        cases facingRight with
        | true => simp
        | false =>
          simp only [Bool.false_eq_true, if_false] at hhalf
          simpa using hhalf.1
      · unfold InHalf at hhalf
        cases facingRight with
        | true => simpa using hhalf
        | false =>
          simp only [Bool.false_eq_true, if_false] at hhalf
          simp only [Bool.not_false, if_true, Nat.zero_add]
          omega
    · rw [mem_matchesInPath]
      exact ⟨rfl, c.indexInPath, t, ht, by omega, hx, hy⟩

/-- C23: for a path array of even length, coordinates `(tileX, tileY)` and either
direction, and for `randomArrayElement` returning an element of its array and
nothing only for the empty array: the candidates of `getPathStartingWith` are
exactly the pairs of a path `this.paths[i]` with `i` in the first half
(`facingRight` true) or in the second half (`facingRight` false) and of an index
of that path at which the tile lies at `(tileX, tileY)`; what
`getPathStartingWith` returns is one of the candidates; and it returns nothing
exactly when no path of that half contains a tile at `(tileX, tileY)`. -/
theorem getPathStartingWith_candidates (paths : List Path) (heven : paths.length % 2 = 0)
    (tileX tileY : Int) (facingRight : Bool)
    (randomArrayElement : List PathChoice → Option PathChoice)
    (hsome : ∀ l c, randomArrayElement l = some c → c ∈ l)
    (hnone : ∀ l, randomArrayElement l = none → l = []) :
    (∀ c, c ∈ possiblePaths paths tileX tileY facingRight ↔
        ∃ i t, InHalf paths.length facingRight i ∧ paths.get? i = some c.path ∧
          c.path.get? c.indexInPath = some t ∧ t.x = tileX ∧ t.y = tileY) ∧
      (∀ c, getPathStartingWith randomArrayElement paths tileX tileY facingRight = some c →
        c ∈ possiblePaths paths tileX tileY facingRight) ∧
      (getPathStartingWith randomArrayElement paths tileX tileY facingRight = none ↔
        ¬ ∃ i p t, InHalf paths.length facingRight i ∧ paths.get? i = some p ∧ t ∈ p ∧
          t.x = tileX ∧ t.y = tileY) := by
  refine ⟨fun c => mem_possiblePaths paths heven tileX tileY facingRight c,
    fun c h => hsome _ c h, ?_⟩
  unfold getPathStartingWith
  constructor
  · intro h
    have hnil := hnone _ h
    rintro ⟨i, p, t, hhalf, hi, ht, hx, hy⟩
    obtain ⟨k, hk⟩ := List.mem_iff_get?.1 ht
    have : ({ path := p, indexInPath := k } : PathChoice) ∈
        possiblePaths paths tileX tileY facingRight :=
      (mem_possiblePaths paths heven tileX tileY facingRight _).2 ⟨i, t, hhalf, hi, hk, hx, hy⟩
    rw [hnil] at this
    cases this
  · intro h
    cases hr : randomArrayElement (possiblePaths paths tileX tileY facingRight) with
    | none => rfl
    | some c =>
      exfalso
      obtain ⟨i, t, hhalf, hi, ht, hx, hy⟩ :=
        (mem_possiblePaths paths heven tileX tileY facingRight c).1 (hsome _ c hr)
      exact h ⟨i, c.path, t, hhalf, hi, mem_of_get? ht, hx, hy⟩

set_option maxRecDepth 100000 in
/-- C23 on the paths of `gridStep`, with the first element for the random one:
looking for (1,1) among the right-to-left paths gives the path 5,4,1,0 at index
1, which is a candidate. -/
theorem getPathStartingWith_candidates_witness :
    gridStepComputed.paths.length % 2 = 0 ∧
      (∀ (l : List PathChoice) c, l.head? = some c → c ∈ l) ∧
      (∀ l : List PathChoice, l.head? = none → l = []) ∧
      getPathStartingWith List.head? gridStepComputed.paths 1 1 false =
        some { path := [tileOf true 5 3, tileOf true 4 3, tileOf true 1 3, tileOf true 0 3],
               indexInPath := 1 } ∧
      ({ path := [tileOf true 5 3, tileOf true 4 3, tileOf true 1 3, tileOf true 0 3],
         indexInPath := 1 } : PathChoice) ∈ possiblePaths gridStepComputed.paths 1 1 false :=
  ⟨by decide, fun _ _ h => List.mem_of_mem_head? h, fun _ h => List.head?_eq_none_iff.1 h,
    by decide,
    (getPathStartingWith_candidates gridStepComputed.paths (by decide) 1 1 false List.head?
      (fun _ _ h => List.mem_of_mem_head? h) (fun _ h => List.head?_eq_none_iff.1 h)).2.1 _
      (by decide)⟩

/-! ## Creating a spawner -/

/-- The tile at an in-grid coordinate. -/
theorem Map.IsGrid.tileAt_coords {m : Map} (g : m.IsGrid) (x y : Int)
    (hx : 0 ≤ x ∧ x < (m.numCols : Int)) (hy : 0 ≤ y ∧ y < (m.numRows : Int)) :
    ∃ tile, m.tileAt (x + y * (m.numCols : Int)) = some tile ∧ tile ∈ m.mapTiles ∧
      tile.x = x ∧ tile.y = y ∧ tile.tileIndex = x + y * (m.numCols : Int) := by
  have hlen : (m.mapTiles.length : Int) = (m.numRows : Int) * (m.numCols : Int) := by
    exact_mod_cast g.length_eq
  have h1 : y * (m.numCols : Int) ≤ ((m.numRows : Int) - 1) * (m.numCols : Int) :=
    Int.mul_le_mul_of_nonneg_right (by omega) (by omega)
  have h2 : 0 ≤ y * (m.numCols : Int) := Int.mul_nonneg hy.1 (by omega)
  have h3 : ((m.numRows : Int) - 1) * (m.numCols : Int) =
      (m.numRows : Int) * (m.numCols : Int) - (m.numCols : Int) := by ring
  obtain ⟨tile, ht⟩ := Map.tileAt_of_lt m (x + y * (m.numCols : Int)) (by omega) (by omega)
  obtain ⟨hmem, hidx, _, _⟩ := g.tileAt_some ht
  obtain ⟨_, hx0, hx1, _, _, hti, _⟩ := g.coords hmem
  have := int_divmod_unique (m.numCols : Int) tile.y tile.x y x (by rw [← hti, hidx]; ring)
    hx0 hx1 hx.1 hx.2
  exact ⟨tile, ht, hmem, this.2, this.1, hidx⟩

/-- What `attemptToCreateSpawner` returns and leaves at an in-grid coordinate. -/
theorem attemptToCreateSpawner_run {D : Type} [LE D] [DecidableRel (fun a b : D => a ≤ b)]
    (distance : Int → Int → Int → Int → D) {m : Map} (g : m.IsGrid) (st : MapState)
    (x y : Int) (hx : 0 ≤ x ∧ x < (m.numCols : Int)) (hy : 0 ≤ y ∧ y < (m.numRows : Int))
    (maxDistance : D) :
    ∃ tile, m.tileAt (x + y * (m.numCols : Int)) = some tile ∧ tile ∈ m.mapTiles ∧
      tile.x = x ∧ tile.y = y ∧ tile.tileIndex = x + y * (m.numCols : Int) ∧
      attemptToCreateSpawner distance m st x y maxDistance =
        .ok (if st.isSpawner tile = false ∧ tile.isWalkable = true ∧
            st.fog.getD tile.tileIndex.toNat false = false ∧
            ∃ spawner ∈ m.mapTiles, st.isSpawner spawner = true ∧
              distance spawner.x spawner.y x y ≤ maxDistance
          then (true, st.convertToSpawner tile) else (false, st)) := by
  classical
  obtain ⟨tile, ht, hmem, htx, hty, hidx⟩ := g.tileAt_coords x y hx hy
  refine ⟨tile, ht, hmem, htx, hty, hidx, ?_⟩
  have hc : m.numCols ≠ 0 := by omega
  have hmod : spawnerTileIndex m x y = x + y * (m.numCols : Int) := by
    unfold spawnerTileIndex
    rw [Int.tmod_eq_of_lt hx.1 hx.2]
  unfold attemptToCreateSpawner isValidTileToCreateSpawner
  simp only [hmod, ht, if_neg hc, hidx]
  by_cases h1 : st.isSpawner tile = true
  · simp [h1, Result.bind]
  · have h1' : st.isSpawner tile = false := by simpa using h1
    by_cases h2 : tile.isWalkable = true
    · by_cases h3 : st.fog.getD (x + y * (m.numCols : Int)).toNat false = true
      · simp only [h1', h2, h3, Result.bind]
        simp
      · have h3' : st.fog.getD (x + y * (m.numCols : Int)).toNat false = false := by
          simpa using h3
        by_cases h4 : ∃ spawner ∈ m.mapTiles, st.isSpawner spawner = true ∧
            distance spawner.x spawner.y x y ≤ maxDistance
        · have hany : (getAllSpawnerTiles m st).any (fun spawner =>
              decide (distance spawner.x spawner.y x y ≤ maxDistance)) = true := by
            obtain ⟨sp, hsp, hflag, hd⟩ := h4
            rw [List.any_eq_true]
            exact ⟨sp, List.mem_filter.2 ⟨hsp, hflag⟩, by simpa using hd⟩
          simp only [h1', h2, h3', hany, Result.bind, ht]
          simp [h4]
        · have hany : (getAllSpawnerTiles m st).any (fun spawner =>
              decide (distance spawner.x spawner.y x y ≤ maxDistance)) = false := by
            rw [Bool.eq_false_iff]
            intro hc
            rw [List.any_eq_true] at hc
            obtain ⟨sp, hsp, hd⟩ := hc
            obtain ⟨hsp1, hsp2⟩ := List.mem_filter.1 hsp
            exact h4 ⟨sp, hsp1, hsp2, by simpa using hd⟩
          simp only [h1', h2, h3', hany, Result.bind]
          simp [h4]
    · have h2' : tile.isWalkable = false := by simpa using h2
      simp [h1', h2', Result.bind]

/-- C24: on a grid whose length is a multiple of its width, for an in-grid
coordinate `(x, y)` and any distance function, `attemptToCreateSpawner(x, y,
maxDistance)` returns, and it returns true if and only if the tile at `(x, y)`
is not a spawner, is walkable, is not fogged, and some spawner tile of the map is
at distance at most `maxDistance` from `(x, y)`. -/
theorem attemptToCreateSpawner_true_iff {D : Type} [LE D]
    [DecidableRel (fun a b : D => a ≤ b)] (distance : Int → Int → Int → Int → D)
    (cells : List Nat) (width : Nat) (hw : width ∣ cells.length) (st : MapState)
    (x y : Int) (hx : 0 ≤ x ∧ x < (width : Int))
    (hy : 0 ≤ y ∧ y < ((Map.create cells width).numRows : Int)) (maxDistance : D) :
    ∃ tile valid st', (Map.create cells width).tileAt (x + y * (width : Int)) = some tile ∧
      tile.x = x ∧ tile.y = y ∧
      attemptToCreateSpawner distance (Map.create cells width) st x y maxDistance =
        .ok (valid, st') ∧
      (valid = true ↔ st.isSpawner tile = false ∧ tile.isWalkable = true ∧
        st.fog.getD tile.tileIndex.toNat false = false ∧
        ∃ spawner ∈ (Map.create cells width).mapTiles, st.isSpawner spawner = true ∧
          distance spawner.x spawner.y x y ≤ maxDistance) := by
  classical
  obtain ⟨tile, ht, _, htx, hty, _, hrun⟩ :=
    attemptToCreateSpawner_run distance (Map.create_isGrid cells width hw) st x y hx hy
      maxDistance
  by_cases h : st.isSpawner tile = false ∧ tile.isWalkable = true ∧
      st.fog.getD tile.tileIndex.toNat false = false ∧
      ∃ spawner ∈ (Map.create cells width).mapTiles, st.isSpawner spawner = true ∧
        distance spawner.x spawner.y x y ≤ maxDistance
  · rw [if_pos h] at hrun
    exact ⟨tile, true, _, ht, htx, hty, hrun, ⟨fun _ => h, fun _ => rfl⟩⟩
  · rw [if_neg h] at hrun
    exact ⟨tile, false, _, ht, htx, hty, hrun,
      ⟨fun hc => Bool.noConfusion hc, fun hc => absurd hc h⟩⟩

set_option maxRecDepth 100000 in
/-- C24 on `gridStep` with tile 0 the only spawner: a spawner can be created on
tile 1, one step away, when `maxDistance` is 1. -/
theorem attemptToCreateSpawner_true_iff_witness :
    3 ∣ [1, 1, 0, 0, 1, 1].length ∧ ((0 : Int) ≤ 1 ∧ (1 : Int) < (3 : Nat)) ∧
      ((0 : Int) ≤ 0 ∧ (0 : Int) < ((Map.create [1, 1, 0, 0, 1, 1] 3).numRows : Int)) ∧
      attemptToCreateSpawner stepDistance (Map.create [1, 1, 0, 0, 1, 1] 3) gridStepState 1 0 1 =
        .ok (true, { gridStepState with
          isSpawnerPoint := [true, true, false, false, false, false] }) ∧
      ∃ tile valid st', (Map.create [1, 1, 0, 0, 1, 1] 3).tileAt (1 + 0 * ((3 : Nat) : Int)) =
          some tile ∧ tile.x = 1 ∧ tile.y = 0 ∧
        attemptToCreateSpawner stepDistance (Map.create [1, 1, 0, 0, 1, 1] 3) gridStepState
          1 0 1 = .ok (valid, st') ∧
        (valid = true ↔ gridStepState.isSpawner tile = false ∧ tile.isWalkable = true ∧
          gridStepState.fog.getD tile.tileIndex.toNat false = false ∧
          ∃ spawner ∈ (Map.create [1, 1, 0, 0, 1, 1] 3).mapTiles,
            gridStepState.isSpawner spawner = true ∧
              stepDistance spawner.x spawner.y 1 0 ≤ (1 : Int)) :=
  ⟨by decide, by decide, by decide, by decide,
    attemptToCreateSpawner_true_iff stepDistance [1, 1, 0, 0, 1, 1] 3 (by decide) gridStepState
      1 0 (by decide) (by decide) 1⟩

/-- C25: on a grid whose length is a multiple of its width, with a spawner flag
for every tile, for an in-grid coordinate `(x, y)`: when
`attemptToCreateSpawner` returns false, the tiles, the spawner flags, the fog and
the paths are what they were; when it returns true, the tile at `(x, y)` is a
spawner afterwards, every other tile has the spawner flag it had, and the
left-lists and endpoint flags of the tiles, the fog and the paths are what they
were. -/
theorem attemptToCreateSpawner_frame {D : Type} [LE D]
    [DecidableRel (fun a b : D => a ≤ b)] (distance : Int → Int → Int → Int → D)
    (cells : List Nat) (width : Nat) (hw : width ∣ cells.length) (st : MapState)
    (hflags : st.isSpawnerPoint.length = cells.length)
    (x y : Int) (hx : 0 ≤ x ∧ x < (width : Int))
    (hy : 0 ≤ y ∧ y < ((Map.create cells width).numRows : Int)) (maxDistance : D) :
    ∃ tile valid st', (Map.create cells width).tileAt (x + y * (width : Int)) = some tile ∧
      tile.x = x ∧ tile.y = y ∧
      attemptToCreateSpawner distance (Map.create cells width) st x y maxDistance =
        .ok (valid, st') ∧
      (valid = false → st' = st) ∧
      (valid = true → st'.tiles = st.tiles ∧ st'.fog = st.fog ∧ st'.paths = st.paths ∧
        st'.isSpawner tile = true ∧
        ∀ t ∈ (Map.create cells width).mapTiles, t ≠ tile → st'.isSpawner t = st.isSpawner t) := by
  classical
  have g := Map.create_isGrid cells width hw
  obtain ⟨tile, ht, hmem, htx, hty, hidx, hrun⟩ :=
    attemptToCreateSpawner_run distance g st x y hx hy maxDistance
  split at hrun
  · refine ⟨tile, true, _, ht, htx, hty, hrun, ⟨fun hc => Bool.noConfusion hc, fun _ => ?_⟩⟩
    refine ⟨rfl, rfl, rfl, ?_, ?_⟩
    · obtain ⟨_, _, _, _, _, _, h0, hlt, _⟩ := g.coords hmem
      rw [Map.create_length] at hlt
      unfold MapState.isSpawner MapState.convertToSpawner
      simp only [List.getD_eq_getElem?_getD]
      rw [List.getElem?_set_self (by omega)]
      rfl
    · intro t htm hne
      have hti : t.tileIndex.toNat ≠ tile.tileIndex.toNat := by
        intro heq
        obtain ⟨_, _, _, _, _, _, h0, _⟩ := g.coords hmem
        obtain ⟨_, _, _, _, _, _, h0', _⟩ := g.coords htm
        exact hne (g.eq_of_tileIndex htm hmem (by omega))
      unfold MapState.isSpawner MapState.convertToSpawner
      simp only [List.getD_eq_getElem?_getD]
      rw [List.getElem?_set_ne (Ne.symm hti)]
  · exact ⟨tile, false, _, ht, htx, hty, hrun, ⟨fun _ => rfl, fun hc => Bool.noConfusion hc⟩⟩

set_option maxRecDepth 100000 in
/-- C25 on `gridStep` with tile 0 the only spawner: creating a spawner on tile 1
sets the flag of tile 1 and nothing else. -/
theorem attemptToCreateSpawner_frame_witness :
    3 ∣ [1, 1, 0, 0, 1, 1].length ∧
      gridStepState.isSpawnerPoint.length = [1, 1, 0, 0, 1, 1].length ∧
      ((0 : Int) ≤ 1 ∧ (1 : Int) < (3 : Nat)) ∧
      ((0 : Int) ≤ 0 ∧ (0 : Int) < ((Map.create [1, 1, 0, 0, 1, 1] 3).numRows : Int)) ∧
      ∃ tile valid st', (Map.create [1, 1, 0, 0, 1, 1] 3).tileAt (1 + 0 * ((3 : Nat) : Int)) =
          some tile ∧ tile.x = 1 ∧ tile.y = 0 ∧
        attemptToCreateSpawner stepDistance (Map.create [1, 1, 0, 0, 1, 1] 3) gridStepState
          1 0 1 = .ok (valid, st') ∧
        (valid = false → st' = gridStepState) ∧
        (valid = true → st'.tiles = gridStepState.tiles ∧ st'.fog = gridStepState.fog ∧
          st'.paths = gridStepState.paths ∧ st'.isSpawner tile = true ∧
          ∀ t ∈ (Map.create [1, 1, 0, 0, 1, 1] 3).mapTiles, t ≠ tile →
            st'.isSpawner t = gridStepState.isSpawner t) :=
  ⟨by decide, by decide, by decide, by decide,
    attemptToCreateSpawner_frame stepDistance [1, 1, 0, 0, 1, 1] 3 (by decide) gridStepState
      (by decide) 1 0 (by decide) (by decide) 1⟩

/-! ## Fog -/

theorem mem_loopValues (lo hi i : Int) : i ∈ loopValues lo hi ↔ lo ≤ i ∧ i < hi := by
  unfold loopValues
  rw [List.mem_map]
  constructor
  · rintro ⟨k, hk, rfl⟩
    rw [List.mem_range] at hk
    omega
  · intro h
    refine ⟨(i - lo).toNat, ?_, ?_⟩
    · rw [List.mem_range]
      omega
    · omega

theorem painted_foldl {β : Type} (step : List Bool → β → List Bool) (P : β → Nat → Prop)
    (v : Bool) (hstep : ∀ fog b, Painted fog (step fog b) v (P b)) (l : List β)
    (fog : List Bool) : Painted fog (l.foldl step fog) v (fun k => ∃ b ∈ l, P b k) := by
  classical
  induction l generalizing fog with
  | nil =>
    refine ⟨rfl, fun k => ⟨?_, fun _ => rfl⟩⟩
    rintro ⟨b, hb, _⟩
    cases hb
  | cons b l ih =>
    obtain ⟨hlen1, h1⟩ := hstep fog b
    obtain ⟨hlen2, h2⟩ := ih (step fog b)
    rw [List.foldl_cons]
    refine ⟨by rw [hlen2, hlen1], fun k => ⟨?_, ?_⟩⟩
    · rintro ⟨b', hb', hP⟩ hk
      by_cases hl : ∃ b ∈ l, P b k
      · exact (h2 k).1 hl (by rw [hlen1]; exact hk)
      · rw [(h2 k).2 hl]
        rcases List.mem_cons.1 hb' with h | h
        · subst h
          exact (h1 k).1 hP hk
        · exact absurd ⟨b', h, hP⟩ hl
    · intro hno
      have hl : ¬ ∃ b ∈ l, P b k := fun ⟨b', hb', hP⟩ => hno ⟨b', List.mem_cons_of_mem _ hb', hP⟩
      have hb : ¬ P b k := fun hP => hno ⟨b, List.mem_cons_self _ _, hP⟩
      rw [(h2 k).2 hl, (h1 k).2 hb]

theorem painted_setFogCell (m : Map) (x y radius : Int) (foggy drawCircular : Bool)
    (fog : List Bool) (i j : Int) :
    Painted fog (setFogCell m x y radius foggy drawCircular fog i j) foggy
      (fun k => fogCellHit m x y radius drawCircular i j ∧
        (Int.tmod i m.numCols + j * m.numCols).toNat = k) := by
  unfold setFogCell fogCellHit
  split
  · rename_i h
    exact ⟨rfl, fun k => ⟨fun hq => absurd h hq.1.1, fun _ => rfl⟩⟩
  · rename_i h
    split
    · rename_i h2
      exact ⟨rfl, fun k => ⟨fun hq => absurd h2 hq.1.2, fun _ => rfl⟩⟩
    · rename_i h2
      refine ⟨List.length_set _ _ _, fun k => ⟨?_, ?_⟩⟩
      · rintro ⟨_, rfl⟩ hk
        rw [List.get?_eq_getElem?, List.getElem?_set_self hk]
      · intro hq
        have hne : (Int.tmod i m.numCols + j * m.numCols).toNat ≠ k := fun he => hq ⟨⟨h, h2⟩, he⟩
        rw [List.get?_eq_getElem?, List.get?_eq_getElem?, List.getElem?_set_ne hne]

/-- What `setFog` writes: the value `foggy` to the entries of the cells for which
the loops reach the assignment, with the capped radius. -/
theorem painted_setFog (m : Map) (fog : List Bool) (x y radius : Int)
    (foggy drawCircular : Bool) :
    Painted fog (setFog m fog x y radius foggy drawCircular) foggy
      (fun k => ∃ i ∈ loopValues (x - min radius (((max m.numCols m.numRows : Nat) : Int) * 2))
          (x + min radius (((max m.numCols m.numRows : Nat) : Int) * 2) + 1),
        ∃ j ∈ loopValues (y - min radius (((max m.numCols m.numRows : Nat) : Int) * 2))
          (y + min radius (((max m.numCols m.numRows : Nat) : Int) * 2) + 1),
        fogCellHit m x y (min radius (((max m.numCols m.numRows : Nat) : Int) * 2))
          drawCircular i j ∧ (Int.tmod i m.numCols + j * m.numCols).toNat = k) := by
  unfold setFog
  exact painted_foldl _ _ foggy
    (fun fog i => painted_foldl _ _ foggy
      (fun fog j => painted_setFogCell m x y _ foggy drawCircular fog i j) _ fog) _ fog

/-- C28: on a grid whose length is a multiple of its width, with a fog entry for
every tile, a centre `(x, y)` inside the grid and any integer radius (negative
ones included), `setFog(x, y, radius, foggy, drawCircular)` leaves the fog array
at its length,
and the entry of an in-grid cell `(i, j)` is `foggy` when `|i - x| ≤ radius` and
`|j - y| ≤ radius` (and `|i - x| + |j - y| ≤ radius` when `drawCircular` is
true) and is what it was otherwise; the radius in this description is the one
passed in, not the capped one. -/
theorem setFog_cells (cells : List Nat) (width : Nat) (hw : width ∣ cells.length)
    (fog : List Bool) (hfog : fog.length = cells.length) (x y radius : Int)
    (hx : 0 ≤ x ∧ x < (width : Int))
    (hy : 0 ≤ y ∧ y < ((Map.create cells width).numRows : Int))
    (foggy drawCircular : Bool) :
    (setFog (Map.create cells width) fog x y radius foggy drawCircular).length = fog.length ∧
      ∀ i j : Int, 0 ≤ i → i < (width : Int) → 0 ≤ j →
        j < ((Map.create cells width).numRows : Int) →
        (setFog (Map.create cells width) fog x y radius foggy drawCircular).get?
            (i + j * (width : Int)).toNat =
          if |i - x| ≤ radius ∧ |j - y| ≤ radius ∧
              (drawCircular = true → |i - x| + |j - y| ≤ radius)
          then some foggy else fog.get? (i + j * (width : Int)).toNat := by
  have g := Map.create_isGrid cells width hw
  obtain ⟨hlen, hk⟩ := painted_setFog (Map.create cells width) fog x y radius foggy drawCircular
  refine ⟨hlen, ?_⟩
  intro i j hi0 hi1 hj0 hj1
  have hcols : (Map.create cells width).numCols = width := rfl
  unfold fogCellHit at hk
  simp only [hcols] at hk
  have hcells : (cells.length : Int) =
      ((Map.create cells width).numRows : Int) * (width : Int) := by
    have := g.length_eq
    rw [Map.create_length, hcols] at this
    exact_mod_cast this
  generalize (Map.create cells width).numRows = rows at hk hy hj1 hcells
  -- the capped radius
  have hM1 : (width : Int) ≤ ((max width rows : Nat) : Int) := by
    exact_mod_cast Nat.le_max_left _ _
  have hM2 : (rows : Int) ≤ ((max width rows : Nat) : Int) := by
    exact_mod_cast Nat.le_max_right _ _
  generalize ((max width rows : Nat) : Int) = M at hk hM1 hM2
  have hR1 : min radius (M * 2) ≤ radius := min_le_left _ _
  have hR2 : min radius (M * 2) = radius ∨ min radius (M * 2) = M * 2 := by
    rcases le_total radius (M * 2) with h | h
    · exact Or.inl (min_eq_left h)
    · exact Or.inr (min_eq_right h)
  generalize min radius (M * 2) = R at hk hR1 hR2
  -- absolute values
  have ax := abs_cases (i - x)
  have ay := abs_cases (j - y)
  have hax : |x - i| = |i - x| := abs_sub_comm _ _
  have hay : |y - j| = |j - y| := abs_sub_comm _ _
  -- the index of the cell
  have hjw : 0 ≤ j * (width : Int) := Int.mul_nonneg hj0 (by omega)
  have hjw2 : j * (width : Int) ≤ ((rows : Int) - 1) * (width : Int) :=
    Int.mul_le_mul_of_nonneg_right (by omega) (by omega)
  have hjw3 : ((rows : Int) - 1) * (width : Int) = (rows : Int) * (width : Int) - (width : Int) := by
    ring
  have hidx : (i + j * (width : Int)).toNat < fog.length := by omega
  by_cases hcond : |i - x| ≤ radius ∧ |j - y| ≤ radius ∧
      (drawCircular = true → |i - x| + |j - y| ≤ radius)
  · rw [if_pos hcond]
    refine (hk _).1 ⟨i, ?_, j, ?_, ⟨?_, ?_⟩, ?_⟩ hidx
    · rw [mem_loopValues]
      omega
    · rw [mem_loopValues]
      omega
    · omega
    · rintro ⟨hc, hgt⟩
      have := hcond.2.2 hc
      rw [hax, hay] at hgt
      omega
    · rw [Int.tmod_eq_of_lt hi0 hi1]
  · rw [if_neg hcond]
    refine (hk _).2 ?_
    rintro ⟨i', hi', j', hj', ⟨hb, hcirc⟩, he⟩
    rw [mem_loopValues] at hi' hj'
    have hb' : 0 ≤ i' ∧ 0 ≤ j' ∧ i' < (width : Int) ∧ j' < (rows : Int) := by omega
    rw [Int.tmod_eq_of_lt hb'.1 hb'.2.2.1] at he
    have hjw' : 0 ≤ j' * (width : Int) := Int.mul_nonneg hb'.2.1 (by omega)
    have heq : j' * (width : Int) + i' = j * (width : Int) + i := by omega
    obtain ⟨e1, e2⟩ := int_divmod_unique (width : Int) j' i' j i heq hb'.1 hb'.2.2.1 hi0 hi1
    subst e1 e2
    apply hcond
    refine ⟨by omega, by omega, fun hc => ?_⟩
    have : ¬ (|x - i'| + |y - j'| > R) := fun hgt => hcirc ⟨hc, hgt⟩
    rw [hax, hay] at this
    omega

set_option maxRecDepth 100000 in
/-- C28 on `gridStep`, fogged all over: clearing the fog around (1,0) with
radius 1 in the shape of a diamond clears the cell (1,1) below the centre. -/
theorem setFog_cells_witness :
    3 ∣ [1, 1, 0, 0, 1, 1].length ∧ fogSix.length = [1, 1, 0, 0, 1, 1].length ∧
      ((0 : Int) ≤ 1 ∧ (1 : Int) < (3 : Nat)) ∧
      ((0 : Int) ≤ 0 ∧ (0 : Int) < ((Map.create [1, 1, 0, 0, 1, 1] 3).numRows : Int)) ∧
      setFog (Map.create [1, 1, 0, 0, 1, 1] 3) fogSix 1 0 1 false true =
        [false, false, false, true, false, true] ∧
      (setFog (Map.create [1, 1, 0, 0, 1, 1] 3) fogSix 1 0 1 false true).get?
          (1 + 1 * ((3 : Nat) : Int)).toNat =
        if |(1 : Int) - 1| ≤ 1 ∧ |(1 : Int) - 0| ≤ 1 ∧
            (true = true → |(1 : Int) - 1| + |(1 : Int) - 0| ≤ 1)
        then some false else fogSix.get? (1 + 1 * ((3 : Nat) : Int)).toNat :=
  ⟨by decide, by decide, by decide, by decide, by decide,
    (setFog_cells [1, 1, 0, 0, 1, 1] 3 (by decide) fogSix (by decide) 1 0 1 (by decide)
      (by decide) false true).2 1 1 (by decide) (by decide) (by decide) (by decide)⟩

/-! ## Inventory slots -/

/-- C29: `canHoldItem` returns true for the item `null`; for a usable item it
returns true exactly when the slot type is USABLE; for an item that is not usable
it returns true when the slot type is EQUIP, it returns true for a WAR, WIZ or
ARCH slot exactly when the item is equippable by that class, and it returns
false for a USABLE slot. -/
theorem canHoldItem_rules (slot : Slot) (item : Item) :
    slot.canHoldItem none = true ∧
      (item.usable = true →
        (slot.canHoldItem (some item) = true ↔ slot.slotType = SlotTypes.USABLE)) ∧
      (item.usable = false →
        (slot.slotType = SlotTypes.EQUIP → slot.canHoldItem (some item) = true) ∧
        (slot.slotType = SlotTypes.WAR →
          (slot.canHoldItem (some item) = true ↔ item.isEquippableBy EquippableBy.WAR = true)) ∧
        (slot.slotType = SlotTypes.WIZ →
          (slot.canHoldItem (some item) = true ↔ item.isEquippableBy EquippableBy.WIZ = true)) ∧
        (slot.slotType = SlotTypes.ARCH →
          (slot.canHoldItem (some item) = true ↔ item.isEquippableBy EquippableBy.ARCH = true)) ∧
        (slot.slotType = SlotTypes.USABLE → slot.canHoldItem (some item) = false)) := by
  have e1 : SlotTypes.WAR ≠ SlotTypes.EQUIP := by decide
  have e2 : SlotTypes.WIZ ≠ SlotTypes.EQUIP := by decide
  have e3 : SlotTypes.ARCH ≠ SlotTypes.EQUIP := by decide
  have e4 : SlotTypes.USABLE ≠ SlotTypes.EQUIP := by decide
  have e5 : SlotTypes.WAR ≠ SlotTypes.WIZ := by decide
  have e6 : SlotTypes.WAR ≠ SlotTypes.ARCH := by decide
  have e7 : SlotTypes.WIZ ≠ SlotTypes.WAR := by decide
  have e8 : SlotTypes.WIZ ≠ SlotTypes.ARCH := by decide
  have e9 : SlotTypes.ARCH ≠ SlotTypes.WAR := by decide
  have e10 : SlotTypes.ARCH ≠ SlotTypes.WIZ := by decide
  have e11 : SlotTypes.USABLE ≠ SlotTypes.WAR := by decide
  have e12 : SlotTypes.USABLE ≠ SlotTypes.WIZ := by decide
  have e13 : SlotTypes.USABLE ≠ SlotTypes.ARCH := by decide
  refine ⟨rfl, ?_, ?_⟩
  · intro hu
    simp [Slot.canHoldItem, hu]
  · intro hu
    refine ⟨?_, ?_, ?_, ?_, ?_⟩
    · intro h
      simp [Slot.canHoldItem, hu, h]
    · intro h
      simp [Slot.canHoldItem, hu, h, e1, e5, e6]
    · intro h
      simp [Slot.canHoldItem, hu, h, e2, e7, e8]
    · intro h
      simp [Slot.canHoldItem, hu, h, e3, e9, e10]
    · intro h
      simp [Slot.canHoldItem, hu, h, e4, e11, e12, e13]

/-- C29 on a sword: a WAR slot holds it, since a warrior can equip it. -/
theorem canHoldItem_rules_witness :
    itemSword.usable = false ∧ (emptySlot SlotTypes.WAR 0).slotType = SlotTypes.WAR ∧
      ((emptySlot SlotTypes.WAR 0).canHoldItem (some itemSword) = true ↔
        itemSword.isEquippableBy EquippableBy.WAR = true) :=
  ⟨rfl, rfl, ((canHoldItem_rules (emptySlot SlotTypes.WAR 0) itemSword).2.2 rfl).2.1 rfl⟩

/-- C30: `target.swapItems(source, simulateOnly)` returns false and leaves both
slots as they were (no call of `setItem` is made) whenever the target cannot
hold the item of the source or the source cannot hold the item of the target;
with `simulateOnly` true it leaves both slots as they were and returns true
exactly when both `canHoldItem` tests pass. -/
theorem swapItems_refused_or_simulated (maxSlotQuantity : Int) (isDepleted : Item → Bool)
    (target source : Slot) (simulateOnly : Bool) :
    ((target.canHoldItem source.item = false ∨ source.canHoldItem target.item = false) →
        (Slot.swapItems maxSlotQuantity isDepleted target source simulateOnly).result = false ∧
        (Slot.swapItems maxSlotQuantity isDepleted target source simulateOnly).target = target ∧
        (Slot.swapItems maxSlotQuantity isDepleted target source simulateOnly).source = source ∧
        (Slot.swapItems maxSlotQuantity isDepleted target source simulateOnly).updatedSlots
          = []) ∧
      (Slot.swapItems maxSlotQuantity isDepleted target source true).target = target ∧
      (Slot.swapItems maxSlotQuantity isDepleted target source true).source = source ∧
      (Slot.swapItems maxSlotQuantity isDepleted target source true).updatedSlots = [] ∧
      ((Slot.swapItems maxSlotQuantity isDepleted target source true).result = true ↔
        target.canHoldItem source.item = true ∧ source.canHoldItem target.item = true) := by
  have key : ∀ sim, (target.canHoldItem source.item = false ∨
      source.canHoldItem target.item = false) →
      Slot.swapItems maxSlotQuantity isDepleted target source sim =
        { result := false, target := target, source := source, updatedSlots := [] } := by
    intro sim h
    unfold Slot.swapItems
    simp only []
    rw [if_pos]
    rcases h with h | h <;> simp [h]
  have key2 : (target.canHoldItem source.item = true ∧ source.canHoldItem target.item = true) →
      Slot.swapItems maxSlotQuantity isDepleted target source true =
        { result := true, target := target, source := source, updatedSlots := [] } := by
    intro h
    unfold Slot.swapItems
    simp only []
    rw [if_neg (by simp [h.1, h.2])]
    rfl
  refine ⟨fun h => by rw [key simulateOnly h]; exact ⟨rfl, rfl, rfl, rfl⟩, ?_⟩
  by_cases h : target.canHoldItem source.item = true ∧ source.canHoldItem target.item = true
  · rw [key2 h]
    exact ⟨rfl, rfl, rfl, by simp [h.1, h.2]⟩
  · have h' : target.canHoldItem source.item = false ∨ source.canHoldItem target.item = false := by
      by_cases h1 : target.canHoldItem source.item = true
      · right
        by_cases h2 : source.canHoldItem target.item = true
        · exact absurd ⟨h1, h2⟩ h
        · simpa using h2
      · left
        simpa using h1
    rw [key true h']
    refine ⟨rfl, rfl, rfl, ?_⟩
    constructor
    · intro hc
      cases hc
    · intro hc
      exact absurd hc h

/-- C30 on a WAR slot and a slot holding potions: the WAR slot cannot hold the
potions, so the swap is refused and both slots stay as they were. -/
theorem swapItems_refused_or_simulated_witness :
    (emptySlot SlotTypes.WAR 0).canHoldItem
        ({ emptySlot SlotTypes.USABLE 1 with item := some itemPotion } : Slot).item = false ∧
      (Slot.swapItems 99 (fun i => decide (i.quantity = 0)) (emptySlot SlotTypes.WAR 0)
        { emptySlot SlotTypes.USABLE 1 with item := some itemPotion } false).result = false ∧
      (Slot.swapItems 99 (fun i => decide (i.quantity = 0)) (emptySlot SlotTypes.WAR 0)
        { emptySlot SlotTypes.USABLE 1 with item := some itemPotion } false).target =
        emptySlot SlotTypes.WAR 0 :=
  ⟨by decide,
    ((swapItems_refused_or_simulated 99 (fun i => decide (i.quantity = 0))
      (emptySlot SlotTypes.WAR 0) { emptySlot SlotTypes.USABLE 1 with item := some itemPotion }
      false).1 (Or.inl (by decide))).1,
    ((swapItems_refused_or_simulated 99 (fun i => decide (i.quantity = 0))
      (emptySlot SlotTypes.WAR 0) { emptySlot SlotTypes.USABLE 1 with item := some itemPotion }
      false).1 (Or.inl (by decide))).2.1⟩

/-! ## The audio format -/

/-- C32: whatever the browser answers for OGG, AAC and MP3, after
`AudioManager.initialize` the field `preferredExtension` is the extension of the
first format in the order OGG, AAC, MP3 that answered `PROBABLY`, otherwise of
the first in that order that answered `MAYBE`, otherwise `null`; and
`canPlayAudio` returns false exactly when no format answered `PROBABLY` or
`MAYBE`. -/
theorem audio_prefers_in_order (k : AudioConstants) (canPlayType : String → String)
    (am : AudioManager) :
    ( AudioManager.initialize k canPlayType am).preferredExtension =
        preferredInOrder k (canPlayType "audio/ogg") (canPlayType "audio/mpeg")
          (canPlayType "audio/mp3") ∧
      (( AudioManager.initialize k canPlayType am).canPlayAudio = false ↔
        ∀ answer ∈ [canPlayType "audio/ogg", canPlayType "audio/mpeg", canPlayType "audio/mp3"],
          answer ≠ k.PROBABLY ∧ answer ≠ k.MAYBE) := by
  have em : ∀ p : Prop, p = True ∨ p = False := fun p => by
    by_cases h : p
    · exact Or.inl (eq_true h)
    · exact Or.inr (eq_false h)
  unfold AudioManager.canPlayAudio AudioManager.initialize preferredInOrder firstAnswering
    firstAnswering firstAnswering firstAnswering
  simp only [List.mem_cons, List.mem_singleton, forall_eq_or_imp, forall_eq, List.not_mem_nil,
    ne_eq]
  generalize canPlayType "audio/ogg" = ogg
  generalize canPlayType "audio/mpeg" = aac
  generalize canPlayType "audio/mp3" = mp3
  rcases em (ogg = k.PROBABLY) with e1 | e1 <;>
  rcases em (aac = k.PROBABLY) with e2 | e2 <;>
  rcases em (mp3 = k.PROBABLY) with e3 | e3 <;>
  rcases em (ogg = k.MAYBE) with e4 | e4 <;>
  rcases em (aac = k.MAYBE) with e5 | e5 <;>
  rcases em (mp3 = k.MAYBE) with e6 | e6 <;>
  simp only [e1, e2, e3, e4, e5, e6, if_true, if_false] <;>
  simp

/-! ## Paths only move to the right -/

/-- A path of the second half of `this.paths` is the reversal of one of the
left-to-right paths. -/
theorem second_half_mem {α : Type} (ltr : List (List α)) (i : Nat) (p : List α)
    (hi : (ltr ++ ltr.map List.reverse).length / 2 ≤ i)
    (hp : (ltr ++ ltr.map List.reverse).get? i = some p) : ∃ q ∈ ltr, p = q.reverse := by
  have hlen : (ltr ++ ltr.map List.reverse).length / 2 = ltr.length := by
    rw [List.length_append, List.length_map]; omega
  rw [hlen] at hi
  rw [List.get?_eq_getElem?, List.getElem?_append_right hi] at hp
  have hmem : p ∈ ltr.map List.reverse := List.mem_iff_getElem?.2 ⟨_, hp⟩
  obtain ⟨q, hq, rfl⟩ := List.mem_map.1 hmem
  exact ⟨q, hq, rfl⟩

/-- Along a path whose every step passed the third rule of `optimizePaths` the
column never decreases. -/
theorem right_steps_x_le {m : Map} (g : m.IsGrid) (p : Path)
    (hhead : ∀ t, p.head? = some t → t ∈ m.mapTiles) (hcut : cutsCorner m p = false)
    (j : Nat) (a b : Tile) (ha : p.get? j = some a) (hb : p.get? (j + 1) = some b) :
    a.x ≤ b.x := by
  have hmem := tiles_of_right_steps g p hhead hcut a (mem_of_get? ha)
  have hstep := mem_of_mem_prune _ _ _ (cutsCorner_false_get m p hcut j a b ha hb)
  obtain ⟨_, _, hx, _, _⟩ := right_step g hmem hstep
  omega

/-- C38: on a grid whose length is a multiple of its width, for paths made of its
tiles `optimizePaths` returns and in every path it leaves the column `x` never
decreases from one tile to the next; and when `computePaths` completes, in every
path of the second (right-to-left) half of `this.paths` the column never
increases from one tile to the next. -/
theorem optimizePaths_never_steps_left (cells : List Nat) (width : Nat)
    (hw : width ∣ cells.length) :
    (∀ paths : List Path, (∀ p ∈ paths, ∀ t ∈ p, t ∈ (Map.create cells width).mapTiles) →
      ∃ out, optimizePaths (Map.create cells width) paths = .ok out ∧
        ∀ p ∈ out, ∀ (j : Nat) (a b : Tile), p.get? j = some a → p.get? (j + 1) = some b →
          a.x ≤ b.x) ∧
      ∀ (fuel : Nat) (c : Computed), computePaths (Map.create cells width) fuel = .ok c →
        ∀ (i : Nat) (p : Path), c.paths.length / 2 ≤ i → c.paths.get? i = some p →
          ∀ (j : Nat) (a b : Tile), p.get? j = some a → p.get? (j + 1) = some b → b.x ≤ a.x := by
  have g := Map.create_isGrid cells width hw
  constructor
  · intro paths hp
    obtain ⟨out, hout⟩ := optimizePaths_total g paths hp
    refine ⟨out, hout, ?_⟩
    obtain ⟨hsub, hprops⟩ := optimizePaths_ok _ paths out hout
    intro p hpo j a b ha hb
    refine right_steps_x_le g p ?_ (hprops p hpo).2.2 j a b ha hb
    intro t ht
    exact hp p (hsub.subset hpo) t (List.mem_of_mem_head? ht)
  · intro fuel c h i p hi hp j a b ha hb
    obtain ⟨ltr, hpaths, hltr⟩ := computePaths_ok _ fuel c h
    rw [hpaths] at hi hp
    obtain ⟨q, hq, rfl⟩ := second_half_mem ltr i p hi hp
    obtain ⟨st, hst, hhead, _, hcut⟩ := hltr q hq
    obtain ⟨i', hi1, hi2⟩ := reverse_consecutive q j a b ha hb
    refine right_steps_x_le g q ?_ hcut i' b a hi1 hi2
    intro t ht
    rw [hhead] at ht
    cases ht
    exact leftEndpointsOf_subset _ _ hst

set_option maxRecDepth 100000 in
/-- C38 on `gridStep`: in the right-to-left path 5,4,1,0 the step from tile 5 in
column 2 to tile 4 in column 1 does not increase the column. -/
theorem optimizePaths_never_steps_left_witness :
    3 ∣ [1, 1, 0, 0, 1, 1].length ∧
      computePaths (Map.create [1, 1, 0, 0, 1, 1] 3) 20 = .ok gridStepComputed ∧
      (tileOf true 4 3).x ≤ (tileOf true 5 3).x :=
  ⟨by decide, by decide,
    (optimizePaths_never_steps_left [1, 1, 0, 0, 1, 1] 3 (by decide)).2 20 gridStepComputed
      (by decide) 1 [tileOf true 5 3, tileOf true 4 3, tileOf true 1 3, tileOf true 0 3]
      (by decide) (by decide) 0 (tileOf true 5 3) (tileOf true 4 3) (by decide) (by decide)⟩

/-! ## No one-way tiles -/

theorem adjacentPosition_swap {a b : Tile} (h : adjacentPosition a b true) :
    adjacentPosition b a false := by
  unfold adjacentPosition atOffset at *
  rcases h with h | h | ⟨_, h | h | h⟩ | ⟨hf, _⟩
  · exact Or.inr (Or.inl ⟨by omega, by omega⟩)
  · exact Or.inl ⟨by omega, by omega⟩
  · exact Or.inr (Or.inr (Or.inr ⟨rfl, Or.inr (Or.inr ⟨by omega, by omega⟩)⟩))
  · exact Or.inr (Or.inr (Or.inr ⟨rfl, Or.inr (Or.inl ⟨by omega, by omega⟩)⟩))
  · exact Or.inr (Or.inr (Or.inr ⟨rfl, Or.inl ⟨by omega, by omega⟩⟩))
  · cases hf

theorem adjacentPosition_swap_back {a b : Tile} (h : adjacentPosition b a false) :
    adjacentPosition a b true := by
  unfold adjacentPosition atOffset at *
  rcases h with h | h | ⟨hf, _⟩ | ⟨_, h | h | h⟩
  · exact Or.inr (Or.inl ⟨by omega, by omega⟩)
  · exact Or.inl ⟨by omega, by omega⟩
  · cases hf
  · exact Or.inr (Or.inr (Or.inl ⟨rfl, Or.inr (Or.inr ⟨by omega, by omega⟩)⟩))
  · exact Or.inr (Or.inr (Or.inl ⟨rfl, Or.inr (Or.inl ⟨by omega, by omega⟩)⟩))
  · exact Or.inr (Or.inr (Or.inl ⟨rfl, Or.inl ⟨by omega, by omega⟩⟩))

/-- C39: on a grid whose length is a multiple of its width, for two walkable
tiles `A` and `B` of the grid, `B` is in `getAdjacentTiles(A, true)` if and only
if `A` is in `getAdjacentTiles(B, false)`. -/
theorem getAdjacentTiles_right_iff_left (cells : List Nat) (width : Nat)
    (hw : width ∣ cells.length) (A B : Tile) (hA : A ∈ (Map.create cells width).mapTiles)
    (hB : B ∈ (Map.create cells width).mapTiles) (hAw : A.isWalkable = true)
    (hBw : B.isWalkable = true) :
    B ∈ getAdjacentTiles (Map.create cells width) A true ↔
      A ∈ getAdjacentTiles (Map.create cells width) B false := by
  have g := Map.create_isGrid cells width hw
  rw [mem_getAdjacentTiles_iff g hA true B, mem_getAdjacentTiles_iff g hB false A]
  constructor
  · rintro ⟨_, _, hpos⟩
    exact ⟨hA, hAw, adjacentPosition_swap hpos⟩
  · rintro ⟨_, _, hpos⟩
    exact ⟨hB, hBw, adjacentPosition_swap_back hpos⟩

set_option maxRecDepth 100000 in
/-- C39 on `gridStep`: tile 4 is below and right of tile 0, and each lists the
other. -/
theorem getAdjacentTiles_right_iff_left_witness :
    3 ∣ [1, 1, 0, 0, 1, 1].length ∧
      tileOf true 0 3 ∈ (Map.create [1, 1, 0, 0, 1, 1] 3).mapTiles ∧
      tileOf true 4 3 ∈ (Map.create [1, 1, 0, 0, 1, 1] 3).mapTiles ∧
      (tileOf true 0 3).isWalkable = true ∧ (tileOf true 4 3).isWalkable = true ∧
      tileOf true 4 3 ∈ getAdjacentTiles (Map.create [1, 1, 0, 0, 1, 1] 3) (tileOf true 0 3) true ∧
      (tileOf true 4 3 ∈ getAdjacentTiles (Map.create [1, 1, 0, 0, 1, 1] 3) (tileOf true 0 3) true ↔
        tileOf true 0 3 ∈
          getAdjacentTiles (Map.create [1, 1, 0, 0, 1, 1] 3) (tileOf true 4 3) false) :=
  ⟨by decide, by decide, by decide, by decide, by decide, by decide,
    getAdjacentTiles_right_iff_left [1, 1, 0, 0, 1, 1] 3 (by decide) (tileOf true 0 3)
      (tileOf true 4 3) (by decide) (by decide) (by decide) (by decide)⟩

/-! ## Tiles with both endpoint flags -/

/-- C40: on a grid whose length is a multiple of its width, after the
endpoint-classification loop of `computePaths` a walkable tile of the grid has
both `isLeftEndpoint` and `isRightEndpoint` set if and only if it has no
left-neighbour and no right-neighbour. -/
theorem classifyEndpoints_both_iff_isolated (cells : List Nat) (width : Nat)
    (hw : width ∣ cells.length) (t : Tile) (ht : t ∈ (Map.create cells width).mapTiles)
    (hwalk : t.isWalkable = true) :
    (((classifyEndpoints (Map.create cells width)).of t).isLeftEndpoint = true ∧
        ((classifyEndpoints (Map.create cells width)).of t).isRightEndpoint = true) ↔
      (getAdjacentTiles (Map.create cells width) t false = [] ∧
        getAdjacentTiles (Map.create cells width) t true = []) := by
  rw [classifyEndpoints_of (Map.create_isGrid cells width hw) ht]
  unfold classifyTile
  simp only [hwalk, Bool.not_true, Bool.false_eq_true, if_false]
  constructor
  · rintro ⟨hl, hr⟩
    have hright : getAdjacentTiles (Map.create cells width) t true = [] :=
      (rightEndpoint_iff_no_right_neighbour _ _).1 hr
    refine ⟨?_, hright⟩
    unfold isTileAnEndpoint at hl
    simp only [Bool.not_true, Bool.false_eq_true, if_false, hright, List.length_nil,
      beq_self_eq_true, if_true] at hl
    by_contra hne
    have : ((getAdjacentTiles (Map.create cells width) t false).length == 0) = false := by
      simpa [List.length_eq_zero] using hne
    rw [this] at hl
    simp at hl
  · rintro ⟨hleft, hright⟩
    refine ⟨?_, (rightEndpoint_iff_no_right_neighbour _ _).2 hright⟩
    unfold isTileAnEndpoint
    simp [hleft]

/-- C40 at the centre of `gridIsland`, a walkable tile without neighbours. -/
theorem classifyEndpoints_both_iff_isolated_witness :
    3 ∣ [0, 0, 0, 0, 1, 0, 0, 0, 0].length ∧
      tileOf true 4 3 ∈ (Map.create [0, 0, 0, 0, 1, 0, 0, 0, 0] 3).mapTiles ∧
      (tileOf true 4 3).isWalkable = true ∧
      ((((classifyEndpoints (Map.create [0, 0, 0, 0, 1, 0, 0, 0, 0] 3)).of
            (tileOf true 4 3)).isLeftEndpoint = true ∧
          ((classifyEndpoints (Map.create [0, 0, 0, 0, 1, 0, 0, 0, 0] 3)).of
            (tileOf true 4 3)).isRightEndpoint = true) ↔
        (getAdjacentTiles (Map.create [0, 0, 0, 0, 1, 0, 0, 0, 0] 3) (tileOf true 4 3) false = [] ∧
          getAdjacentTiles (Map.create [0, 0, 0, 0, 1, 0, 0, 0, 0] 3) (tileOf true 4 3) true
            = [])) :=
  ⟨by decide, by decide, by decide,
    classifyEndpoints_both_iff_isolated [0, 0, 0, 0, 1, 0, 0, 0, 0] 3 (by decide)
      (tileOf true 4 3) (by decide) (by decide)⟩

/-! ## The left-lists after the pruning pass -/

theorem leftListsAfterPruning_phases (m : Map) (fuel : Nat) (s : TileStates)
    (h : leftListsAfterPruning m fuel = .ok s) :
    ∃ s1, formLeftLists m fuel m.mapTiles (classifyEndpoints m) = .ok s1 ∧
      pruneLeftLists m m.mapTiles s1 = .ok s := by
  unfold leftListsAfterPruning at h
  rw [Result.bind_eq_ok] at h
  exact h

theorem leftListsAfterPruning_of_le (m : Map) (fuel fuel' : Nat) (h : fuel ≤ fuel')
    (r : Result TileStates) (hr : leftListsAfterPruning m fuel = r) (hne : r ≠ .outOfFuel) :
    leftListsAfterPruning m fuel' = r := by
  obtain ⟨k, rfl⟩ := Nat.exists_eq_add_of_le h
  induction k with
  | zero => exact hr
  | succ k ih =>
    have hk := ih (Nat.le_add_right _ _)
    have hstep : Result.FuelLe (leftListsAfterPruning m (fuel + k))
        (leftListsAfterPruning m (fuel + k + 1)) := by
      unfold leftListsAfterPruning
      exact Result.FuelLe.bind (formLeftLists_mono m (fuel + k) _ _)
        (fun s => Result.FuelLe.refl _)
    rw [← Nat.add_assoc, hstep.eq_of_ne (by rw [hk]; exact hne), hk]

theorem formLeftLists_of_le (m : Map) (fuel fuel' : Nat) (h : fuel ≤ fuel')
    (tiles : List Tile) (s : TileStates) (r : Result TileStates)
    (hr : formLeftLists m fuel tiles s = r) (hne : r ≠ .outOfFuel) :
    formLeftLists m fuel' tiles s = r := by
  obtain ⟨k, rfl⟩ := Nat.exists_eq_add_of_le h
  induction k with
  | zero => exact hr
  | succ k ih =>
    have hk := ih (Nat.le_add_right _ _)
    rw [← Nat.add_assoc,
      (formLeftLists_mono m (fuel + k) tiles s).eq_of_ne (by rw [hk]; exact hne), hk]

/-- The tile with a given index below the length of the grid. -/
theorem Map.IsGrid.index_mem {m : Map} (g : m.IsGrid) (i : Nat) (hlt : i < m.mapTiles.length) :
    ∃ t ∈ m.mapTiles, t.tileIndex.toNat = i := by
  have hget : m.mapTiles.get? i = some (m.mapTiles[i]) := by
    rw [List.get?_eq_getElem?, List.getElem?_eq_getElem hlt]
  have hidx := (g.tile_eq _ _ hget).1
  exact ⟨_, List.getElem_mem hlt, by rw [hidx]; exact Int.toNat_ofNat _⟩

/-- After the pruning pass no left-list entry holds the tile its key names. -/
theorem pruned_entries_avoid_key {m : Map} (g : m.IsGrid) (fuel : Nat) (s : TileStates)
    (h : leftListsAfterPruning m fuel = .ok s) (i : Nat) (k : Int) (v : List Tile)
    (hv : entryAt s i k = some v) : EntryAvoidsKey k v := by
  obtain ⟨s1, hs1, hs2⟩ := leftListsAfterPruning_phases m fuel s h
  have hform := formLeftLists_entries g fuel _ _ s1 hs1 (by
    intro i k v hv
    rw [entryAt_classifyEndpoints] at hv
    cases hv)
  obtain ⟨hp1, hp2⟩ := pruneLeftLists_entries g m.mapTiles s1 s hs2 (fun _ _ => False) (by
    intro i k v hv
    exact Or.inr ⟨fun hc => hc, hform i k v hv⟩)
  rcases hp1 _ k v hv with hg | hall
  · exact hg
  · exfalso
    obtain ⟨v1, hv1⟩ := hp2 _ k v hv
    have hlt := entryAt_some_lt _ _ _ _ hv1
    rw [length_formLeftLists m fuel _ _ s1 hs1] at hlt
    have hlen : (classifyEndpoints m).length = m.mapTiles.length := by
      unfold classifyEndpoints
      exact List.length_map _ _
    rw [hlen] at hlt
    obtain ⟨t, ht, hti⟩ := g.index_mem i hlt
    exact hall t ht hti

/-- C34: on a grid whose length is a multiple of its width, when the pruning pass
of `computePaths` has completed, for every tile `T` and every key `P` of
`T.leftList` no tile of `T.leftList[P]` has the index `P`. -/
theorem pruning_removes_predecessor (cells : List Nat) (width : Nat)
    (hw : width ∣ cells.length) (fuel : Nat) (s : TileStates)
    (h : leftListsAfterPruning (Map.create cells width) fuel = .ok s) :
    ∀ (T : Tile) (P : Int) (successors : List Tile),
      (s.of T).leftList.get P = some successors → ∀ t ∈ successors, t.tileIndex ≠ P := by
  intro T P successors hget
  rw [entryAt_of] at hget
  exact pruned_entries_avoid_key (Map.create_isGrid cells width hw) fuel s h _ _ _ hget

set_option maxRecDepth 100000 in
/-- C34 on `gridStep`: arriving on tile 4 from tile 1 above it, the only
successor is tile 5, not tile 1. -/
theorem pruning_removes_predecessor_witness :
    3 ∣ [1, 1, 0, 0, 1, 1].length ∧
      leftListsAfterPruning (Map.create [1, 1, 0, 0, 1, 1] 3) 20 = .ok gridStepComputed.tiles ∧
      (gridStepComputed.tiles.of (tileOf true 4 3)).leftList.get 1 = some [tileOf true 5 3] ∧
      (tileOf true 5 3).tileIndex ≠ 1 :=
  ⟨by decide, by decide, by decide,
    pruning_removes_predecessor [1, 1, 0, 0, 1, 1] 3 (by decide) 20 gridStepComputed.tiles
      (by decide) (tileOf true 4 3) 1 [tileOf true 5 3] (by decide) (tileOf true 5 3)
      (by decide)⟩

/-! ## The tile to the right of a removed predecessor -/

set_option maxRecDepth 100000 in
/-- C35 fails on `gridRowGap`: tile 3 in the last column is a left-endpoint and a
right-endpoint, its left-list entry keyed 3 is the array holding tile 3 itself;
the pruning pass removes tile 3 from the array and then, the column 3 being
below `numCols` = 4, reads `isWalkable` of `mapTiles[4]`, which does not exist:
the block throws, and so does the pruning pass, whatever the fuel. -/
theorem pruning_reads_past_last_column (fuel : Nat) :
    (tileOf true 3 4).x = ((gridRowGap.numCols : Int) - 1) ∧
      gridRowGap.tileAt ((tileOf true 3 4).tileIndex + 1) = none ∧
      removeRightOfLeftNeighbor gridRowGap (some (tileOf true 3 4)) true [] = .typeError ∧
      formLeftLists gridRowGap fuel gridRowGap.mapTiles (classifyEndpoints gridRowGap) =
        .ok [{ isLeftEndpoint := true, isRightEndpoint := false,
               leftList := [(0, [tileOf true 1 4])] },
             { isLeftEndpoint := false, isRightEndpoint := true,
               leftList := [(0, [tileOf true 1 4])] },
             TileState.init,
             { isLeftEndpoint := true, isRightEndpoint := true,
               leftList := [(3, [tileOf true 3 4])] }] ∧
      leftListsAfterPruning gridRowGap fuel = .typeError := by
  refine ⟨by decide, by decide, by decide, ?_, ?_⟩
  · exact formLeftLists_of_le gridRowGap 0 fuel (Nat.zero_le _) _ _ _ (by decide) (by decide)
  · exact leftListsAfterPruning_of_le gridRowGap 0 fuel (Nat.zero_le _) _ (by decide) (by decide)

/-! ## A path without a detour that the first rule drops -/

set_option maxRecDepth 100000 in
/-- C33 fails on `gridEll`: the path 4, 2, 0, 1 (up, up, right) is the one raw
path the enumerator finds; each of its steps goes to a right-neighbour sharing
an edge, and neither tile 0 shares an edge with tile 4 nor tile 1 with tile 2.
Tile 1 is a right-neighbour of tile 2 (up and to the right) and
`areTilesCardinal(2, 1)` returns true, the indices differing by one, so the
first rule drops the path: `optimizePaths` leaves nothing, and `computePaths`
ends without any path. -/
theorem optimizePaths_drops_path_without_detour :
    (∀ t ∈ [tileOf true 4 2, tileOf true 2 2, tileOf true 0 2, tileOf true 1 2],
        t ∈ gridEll.mapTiles) ∧
      rawPathsFrom gridEllComputed.tiles 20 (tileOf true 4 2) =
        .ok [[tileOf true 4 2, tileOf true 2 2, tileOf true 0 2, tileOf true 1 2]] ∧
      (tileOf true 2 2 ∈ getAdjacentTiles gridEll (tileOf true 4 2) true ∧
        sharesEdge (tileOf true 4 2) (tileOf true 2 2)) ∧
      (tileOf true 0 2 ∈ getAdjacentTiles gridEll (tileOf true 2 2) true ∧
        sharesEdge (tileOf true 2 2) (tileOf true 0 2)) ∧
      (tileOf true 1 2 ∈ getAdjacentTiles gridEll (tileOf true 0 2) true ∧
        sharesEdge (tileOf true 0 2) (tileOf true 1 2)) ∧
      ¬ sharesEdge (tileOf true 4 2) (tileOf true 0 2) ∧
      ¬ sharesEdge (tileOf true 2 2) (tileOf true 1 2) ∧
      tileOf true 1 2 ∈ getAdjacentTiles gridEll (tileOf true 2 2) true ∧
      areTilesCardinal gridEll (tileOf true 2 2) (tileOf true 1 2) = true ∧
      optimizePaths gridEll
        [[tileOf true 4 2, tileOf true 2 2, tileOf true 0 2, tileOf true 1 2]] = .ok [] ∧
      computePaths gridEll 20 = .ok gridEllComputed := by
  decide

/-! ## The rule on two diagonal steps is covered by the corner rule -/

/-- A path the second rule of `optimizePaths` drops is one the third rule drops. -/
theorem hasDiagonalDiagonal_cutsCorner {m : Map} (g : m.IsGrid) (p : Path)
    (hp : ∀ t ∈ p, t ∈ m.mapTiles) (h : hasDiagonalDiagonal m p = .ok true) :
    cutsCorner m p = true := by
  induction p with
  | nil => simp [hasDiagonalDiagonal] at h
  | cons t1 rest ih =>
    have ih' := ih (fun t ht => hp t (List.mem_cons_of_mem _ ht))
    match rest, ih', hp, h with
    | [], _, _, h => simp [hasDiagonalDiagonal] at h
    | [_], _, _, h => simp [hasDiagonalDiagonal] at h
    | t2 :: t3 :: rest', ih', hp, h =>
      have hrec : hasDiagonalDiagonal m (t2 :: t3 :: rest') = .ok true →
          cutsCorner m (t1 :: t2 :: t3 :: rest') = true := by
        intro hh
        unfold cutsCorner
        rw [ih' hh, Bool.or_true]
      unfold hasDiagonalDiagonal at h
      split at h
      · rename_i hcond
        split at h
        · cases h
        · rename_i mid hmid
          split at h
          · rename_i hwalk
            have h1m := hp t1 (List.mem_cons_self _ _)
            have h2m := hp t2 (by simp)
            obtain ⟨_, h1x0, _, _, _, e1, _⟩ := g.coords h1m
            obtain ⟨_, _, h2x1, _, _, _, _⟩ := g.coords h2m
            obtain ⟨hmm, hmi, _, _⟩ := g.tileAt_some hmid
            obtain ⟨_, hmx0, hmx1, _, _, em, _⟩ := g.coords hmm
            have hmc := int_divmod_unique (m.numCols : Int) mid.y mid.x t1.y (t1.x + 1)
              (by rw [← em, hmi, e1]; ring) hmx0 hmx1 (by omega) (by omega)
            unfold cutsCorner
            rw [Bool.or_eq_true]
            left
            rw [decide_eq_true_eq]
            intro hmem
            obtain ⟨_, _, _, hy, _⟩ := right_step g h1m (mem_of_mem_prune _ _ _ hmem)
            refine pruned_step_no_corner g h1m hmem ?_ ⟨mid, hmm, hwalk, ?_, ?_⟩
            · unfold sharesCornerOnly
              omega
            · unfold sharesEdge
              omega
            · unfold sharesEdge
              omega
          · exact hrec h
      · exact hrec h

theorem dropDiagonalDiagonals_then_corners {m : Map} (g : m.IsGrid) (ps : List Path)
    (hp : ∀ p ∈ ps, ∀ t ∈ p, t ∈ m.mapTiles) :
    ∃ r, dropDiagonalDiagonals m ps = .ok r ∧ dropCornerCuts m r = dropCornerCuts m ps := by
  induction ps with
  | nil => exact ⟨[], rfl, rfl⟩
  | cons p rest ih =>
    obtain ⟨r, hr, heq⟩ := ih (fun q hq => hp q (List.mem_cons_of_mem _ hq))
    have hkeep : dropCornerCuts m (p :: r) = dropCornerCuts m (p :: rest) := by
      rw [dropCornerCuts_eq_filter, dropCornerCuts_eq_filter, List.filter_cons, List.filter_cons,
        ← dropCornerCuts_eq_filter, ← dropCornerCuts_eq_filter, heq]
    unfold dropDiagonalDiagonals
    split
    · exact ⟨p :: r, by rw [hr]; rfl, hkeep⟩
    · obtain ⟨b, hb⟩ := hasDiagonalDiagonal_total g p (hp p (List.mem_cons_self _ _))
      rw [hb]
      cases b
      · exact ⟨p :: r, by simp [Result.bind, hr], hkeep⟩
      · refine ⟨r, by simp [Result.bind, hr], ?_⟩
        have hcut := hasDiagonalDiagonal_cutsCorner g p (hp p (List.mem_cons_self _ _)) hb
        rw [heq, dropCornerCuts_eq_filter m (p :: rest), List.filter_cons,
          ← dropCornerCuts_eq_filter]
        simp [hcut]

/-- C37: on a grid whose length is a multiple of its width, for paths made of its
tiles, every path that the second loop of `optimizePaths` (two diagonal steps in
a row around a walkable tile) finds is one that the third loop (no cutting
corners) finds, and `optimizePaths` returns what it would return with its second
loop deleted. -/
theorem optimizePaths_second_rule_redundant (cells : List Nat) (width : Nat)
    (hw : width ∣ cells.length) (paths : List Path)
    (hp : ∀ p ∈ paths, ∀ t ∈ p, t ∈ (Map.create cells width).mapTiles) :
    (∀ p ∈ paths, hasDiagonalDiagonal (Map.create cells width) p = .ok true →
        cutsCorner (Map.create cells width) p = true) ∧
      optimizePaths (Map.create cells width) paths =
        .ok (optimizePathsTwoRules (Map.create cells width) paths) := by
  have g := Map.create_isGrid cells width hw
  refine ⟨fun p hpm h => hasDiagonalDiagonal_cutsCorner g p (hp p hpm) h, ?_⟩
  obtain ⟨r, hr, heq⟩ := dropDiagonalDiagonals_then_corners g
    (dropNoopDetours (Map.create cells width) paths) (by
      intro p hpm
      rw [dropNoopDetours_eq_filter] at hpm
      exact hp p (List.mem_filter.1 hpm).1)
  unfold optimizePaths optimizePathsTwoRules
  rw [hr, ← heq]
  rfl

set_option maxRecDepth 100000 in
/-- C37 on `gridNine`: the path 3, 1, 5 goes up and right, then down and right,
around the walkable tile 4; the second loop finds it, the third loop finds it,
and `optimizePaths` leaves only the path 3, 4, 5. -/
theorem optimizePaths_second_rule_redundant_witness :
    3 ∣ [1, 1, 1, 1, 1, 1, 0, 1, 1].length ∧
      (∀ p ∈ [[tileOf true 3 3, tileOf true 1 3, tileOf true 5 3],
          [tileOf true 3 3, tileOf true 4 3, tileOf true 5 3]],
        ∀ t ∈ p, t ∈ (Map.create [1, 1, 1, 1, 1, 1, 0, 1, 1] 3).mapTiles) ∧
      hasDiagonalDiagonal (Map.create [1, 1, 1, 1, 1, 1, 0, 1, 1] 3)
        [tileOf true 3 3, tileOf true 1 3, tileOf true 5 3] = .ok true ∧
      cutsCorner (Map.create [1, 1, 1, 1, 1, 1, 0, 1, 1] 3)
        [tileOf true 3 3, tileOf true 1 3, tileOf true 5 3] = true ∧
      optimizePathsTwoRules (Map.create [1, 1, 1, 1, 1, 1, 0, 1, 1] 3)
        [[tileOf true 3 3, tileOf true 1 3, tileOf true 5 3],
          [tileOf true 3 3, tileOf true 4 3, tileOf true 5 3]] =
        [[tileOf true 3 3, tileOf true 4 3, tileOf true 5 3]] ∧
      optimizePaths (Map.create [1, 1, 1, 1, 1, 1, 0, 1, 1] 3)
        [[tileOf true 3 3, tileOf true 1 3, tileOf true 5 3],
          [tileOf true 3 3, tileOf true 4 3, tileOf true 5 3]] =
        .ok (optimizePathsTwoRules (Map.create [1, 1, 1, 1, 1, 1, 0, 1, 1] 3)
          [[tileOf true 3 3, tileOf true 1 3, tileOf true 5 3],
            [tileOf true 3 3, tileOf true 4 3, tileOf true 5 3]]) :=
  ⟨by decide, by decide, by decide, by decide, by decide,
    (optimizePaths_second_rule_redundant [1, 1, 1, 1, 1, 1, 0, 1, 1] 3 (by decide)
      [[tileOf true 3 3, tileOf true 1 3, tileOf true 5 3],
        [tileOf true 3 3, tileOf true 4 3, tileOf true 5 3]] (by decide)).2⟩

/-! ## No empty left-list entry after the pruning pass -/

/-- One visit of the pruning pass: the visited entry ends as a non-empty array
(or is deleted), and every other entry that exists afterwards existed before
with the same array. -/
theorem pruneEntry_nonempty (m : Map) (s s' : TileStates) (tile : Tile) (key : Int)
    (h : pruneEntry m s tile key = .ok s')
    (i : Nat) (k : Int) (v : List Tile) (hentry : entryAt s' i k = some v) :
    ((i = tile.tileIndex.toNat ∧ k = key) ∧ v ≠ [] ∧
        ∃ v0, entryAt s tile.tileIndex.toNat key = some v0) ∨
      (¬ (i = tile.tileIndex.toNat ∧ k = key) ∧ entryAt s i k = some v) := by
  unfold pruneEntry at h
  split at h
  · rename_i hnone
    cases h
    right
    refine ⟨?_, hentry⟩
    rintro ⟨rfl, rfl⟩
    rw [entryAt_of] at hnone
    rw [hnone] at hentry
    cases hentry
  · rename_i v0 hsome
    simp only [] at h
    rw [Result.bind_eq_ok] at h
    obtain ⟨⟨b, rn1⟩, hr1, h⟩ := h
    rw [Result.bind_eq_ok] at h
    obtain ⟨rn, hrn, h⟩ := h
    simp only [] at hrn h
    generalize hmid : (if (pruneDiagonalIfCardinalExist tile rn).length ≠ rn.length then
        deleteFromRemoved tile
          (rn.filter (fun x => !tileIndexFound x (pruneDiagonalIfCardinalExist tile rn))) s
        else s) = smid at h
    have hmid' : ∀ i k v, entryAt smid i k = some v → entryAt s i k = some v := by
      intro i k v hv'
      rw [← hmid] at hv'
      split at hv'
      · exact deleteFromRemoved_entry _ _ _ _ _ _ hv'
      · exact hv'
    split at h
    · cases h
      rw [entryAt_setLeftList, LeftList.get_delete] at hentry
      split at hentry
      · rename_i hc
        split at hentry
        · cases hentry
        · rename_i hk
          right
          refine ⟨fun hcc => hk hcc.2, hmid' _ _ _ ?_⟩
          rw [entryAt_of, hc.1] at hentry
          exact hentry
      · rename_i hc
        right
        refine ⟨?_, hmid' _ _ _ hentry⟩
        rintro ⟨rfl, rfl⟩
        exact hc ⟨rfl, entryAt_some_lt _ _ _ _ hentry⟩
    · rename_i hlen
      cases h
      rw [entryAt_setLeftList, LeftList.get_set] at hentry
      split at hentry
      · rename_i hc
        split at hentry
        · rename_i hk
          left
          cases hentry
          refine ⟨⟨hc.1.symm, hk⟩, ?_, v0, by rw [← entryAt_of]; exact hsome⟩
          intro hnil
          apply hlen
          rw [hnil]
          rfl
        · rename_i hk
          right
          refine ⟨fun hcc => hk hcc.2, hmid' _ _ _ ?_⟩
          rw [entryAt_of, hc.1] at hentry
          exact hentry
      · rename_i hc
        right
        refine ⟨?_, hmid' _ _ _ hentry⟩
        rintro ⟨rfl, rfl⟩
        exact hc ⟨rfl, entryAt_some_lt _ _ _ _ hentry⟩

theorem pruneTile_nonempty (m : Map) (tile : Tile) (keys : List Int)
    (s s' : TileStates) (h : pruneTile m tile keys s = .ok s') (Done : Nat → Int → Prop)
    (hinv : ∀ i k v, entryAt s i k = some v → v ≠ [] ∨ ¬ Done i k) :
    (∀ i k v, entryAt s' i k = some v →
      v ≠ [] ∨ ¬ (Done i k ∨ (i = tile.tileIndex.toNat ∧ k ∈ keys))) ∧
      ∀ i k v, entryAt s' i k = some v → ∃ v', entryAt s i k = some v' := by
  induction keys generalizing s Done with
  | nil =>
    unfold pruneTile at h
    cases h
    constructor
    · intro i k v hv
      rcases hinv i k v hv with h1 | h1
      · exact Or.inl h1
      · exact Or.inr (by simpa using h1)
    · exact fun i k v hv => ⟨v, hv⟩
  | cons key rest ih =>
    unfold pruneTile at h
    rw [Result.bind_eq_ok] at h
    obtain ⟨s1, h1, h2⟩ := h
    have hstep := pruneEntry_nonempty m s s1 tile key h1
    have hinv1 : ∀ i k v, entryAt s1 i k = some v →
        v ≠ [] ∨ ¬ (Done i k ∨ (i = tile.tileIndex.toNat ∧ k = key)) := by
      intro i k v hv
      rcases hstep i k v hv with ⟨_, hg, _⟩ | ⟨hne, hold⟩
      · exact Or.inl hg
      · rcases hinv i k v hold with hg | hd
        · exact Or.inl hg
        · exact Or.inr (fun hc => hc.elim hd hne)
    obtain ⟨ih1, ih2⟩ := ih s1 h2 _ hinv1
    constructor
    · intro i k v hv
      rcases ih1 i k v hv with hg | hd
      · exact Or.inl hg
      · right
        rintro (hc | ⟨hi, hk⟩)
        · exact hd (Or.inl (Or.inl hc))
        · rcases List.mem_cons.1 hk with hk1 | hk1
          · exact hd (Or.inl (Or.inr ⟨hi, hk1⟩))
          · exact hd (Or.inr ⟨hi, hk1⟩)
    · intro i k v hv
      obtain ⟨v1, hv1⟩ := ih2 i k v hv
      rcases hstep i k v1 hv1 with ⟨⟨hi, hk⟩, _, v0, hv0⟩ | ⟨_, hold⟩
      · exact ⟨v0, by rw [hi, hk]; exact hv0⟩
      · exact ⟨v1, hold⟩

/-- Once every entry that exists is non-empty or still to be visited, the rest of
the pruning pass keeps it so. -/
theorem pruneLeftLists_keeps_nonempty (m : Map) (tiles : List Tile) (s s' : TileStates)
    (h : pruneLeftLists m tiles s = .ok s') (Done : Nat → Int → Prop)
    (hinv : ∀ i k v, entryAt s i k = some v → v ≠ [] ∨ ¬ Done i k) :
    (∀ i k v, entryAt s' i k = some v → v ≠ [] ∨ ¬ Done i k) ∧
      ∀ i k v, entryAt s' i k = some v → ∃ v', entryAt s i k = some v' := by
  induction tiles generalizing s with
  | nil =>
    unfold pruneLeftLists at h
    cases h
    exact ⟨hinv, fun i k v hv => ⟨v, hv⟩⟩
  | cons tile rest ih =>
    unfold pruneLeftLists at h
    rw [Result.bind_eq_ok] at h
    obtain ⟨s1, h1, h2⟩ := h
    obtain ⟨hs1, hk1⟩ := pruneTile_nonempty m tile _ s s1 h1 Done hinv
    obtain ⟨ih1, ih2⟩ := ih s1 h2 (by
      intro i k v hv
      rcases hs1 i k v hv with hg | hd
      · exact Or.inl hg
      · exact Or.inr (fun hc => hd (Or.inl hc)))
    refine ⟨ih1, ?_⟩
    intro i k v hv
    obtain ⟨v1, hv1⟩ := ih2 i k v hv
    exact hk1 i k v1 hv1

theorem pruneLeftLists_nonempty (m : Map) (tiles : List Tile) (s s' : TileStates)
    (h : pruneLeftLists m tiles s = .ok s') :
    (∀ i k v, entryAt s' i k = some v →
      v ≠ [] ∨ (∀ t ∈ tiles, t.tileIndex.toNat ≠ i)) ∧
      ∀ i k v, entryAt s' i k = some v → ∃ v', entryAt s i k = some v' := by
  induction tiles generalizing s with
  | nil =>
    unfold pruneLeftLists at h
    cases h
    exact ⟨fun i k v _ => Or.inr (fun t ht => by cases ht), fun i k v hv => ⟨v, hv⟩⟩
  | cons tile rest ih =>
    unfold pruneLeftLists at h
    rw [Result.bind_eq_ok] at h
    obtain ⟨s1, h1, h2⟩ := h
    obtain ⟨hs1, hkeys1⟩ := pruneTile_nonempty m tile _ s s1 h1 (fun _ _ => False)
      (fun i k v _ => Or.inr (fun hc => hc))
    obtain ⟨ih1, ih2⟩ := ih s1 h2
    have hshrink : ∀ i k v, entryAt s' i k = some v → ∃ v', entryAt s i k = some v' := by
      intro i k v hv
      obtain ⟨v1, hv1⟩ := ih2 i k v hv
      exact hkeys1 i k v1 hv1
    refine ⟨?_, hshrink⟩
    intro i k v hv
    rcases ih1 i k v hv with hg | hrest
    · exact Or.inl hg
    · by_cases hi : tile.tileIndex.toNat = i
      · -- the entry existed when `tile` was visited, so it was visited
        obtain ⟨v0, hv0⟩ := hshrink i k v hv
        have hkey : k ∈ ((s.of tile).leftList.map Prod.fst) := by
          apply LeftList.get_some_key _ k v0
          rw [entryAt_of, hi]
          exact hv0
        have hdone := (pruneLeftLists_keeps_nonempty m rest s1 s' h2
          (fun i' k' => i' = tile.tileIndex.toNat ∧ k' ∈ ((s.of tile).leftList.map Prod.fst))
          (by
            intro i' k' v' hv'
            rcases hs1 i' k' v' hv' with hg | hd
            · exact Or.inl hg
            · exact Or.inr (fun hc => hd (Or.inr hc)))).1 i k v hv
        rcases hdone with hg | hd
        · exact Or.inl hg
        · exact absurd ⟨hi.symm, hkey⟩ hd
      · right
        intro t ht
        rcases List.mem_cons.1 ht with h3 | h3
        · rw [h3]; exact hi
        · exact hrest t h3

/-- After the pruning pass every left-list entry is a non-empty array. -/
theorem pruned_entries_nonempty {m : Map} (g : m.IsGrid) (fuel : Nat) (s : TileStates)
    (h : leftListsAfterPruning m fuel = .ok s) (i : Nat) (k : Int) (v : List Tile)
    (hv : entryAt s i k = some v) : v ≠ [] := by
  unfold leftListsAfterPruning at h
  rw [Result.bind_eq_ok] at h
  obtain ⟨s1, hs1, hs2⟩ := h
  obtain ⟨hp1, hp2⟩ := pruneLeftLists_nonempty m m.mapTiles s1 s hs2
  rcases hp1 i k v hv with hg | hall
  · exact hg
  · exfalso
    obtain ⟨v1, hv1⟩ := hp2 i k v hv
    have hlt := entryAt_some_lt _ _ _ _ hv1
    rw [length_formLeftLists m fuel _ _ s1 hs1] at hlt
    have hlen : (classifyEndpoints m).length = m.mapTiles.length := by
      unfold classifyEndpoints
      exact List.length_map _ _
    rw [hlen] at hlt
    have hget : m.mapTiles.get? i = some (m.mapTiles[i]) := by
      rw [List.get?_eq_getElem?, List.getElem?_eq_getElem hlt]
    have hidx := (g.tile_eq _ _ hget).1
    apply hall _ (List.getElem_mem hlt)
    rw [hidx]
    exact Int.toNat_ofNat _

/-- C36: on a grid whose length is a multiple of its width, when the pruning pass
of `computePaths` has completed, every entry that a tile's `leftList` still has
is a non-empty array of successors. -/
theorem pruning_leaves_no_empty_entry (cells : List Nat) (width : Nat)
    (hw : width ∣ cells.length) (fuel : Nat) (s : TileStates)
    (h : leftListsAfterPruning (Map.create cells width) fuel = .ok s) :
    ∀ (T : Tile) (P : Int) (successors : List Tile),
      (s.of T).leftList.get P = some successors → successors ≠ [] := by
  intro T P successors hget
  rw [entryAt_of] at hget
  exact pruned_entries_nonempty (Map.create_isGrid cells width hw) fuel s h _ _ _ hget

set_option maxRecDepth 100000 in
/-- C36 on the vertical corridor of three tiles: the second loop leaves the middle
tile with two empty entries, the pruning pass deletes both, and the entry of
tile 0 that remains holds tile 1. -/
theorem pruning_leaves_no_empty_entry_witness :
    1 ∣ [1, 1, 1].length ∧
      formLeftLists (Map.create [1, 1, 1] 1) 20 (Map.create [1, 1, 1] 1).mapTiles
          (classifyEndpoints (Map.create [1, 1, 1] 1)) =
        .ok [{ isLeftEndpoint := true, isRightEndpoint := false,
               leftList := [(0, [tileOf true 1 1])] },
             { isLeftEndpoint := false, isRightEndpoint := false,
               leftList := [(0, []), (2, [])] },
             { isLeftEndpoint := true, isRightEndpoint := false,
               leftList := [(2, [tileOf true 1 1])] }] ∧
      leftListsAfterPruning (Map.create [1, 1, 1] 1) 20 =
        .ok [{ isLeftEndpoint := true, isRightEndpoint := false,
               leftList := [(0, [tileOf true 1 1])] },
             TileState.init,
             { isLeftEndpoint := true, isRightEndpoint := false,
               leftList := [(2, [tileOf true 1 1])] }] ∧
      [tileOf true 1 1] ≠ [] :=
  ⟨by decide, by decide, by decide,
    pruning_leaves_no_empty_entry [1, 1, 1] 1 (by decide) 20
      [{ isLeftEndpoint := true, isRightEndpoint := false, leftList := [(0, [tileOf true 1 1])] },
        TileState.init,
        { isLeftEndpoint := true, isRightEndpoint := false,
          leftList := [(2, [tileOf true 1 1])] }]
      (by decide) (tileOf true 0 1) 0 [tileOf true 1 1] (by decide)⟩

/-! ## Moving a stack -/

/-- Integers up to 2^53 in size are doubles: the arithmetic is exact on them. -/
theorem nearestDouble_exact (n : Int) (h : n.natAbs ≤ 2 ^ 53) : nearestDouble n = n := by
  unfold nearestDouble
  rw [if_pos h]

/-- Past 2^53 the doubles are two apart and a tie goes to the even significand:
2^53 + 1 becomes 2^53 and 2^53 + 3 becomes 2^53 + 4. -/
theorem nearestDouble_ties :
    nearestDouble (2 ^ 53 + 1) = 2 ^ 53 ∧ nearestDouble (2 ^ 53 + 3) = 2 ^ 53 + 4 ∧
      nearestDouble (2 ^ 53 + 2) = 2 ^ 53 + 2 := by
  decide

/-- Whether a slot can hold an item depends on the item only through `usable` and
`isEquippableBy`. -/
theorem canHoldItem_same_kind (slot : Slot) (a b : Item) (hu : a.usable = b.usable)
    (he : ∀ c, a.isEquippableBy c = b.isEquippableBy c) :
    slot.canHoldItem (some a) = slot.canHoldItem (some b) := by
  unfold Slot.canHoldItem
  simp only [hu, he]

/-- The branches of `swapItems` that return before any write, on the objects: a
refused call and a simulated call leave every object as it was. -/
theorem Inventory.swapItems_early (maxSlotQuantity : Int) (isDepleted : Item → Bool)
    (inv : Inventory) (target source : Nat) (simulateOnly : Bool)
    (h : ((inv.slotOf target).canHoldItem (((inv.slots source).item).map inv.items) = false ∨
        (inv.slotOf source).canHoldItem (((inv.slots target).item).map inv.items) = false) ∨
      simulateOnly = true) :
    (Inventory.swapItems maxSlotQuantity isDepleted inv target source simulateOnly).inventory
      = inv := by
  unfold Inventory.swapItems
  simp only []
  split
  · rfl
  · split
    · rfl
    · rename_i h1 h2
      rcases h with (h | h) | h
      · simp [h] at h1
      · simp [h] at h1
      · exact absurd h h2

/-- The stacking branch of `swapItems` on two different item objects, with the
quantities in the range where the arithmetic is exact: what the call leaves. -/
theorem Inventory.swapItems_stacks (maxSlotQuantity : Int) (isDepleted : Item → Bool)
    (inv : Inventory) (target source rt rs : Nat)
    (ht : (inv.slots target).item = some rt) (hs : (inv.slots source).item = some rs)
    (hne : rt ≠ rs) (hts : (inv.items rt).stackable = true)
    (hid : (inv.items rt).itemID = (inv.items rs).itemID)
    (hcan1 : (inv.slotOf target).canHoldItem (some (inv.items rs)) = true)
    (hcan2 : (inv.slotOf source).canHoldItem (some (inv.items rt)) = true)
    (htq : 0 ≤ (inv.items rt).quantity) (hsq : 0 ≤ (inv.items rs).quantity)
    (hsmax : (inv.items rs).quantity ≤ 2 ^ 53) (hmax : maxSlotQuantity ≤ 2 ^ 53)
    (hlt : (inv.items rt).quantity < maxSlotQuantity) :
    (Inventory.swapItems maxSlotQuantity isDepleted inv target source false).result = true ∧
      (Inventory.swapItems maxSlotQuantity isDepleted inv target source false).inventory.items rt =
        { inv.items rt with
          quantity := (inv.items rt).quantity +
            min (inv.items rs).quantity (maxSlotQuantity - (inv.items rt).quantity) } ∧
      (Inventory.swapItems maxSlotQuantity isDepleted inv target source false).inventory.items rs =
        { inv.items rs with
          quantity := (inv.items rs).quantity -
            min (inv.items rs).quantity (maxSlotQuantity - (inv.items rt).quantity) } ∧
      (Inventory.swapItems maxSlotQuantity isDepleted inv target source false).inventory.slots
          source =
        { inv.slots source with
          item := if isDepleted ((Inventory.swapItems maxSlotQuantity isDepleted inv target source
              false).inventory.items rs) then none else some rs } ∧
      (Inventory.swapItems maxSlotQuantity isDepleted inv target source false).inventory.slots
          target =
        { inv.slots target with
          item := if isDepleted ((Inventory.swapItems maxSlotQuantity isDepleted inv target source
              false).inventory.items rt) then none else some rt } := by
  have hts' : target ≠ source := by
    intro h
    rw [h, hs] at ht
    exact hne (Option.some.inj ht).symm
  have e1 : nearestDouble (maxSlotQuantity - (inv.items rt).quantity) =
      maxSlotQuantity - (inv.items rt).quantity := nearestDouble_exact _ (by omega)
  have hamt0 : 0 ≤ min (inv.items rs).quantity (maxSlotQuantity - (inv.items rt).quantity) :=
    le_min hsq (by omega)
  have hamt1 := min_le_left (inv.items rs).quantity (maxSlotQuantity - (inv.items rt).quantity)
  have hamt2 := min_le_right (inv.items rs).quantity (maxSlotQuantity - (inv.items rt).quantity)
  have e2 : nearestDouble ((inv.items rs).quantity -
      min (inv.items rs).quantity (maxSlotQuantity - (inv.items rt).quantity)) =
      (inv.items rs).quantity -
        min (inv.items rs).quantity (maxSlotQuantity - (inv.items rt).quantity) :=
    nearestDouble_exact _ (by omega)
  have e3 : nearestDouble ((inv.items rt).quantity +
      min (inv.items rs).quantity (maxSlotQuantity - (inv.items rt).quantity)) =
      (inv.items rt).quantity +
        min (inv.items rs).quantity (maxSlotQuantity - (inv.items rt).quantity) :=
    nearestDouble_exact _ (by omega)
  have hq : ((inv.items rt).quantity != maxSlotQuantity) = true := by
    simp only [bne_iff_ne, ne_eq]
    omega
  unfold Inventory.swapItems
  simp only [ht, hs, Option.map_some', hcan1, hcan2, Bool.not_true, Bool.or_false,
    Bool.false_eq_true, if_false, hts, hid, beq_self_eq_true, Bool.true_and, hq, if_true, e1, e2,
    Inventory.setQuantity, Inventory.setItem, if_neg hne, if_neg (Ne.symm hne), e3,
    if_neg hts', if_neg (Ne.symm hts')]
  exact ⟨trivial, trivial, trivial, trivial, trivial⟩

/-- The swapping branch of `swapItems` on two different item objects of one
`itemID`, the target stack being full: no item object is written and each slot
is handed the item of the other. -/
theorem Inventory.swapItems_full (maxSlotQuantity : Int) (isDepleted : Item → Bool)
    (inv : Inventory) (target source rt rs : Nat)
    (ht : (inv.slots target).item = some rt) (hs : (inv.slots source).item = some rs)
    (hne : rt ≠ rs)
    (hcan1 : (inv.slotOf target).canHoldItem (some (inv.items rs)) = true)
    (hcan2 : (inv.slotOf source).canHoldItem (some (inv.items rt)) = true)
    (heq : (inv.items rt).quantity = maxSlotQuantity) :
    (Inventory.swapItems maxSlotQuantity isDepleted inv target source false).result = true ∧
      (Inventory.swapItems maxSlotQuantity isDepleted inv target source false).inventory.items =
        inv.items ∧
      (Inventory.swapItems maxSlotQuantity isDepleted inv target source false).inventory.slots
          target =
        { inv.slots target with
          item := if isDepleted (inv.items rs) then none else some rs } ∧
      (Inventory.swapItems maxSlotQuantity isDepleted inv target source false).inventory.slots
          source =
        { inv.slots source with
          item := if isDepleted (inv.items rt) then none else some rt } := by
  have hts' : target ≠ source := by
    intro h
    rw [h, hs] at ht
    exact hne (Option.some.inj ht).symm
  have hq : ((inv.items rt).quantity != maxSlotQuantity) = false := by
    simp [heq]
  unfold Inventory.swapItems
  simp only [ht, hs, Option.map_some', hcan1, hcan2, Bool.not_true, Bool.or_false,
    Bool.false_eq_true, if_false, hq, Bool.and_false, Inventory.setItem,
    if_neg hts', if_neg (Ne.symm hts'), if_true]
  exact ⟨trivial, trivial, trivial, trivial⟩

/-- When both slots hold the same item object (a slot swapped with itself, for
one), the stacking branch of `swapItems` takes the amount from the object and
puts it back: every item object is as it was, and so is every slot unless the
item is depleted. -/
theorem Inventory.swapItems_same_item (maxSlotQuantity : Int) (isDepleted : Item → Bool)
    (inv : Inventory) (target source r : Nat)
    (ht : (inv.slots target).item = some r) (hs : (inv.slots source).item = some r)
    (hts : (inv.items r).stackable = true)
    (hcan1 : (inv.slotOf target).canHoldItem (some (inv.items r)) = true)
    (hcan2 : (inv.slotOf source).canHoldItem (some (inv.items r)) = true)
    (hq0 : 0 ≤ (inv.items r).quantity) (hmax : maxSlotQuantity ≤ 2 ^ 53)
    (hlt : (inv.items r).quantity < maxSlotQuantity) :
    (Inventory.swapItems maxSlotQuantity isDepleted inv target source false).result = true ∧
      (Inventory.swapItems maxSlotQuantity isDepleted inv target source false).inventory.items =
        inv.items ∧
      (isDepleted (inv.items r) = false →
        (Inventory.swapItems maxSlotQuantity isDepleted inv target source false).inventory.slots =
          inv.slots) := by
  have e1 : nearestDouble (maxSlotQuantity - (inv.items r).quantity) =
      maxSlotQuantity - (inv.items r).quantity := nearestDouble_exact _ (by omega)
  have hamt0 : 0 ≤ min (inv.items r).quantity (maxSlotQuantity - (inv.items r).quantity) :=
    le_min hq0 (by omega)
  have hamt1 := min_le_left (inv.items r).quantity (maxSlotQuantity - (inv.items r).quantity)
  have e2 : nearestDouble ((inv.items r).quantity -
      min (inv.items r).quantity (maxSlotQuantity - (inv.items r).quantity)) =
      (inv.items r).quantity -
        min (inv.items r).quantity (maxSlotQuantity - (inv.items r).quantity) :=
    nearestDouble_exact _ (by omega)
  have e3 : nearestDouble ((inv.items r).quantity -
      min (inv.items r).quantity (maxSlotQuantity - (inv.items r).quantity) +
      min (inv.items r).quantity (maxSlotQuantity - (inv.items r).quantity)) =
      (inv.items r).quantity := by
    rw [nearestDouble_exact _ (by omega)]
    omega
  have hq : ((inv.items r).quantity != maxSlotQuantity) = true := by
    simp only [bne_iff_ne, ne_eq]
    omega
  have hitem : Item.mk (inv.items r).itemID (inv.items r).usable true (inv.items r).quantity
      (inv.items r).isEquippableBy = inv.items r := by
    cases hk : inv.items r with
    | mk a b c d e =>
      rw [hk] at hts
      simp only at hts
      simp only [hts]
  unfold Inventory.swapItems
  simp only [ht, hs, Option.map_some', hcan1, hcan2, Bool.not_true, Bool.or_false,
    Bool.false_eq_true, if_false, hts, beq_self_eq_true, Bool.true_and, hq, if_true, e1, e2,
    Inventory.setQuantity, Inventory.setItem, e3, hitem]
  refine ⟨trivial, ?_, ?_⟩
  · funext r'
    by_cases h : r' = r
    · rw [if_pos h, h]
    · rw [if_neg h, if_neg h]
  intro hd
  simp only [hd, Bool.false_eq_true, if_false]
  funext k
  by_cases h1 : k = target
  · rw [if_pos h1]
    by_cases h2 : target = source
    · simp only [h2, if_true]
      rw [h1, h2]
      cases hk : inv.slots source with
      | mk a b c =>
        rw [hk] at hs
        simp only at hs
        simp only [hs]
    · simp only [if_neg h2]
      rw [h1]
      cases hk : inv.slots target with
      | mk a b c =>
        rw [hk] at ht
        simp only at ht
        simp only [ht]
  · rw [if_neg h1]
    by_cases h2 : k = source
    · rw [if_pos h2, h2]
      cases hk : inv.slots source with
      | mk a b c =>
        rw [hk] at hs
        simp only at hs
        simp only [hs]
    · rw [if_neg h2]

/-- On two different slot objects that hold different item objects, with
quantities and `maxSlotQuantity` up to 2^51 in size, `swapItems` on the objects
does what `Slot.swapItems` computes from the values of the two slots. -/
theorem Inventory.swapItems_by_value (maxSlotQuantity : Int) (isDepleted : Item → Bool)
    (inv : Inventory) (target source : Nat) (simulateOnly : Bool) (hslots : target ≠ source)
    (hitems : ∀ rt rs, (inv.slots target).item = some rt → (inv.slots source).item = some rs →
      rt ≠ rs ∧ (inv.items rt).quantity.natAbs ≤ 2 ^ 51 ∧
        (inv.items rs).quantity.natAbs ≤ 2 ^ 51)
    (hmax : maxSlotQuantity.natAbs ≤ 2 ^ 51) :
    (Inventory.swapItems maxSlotQuantity isDepleted inv target source simulateOnly).result =
        (Slot.swapItems maxSlotQuantity isDepleted (inv.slotOf target) (inv.slotOf source)
          simulateOnly).result ∧
      (Inventory.swapItems maxSlotQuantity isDepleted inv target source
          simulateOnly).inventory.slotOf target =
        (Slot.swapItems maxSlotQuantity isDepleted (inv.slotOf target) (inv.slotOf source)
          simulateOnly).target ∧
      (Inventory.swapItems maxSlotQuantity isDepleted inv target source
          simulateOnly).inventory.slotOf source =
        (Slot.swapItems maxSlotQuantity isDepleted (inv.slotOf target) (inv.slotOf source)
          simulateOnly).source ∧
      (Inventory.swapItems maxSlotQuantity isDepleted inv target source
          simulateOnly).inventory.updatedSlots =
        inv.updatedSlots ++ (Slot.swapItems maxSlotQuantity isDepleted (inv.slotOf target)
          (inv.slotOf source) simulateOnly).updatedSlots := by
  unfold Inventory.swapItems Slot.swapItems
  simp only [Inventory.slotOf]
  split
  · simp [Inventory.slotOf]
  · split
    · simp [Inventory.slotOf]
    · cases ht : (inv.slots target).item with
      | none =>
        cases hs : (inv.slots source).item with
        | none =>
          simp [Inventory.slotOf, Inventory.setItem, Slot.setItem, hslots, Ne.symm hslots, ht, hs]
        | some rs =>
          by_cases hd : isDepleted (inv.items rs) = true <;>
          simp [Inventory.slotOf, Inventory.setItem, Slot.setItem, hslots, Ne.symm hslots, ht, hs,
            hd]
      | some rt =>
        cases hs : (inv.slots source).item with
        | none =>
          by_cases hd : isDepleted (inv.items rt) = true <;>
          simp [Inventory.slotOf, Inventory.setItem, Slot.setItem, hslots, Ne.symm hslots, ht, hs,
            hd]
        | some rs =>
          obtain ⟨hne, hqt, hqs⟩ := hitems rt rs ht hs
          have e1 : nearestDouble (maxSlotQuantity - (inv.items rt).quantity) =
              maxSlotQuantity - (inv.items rt).quantity := nearestDouble_exact _ (by omega)
          have e2 : nearestDouble ((inv.items rs).quantity -
              min (inv.items rs).quantity (maxSlotQuantity - (inv.items rt).quantity)) =
              (inv.items rs).quantity -
                min (inv.items rs).quantity (maxSlotQuantity - (inv.items rt).quantity) := by
            rcases min_choice (inv.items rs).quantity
              (maxSlotQuantity - (inv.items rt).quantity) with h | h <;> rw [h] <;>
              exact nearestDouble_exact _ (by omega)
          have e3 : nearestDouble ((inv.items rt).quantity +
              min (inv.items rs).quantity (maxSlotQuantity - (inv.items rt).quantity)) =
              (inv.items rt).quantity +
                min (inv.items rs).quantity (maxSlotQuantity - (inv.items rt).quantity) := by
            rcases min_choice (inv.items rs).quantity
              (maxSlotQuantity - (inv.items rt).quantity) with h | h <;> rw [h] <;>
              exact nearestDouble_exact _ (by omega)
          simp only [Option.map_some']
          split
          · simp only [e1, e2, Inventory.setQuantity, if_neg hne, if_neg (Ne.symm hne), e3,
              if_true, Inventory.setItem, Inventory.slotOf, Slot.setItem, if_neg hslots,
              if_neg (Ne.symm hslots)]
            split <;> split <;>
              simp [hs, ht, hne, Ne.symm hne]
          · by_cases hd1 : isDepleted (inv.items rt) = true <;>
            by_cases hd2 : isDepleted (inv.items rs) = true <;>
            simp [Inventory.slotOf, Inventory.setItem, Slot.setItem, hslots, Ne.symm hslots, ht,
              hs, hd1, hd2]

/-- C31, for a `swapItems` call that is not simulated, on two slots that hold two
different item objects, both stackable and of one `itemID` (so of one kind: the
same `usable` and `isEquippableBy`), each slot being one that can hold its own
item, with `isDepleted` true exactly of the stackable items of quantity 0, and
with whole quantities from 0 to 2^53 and `maxSlotQuantity` at most 2^53, the
range in which the arithmetic of JavaScript numbers is exact.  When the target
quantity is below `maxSlotQuantity`, the call returns true and
`min(sourceQuantity, maxSlotQuantity - targetQuantity)` units move from the
source item to the target item: the sum of the two quantities is what it was,
the new target quantity is at most `maxSlotQuantity`, and the source slot is
empty afterwards exactly when the new source quantity is 0, holding its item
otherwise (and so for the target slot).  When the target quantity is
`maxSlotQuantity`, the call returns true, writes no item object, and hands each
slot the item of the other (an item of quantity 0 is dropped by `setItem`). -/
theorem swapItems_moves_stack (maxSlotQuantity : Int) (isDepleted : Item → Bool)
    (hdep : ∀ i, isDepleted i = true ↔ (i.stackable = true ∧ i.quantity = 0))
    (inv : Inventory) (target source rt rs : Nat)
    (ht : (inv.slots target).item = some rt) (hs : (inv.slots source).item = some rs)
    (hne : rt ≠ rs)
    (hts : (inv.items rt).stackable = true) (hss : (inv.items rs).stackable = true)
    (hid : (inv.items rt).itemID = (inv.items rs).itemID)
    (husable : (inv.items rt).usable = (inv.items rs).usable)
    (hequip : ∀ c, (inv.items rt).isEquippableBy c = (inv.items rs).isEquippableBy c)
    (hholdT : (inv.slotOf target).canHoldItem (some (inv.items rt)) = true)
    (hholdS : (inv.slotOf source).canHoldItem (some (inv.items rs)) = true)
    (htq : 0 ≤ (inv.items rt).quantity) (hsq : 0 ≤ (inv.items rs).quantity)
    (hsmax : (inv.items rs).quantity ≤ 2 ^ 53) (hmax : maxSlotQuantity ≤ 2 ^ 53) :
    ((inv.items rt).quantity < maxSlotQuantity →
        (Inventory.swapItems maxSlotQuantity isDepleted inv target source false).result = true ∧
        (Inventory.swapItems maxSlotQuantity isDepleted inv target source false).inventory.items
            rt =
          { inv.items rt with
            quantity := (inv.items rt).quantity +
              min (inv.items rs).quantity (maxSlotQuantity - (inv.items rt).quantity) } ∧
        (Inventory.swapItems maxSlotQuantity isDepleted inv target source false).inventory.items
            rs =
          { inv.items rs with
            quantity := (inv.items rs).quantity -
              min (inv.items rs).quantity (maxSlotQuantity - (inv.items rt).quantity) } ∧
        ((Inventory.swapItems maxSlotQuantity isDepleted inv target source false).inventory.items
              rt).quantity +
            ((Inventory.swapItems maxSlotQuantity isDepleted inv target source
              false).inventory.items rs).quantity =
          (inv.items rt).quantity + (inv.items rs).quantity ∧
        ((Inventory.swapItems maxSlotQuantity isDepleted inv target source false).inventory.items
            rt).quantity ≤ maxSlotQuantity ∧
        (((Inventory.swapItems maxSlotQuantity isDepleted inv target source false).inventory.slots
            source).item = none ↔
          ((Inventory.swapItems maxSlotQuantity isDepleted inv target source
            false).inventory.items rs).quantity = 0) ∧
        ((Inventory.swapItems maxSlotQuantity isDepleted inv target source false).inventory.slots
            source).item =
          (if ((Inventory.swapItems maxSlotQuantity isDepleted inv target source
              false).inventory.items rs).quantity = 0 then none else some rs) ∧
        ((Inventory.swapItems maxSlotQuantity isDepleted inv target source false).inventory.slots
            target).item =
          (if ((Inventory.swapItems maxSlotQuantity isDepleted inv target source
              false).inventory.items rt).quantity = 0 then none else some rt)) ∧
      ((inv.items rt).quantity = maxSlotQuantity →
        (Inventory.swapItems maxSlotQuantity isDepleted inv target source false).result = true ∧
        (Inventory.swapItems maxSlotQuantity isDepleted inv target source false).inventory.items =
          inv.items ∧
        ((Inventory.swapItems maxSlotQuantity isDepleted inv target source false).inventory.slots
            target).item =
          (if (inv.items rs).quantity = 0 then none else some rs) ∧
        ((Inventory.swapItems maxSlotQuantity isDepleted inv target source false).inventory.slots
            source).item =
          (if (inv.items rt).quantity = 0 then none else some rt)) := by
  have hcan1 : (inv.slotOf target).canHoldItem (some (inv.items rs)) = true := by
    rw [← canHoldItem_same_kind (inv.slotOf target) (inv.items rt) (inv.items rs) husable hequip]
    exact hholdT
  have hcan2 : (inv.slotOf source).canHoldItem (some (inv.items rt)) = true := by
    rw [canHoldItem_same_kind (inv.slotOf source) (inv.items rt) (inv.items rs) husable hequip]
    exact hholdS
  have hdepIf : ∀ (i : Item) (r : Nat), i.stackable = true →
      (if isDepleted i = true then (none : Option Nat) else some r) =
        (if i.quantity = 0 then none else some r) := by
    intro i r hst
    by_cases hz : i.quantity = 0
    · rw [if_pos ((hdep i).2 ⟨hst, hz⟩), if_pos hz]
    · rw [if_neg (fun h => hz ((hdep i).1 h).2), if_neg hz]
  constructor
  · intro hlt
    obtain ⟨h1, h2, h3, h4, h5⟩ := Inventory.swapItems_stacks maxSlotQuantity isDepleted inv
      target source rt rs ht hs hne hts hid hcan1 hcan2 htq hsq hsmax hmax hlt
    have hamt2 := min_le_right (inv.items rs).quantity (maxSlotQuantity - (inv.items rt).quantity)
    have hsrc : ((Inventory.swapItems maxSlotQuantity isDepleted inv target source
        false).inventory.slots source).item =
        (if ((Inventory.swapItems maxSlotQuantity isDepleted inv target source
          false).inventory.items rs).quantity = 0 then none else some rs) := by
      rw [h4]
      exact hdepIf _ rs (by rw [h3]; exact hss)
    have htgt : ((Inventory.swapItems maxSlotQuantity isDepleted inv target source
        false).inventory.slots target).item =
        (if ((Inventory.swapItems maxSlotQuantity isDepleted inv target source
          false).inventory.items rt).quantity = 0 then none else some rt) := by
      rw [h5]
      exact hdepIf _ rt (by rw [h2]; exact hts)
    refine ⟨h1, h2, h3, ?_, ?_, ?_, hsrc, htgt⟩
    · rw [h2, h3]
      show (inv.items rt).quantity + _ + ((inv.items rs).quantity - _) = _
      omega
    · rw [h2]
      show (inv.items rt).quantity + _ ≤ _
      omega
    · rw [hsrc]
      by_cases hz : ((Inventory.swapItems maxSlotQuantity isDepleted inv target source
          false).inventory.items rs).quantity = 0
      · rw [if_pos hz]
        exact ⟨fun _ => hz, fun _ => rfl⟩
      · rw [if_neg hz]
        exact ⟨fun h => Option.noConfusion h, fun h => absurd h hz⟩
  · intro heq
    obtain ⟨h1, h2, h3, h4⟩ := Inventory.swapItems_full maxSlotQuantity isDepleted inv
      target source rt rs ht hs hne hcan1 hcan2 heq
    refine ⟨h1, h2, ?_, ?_⟩
    · rw [h3]
      exact hdepIf _ rs hss
    · rw [h4]
      exact hdepIf _ rt hts

/-- C31 on two USABLE slots holding one and three potions, with 99 for
`maxSlotQuantity`: the three potions move, the target item ends with four and
the source slot ends empty. -/
theorem swapItems_moves_stack_witness :
    (∀ i, stackIsEmpty i = true ↔ (i.stackable = true ∧ i.quantity = 0)) ∧
      ((twoStacks 1 3).slots 0).item = some 0 ∧ ((twoStacks 1 3).slots 1).item = some 1 ∧
      ((twoStacks 1 3).slotOf 0).canHoldItem (some ((twoStacks 1 3).items 0)) = true ∧
      ((twoStacks 1 3).slotOf 1).canHoldItem (some ((twoStacks 1 3).items 1)) = true ∧
      ((twoStacks 1 3).items 0).quantity < 99 ∧
      ((Inventory.swapItems 99 stackIsEmpty (twoStacks 1 3) 0 1 false).inventory.items
            0).quantity +
          ((Inventory.swapItems 99 stackIsEmpty (twoStacks 1 3) 0 1 false).inventory.items
            1).quantity =
        ((twoStacks 1 3).items 0).quantity + ((twoStacks 1 3).items 1).quantity ∧
      ((Inventory.swapItems 99 stackIsEmpty (twoStacks 1 3) 0 1 false).inventory.items
          0).quantity = 4 ∧
      ((Inventory.swapItems 99 stackIsEmpty (twoStacks 1 3) 0 1 false).inventory.slots
          1).item = none :=
  ⟨fun i => by simp [stackIsEmpty], rfl, rfl, by decide, by decide, by decide,
    ((swapItems_moves_stack 99 stackIsEmpty (fun i => by simp [stackIsEmpty]) (twoStacks 1 3)
      0 1 0 1 rfl rfl (by decide) rfl rfl rfl rfl (fun _ => rfl) (by decide) (by decide)
      (by decide) (by decide) (by decide) (by decide)).1 (by decide)).2.2.2.1,
    by decide, by decide⟩

/-! ## The reachability test finds every walk -/

theorem OpenWalk.tail {m : Map} {s : TileStates} {seen : List Tile} {a b : Tile} {r : List Tile}
    (h : OpenWalk m s seen (a :: b :: r)) : OpenWalk m s seen (b :: r) := by
  obtain ⟨hch, hnd, hseen, last, hlast, hre⟩ := h
  refine ⟨hch.tail, (List.nodup_cons.1 hnd).2, ?_, last, ?_, hre⟩
  · intro t ht
    exact hseen t (List.mem_cons_of_mem _ ht)
  · rw [← hlast]
    simp [List.getLast?_cons_cons]

theorem OpenWalk.fork {m : Map} {s : TileStates} {seen : List Tile} {a b : Tile} {r : List Tile}
    (h : OpenWalk m s seen (a :: b :: r)) : OpenWalk m s (seen ++ [b]) (b :: r) := by
  obtain ⟨hch, hnd, hseen, last, hlast, hre⟩ := h
  have hnd2 := (List.nodup_cons.1 hnd).2
  refine ⟨hch.tail, hnd2, ?_, last, ?_, hre⟩
  · intro t ht hmem
    rcases List.mem_append.1 hmem with h1 | h1
    · exact hseen t (List.mem_cons_of_mem _ ht) h1
    · rw [List.mem_singleton] at h1
      subst h1
      exact (List.nodup_cons.1 hnd2).1 ht
  · rw [← hlast]
    simp [List.getLast?_cons_cons]

/-- A run of the loops of `existsPathFromHereToAnyEndpoint` that ends, ends with
`true` when an open walk leaves the tile on top of `stack` or the start tile of
an entry of `forkList`. -/
theorem existsPathLoop_finds (m : Map) (s : TileStates) (fuel : Nat) (stack seen : List Tile)
    (path : Path) (forkList : List Fork) (b : Bool)
    (h : existsPathLoop m s fuel stack seen path forkList = .ok b)
    (hw : (∃ next rest w, stack = next :: rest ∧ OpenWalk m s seen (next :: w)) ∨
      ∃ f ∈ forkList, ∃ w, OpenWalk m s f.seen (f.startTile :: w)) : b = true := by
  induction fuel generalizing stack seen path forkList with
  | zero => simp [existsPathLoop] at h
  | succ fuel ih =>
    match stack, forkList, h, hw with
    | next :: stack, forkList, h, hw =>
      unfold existsPathLoop at h
      simp only [] at h
      split at h
      · cases h
        rfl
      · rename_i hre
        rcases hw with ⟨next', rest', w, hst, hwalk⟩ | ⟨f, hf, w, hwalk⟩
        · cases hst
          match w, hwalk with
          | [], hwalk =>
            obtain ⟨_, _, _, last, hlast, hlre⟩ := hwalk
            simp only [List.getLast?_singleton, Option.some.injEq] at hlast
            subst hlast
            exact absurd hlre hre
          | u :: w', hwalk =>
            have hu : u ∈ getAdjacentTiles m next true := by
              have := hwalk.1
              rw [List.chain'_cons] at this
              exact this.1
            have huseen : u ∉ seen := hwalk.2.2.1 u (List.mem_cons_self _ _)
            split at h
            · rename_i n hn
              rw [hn, List.mem_singleton] at hu
              subst hu
              exact ih _ _ _ _ h (Or.inl ⟨_, _, _, rfl, hwalk.tail⟩)
            · refine ih _ _ _ _ h (Or.inr ⟨_, mem_pushForks_new seen _ _ forkList u hu huseen, w', ?_⟩)
              exact hwalk.fork
        · split at h
          · exact ih _ _ _ _ h (Or.inr ⟨f, hf, w, hwalk⟩)
          · exact ih _ _ _ _ h (Or.inr ⟨f, mem_pushForks_old _ _ _ _ _ hf, w, hwalk⟩)
    | [], fork :: forkList, h, hw =>
      unfold existsPathLoop at h
      rcases hw with ⟨next', rest', w, hst, _⟩ | ⟨f, hf, w, hwalk⟩
      · cases hst
      · rcases List.mem_cons.1 hf with h1 | h1
        · subst h1
          exact ih _ _ _ _ h (Or.inl ⟨_, _, w, rfl, hwalk⟩)
        · exact ih _ _ _ _ h (Or.inr ⟨f, h1, w, hwalk⟩)
    | [], [], h, hw =>
      rcases hw with ⟨next', rest', w, hst, _⟩ | ⟨f, hf, w, hwalk⟩
      · cases hst
      · cases hf

/-- When a walk by right-adjacency steps leads from `startTile` to a right-endpoint
without a repeated tile and without `fromTile`, a run of
`existsPathFromHereToAnyEndpoint` that ends returns `true`. -/
theorem existsPath_finds (m : Map) (s : TileStates) (fuel : Nat) (startTile fromTile : Tile)
    (b : Bool) (h : existsPathFromHereToAnyEndpoint m s fuel startTile fromTile = .ok b)
    (w : Path) (hw : RightWalk m s startTile fromTile w) : b = true := by
  obtain ⟨hhead, hch, hnd, havoid, last, hlast, hre⟩ := hw
  match w, hhead, hch, hnd, havoid, hlast with
  | a :: r, hhead, hch, hnd, havoid, hlast =>
    cases hhead
    unfold existsPathFromHereToAnyEndpoint at h
    refine existsPathLoop_finds m s fuel [] [] [] _ b h (Or.inr ⟨_, List.mem_singleton.2 rfl, r, ?_⟩)
    refine ⟨hch, hnd, ?_, last, hlast, hre⟩
    intro t ht hmem
    simp only [List.tail_cons] at ht
    simp only [List.mem_cons, List.mem_singleton, List.not_mem_nil, or_false] at hmem
    rcases hmem with h1 | h1
    · subst h1
      exact (List.nodup_cons.1 hnd).1 ht
    · subst h1
      exact havoid (List.mem_cons_of_mem _ ht)

/-! ## What the left-list entries hold when the paths are enumerated -/

theorem filterReachable_mem (m : Map) (s : TileStates) (fuel : Nat) (tile : Tile)
    (keys r : List Tile) (h : filterReachable m s fuel tile keys = .ok r) (key : Tile)
    (hkey : key ∈ keys) :
    ∃ b, existsPathFromHereToAnyEndpoint m s fuel key tile = .ok b ∧ (b = true → key ∈ r) := by
  induction keys generalizing r with
  | nil => cases hkey
  | cons k rest ih =>
    unfold filterReachable at h
    rw [Result.bind_eq_ok] at h
    obtain ⟨found, hfound, h⟩ := h
    rw [Result.bind_eq_ok] at h
    obtain ⟨r', hr', h⟩ := h
    cases h
    rcases List.mem_cons.1 hkey with h1 | h1
    · subst h1
      refine ⟨found, hfound, ?_⟩
      intro hb
      rw [if_pos hb]
      exact List.mem_cons_self _ _
    · obtain ⟨b, hb1, hb2⟩ := ih r' hr' h1
      refine ⟨b, hb1, ?_⟩
      intro hb
      split
      · exact List.mem_cons_of_mem _ (hb2 hb)
      · exact hb2 hb

theorem formLeftList_formed (m : Map) (s : TileStates) (fuel : Nat) (tile : Tile)
    (hs : SameFlags (classifyEndpoints m) s)
    (l : LeftList) (h : formLeftList m s fuel tile = .ok l) (k : Int) (v : List Tile)
    (hv : l.get k = some v) :
    Formed m fuel tile v ∨ (s.of tile).leftList.get k = some v := by
  unfold formLeftList at h
  simp only [] at h
  rw [Result.bind_eq_ok] at h
  obtain ⟨rightKeys, hright, h⟩ := h
  cases h
  rcases get_foldl_set _ _ _ _ _ hv with h1 | h1
  · left
    rw [h1]
    exact ⟨s, hs, hright⟩
  · exact Or.inr h1

theorem formLeftLists_formed (m : Map) (fuel : Nat) (tiles : List Tile)
    (s s' : TileStates) (h : formLeftLists m fuel tiles s = .ok s')
    (hflags : SameFlags (classifyEndpoints m) s)
    (P : Nat → Int → List Tile → Prop)
    (hP : ∀ tile ∈ tiles, ∀ k v, Formed m fuel tile v → P tile.tileIndex.toNat k v)
    (hs : ∀ i k v, entryAt s i k = some v → P i k v) :
    ∀ i k v, entryAt s' i k = some v → P i k v := by
  induction tiles generalizing s with
  | nil =>
    unfold formLeftLists at h
    cases h
    exact hs
  | cons tile rest ih =>
    unfold formLeftLists at h
    split at h
    · exact ih s h hflags (fun t ht => hP t (List.mem_cons_of_mem _ ht)) hs
    · rw [Result.bind_eq_ok] at h
      obtain ⟨l, hl, h⟩ := h
      refine ih _ h (hflags.andThen (sameFlags_setLeftList s tile l))
        (fun t ht => hP t (List.mem_cons_of_mem _ ht)) ?_
      intro i k v hv
      rw [entryAt_setLeftList] at hv
      split at hv
      · rename_i hc
        rcases formLeftList_formed m s fuel tile hflags l hl k v hv with h1 | h1
        · rw [← hc.1]
          exact hP tile (List.mem_cons_self _ _) k v h1
        · refine hs _ k v ?_
          rw [← hc.1, ← entryAt_of]
          exact h1
      · exact hs i k v hv

/-- One visit of the pruning pass, exactly: the visited entry ends as the pruned
rest of what it was, and every other entry that exists afterwards existed before
with the same array. -/
theorem pruneEntry_exact (m : Map) (s s' : TileStates) (tile : Tile) (key : Int)
    (h : pruneEntry m s tile key = .ok s')
    (i : Nat) (k : Int) (v : List Tile) (hentry : entryAt s' i k = some v) :
    ((i = tile.tileIndex.toNat ∧ k = key) ∧
        ∃ v0, entryAt s tile.tileIndex.toNat key = some v0 ∧ ∃ (b : Bool) (l1 l2 : List Tile),
          removeTileFromArray (m.tileAt key) v0 = .ok (b, l1) ∧
          removeRightOfLeftNeighbor m (m.tileAt key) b l1 = .ok l2 ∧
          v = pruneDiagonalIfCardinalExist tile l2) ∨
      (¬ (i = tile.tileIndex.toNat ∧ k = key) ∧ entryAt s i k = some v) := by
  unfold pruneEntry at h
  split at h
  · rename_i hnone
    cases h
    right
    refine ⟨?_, hentry⟩
    rintro ⟨rfl, rfl⟩
    rw [entryAt_of] at hnone
    rw [hnone] at hentry
    cases hentry
  · rename_i v0 hsome
    simp only [] at h
    rw [Result.bind_eq_ok] at h
    obtain ⟨⟨b, rn1⟩, hr1, h⟩ := h
    rw [Result.bind_eq_ok] at h
    obtain ⟨rn, hrn, h⟩ := h
    simp only [] at hrn h
    generalize hmid : (if (pruneDiagonalIfCardinalExist tile rn).length ≠ rn.length then
        deleteFromRemoved tile
          (rn.filter (fun x => !tileIndexFound x (pruneDiagonalIfCardinalExist tile rn))) s
        else s) = smid at h
    have hmid' : ∀ i k v, entryAt smid i k = some v → entryAt s i k = some v := by
      intro i k v hv'
      rw [← hmid] at hv'
      split at hv'
      · exact deleteFromRemoved_entry _ _ _ _ _ _ hv'
      · exact hv'
    split at h
    · cases h
      rw [entryAt_setLeftList, LeftList.get_delete] at hentry
      split at hentry
      · rename_i hc
        split at hentry
        · cases hentry
        · rename_i hk
          right
          refine ⟨fun hcc => hk hcc.2, hmid' _ _ _ ?_⟩
          rw [entryAt_of, hc.1] at hentry
          exact hentry
      · rename_i hc
        right
        refine ⟨?_, hmid' _ _ _ hentry⟩
        rintro ⟨rfl, rfl⟩
        exact hc ⟨rfl, entryAt_some_lt _ _ _ _ hentry⟩
    · cases h
      rw [entryAt_setLeftList, LeftList.get_set] at hentry
      split at hentry
      · rename_i hc
        split at hentry
        · rename_i hk
          left
          cases hentry
          exact ⟨⟨hc.1.symm, hk⟩, v0, by rw [← entryAt_of]; exact hsome, b, rn1, rn, hr1, hrn, rfl⟩
        · rename_i hk
          right
          refine ⟨fun hcc => hk hcc.2, hmid' _ _ _ ?_⟩
          rw [entryAt_of, hc.1] at hentry
          exact hentry
      · rename_i hc
        right
        refine ⟨?_, hmid' _ _ _ hentry⟩
        rintro ⟨rfl, rfl⟩
        exact hc ⟨rfl, entryAt_some_lt _ _ _ _ hentry⟩

/-- The loop of the pruning pass over the keys of one tile keeps an invariant of
the entries: an entry satisfies `A` once it was visited and otherwise still
satisfies `U`, provided a visit leads from either to `A`. -/
theorem pruneTile_inv (m : Map) (A U : Nat → Int → List Tile → Prop) (tile : Tile)
    (hA : ∀ key v0 v, (A tile.tileIndex.toNat key v0 ∨ U tile.tileIndex.toNat key v0) →
      (∃ (b : Bool) (l1 l2 : List Tile), removeTileFromArray (m.tileAt key) v0 = .ok (b, l1) ∧
        removeRightOfLeftNeighbor m (m.tileAt key) b l1 = .ok l2 ∧
        v = pruneDiagonalIfCardinalExist tile l2) → A tile.tileIndex.toNat key v)
    (keys : List Int)
    (s s' : TileStates) (h : pruneTile m tile keys s = .ok s') (Done : Nat → Int → Prop)
    (hinv : ∀ i k v, entryAt s i k = some v → A i k v ∨ (¬ Done i k ∧ U i k v)) :
    (∀ i k v, entryAt s' i k = some v →
      A i k v ∨ (¬ (Done i k ∨ (i = tile.tileIndex.toNat ∧ k ∈ keys)) ∧ U i k v)) ∧
      ∀ i k v, entryAt s' i k = some v → ∃ v', entryAt s i k = some v' := by
  induction keys generalizing s Done with
  | nil =>
    unfold pruneTile at h
    cases h
    constructor
    · intro i k v hv
      rcases hinv i k v hv with h1 | ⟨h1, h2⟩
      · exact Or.inl h1
      · exact Or.inr ⟨by simpa using h1, h2⟩
    · exact fun i k v hv => ⟨v, hv⟩
  | cons key rest ih =>
    unfold pruneTile at h
    rw [Result.bind_eq_ok] at h
    obtain ⟨s1, h1, h2⟩ := h
    have hstep := pruneEntry_exact m s s1 tile key h1
    have hinv1 : ∀ i k v, entryAt s1 i k = some v →
        A i k v ∨ (¬ (Done i k ∨ (i = tile.tileIndex.toNat ∧ k = key)) ∧ U i k v) := by
      intro i k v hv
      rcases hstep i k v hv with ⟨⟨hi, hk⟩, v0, hv0, hrel⟩ | ⟨hne, hold⟩
      · left
        rw [hi, hk]
        refine hA key v0 v ?_ hrel
        rcases hinv _ _ _ hv0 with hg | ⟨_, hn⟩
        · exact Or.inl hg
        · exact Or.inr hn
      · rcases hinv i k v hold with hg | ⟨hd, hn⟩
        · exact Or.inl hg
        · exact Or.inr ⟨fun hc => hc.elim hd hne, hn⟩
    obtain ⟨ih1, ih2⟩ := ih s1 h2 _ hinv1
    constructor
    · intro i k v hv
      rcases ih1 i k v hv with hg | ⟨hd, hn⟩
      · exact Or.inl hg
      · right
        refine ⟨?_, hn⟩
        rintro (hc | ⟨hi, hk⟩)
        · exact hd (Or.inl (Or.inl hc))
        · rcases List.mem_cons.1 hk with hk1 | hk1
          · exact hd (Or.inl (Or.inr ⟨hi, hk1⟩))
          · exact hd (Or.inr ⟨hi, hk1⟩)
    · intro i k v hv
      obtain ⟨v1, hv1⟩ := ih2 i k v hv
      rcases hstep i k v1 hv1 with ⟨⟨hi, hk⟩, v0, hv0, _⟩ | ⟨_, hold⟩
      · exact ⟨v0, by rw [hi, hk]; exact hv0⟩
      · exact ⟨v1, hold⟩

/-- The pruning pass keeps the same invariant over the tiles: afterwards every
entry of a visited tile satisfies `A`. -/
theorem pruneLeftLists_inv (m : Map) (A U : Nat → Int → List Tile → Prop) (tiles : List Tile)
    (hA : ∀ tile ∈ tiles, ∀ key v0 v,
      (A tile.tileIndex.toNat key v0 ∨ U tile.tileIndex.toNat key v0) →
      (∃ (b : Bool) (l1 l2 : List Tile), removeTileFromArray (m.tileAt key) v0 = .ok (b, l1) ∧
        removeRightOfLeftNeighbor m (m.tileAt key) b l1 = .ok l2 ∧
        v = pruneDiagonalIfCardinalExist tile l2) → A tile.tileIndex.toNat key v)
    (s s' : TileStates) (h : pruneLeftLists m tiles s = .ok s') (Done : Nat → Int → Prop)
    (hinv : ∀ i k v, entryAt s i k = some v → A i k v ∨ (¬ Done i k ∧ U i k v)) :
    (∀ i k v, entryAt s' i k = some v → A i k v ∨ (∀ t ∈ tiles, t.tileIndex.toNat ≠ i)) ∧
      ∀ i k v, entryAt s' i k = some v → ∃ v', entryAt s i k = some v' := by
  induction tiles generalizing s Done with
  | nil =>
    unfold pruneLeftLists at h
    cases h
    exact ⟨fun i k v _ => Or.inr (fun t ht => by cases ht), fun i k v hv => ⟨v, hv⟩⟩
  | cons tile rest ih =>
    unfold pruneLeftLists at h
    rw [Result.bind_eq_ok] at h
    obtain ⟨s1, h1, h2⟩ := h
    have hArest : ∀ t ∈ rest, ∀ key v0 v,
        (A t.tileIndex.toNat key v0 ∨ U t.tileIndex.toNat key v0) →
        (∃ (b : Bool) (l1 l2 : List Tile), removeTileFromArray (m.tileAt key) v0 = .ok (b, l1) ∧
          removeRightOfLeftNeighbor m (m.tileAt key) b l1 = .ok l2 ∧
          v = pruneDiagonalIfCardinalExist t l2) → A t.tileIndex.toNat key v :=
      fun t ht => hA t (List.mem_cons_of_mem _ ht)
    obtain ⟨hs1, hkeys1⟩ := pruneTile_inv m A U tile (hA tile (List.mem_cons_self _ _)) _ s s1 h1
      Done hinv
    obtain ⟨ih1, ih2⟩ := ih hArest s1 h2 _ hs1
    have hshrink : ∀ i k v, entryAt s' i k = some v → ∃ v', entryAt s i k = some v' := by
      intro i k v hv
      obtain ⟨v1, hv1⟩ := ih2 i k v hv
      exact hkeys1 i k v1 hv1
    refine ⟨?_, hshrink⟩
    intro i k v hv
    rcases ih1 i k v hv with hg | hrest
    · exact Or.inl hg
    · by_cases hi : tile.tileIndex.toNat = i
      · left
        obtain ⟨v1, hv1⟩ := ih2 i k v hv
        obtain ⟨v0, hv0⟩ := hkeys1 i k v1 hv1
        have hkey : k ∈ ((s.of tile).leftList.map Prod.fst) := by
          apply LeftList.get_some_key _ k v0
          rw [entryAt_of, hi]
          exact hv0
        have key_done : ∀ (ts : List Tile) (sa sb : TileStates),
            (∀ t ∈ ts, ∀ key v0 v,
              (A t.tileIndex.toNat key v0 ∨ U t.tileIndex.toNat key v0) →
              (∃ (b : Bool) (l1 l2 : List Tile),
                removeTileFromArray (m.tileAt key) v0 = .ok (b, l1) ∧
                removeRightOfLeftNeighbor m (m.tileAt key) b l1 = .ok l2 ∧
                v = pruneDiagonalIfCardinalExist t l2) → A t.tileIndex.toNat key v) →
            pruneLeftLists m ts sa = .ok sb →
            (∀ i k v, entryAt sa i k = some v →
              A i k v ∨
                (¬ (Done i k ∨ (i = tile.tileIndex.toNat ∧
                  k ∈ ((s.of tile).leftList.map Prod.fst))) ∧ U i k v)) →
            ∀ v, entryAt sb i k = some v → A i k v := by
          intro ts
          induction ts with
          | nil =>
            intro sa sb _ hab hsa v hv
            unfold pruneLeftLists at hab
            cases hab
            rcases hsa i k v hv with hg | ⟨hd, _⟩
            · exact hg
            · exact absurd (Or.inr ⟨hi.symm, hkey⟩) hd
          | cons t ts iht =>
            intro sa sb hAts hab hsa v hv
            unfold pruneLeftLists at hab
            rw [Result.bind_eq_ok] at hab
            obtain ⟨sm, hm1, hm2⟩ := hab
            obtain ⟨hsm, _⟩ := pruneTile_inv m A U t (hAts t (List.mem_cons_self _ _)) _ sa sm hm1
              _ hsa
            refine iht sm sb (fun t' ht' => hAts t' (List.mem_cons_of_mem _ ht')) hm2 ?_ v hv
            intro i' k' v' hv'
            rcases hsm i' k' v' hv' with hg | ⟨hd, hn⟩
            · exact Or.inl hg
            · exact Or.inr ⟨fun hc => hd (Or.inl hc), hn⟩
        exact key_done rest s1 s' hArest h2 hs1 v hv
      · right
        intro t ht
        rcases List.mem_cons.1 ht with h3 | h3
        · rw [h3]; exact hi
        · exact hrest t h3

theorem Map.IsGrid.eq_of_toNat {m : Map} (g : m.IsGrid) {a b : Tile} (ha : a ∈ m.mapTiles)
    (hb : b ∈ m.mapTiles) (h : a.tileIndex.toNat = b.tileIndex.toNat) : a = b := by
  apply g.eq_of_tileIndex ha hb
  have h1 := (g.coords ha).2.2.2.2.2.2.1
  have h2 := (g.coords hb).2.2.2.2.2.2.1
  omega

/-- When the paths are enumerated, every left-list entry of a tile of the grid
holds only tiles that the pruning of the array formed for that tile keeps. -/
theorem computePaths_entries_pruned {m : Map} (g : m.IsGrid) (fuel : Nat) (c : Computed)
    (h : computePaths m fuel = .ok c) (u : Tile) (hu : u ∈ m.mapTiles) (k : Int) (v : List Tile)
    (hv : (c.tiles.of u).leftList.get k = some v) :
    ∃ v0, Formed m fuel u v0 ∧ PrunedWithin m u k v0 v := by
  obtain ⟨s1, batches, hs1, hs2, _, _⟩ := computePaths_phases m fuel c h
  have hform := formLeftLists_formed m fuel _ _ s1 hs1 (SameFlags.same _)
    (fun i _ v => ∃ tile ∈ m.mapTiles, tile.tileIndex.toNat = i ∧ Formed m fuel tile v)
    (fun tile ht _ v hf => ⟨tile, ht, rfl, hf⟩)
    (by
      intro i k v hv
      rw [entryAt_classifyEndpoints] at hv
      cases hv)
  obtain ⟨hp1, hp2⟩ := pruneLeftLists_inv m
    (fun i k v => ∃ tile ∈ m.mapTiles, tile.tileIndex.toNat = i ∧
      ∃ v0, Formed m fuel tile v0 ∧ PrunedWithin m tile k v0 v)
    (fun i _ v => ∃ tile ∈ m.mapTiles, tile.tileIndex.toNat = i ∧ Formed m fuel tile v)
    m.mapTiles
    (by
      intro tile ht key v0 v hprev hstep
      obtain ⟨b, l1, l2, hr1, hr2, hveq⟩ := hstep
      rcases hprev with ⟨tile', ht', hidx, v00, hf, b', l1', l2', hr1', hr2', hsub⟩ |
        ⟨tile', ht', hidx, hf⟩
      · have := g.eq_of_toNat ht' ht hidx
        subst this
        refine ⟨tile', ht, rfl, v00, hf, b', l1', l2', hr1', hr2', ?_⟩
        intro x hx
        apply hsub
        rw [hveq] at hx
        exact (removeTileFromArray_sublist _ _ _ _ hr1).subset
          ((removeRightOfLeftNeighbor_sublist _ _ _ _ _ hr2).subset (mem_of_mem_prune _ _ _ hx))
      · have := g.eq_of_toNat ht' ht hidx
        subst this
        refine ⟨tile', ht, rfl, v0, hf, b, l1, l2, hr1, hr2, ?_⟩
        intro x hx
        rw [hveq] at hx
        exact hx)
    s1 c.tiles hs2 (fun _ _ => False)
    (by
      intro i k v hv
      exact Or.inr ⟨fun hc => hc, hform i k v hv⟩)
  rw [entryAt_of] at hv
  rcases hp1 _ k v hv with ⟨tile, ht, hidx, v0, hf, hpr⟩ | hall
  · have := g.eq_of_toNat ht hu hidx
    subst this
    exact ⟨v0, hf, hpr⟩
  · exact absurd rfl (hall u hu)

/-! ## What the two removals of a visit take out -/

theorem removeTileFromArray_keeps (t : Tile) (arr : List Tile) (b : Bool) (r : List Tile)
    (h : removeTileFromArray (some t) arr = .ok (b, r)) (x : Tile) (hx : x ∈ arr)
    (hne : x.tileIndex ≠ t.tileIndex) : x ∈ r := by
  induction arr generalizing b r with
  | nil => cases hx
  | cons a rest ih =>
    unfold removeTileFromArray at h
    simp only [] at h
    split at h
    · rename_i heq
      cases h
      rcases List.mem_cons.1 hx with h1 | h1
      · subst h1
        exact absurd heq hne
      · exact h1
    · rw [Result.bind_eq_ok] at h
      obtain ⟨⟨b', r'⟩, hr', h⟩ := h
      cases h
      rcases List.mem_cons.1 hx with h1 | h1
      · subst h1
        exact List.mem_cons_self _ _
      · exact List.mem_cons_of_mem _ (ih b' r' hr' h1)

theorem removeTileFromArray_found (t : Tile) (arr : List Tile) (b : Bool) (r : List Tile)
    (h : removeTileFromArray (some t) arr = .ok (b, r)) :
    b = true ↔ ∃ x ∈ arr, x.tileIndex = t.tileIndex := by
  induction arr generalizing b r with
  | nil =>
    unfold removeTileFromArray at h
    cases h
    simp
  | cons a rest ih =>
    unfold removeTileFromArray at h
    simp only [] at h
    split at h
    · rename_i heq
      cases h
      simp only [true_iff]
      exact ⟨a, List.mem_cons_self _ _, heq⟩
    · rename_i hne
      rw [Result.bind_eq_ok] at h
      obtain ⟨⟨b', r'⟩, hr', h⟩ := h
      cases h
      rw [ih b' r' hr']
      constructor
      · rintro ⟨x, hx, hxi⟩
        exact ⟨x, List.mem_cons_of_mem _ hx, hxi⟩
      · rintro ⟨x, hx, hxi⟩
        rcases List.mem_cons.1 hx with h1 | h1
        · subst h1
          exact absurd hxi hne
        · exact ⟨x, h1, hxi⟩

/-- The second removal of a visit keeps every tile but the one whose index
follows that of the tile the key names, and takes nothing out when the first
removal found nothing. -/
theorem removeRightOfLeftNeighbor_keeps {m : Map} (g : m.IsGrid) (ln : Tile) (b : Bool)
    (arr r : List Tile) (h : removeRightOfLeftNeighbor m (some ln) b arr = .ok r) (x : Tile)
    (hx : x ∈ arr) (hne : b = true → x.tileIndex ≠ ln.tileIndex + 1) : x ∈ r := by
  unfold removeRightOfLeftNeighbor at h
  split at h
  · rename_i hb
    simp only [] at h
    split at h
    · split at h
      · cases h
      · rename_i rol hrol
        split at h
        · rw [Result.bind_eq_ok] at h
          obtain ⟨⟨b', r'⟩, hr', h⟩ := h
          cases h
          refine removeTileFromArray_keeps rol arr b' r' hr' x hx ?_
          rw [(g.tileAt_some hrol).2.1]
          exact hne hb
        · cases h
          exact hx
    · cases h
      exact hx
  · cases h
    exact hx

/-- When the first removal of a visit found the tile the key names, and the tile
whose index follows is walkable, the second removal takes that tile out. -/
theorem removeRightOfLeftNeighbor_removes {m : Map} (g : m.IsGrid) (ln rol : Tile)
    (arr r : List Tile) (h : removeRightOfLeftNeighbor m (some ln) true arr = .ok r)
    (hln : ln ∈ m.mapTiles) (hrol : m.tileAt (ln.tileIndex + 1) = some rol)
    (hw : rol.isWalkable = true) (hnd : (arr.map Tile.tileIndex).Nodup) :
    EntryAvoidsKey rol.tileIndex r := by
  have hx := (g.coords hln).2.2.1
  unfold removeRightOfLeftNeighbor at h
  rw [if_pos rfl] at h
  simp only [] at h
  rw [if_pos hx, hrol] at h
  simp only [] at h
  rw [if_pos hw, Result.bind_eq_ok] at h
  obtain ⟨⟨b', r'⟩, hr', h⟩ := h
  cases h
  exact removeTileFromArray_avoids rol arr b' r' hr' hnd

/-! ## The steps of a legal walk -/

/-- The endpoint flags the tiles have when the paths are enumerated are those of
the classification. -/
theorem computePaths_flags (m : Map) (fuel : Nat) (c : Computed)
    (h : computePaths m fuel = .ok c) : SameFlags (classifyEndpoints m) c.tiles := by
  obtain ⟨s1, _, hs1, hs2, _, _⟩ := computePaths_phases m fuel c h
  exact (sameFlags_formLeftLists m fuel _ _ s1 hs1).andThen
    (sameFlags_pruneLeftLists m _ s1 c.tiles hs2)

/-- The array formed for a tile that is no right-endpoint is part of its
right-neighbours, and holds each of them from which the reachability test finds
an endpoint, provided there are two or more. -/
theorem Formed.spec {m : Map} {fuel : Nat} {tile : Tile} {v0 : List Tile}
    (h : Formed m fuel tile v0) (c : Computed) (hflags : SameFlags (classifyEndpoints m) c.tiles)
    (hnre : (c.tiles.of tile).isRightEndpoint = false) :
    v0.Sublist (getAdjacentTiles m tile true) ∧
      ∀ a b, a ∈ getAdjacentTiles m tile true → b ∈ getAdjacentTiles m tile true → a ≠ b →
        ∀ (w : Path), RightWalk m c.tiles a tile w → a ∈ v0 := by
  obtain ⟨sf, hsf, hform⟩ := h
  have hfl : ∀ u, (sf.of u).isRightEndpoint = (c.tiles.of u).isRightEndpoint := by
    intro u
    rw [(hsf u).2, (hflags u).2]
  rw [hfl tile, hnre] at hform
  simp only [Bool.false_eq_true, if_false] at hform
  constructor
  · split at hform
    · exact filterReachable_sublist m sf fuel tile _ _ hform
    · cases hform
      exact List.Sublist.refl _
  · intro a b ha hb hab w hw
    have hlen : (getAdjacentTiles m tile true).length ≥ 2 := by
      match hl : getAdjacentTiles m tile true, ha, hb with
      | [], ha, _ => cases ha
      | [x], ha, hb =>
        rw [List.mem_singleton] at ha hb
        exact absurd (ha.trans hb.symm) hab
      | _ :: _ :: _, _, _ => simp
    rw [if_pos hlen] at hform
    obtain ⟨bb, hbb, hin⟩ := filterReachable_mem m sf fuel tile _ v0 hform a ha
    apply hin
    refine existsPath_finds m sf fuel a tile bb hbb w ?_
    obtain ⟨hhead, hch, hnd, havoid, last, hlast, hre⟩ := hw
    exact ⟨hhead, hch, hnd, havoid, last, hlast, by rw [hfl]; exact hre⟩

/-! ## Positions around a step -/

theorem sharesEdge_not_corner {a b : Tile} (h1 : sharesEdge a b) (h2 : sharesCornerOnly a b) :
    False := by
  unfold sharesEdge at h1
  unfold sharesCornerOnly at h2
  omega

theorem sharesEdge_irrefl {a : Tile} (h : sharesEdge a a) : False := by
  unfold sharesEdge at h
  omega

/-- A tile that shares an edge with both ends of a diagonal step to the right has
the end of the step among the positions to its right. -/
theorem between_then_right {cur cc n : Tile} (he2 : sharesEdge cc n)
    (hc : sharesCornerOnly cur n) (hnx : n.x = cur.x ∨ n.x = cur.x + 1)
    (hcx : cc.x = cur.x ∨ cc.x = cur.x + 1) :
    (n.x = cc.x ∧ (n.y = cc.y - 1 ∨ n.y = cc.y + 1)) ∨
      (n.x = cc.x + 1 ∧ (n.y = cc.y - 1 ∨ n.y = cc.y ∨ n.y = cc.y + 1)) := by
  unfold sharesEdge at he2
  unfold sharesCornerOnly at hc
  omega

/-- A tile in the column of `cur` that shares an edge with both ends of a diagonal
step from `cur` to the right has the end of the step right next to it. -/
theorem between_then_next {cur cc n : Tile} (he2 : sharesEdge cc n)
    (hc : sharesCornerOnly cur n) (hnx : n.x = cur.x ∨ n.x = cur.x + 1)
    (hcx : cc.x = cur.x ∨ cc.x = cur.x + 1) (hpx : cur.x = cc.x ∨ cur.x = cc.x + 1) :
    atOffset cc n 1 0 := by
  unfold atOffset
  unfold sharesEdge at he2
  unfold sharesCornerOnly at hc
  omega

/-- Two tiles that are each a right-neighbour of the other are in one column, one
above the other. -/
theorem mutual_right_vertical {cur p : Tile} (hpx : p.x = cur.x ∨ p.x = cur.x + 1)
    (hpy : p.y = cur.y - 1 ∨ p.y = cur.y ∨ p.y = cur.y + 1)
    (hpne : ¬ (p.x = cur.x ∧ p.y = cur.y)) (hcx : cur.x = p.x ∨ cur.x = p.x + 1) :
    atOffset cur p 0 (-1) ∨ atOffset cur p 0 1 := by
  unfold atOffset
  omega

theorem edge_right_offsets {cur cc : Tile} (he1 : sharesEdge cur cc)
    (hcx : cc.x = cur.x ∨ cc.x = cur.x + 1) :
    atOffset cur cc 0 (-1) ∨ atOffset cur cc 0 1 ∨ atOffset cur cc 1 0 := by
  unfold atOffset
  unfold sharesEdge at he1
  omega

/-- The index of a tile that shares an edge with `cur`, to its right or in its
column, does not follow the index of a tile above or below `cur`. -/
theorem index_not_after_vertical {m : Map} (g : m.IsGrid) {cur p cc : Tile}
    (hcur : cur ∈ m.mapTiles) (hpm : p ∈ m.mapTiles) (hcm : cc ∈ m.mapTiles)
    (offp : atOffset cur p 0 (-1) ∨ atOffset cur p 0 1)
    (offc : atOffset cur cc 0 (-1) ∨ atOffset cur cc 0 1 ∨ atOffset cur cc 1 0) :
    cc.tileIndex ≠ p.tileIndex + 1 := by
  have hN := (g.coords hcur).1
  rcases offp with o1 | o1
  · have i1 := g.index_of_atOffset hcur hpm _ _ o1
    rcases offc with o2 | o2 | o2
    · have i2 := g.index_of_atOffset hcur hcm _ _ o2
      omega
    · have i2 := g.index_of_atOffset hcur hcm _ _ o2
      omega
    · have i2 := g.index_of_atOffset hcur hcm _ _ o2
      omega
  · have i1 := g.index_of_atOffset hcur hpm _ _ o1
    rcases offc with o2 | o2 | o2
    · have i2 := g.index_of_atOffset hcur hcm _ _ o2
      omega
    · have i2 := g.index_of_atOffset hcur hcm _ _ o2
      omega
    · have i2 := g.index_of_atOffset hcur hcm _ _ o2
      omega

theorem tileAt_next {m : Map} (g : m.IsGrid) {a n : Tile} (ha : a ∈ m.mapTiles)
    (hn : n ∈ m.mapTiles) (hoff : atOffset a n 1 0) : m.tileAt (a.tileIndex + 1) = some n := by
  have hni := g.index_of_atOffset ha hn 1 0 hoff
  have := (g.coords hn).2.2.2.2.2.2.2.2
  rw [hni] at this
  simpa using this

theorem right_offsets {p n : Tile} (hx : n.x = p.x ∨ n.x = p.x + 1)
    (hy : n.y = p.y - 1 ∨ n.y = p.y ∨ n.y = p.y + 1) (hne : ¬ (n.x = p.x ∧ n.y = p.y)) :
    atOffset p n 0 (-1) ∨ atOffset p n 0 1 ∨ atOffset p n 1 (-1) ∨ atOffset p n 1 0 ∨
      atOffset p n 1 1 := by
  unfold atOffset
  omega

/-- Two steps to the right never end above or below their first tile. -/
theorem two_right_steps_not_vertical {p cur n : Tile}
    (hcx : cur.x = p.x ∨ cur.x = p.x + 1)
    (hcy : cur.y = p.y - 1 ∨ cur.y = p.y ∨ cur.y = p.y + 1)
    (hcne : ¬ (cur.x = p.x ∧ cur.y = p.y))
    (hnx : n.x = cur.x ∨ n.x = cur.x + 1)
    (hny : n.y = cur.y - 1 ∨ n.y = cur.y ∨ n.y = cur.y + 1)
    (hnne : ¬ (n.x = cur.x ∧ n.y = cur.y))
    (o : atOffset p n 0 (-1) ∨ atOffset p n 0 1) : False := by
  unfold atOffset at o
  omega

/-- On a grid that does not have exactly two columns, a right-neighbour that
`areTilesCardinal` accepts, reached in two steps to the right, is the tile right
next to the first. -/
theorem cardinal_two_steps_next {m : Map} (g : m.IsGrid) (h2 : m.numCols ≠ 2) {p cur n : Tile}
    (hpm : p ∈ m.mapTiles) (hnm : n ∈ m.mapTiles)
    (hcx : cur.x = p.x ∨ cur.x = p.x + 1)
    (hcy : cur.y = p.y - 1 ∨ cur.y = p.y ∨ cur.y = p.y + 1)
    (hcne : ¬ (cur.x = p.x ∧ cur.y = p.y))
    (hnx : n.x = cur.x ∨ n.x = cur.x + 1)
    (hny : n.y = cur.y - 1 ∨ n.y = cur.y ∨ n.y = cur.y + 1)
    (hnne : ¬ (n.x = cur.x ∧ n.y = cur.y))
    (hqx : n.x = p.x ∨ n.x = p.x + 1)
    (hqy : n.y = p.y - 1 ∨ n.y = p.y ∨ n.y = p.y + 1)
    (hqne : ¬ (n.x = p.x ∧ n.y = p.y))
    (hcard : areTilesCardinal m p n = true) : atOffset p n 1 0 := by
  have hN := (g.coords hpm).1
  have hpx0 := (g.coords hpm).2.1
  have hnx1 := (g.coords hnm).2.2.1
  unfold areTilesCardinal at hcard
  simp only [Bool.or_eq_true, decide_eq_true_eq] at hcard
  rcases right_offsets hqx hqy hqne with o | o | o | o | o
  · exact absurd (Or.inl o) (two_right_steps_not_vertical hcx hcy hcne hnx hny hnne)
  · exact absurd (Or.inr o) (two_right_steps_not_vertical hcx hcy hcne hnx hny hnne)
  · exfalso
    have i := g.index_of_atOffset hpm hnm _ _ o
    have ox := o.1
    clear hcx hcy hcne hnx hny hnne hqx hqy hqne
    omega
  · exact o
  · exfalso
    have i := g.index_of_atOffset hpm hnm _ _ o
    have ox := o.1
    clear hcx hcy hcne hnx hny hnne hqx hqy hqne
    omega

/-- A vertical first step seen from its end: the first tile is above or below. -/
theorem vertical_back {p cur : Tile} (hx : cur.x = p.x)
    (hcy : cur.y = p.y - 1 ∨ cur.y = p.y ∨ cur.y = p.y + 1)
    (hcne : ¬ (cur.x = p.x ∧ cur.y = p.y)) :
    (p.x = cur.x ∧ (p.y = cur.y - 1 ∨ p.y = cur.y + 1)) ∨
      (p.x = cur.x + 1 ∧ (p.y = cur.y - 1 ∨ p.y = cur.y ∨ p.y = cur.y + 1)) := by
  omega

/-- A first step that leaves the column of `p` while the next tile is the one
right next to `p`: the first step is diagonal and the tile right next to `p`
shares an edge with both of its ends. -/
theorem diagonal_past_next {p cur n : Tile} (hoff : atOffset p n 1 0) (hx : ¬ cur.x = p.x)
    (hcx : cur.x = p.x ∨ cur.x = p.x + 1)
    (hcy : cur.y = p.y - 1 ∨ cur.y = p.y ∨ cur.y = p.y + 1)
    (hnne : ¬ (n.x = cur.x ∧ n.y = cur.y)) :
    sharesCornerOnly p cur ∧ sharesEdge p n ∧ sharesEdge n cur := by
  unfold atOffset at hoff
  unfold sharesCornerOnly sharesEdge
  omega

/-- From a tile of a chain without a repeated tile, the rest of the chain. -/
theorem chain_suffix_from {α : Type} (R : α → α → Prop) (l : List α) (x : α) (hx : x ∈ l)
    (hch : List.Chain' R l) (hnd : l.Nodup) :
    ∃ w, List.Chain' R (x :: w) ∧ (x :: w).Nodup ∧ (∀ t ∈ x :: w, t ∈ l) ∧
      (x :: w).getLast? = l.getLast? := by
  obtain ⟨l1, l2, hl⟩ := List.append_of_mem hx
  subst hl
  refine ⟨l2, hch.right_of_append, hnd.of_append_right, ?_, ?_⟩
  · intro t ht
    exact List.mem_append_right _ ht
  · rw [List.getLast?_append_of_ne_nil _ (by simp)]

/-- A legal step lands on a tile that the pruning keeps of all the right-neighbours
of the tile it leaves: when the walk goes on from there to a right-endpoint, no
walkable tile lies between the two ends of a diagonal step. -/
theorem legal_step_pruned {m : Map} (g : m.IsGrid) (fuel : Nat) (c : Computed)
    (h : computePaths m fuel = .ok c) (p cur n : Tile) (rest : List Tile)
    (hcur : cur ∈ m.mapTiles) (hpm : p ∈ m.mapTiles)
    (hp : p = cur ∨ cur ∈ getAdjacentTiles m p true)
    (hnre : (c.tiles.of cur).isRightEndpoint = false)
    (hstep : legalStep c.tiles p cur n)
    (hchain : List.Chain' (fun a b => b ∈ getAdjacentTiles m a true) (n :: rest))
    (hnd : (cur :: n :: rest).Nodup) (hpn : p ∉ n :: rest)
    (hlast : ∃ last, (n :: rest).getLast? = some last ∧
      (c.tiles.of last).isRightEndpoint = true) :
    n ∈ pruneDiagonalIfCardinalExist cur (getAdjacentTiles m cur true) := by
  unfold legalStep at hstep
  split at hstep
  swap
  · exact absurd hstep id
  rename_i v hv
  obtain ⟨v0, hformed, b, l1, l2, hr1, hr2, hsub⟩ :=
    computePaths_entries_pruned g fuel c h cur hcur p.tileIndex v hv
  have hflags := computePaths_flags m fuel c h
  obtain ⟨hv0sub, hv0mem⟩ := hformed.spec c hflags hnre
  have hpat : m.tileAt p.tileIndex = some p := (g.coords hpm).2.2.2.2.2.2.2.2
  rw [hpat] at hr1 hr2
  have hl1sub := removeTileFromArray_sublist _ _ _ _ hr1
  have hl2sub := removeRightOfLeftNeighbor_sublist _ _ _ _ _ hr2
  have hl2full : l2.Sublist (getAdjacentTiles m cur true) := (hl2sub.trans hl1sub).trans hv0sub
  have hn2 := hsub n hstep
  rw [mem_prune_iff cur l2 (fun x hx => adjacent_around g hcur (hl2full.subset hx))
    ((hl2full.map _).nodup (adjacent_positions_nodup g cur true))] at hn2
  obtain ⟨hnl2, hcase⟩ := hn2
  have hnfull := hl2full.subset hnl2
  rw [mem_prune_iff cur _ (fun x hx => adjacent_around g hcur hx)
    (adjacent_positions_nodup g cur true)]
  refine ⟨hnfull, ?_⟩
  rcases hcase with hedge | ⟨hcorner, hnone⟩
  · exact Or.inl hedge
  · right
    refine ⟨hcorner, ?_⟩
    rintro ⟨cc, hcc, he1, he2⟩
    apply hnone
    refine ⟨cc, ?_, he1, he2⟩
    obtain ⟨hnm, hnw, hnx, hny, _⟩ := right_step g hcur hnfull
    obtain ⟨hcm, hcw, hcx, hcy, _⟩ := right_step g hcur hcc
    have hccn : cc ≠ n := by
      intro e
      rw [e] at he1
      exact sharesEdge_not_corner he1 hcorner
    have hcccur : cc ≠ cur := by
      intro e
      rw [e] at he1
      exact sharesEdge_irrefl he1
    have hncc : n ∈ getAdjacentTiles m cc true := by
      rw [mem_getAdjacentTiles_iff g hcm true n]
      exact ⟨hnm, hnw, adjacentPosition_right_of_arith
        (between_then_right he2 hcorner hnx hcx)⟩
    have hccv0 : cc ∈ v0 := by
      by_cases hin : cc ∈ n :: rest
      · obtain ⟨w, hwch, hwnd, hwsub, hwlast⟩ :=
          chain_suffix_from _ (n :: rest) cc hin hchain (List.nodup_cons.1 hnd).2
        refine hv0mem cc n hcc hnfull hccn (cc :: w) ⟨rfl, hwch, hwnd, ?_, ?_⟩
        · intro hmem
          exact (List.nodup_cons.1 hnd).1 (hwsub cur hmem)
        · obtain ⟨last, hl, hre⟩ := hlast
          exact ⟨last, by rw [hwlast]; exact hl, hre⟩
      · refine hv0mem cc n hcc hnfull hccn (cc :: n :: rest) ⟨rfl, ?_, ?_, ?_, ?_⟩
        · exact List.Chain'.cons hncc hchain
        · exact List.nodup_cons.2 ⟨hin, (List.nodup_cons.1 hnd).2⟩
        · intro hmem
          rcases List.mem_cons.1 hmem with e | e
          · exact hcccur e.symm
          · exact (List.nodup_cons.1 hnd).1 e
        · obtain ⟨last, hl, hre⟩ := hlast
          exact ⟨last, by rw [List.getLast?_cons_cons]; exact hl, hre⟩
    have hndidx : (l1.map Tile.tileIndex).Nodup :=
      ((hl1sub.trans hv0sub).map _).nodup (getAdjacentTiles_nodup_index g cur true)
    by_cases hidx : cc.tileIndex = p.tileIndex
    · exfalso
      have hcp : cc = p := g.eq_of_tileIndex hcm hpm hidx
      subst hcp
      have hpc : cur ∈ getAdjacentTiles m cc true := by
        rcases hp with e | e
        · exact absurd e hcccur
        · exact e
      obtain ⟨_, _, hpx, hpy, _⟩ := right_step g hcm hpc
      have hb : b = true := (removeTileFromArray_found cc v0 b l1 hr1).2 ⟨cc, hccv0, rfl⟩
      subst hb
      have hnat : m.tileAt (cc.tileIndex + 1) = some n :=
        tileAt_next g hcm hnm (between_then_next he2 hcorner hnx hcx hpx)
      exact removeRightOfLeftNeighbor_removes g cc n l1 l2 hr2 hcm hnat hnw hndidx n hnl2 rfl
    · have hcl1 : cc ∈ l1 := removeTileFromArray_keeps p v0 b l1 hr1 cc hccv0 hidx
      refine removeRightOfLeftNeighbor_keeps g p b l1 l2 hr2 cc hcl1 ?_
      intro hb hidx1
      obtain ⟨x, hxv0, hxi⟩ := (removeTileFromArray_found p v0 b l1 hr1).1 hb
      have hxfull := hv0sub.subset hxv0
      have hxm := (mem_getAdjacentTiles_mapTiles g hxfull).1
      have hxp : x = p := g.eq_of_tileIndex hxm hpm hxi
      rw [hxp] at hxfull
      obtain ⟨_, _, hpx, hpy, hpne⟩ := right_step g hcur hxfull
      have hpcur : p ≠ cur := by
        intro e
        rw [e] at hpne
        exact hpne ⟨rfl, rfl⟩
      have hpc : cur ∈ getAdjacentTiles m p true := by
        rcases hp with e | e
        · exact absurd e hpcur
        · exact e
      obtain ⟨_, _, hcx', hcy', _⟩ := right_step g hpm hpc
      exact index_not_after_vertical g hcur hpm hcm (mutual_right_vertical hpx hpy hpne hcx')
        (edge_right_offsets he1 hcx) hidx1

/-- A legal step from a tile that is no right-endpoint goes to one of its
right-neighbours. -/
theorem legalStep_adjacent {m : Map} (g : m.IsGrid) (fuel : Nat) (c : Computed)
    (h : computePaths m fuel = .ok c) (p cur n : Tile) (hcur : cur ∈ m.mapTiles)
    (hnre : (c.tiles.of cur).isRightEndpoint = false) (hstep : legalStep c.tiles p cur n) :
    n ∈ getAdjacentTiles m cur true := by
  unfold legalStep at hstep
  split at hstep
  swap
  · exact absurd hstep id
  rename_i v hv
  obtain ⟨v0, hformed, b, l1, l2, hr1, hr2, hsub⟩ :=
    computePaths_entries_pruned g fuel c h cur hcur p.tileIndex v hv
  obtain ⟨hv0sub, _⟩ := hformed.spec c (computePaths_flags m fuel c h) hnre
  exact hv0sub.subset ((removeTileFromArray_sublist _ _ _ _ hr1).subset
    ((removeRightOfLeftNeighbor_sublist _ _ _ _ _ hr2).subset
      (mem_of_mem_prune _ _ _ (hsub n hstep))))

/-- On a grid that does not have exactly two columns, two legal steps in a row
never end on a right-neighbour of their first tile that the first rule of
`optimizePaths` takes for a cardinal neighbour of it. -/
theorem legal_steps_no_detour {m : Map} (g : m.IsGrid) (h2 : m.numCols ≠ 2) (fuel : Nat)
    (c : Computed) (h : computePaths m fuel = .ok c) (p cur n : Tile) (rest : List Tile)
    (hpm : p ∈ m.mapTiles) (hpw : p.isWalkable = true)
    (hprev : cur ∈ pruneDiagonalIfCardinalExist p (getAdjacentTiles m p true))
    (hnre : (c.tiles.of cur).isRightEndpoint = false)
    (hstep : legalStep c.tiles p cur n)
    (hchain : List.Chain' (fun a b => b ∈ getAdjacentTiles m a true) (n :: rest))
    (hnd : (p :: cur :: n :: rest).Nodup)
    (hlast : ∃ last, (n :: rest).getLast? = some last ∧
      (c.tiles.of last).isRightEndpoint = true) :
    ¬ (n ∈ getAdjacentTiles m p true ∧ areTilesCardinal m p n = true) := by
  rintro ⟨hnp, hcard⟩
  have hpc := mem_of_mem_prune _ _ _ hprev
  obtain ⟨hcm, hcw, hcx, hcy, hcne⟩ := right_step g hpm hpc
  have hn := legalStep_adjacent g fuel c h p cur n hcm hnre hstep
  obtain ⟨hnm, hnw, hnx, hny, hnne⟩ := right_step g hcm hn
  obtain ⟨_, _, hqx, hqy, hqne⟩ := right_step g hpm hnp
  have hoff : atOffset p n 1 0 :=
    cardinal_two_steps_next g h2 hpm hnm hcx hcy hcne hnx hny hnne hqx hqy hqne hcard
  by_cases hx : cur.x = p.x
  · -- the first step is vertical: the pruning took `n` out of the entry
    unfold legalStep at hstep
    split at hstep
    swap
    · exact absurd hstep id
    rename_i v hv
    obtain ⟨v0, hformed, b, l1, l2, hr1, hr2, hsub⟩ :=
      computePaths_entries_pruned g fuel c h cur hcm p.tileIndex v hv
    obtain ⟨hv0sub, hv0mem⟩ := hformed.spec c (computePaths_flags m fuel c h) hnre
    have hpat : m.tileAt p.tileIndex = some p := (g.coords hpm).2.2.2.2.2.2.2.2
    rw [hpat] at hr1 hr2
    have hl1sub := removeTileFromArray_sublist _ _ _ _ hr1
    have hnl2 : n ∈ l2 := mem_of_mem_prune _ _ _ (hsub n hstep)
    have hpfull : p ∈ getAdjacentTiles m cur true := by
      rw [mem_getAdjacentTiles_iff g hcm true p]
      exact ⟨hpm, hpw, adjacentPosition_right_of_arith (vertical_back hx hcy hcne)⟩
    have hnd' := List.nodup_cons.1 hnd
    have hpn : p ≠ n := by
      intro e
      exact hnd'.1 (by rw [e]; simp)
    have hpv0 : p ∈ v0 := by
      refine hv0mem p n hpfull hn hpn (p :: n :: rest) ⟨rfl, ?_, ?_, ?_, ?_⟩
      · exact List.Chain'.cons hnp hchain
      · refine List.nodup_cons.2 ⟨fun hmem => hnd'.1 (List.mem_cons_of_mem _ hmem), ?_⟩
        exact (List.nodup_cons.1 hnd'.2).2
      · intro hmem
        rcases List.mem_cons.1 hmem with e | e
        · exact hnd'.1 (by rw [← e]; simp)
        · exact (List.nodup_cons.1 hnd'.2).1 e
      · obtain ⟨last, hl, hre⟩ := hlast
        exact ⟨last, by rw [List.getLast?_cons_cons]; exact hl, hre⟩
    have hb : b = true := (removeTileFromArray_found p v0 b l1 hr1).2 ⟨p, hpv0, rfl⟩
    subst hb
    have hnat : m.tileAt (p.tileIndex + 1) = some n := tileAt_next g hpm hnm hoff
    have hndidx : (l1.map Tile.tileIndex).Nodup :=
      ((hl1sub.trans hv0sub).map _).nodup (getAdjacentTiles_nodup_index g cur true)
    exact removeRightOfLeftNeighbor_removes g p n l1 l2 hr2 hpm hnat hnw hndidx n hnl2 rfl
  · -- the first step is diagonal, past the walkable tile `n`
    obtain ⟨hco, hed1, hed2⟩ := diagonal_past_next hoff hx hcx hcy hnne
    exact pruned_step_no_corner g hpm hprev hco ⟨n, hnm, hnw, hed1, hed2⟩

theorem chain_of_cutsCorner (m : Map) (l : Path) (h : cutsCorner m l = false) :
    List.Chain' (fun a b => b ∈ getAdjacentTiles m a true) l := by
  induction l with
  | nil => exact List.chain'_nil
  | cons a rest ih =>
    match rest, ih, h with
    | [], _, _ => exact List.chain'_singleton a
    | b :: rest', ih, h =>
      unfold cutsCorner at h
      rw [Bool.or_eq_false_iff] at h
      have hb : b ∈ pruneDiagonalIfCardinalExist a (getAdjacentTiles m a true) := by
        simpa using h.1
      exact List.Chain'.cons (mem_of_mem_prune _ _ _ hb) (ih h.2)

/-- A legal walk that ends on the first right-endpoint it reaches passes the
third rule of `optimizePaths`, and on a grid that does not have exactly two
columns the first rule as well. -/
theorem legal_walk_rules {m : Map} (g : m.IsGrid) (fuel : Nat) (c : Computed)
    (h : computePaths m fuel = .ok c) (rest : List Tile) (p cur : Tile)
    (hcur : cur ∈ m.mapTiles) (hpm : p ∈ m.mapTiles) (hpw : p.isWalkable = true)
    (hp : p = cur ∨ cur ∈ getAdjacentTiles m p true)
    (hlegal : legalFrom c.tiles p cur rest) (hnd : (cur :: rest).Nodup)
    (hpn : p = cur ∨ p ∉ cur :: rest)
    (hstop : stopsAtFirstRightEndpoint c.tiles (cur :: rest)) :
    cutsCorner m (cur :: rest) = false ∧
      (m.numCols ≠ 2 → hasNoopDetour m (cur :: rest) = false ∧
        (p ≠ cur → cur ∈ pruneDiagonalIfCardinalExist p (getAdjacentTiles m p true) →
          hasNoopDetour m (p :: cur :: rest) = false)) := by
  induction rest generalizing p cur with
  | nil => exact ⟨rfl, fun _ => ⟨rfl, fun _ _ => rfl⟩⟩
  | cons n rest' ih =>
    obtain ⟨hstep, hlegal'⟩ := hlegal
    obtain ⟨hflags, hlastm⟩ := hstop
    have hnre : (c.tiles.of cur).isRightEndpoint = false :=
      hflags cur (by simp [List.dropLast])
    have hn := legalStep_adjacent g fuel c h p cur n hcur hnre hstep
    obtain ⟨hnm, hnw, _⟩ := right_step g hcur hn
    have hnd1 := List.nodup_cons.1 hnd
    have hcw : cur.isWalkable = true := by
      rcases hp with e | e
      · rw [← e]; exact hpw
      · exact (right_step g hpm e).2.1
    have hstop' : stopsAtFirstRightEndpoint c.tiles (n :: rest') := by
      refine ⟨?_, ?_⟩
      · intro t ht
        apply hflags t
        rw [List.dropLast_cons₂]
        exact List.mem_cons_of_mem _ ht
      · rw [List.getLast?_cons_cons] at hlastm
        exact hlastm
    have hlast : ∃ last, (n :: rest').getLast? = some last ∧
        (c.tiles.of last).isRightEndpoint = true := by
      have := hstop'.2
      split at this
      · rename_i last hl
        exact ⟨last, hl, this⟩
      · exact absurd this id
    obtain ⟨hcc', hrules'⟩ := ih cur n hnm hcur hcw (Or.inr hn) hlegal' hnd1.2 (Or.inr hnd1.1) hstop'
    have hchain := chain_of_cutsCorner m _ hcc'
    have hpn' : p ∉ n :: rest' := by
      rcases hpn with e | e
      · rw [e]; exact hnd1.1
      · exact fun hmem => e (List.mem_cons_of_mem _ hmem)
    have hnpr := legal_step_pruned g fuel c h p cur n rest' hcur hpm hp hnre hstep hchain hnd
      hpn' hlast
    refine ⟨?_, ?_⟩
    · unfold cutsCorner
      rw [hcc', Bool.or_false]
      simpa using hnpr
    · intro h3
      obtain ⟨_, himp⟩ := hrules' h3
      have hcn : cur ≠ n := by
        intro e
        exact hnd1.1 (by rw [← e]; simp)
      have hd1 := himp hcn hnpr
      refine ⟨hd1, ?_⟩
      intro hpc hprev
      have hpnot : p ∉ cur :: n :: rest' := by
        rcases hpn with e | e
        · exact absurd e hpc
        · exact e
      have hno := legal_steps_no_detour g h3 fuel c h p cur n rest' hpm hpw hprev hnre hstep
        hchain (List.nodup_cons.2 ⟨hpnot, hnd⟩) hlast
      unfold hasNoopDetour
      rw [hd1, Bool.or_false]
      by_cases hmem : n ∈ getAdjacentTiles m p true
      · have : areTilesCardinal m p n = false := by
          cases hc : areTilesCardinal m p n
          · rfl
          · exact absurd ⟨hmem, hc⟩ hno
        simp [this]
      · simp [hmem]

/-! ## Every legal walk is a path -/

theorem forall₂_mem_left {α β : Type} {R : α → β → Prop} {l : List α} {r : List β}
    (h : List.Forall₂ R l r) (a : α) (ha : a ∈ l) : ∃ b ∈ r, R a b := by
  induction h with
  | nil => cases ha
  | cons hab _ ih =>
    rcases List.mem_cons.1 ha with h1 | h1
    · subst h1
      exact ⟨_, List.mem_cons_self _ _, hab⟩
    · obtain ⟨b, hb, hr⟩ := ih h1
      exact ⟨b, List.mem_cons_of_mem _ hb, hr⟩

theorem dropDiagonalDiagonals_mem (m : Map) (ps r : List Path)
    (h : dropDiagonalDiagonals m ps = .ok r) (w : Path) (hw : w ∈ ps)
    (hno : hasDiagonalDiagonal m w ≠ .ok true) : w ∈ r := by
  induction ps generalizing r with
  | nil => cases hw
  | cons p rest ih =>
    unfold dropDiagonalDiagonals at h
    split at h
    · rw [Result.bind_eq_ok] at h
      obtain ⟨r', h1, h2⟩ := h
      cases h2
      rcases List.mem_cons.1 hw with e | e
      · rw [e]
        exact List.mem_cons_self _ _
      · exact List.mem_cons_of_mem _ (ih r' h1 e)
    · rw [Result.bind_eq_ok] at h
      obtain ⟨drop, hdrop, h2⟩ := h
      split at h2
      · rename_i hd
        rcases List.mem_cons.1 hw with e | e
        · rw [e, hdrop, hd] at hno
          exact absurd rfl hno
        · exact ih r h2 e
      · rw [Result.bind_eq_ok] at h2
        obtain ⟨r', h1, h3⟩ := h2
        cases h3
        rcases List.mem_cons.1 hw with e | e
        · rw [e]
          exact List.mem_cons_self _ _
        · exact List.mem_cons_of_mem _ (ih r' h1 e)

/-- The paths `optimizePaths` keeps: a path of tiles of the grid that is not empty
and passes the first and the third rule stays. -/
theorem optimizePaths_keeps {m : Map} (g : m.IsGrid) (paths out : List Path)
    (h : optimizePaths m paths = .ok out) (w : Path) (hw : w ∈ paths) (hne : w ≠ [])
    (htiles : ∀ t ∈ w, t ∈ m.mapTiles) (hdetour : hasNoopDetour m w = false)
    (hcorner : cutsCorner m w = false) : w ∈ out := by
  unfold optimizePaths at h
  rw [Result.bind_eq_ok] at h
  obtain ⟨r, hr, hout⟩ := h
  cases hout
  rw [dropCornerCuts_eq_filter, List.mem_filter]
  refine ⟨dropDiagonalDiagonals_mem m _ r hr w ?_ ?_, by simp [hcorner]⟩
  · rw [dropNoopDetours_eq_filter, List.mem_filter]
    exact ⟨hw, by simp [hne, hdetour]⟩
  · intro hdd
    have := hasDiagonalDiagonal_cutsCorner g w htiles hdd
    rw [hcorner] at this
    cases this

theorem keepFirstOccurrences_mem (e l : List Path) (w : Path) (hw : w ∈ l) :
    w.map Tile.tileIndex ∈ e.map (List.map Tile.tileIndex) ∨
      ∃ p ∈ keepFirstOccurrences e l, p.map Tile.tileIndex = w.map Tile.tileIndex := by
  induction l generalizing e with
  | nil => cases hw
  | cons x rest ih =>
    unfold keepFirstOccurrences
    rcases List.mem_cons.1 hw with h1 | h1
    · subst h1
      split
      · rename_i hin
        exact Or.inl hin
      · exact Or.inr ⟨w, List.mem_cons_self _ _, rfl⟩
    · rcases ih (e ++ [x]) h1 with h2 | ⟨p, hp, hpe⟩
      · simp only [List.map_append, List.mem_append, List.map_cons, List.map_nil,
          List.mem_singleton] at h2
        rcases h2 with h3 | h3
        · exact Or.inl h3
        · split
          · rename_i hin
            left
            rw [h3]
            exact hin
          · exact Or.inr ⟨x, List.mem_cons_self _ _, h3.symm⟩
      · right
        split
        · exact ⟨p, hp, hpe⟩
        · exact ⟨p, List.mem_cons_of_mem _ hp, hpe⟩

theorem Map.IsGrid.eq_of_map_tileIndex {m : Map} (g : m.IsGrid) (p q : Path)
    (hp : ∀ t ∈ p, t ∈ m.mapTiles) (hq : ∀ t ∈ q, t ∈ m.mapTiles)
    (h : p.map Tile.tileIndex = q.map Tile.tileIndex) : p = q := by
  induction p generalizing q with
  | nil =>
    cases q with
    | nil => rfl
    | cons b q => simp at h
  | cons a p ih =>
    cases q with
    | nil => simp at h
    | cons b q =>
      simp only [List.map_cons, List.cons.injEq] at h
      rw [g.eq_of_tileIndex (hp a (List.mem_cons_self _ _)) (hq b (List.mem_cons_self _ _)) h.1,
        ih q (fun t ht => hp t (List.mem_cons_of_mem _ ht))
          (fun t ht => hq t (List.mem_cons_of_mem _ ht)) h.2]

/-- On a grid that does not have exactly two columns and on which `computePaths`
completes, every legal walk from a left-endpoint is one of the left-to-right
paths, and its reversal one of the right-to-left paths. -/
theorem computePaths_keeps_legal_walk {m : Map} (g : m.IsGrid) (h3 : m.numCols ≠ 2)
    (fuel : Nat) (c : Computed) (h : computePaths m fuel = .ok c) (start : Tile)
    (hstart : start ∈ leftEndpointsOf m) (w : Path) (hwalk : LegalWalk c.tiles start w) :
    w ∈ c.paths ∧ w.reverse ∈ c.paths := by
  obtain ⟨s1, batches, _, _, hb, hpaths⟩ := computePaths_phases m fuel c h
  obtain ⟨found, hfound, hrun⟩ := forall₂_mem_left hb start hstart
  obtain ⟨raw, opt, hraw, hopt, hdup⟩ := newAlgoGetPathsFrom_phases m c.tiles fuel start found hrun
  have hsm : start ∈ m.mapTiles := leftEndpointsOf_subset m start hstart
  have hsw : start.isWalkable = true := by
    have := (List.mem_filter.1 hstart).2
    rw [Bool.and_eq_true] at this
    exact this.1
  match w, hwalk with
  | first :: rest, hwalk =>
    obtain ⟨hfirst, hlegal, hnd, hstop⟩ := hwalk
    subst hfirst
    have hwraw : (first :: rest) ∈ raw := by
      refine newAlgoLoop_covers c.tiles _ hnd hstop fuel [] [] [] _ [] raw hraw ?_
      refine Or.inr (Or.inr ⟨_, List.mem_singleton.2 rfl, rest, rfl, ?_, ?_⟩)
      · simpa using hlegal
      · intro t ht
        simpa using ht
    obtain ⟨hcorner, hrules⟩ := legal_walk_rules g fuel c h rest first first hsm hsm hsw
      (Or.inl rfl) hlegal hnd (Or.inl rfl) hstop
    obtain ⟨hdetour, _⟩ := hrules h3
    have htiles : ∀ t ∈ first :: rest, t ∈ m.mapTiles :=
      tiles_of_right_steps g _ (fun t ht => by cases ht; exact hsm) hcorner
    have hwopt : (first :: rest) ∈ opt :=
      optimizePaths_keeps g raw opt hopt _ hwraw (by simp) htiles hdetour hcorner
    have hfeq : found = keepFirstOccurrences [] opt := by
      have := removeDuplicatePaths_eq opt
      rw [hdup] at this
      cases this
      rfl
    have hwfound : (first :: rest) ∈ found := by
      rcases keepFirstOccurrences_mem [] opt _ hwopt with h1 | ⟨p, hp, hpe⟩
      · simp at h1
      · rw [← hfeq] at hp
        have hpopt : p ∈ opt := removeDuplicatePaths_subset opt found hdup p hp
        have hpprops := (optimizePaths_ok m raw opt hopt).2 p hpopt
        have hphead := (newAlgoGetPathsFrom_ok m c.tiles fuel first found hrun p hp).1
        have hptiles : ∀ t ∈ p, t ∈ m.mapTiles :=
          tiles_of_right_steps g p (fun t ht => by rw [hphead] at ht; cases ht; exact hsm)
            hpprops.2.2
        rw [← g.eq_of_map_tileIndex p _ hptiles htiles hpe]
        exact hp
    have hflat : (first :: rest) ∈ batches.flatten := List.mem_flatten.2 ⟨found, hfound, hwfound⟩
    rw [hpaths]
    exact ⟨List.mem_append_left _ hflat,
      List.mem_append_right _ (List.mem_map.2 ⟨_, hflat, rfl⟩)⟩

/-! ## Every path is a legal walk -/

theorem legalFrom_concat (s : TileStates) (rest : List Tile) (cf cur : Tile) (pre : List Tile)
    (a b n : Tile) (h : legalFrom s cf cur rest) (hlast : cf :: cur :: rest = pre ++ [a, b])
    (hstep : legalStep s a b n) : legalFrom s cf cur (rest ++ [n]) := by
  induction rest generalizing cf cur pre with
  | nil =>
    match pre, hlast with
    | [], hlast =>
      simp only [List.nil_append, List.cons.injEq, and_true] at hlast
      obtain ⟨e1, e2⟩ := hlast
      subst e1 e2
      exact ⟨hstep, trivial⟩
    | [_], hlast => simp at hlast
    | _ :: _ :: _, hlast => simp at hlast
  | cons x r ih =>
    obtain ⟨h1, h2⟩ := h
    match pre, hlast with
    | [], hlast => simp at hlast
    | y :: pre', hlast =>
      simp only [List.cons_append, List.cons.injEq] at hlast
      exact ⟨h1, ih cur x pre' h2 hlast.2⟩

/-- Every path collected by the loops of `newAlgoGetPathsFrom` starts at the start
tile, takes each step to a member of the left-list entry of the current tile
keyed by the tile before, and ends on the first right-endpoint it reaches. -/
theorem newAlgoLoop_legal (s : TileStates) (start : Tile) (fuel : Nat) (stack seen : List Tile)
    (path : Path) (forkList : List Fork) (paths out : List Path)
    (h : newAlgoLoop s fuel stack seen path forkList paths = .ok out)
    (hpaths : ∀ p ∈ paths, ∃ rest, p = start :: rest ∧ legalFrom s start start rest ∧
      stopsAtFirstRightEndpoint s p)
    (hcur : stack = [] ∨ ∃ next, stack = [next] ∧
      (∃ rest, path ++ [next] = start :: rest ∧ legalFrom s start start rest) ∧
      ∀ t ∈ path, (s.of t).isRightEndpoint = false)
    (hforks : ∀ f ∈ forkList,
      (∃ rest, f.path ++ [f.startTile] = start :: rest ∧ legalFrom s start start rest) ∧
      ∀ t ∈ f.path, (s.of t).isRightEndpoint = false) :
    ∀ p ∈ out, ∃ rest, p = start :: rest ∧ legalFrom s start start rest ∧
      stopsAtFirstRightEndpoint s p := by
  induction fuel generalizing stack seen path forkList paths with
  | zero => simp [newAlgoLoop] at h
  | succ fuel ih =>
    match stack, forkList, h, hcur, hforks with
    | next :: stack, forkList, h, hcur, hforks =>
      rcases hcur with hc | ⟨next', hst, ⟨rest, hrest, hlegal⟩, hflags⟩
      · cases hc
      · simp only [List.cons.injEq] at hst
        obtain ⟨e1, e2⟩ := hst
        subst e1 e2
        unfold newAlgoLoop at h
        simp only [] at h
        split at h
        · rename_i hre
          refine ih _ _ _ _ _ h ?_ (Or.inl rfl) hforks
          intro p hp
          rcases List.mem_append.1 hp with h1 | h1
          · exact hpaths p h1
          · rw [List.mem_singleton] at h1
            subst h1
            refine ⟨rest, hrest, hlegal, ?_, ?_⟩
            · intro t ht
              rw [List.dropLast_concat] at ht
              exact hflags t ht
            · simp [hre]
        · rename_i hre
          have hflags' : ∀ t ∈ path ++ [next], (s.of t).isRightEndpoint = false := by
            intro t ht
            rcases List.mem_append.1 ht with h1 | h1
            · exact hflags t h1
            · rw [List.mem_singleton] at h1
              rw [h1]
              simpa using hre
          -- the tile the entry is keyed by, and the two last tiles of the walk so far
          have hkey : ∃ pre cf, (if (path ++ [next]).length > 1 then
              (path ++ [next]).getD ((path ++ [next]).length - 2) next else next) = cf ∧
              start :: start :: rest = pre ++ [cf, next] := by
            rcases List.eq_nil_or_concat path with e | ⟨q, prev, e⟩
            · subst e
              simp only [List.nil_append, List.cons.injEq] at hrest
              obtain ⟨e1, e2⟩ := hrest
              subst e1 e2
              exact ⟨[], next, cameFrom_first next, rfl⟩
            · rw [List.concat_eq_append] at e
              subst e
              refine ⟨start :: q, prev, cameFrom_later q prev next, ?_⟩
              rw [← hrest]
              simp
          obtain ⟨pre, cf, hcf, hdecomp⟩ := hkey
          rw [hcf] at h
          have hext : ∀ neighbors, (s.of next).leftList.get cf.tileIndex = some neighbors →
              ∀ n ∈ neighbors, ∃ rest', (path ++ [next]) ++ [n] = start :: rest' ∧
                legalFrom s start start rest' := by
            intro neighbors hnb n hn
            refine ⟨rest ++ [n], by rw [hrest]; rfl,
              legalFrom_concat s rest start start pre cf next n hlegal hdecomp ?_⟩
            unfold legalStep
            rw [hnb]
            exact hn
          split at h
          · cases h
          · rename_i neighbors hnb
            split at h
            · rename_i n
              exact ih _ _ _ _ _ h hpaths
                (Or.inr ⟨n, rfl, hext _ hnb n (List.mem_singleton.2 rfl), hflags'⟩) hforks
            · refine ih _ _ _ _ _ h hpaths (Or.inl rfl) ?_
              intro f hf
              rcases mem_pushForks_start _ _ _ _ _ hf with h1 | ⟨h1, h2⟩
              · exact hforks f h1
              · rw [h1]
                exact ⟨hext _ hnb _ h2, hflags'⟩
    | [], fork :: forkList, h, hcur, hforks =>
      unfold newAlgoLoop at h
      exact ih _ _ _ _ _ h hpaths
        (Or.inr ⟨fork.startTile, rfl, hforks fork (List.mem_cons_self _ _)⟩)
        (fun f hf => hforks f (List.mem_cons_of_mem _ hf))
    | [], [], h, hcur, hforks =>
      unfold newAlgoLoop at h
      cases h
      exact hpaths

/-- Every raw path enumerated from a start tile starts there, steps legally and
ends on the first right-endpoint it reaches. -/
theorem rawPathsFrom_legal (s : TileStates) (fuel : Nat) (start : Tile) (raw : List Path)
    (h : newAlgoLoop s fuel [] [] [] [{ startTile := start, seen := [start], path := [] }] []
      = .ok raw) :
    ∀ p ∈ raw, ∃ rest, p = start :: rest ∧ legalFrom s start start rest ∧
      stopsAtFirstRightEndpoint s p := by
  refine newAlgoLoop_legal s start fuel [] [] [] _ [] raw h (fun p hp => by cases hp)
    (Or.inl rfl) ?_
  intro f hf
  rw [List.mem_singleton] at hf
  subst hf
  exact ⟨⟨[], rfl, trivial⟩, fun t ht => by cases ht⟩

/-- Every left-to-right path found by `computePaths` is a legal walk from the
left-endpoint it was found from. -/
theorem computePaths_found_legal {m : Map} (g : m.IsGrid) (fuel : Nat) (c : Computed)
    (h : computePaths m fuel = .ok c) (start : Tile) (hstart : start ∈ leftEndpointsOf m)
    (found : List Path) (hrun : newAlgoGetPathsFrom m c.tiles fuel start = .ok found)
    (p : Path) (hp : p ∈ found) :
    LegalWalk c.tiles start p ∧ ∀ t ∈ p, t ∈ m.mapTiles := by
  obtain ⟨raw, opt, hraw, hopt, hdup⟩ := newAlgoGetPathsFrom_phases m c.tiles fuel start found hrun
  have hpo : p ∈ opt := removeDuplicatePaths_subset opt found hdup p hp
  obtain ⟨hsub, hprops⟩ := optimizePaths_ok m raw opt hopt
  have hpr : p ∈ raw := hsub.subset hpo
  obtain ⟨rest, hpe, hlegal, hstop⟩ := rawPathsFrom_legal c.tiles fuel start raw hraw p hpr
  have hsm : start ∈ m.mapTiles := leftEndpointsOf_subset m start hstart
  have htiles : ∀ t ∈ p, t ∈ m.mapTiles :=
    tiles_of_right_steps g p (fun t ht => by rw [hpe] at ht; cases ht; exact hsm)
      (hprops p hpo).2.2
  have hnr : noReturn p.reverse :=
    newAlgoLoop_noReturn c.tiles (computePaths_entries_avoid_key g fuel c h) fuel [] [] []
      _ [] raw hraw (fun p hp => by cases hp) ⟨by simp, fun t ht => by cases ht⟩
      (by
        intro f hf
        rw [List.mem_singleton] at hf
        rw [hf]
        trivial) p hpr
  have hch := chain_rightStep g p (fun t ht => by rw [hpe] at ht; cases ht; exact hsm)
    (hprops p hpo).2.2
  have hrev : List.Chain' (fun x y => rightStep m y x) p.reverse := by
    rw [List.chain'_reverse]
    exact hch
  have hidx := nodup_of_back_steps g p.reverse hrev hnr
  rw [List.map_reverse, List.nodup_reverse] at hidx
  have hnd : p.Nodup := List.Nodup.of_map _ hidx
  refine ⟨?_, htiles⟩
  subst hpe
  exact ⟨rfl, hlegal, hnd, hstop⟩

/-! ## The walkable tiles that are in a path -/

/-- C19 as amended: for a grid whose length is a multiple of its width, that does
not have exactly two columns, and on which `computePaths` completes, every legal
walk from a left-endpoint (a walk that starts on a left-endpoint, takes each step
to a member of the left-list entry of the current tile keyed by the tile before,
repeats no tile and stops on the first right-endpoint it reaches) is a path of
`this.paths`, and so is its reversal; a walkable tile of the grid is in a path of
`this.paths` (`tileInAnyPath` is true of it) exactly when it lies on such a
walk, and `ensureAllWalkableTilesAreInAPath` reports exactly the walkable tiles
that lie on none. -/
theorem computePaths_covers_legal_walks (cells : List Nat) (width : Nat)
    (hw : width ∣ cells.length) (h2 : width ≠ 2) (fuel : Nat) (c : Computed)
    (h : computePaths (Map.create cells width) fuel = .ok c) :
    (∀ start ∈ leftEndpointsOf (Map.create cells width), ∀ w, LegalWalk c.tiles start w →
        w ∈ c.paths ∧ w.reverse ∈ c.paths) ∧
      ∀ t ∈ (Map.create cells width).mapTiles, t.isWalkable = true →
        (tileInAnyPath c.paths t = true ↔
            ∃ start ∈ leftEndpointsOf (Map.create cells width), ∃ w,
              LegalWalk c.tiles start w ∧ t ∈ w) ∧
          (t ∈ ensureAllWalkableTilesAreInAPath (Map.create cells width) c.paths ↔
            ¬ ∃ start ∈ leftEndpointsOf (Map.create cells width), ∃ w,
              LegalWalk c.tiles start w ∧ t ∈ w) := by
  have g := Map.create_isGrid cells width hw
  have hwalks : ∀ start ∈ leftEndpointsOf (Map.create cells width), ∀ w,
      LegalWalk c.tiles start w → w ∈ c.paths ∧ w.reverse ∈ c.paths :=
    fun start hstart w hwalk =>
      computePaths_keeps_legal_walk g h2 fuel c h start hstart w hwalk
  refine ⟨hwalks, ?_⟩
  intro t ht htw
  have hiff : tileInAnyPath c.paths t = true ↔
      ∃ start ∈ leftEndpointsOf (Map.create cells width), ∃ w,
        LegalWalk c.tiles start w ∧ t ∈ w := by
    constructor
    · intro hin
      unfold tileInAnyPath at hin
      simp only [List.any_eq_true, beq_iff_eq] at hin
      obtain ⟨p, hp, u, hu, hidx⟩ := hin
      obtain ⟨s1, batches, _, _, hb, hpaths⟩ := computePaths_phases _ fuel c h
      have hflat : ∃ p0 ∈ batches.flatten, u ∈ p0 := by
        rw [hpaths] at hp
        rcases List.mem_append.1 hp with h1 | h1
        · exact ⟨p, h1, hu⟩
        · obtain ⟨p0, hp0, hrev⟩ := List.mem_map.1 h1
          refine ⟨p0, hp0, ?_⟩
          rw [← hrev] at hu
          exact List.mem_reverse.1 hu
      obtain ⟨p0, hp0, hu0⟩ := hflat
      obtain ⟨found, hfound, hpf⟩ := List.mem_flatten.1 hp0
      obtain ⟨start, hstart, hrun⟩ := forall₂_mem_right hb found hfound
      obtain ⟨hlw, htiles⟩ := computePaths_found_legal g fuel c h start hstart found hrun p0 hpf
      have hut : u = t := g.eq_of_tileIndex (htiles u hu0) ht hidx
      rw [hut] at hu0
      exact ⟨start, hstart, p0, hlw, hu0⟩
    · rintro ⟨start, hstart, w, hwalk, htw'⟩
      unfold tileInAnyPath
      simp only [List.any_eq_true, beq_iff_eq]
      exact ⟨w, (hwalks start hstart w hwalk).1, t, htw', rfl⟩
  refine ⟨hiff, ?_⟩
  rw [← hiff]
  unfold ensureAllWalkableTilesAreInAPath
  rw [List.mem_filter]
  simp [ht, htw]

set_option maxRecDepth 100000 in
/-- C19 as amended, on `gridStep` (three columns): the walk 0, 1, 4, 5 is legal
from the left-endpoint 0, so it is a path, and so is its reversal. -/
theorem computePaths_covers_legal_walks_witness :
    3 ∣ [1, 1, 0, 0, 1, 1].length ∧ 3 ≠ 2 ∧
      computePaths (Map.create [1, 1, 0, 0, 1, 1] 3) 20 = .ok gridStepComputed ∧
      tileOf true 0 3 ∈ leftEndpointsOf (Map.create [1, 1, 0, 0, 1, 1] 3) ∧
      LegalWalk gridStepComputed.tiles (tileOf true 0 3)
        [tileOf true 0 3, tileOf true 1 3, tileOf true 4 3, tileOf true 5 3] ∧
      ([tileOf true 0 3, tileOf true 1 3, tileOf true 4 3, tileOf true 5 3] ∈
          gridStepComputed.paths ∧
        [tileOf true 0 3, tileOf true 1 3, tileOf true 4 3, tileOf true 5 3].reverse ∈
          gridStepComputed.paths) :=
  ⟨by decide, by decide, by decide, by decide, by decide,
    (computePaths_covers_legal_walks [1, 1, 0, 0, 1, 1] 3 (by decide) (by decide) 20
      gridStepComputed (by decide)).1 (tileOf true 0 3) (by decide) _ (by decide)⟩

end OpHog
